import Mathlib

/-!
# CPL compiler: a verification development

Shallow embedding of the CPL teaching compiler (code generator `code.c`,
symbol table `symbol.c`, character processor `line.c`, string table
`strtab.c`, scanner `scanner.c` and the recursive-descent compiler
`comp2.c`) together with theorems about it.

Conventions of the embedding:

* module-level C variables become fields of a state record that is passed
  explicitly;
* a call of `exit`, and behaviour the C standard leaves undefined (a null
  dereference, a write past a heap block), ends a computation with a value of
  type `Fatal`;
* C `int` values are `Int`; counters that start at zero and are only ever
  incremented are `Nat`.
-/

namespace CPL

/-! ## Ways a run can end abnormally -/

/-- Reasons for which a run of the C program stops before returning. -/
inductive Fatal
  | codeTableOverflow
  | backPatchRange
  | nullDereference
  | pushBackTwice
  | pushBackBeforeStart
  | noCurrentLine
  | chunkOverrun
  | lineOverrun
  | endlessLoop
  | setRange
  | invalidState
  | unknownOpcode
  | outOfFuel
deriving DecidableEq, Repr

/-! ## The code generator (`code.c`) -/

/-- Opcode numbers of `code.h`. -/
def I_ADD : Int := 0
def I_SUB : Int := 1
def I_MULT : Int := 2
def I_DIV : Int := 3
def I_NEG : Int := 4
def I_RET : Int := 5
def I_BSF : Int := 6
def I_RSF : Int := 7
def I_PUSHFP : Int := 8
def I_READ : Int := 9
def I_WRITE : Int := 10
def I_HALT : Int := 11
def I_BR : Int := 12
def I_BGZ : Int := 13
def I_BG : Int := 14
def I_BLZ : Int := 15
def I_BL : Int := 16
def I_BZ : Int := 17
def I_BNZ : Int := 18
def I_CALL : Int := 19
def I_LDP : Int := 20
def I_RDP : Int := 21
def I_INC : Int := 22
def I_DEC : Int := 23
def I_LOADI : Int := 24
def I_LOADA : Int := 25
def I_LOADFP : Int := 26
def I_LOADSP : Int := 27
def I_STOREA : Int := 28
def I_STOREFP : Int := 29
def I_STORESP : Int := 30

/-- Capacity of the code table. -/
def CODETABLESIZE : Nat := 1024

/-- One entry of the code table: `struct { int opcode; int address; }`. -/
structure INSTRUCTION where
  opcode : Int
  address : Int
deriving DecidableEq, Repr

/-- The module state of `code.c`: the array `CodeTable`, the index
`CodePosition` and the flag `ErrorsInProgram`.  The array is a function of
the index; only indices below `CODETABLESIZE` exist in the C program. -/
structure CodeGen where
  CodeTable : Nat → INSTRUCTION
  CodePosition : Nat
  ErrorsInProgram : Int

/-- State after program start and `InitCodeGenerator`: the static array is
zero-filled, the position and the error flag are zero. -/
def InitCodeGenerator : CodeGen :=
  { CodeTable := fun _ => ⟨0, 0⟩, CodePosition := 0, ErrorsInProgram := 0 }

/-- Model of `KillCodeGeneration`. -/
def KillCodeGeneration (g : CodeGen) : CodeGen :=
  { g with ErrorsInProgram := 1 }

/-- Model of `Emit`: fatal when the table is full, otherwise the pair is stored
at `CodePosition`, which is then incremented. -/
def Emit (opcode offset : Int) (g : CodeGen) : Except Fatal CodeGen :=
  if g.CodePosition ≥ CODETABLESIZE then .error .codeTableOverflow
  else .ok { g with
    CodeTable := fun i => if i = g.CodePosition then ⟨opcode, offset⟩ else g.CodeTable i
    CodePosition := g.CodePosition + 1 }

/-- The header's `_Emit(opcode)`, that is `Emit((opcode),0)`. -/
def _Emit (opcode : Int) (g : CodeGen) : Except Fatal CodeGen :=
  Emit opcode 0 g

/-- Model of `CurrentCodeAddress`. -/
def CurrentCodeAddress (g : CodeGen) : Int :=
  (g.CodePosition : Int)

/-- Model of `BackPatch`: fatal outside `0 .. CODETABLESIZE-1`, otherwise only
the address field of the addressed entry is overwritten. -/
def BackPatch (codeaddr value : Int) (g : CodeGen) : Except Fatal CodeGen :=
  if codeaddr < 0 ∨ codeaddr ≥ (CODETABLESIZE : Int) then .error .backPatchRange
  else .ok { g with
    CodeTable := fun i =>
      if i = codeaddr.toNat then { g.CodeTable i with address := value } else g.CodeTable i }

/-- The instructions held by the buffer, in address order. -/
def CodeGen.listing (g : CodeGen) : List INSTRUCTION :=
  (List.range g.CodePosition).map g.CodeTable

/-- The calls a compile makes on the code buffer after initialisation. -/
inductive CodeOp
  | emit (opcode offset : Int)
  | backPatch (codeaddr value : Int)
  | kill
deriving DecidableEq, Repr

/-- One call on the code buffer. -/
def CodeOp.run : CodeOp → CodeGen → Except Fatal CodeGen
  | .emit o x, g => Emit o x g
  | .backPatch a v, g => BackPatch a v g
  | .kill, g => .ok (KillCodeGeneration g)

/-- A sequence of calls, stopping at the first fatal one. -/
def runOps : List CodeOp → CodeGen → Except Fatal CodeGen
  | [], g => .ok g
  | op :: ops, g => op.run g >>= runOps ops

/-- Number of `Emit` calls in a sequence. -/
def emitCount : List CodeOp → Nat
  | [] => 0
  | .emit _ _ :: ops => emitCount ops + 1
  | _ :: ops => emitCount ops

/-- A code-buffer state: one that the calls of the module produce from the
initial state. -/
def CodeGen.Reachable (g : CodeGen) : Prop :=
  ∃ ops, runOps ops InitCodeGenerator = .ok g

/-! ## Token codes (`scanner.h`) and tokens -/

def ERROR : Int := 0
def ILLEGALCHAR : Int := 1
def ENDOFINPUT : Int := 2
def SEMICOLON : Int := 3
def COMMA : Int := 4
def ENDOFPROGRAM : Int := 5
def LEFTPARENTHESIS : Int := 6
def RIGHTPARENTHESIS : Int := 7
def ASSIGNMENT : Int := 8
def ADD : Int := 9
def SUBTRACT : Int := 10
def MULTIPLY : Int := 11
def DIVIDE : Int := 12
def EQUALITY : Int := 13
def LESSEQUAL : Int := 14
def GREATEREQUAL : Int := 15
def LESS : Int := 16
def GREATER : Int := 17
def BEGIN : Int := 18
def DO : Int := 19
def ELSE : Int := 20
def END : Int := 21
def IF : Int := 22
def PROCEDURE : Int := 23
def PROGRAM : Int := 24
def READ : Int := 25
def REF : Int := 26
def THEN : Int := 27
def VAR : Int := 28
def WHILE : Int := 29
def WRITE : Int := 30
def IDENTIFIER : Int := 31
def INTCONST : Int := 32

/-- The `TOKEN` record.  The field `s` is `none` for a NULL pointer and
otherwise holds the bytes of the NUL-terminated string it points to (without
the terminator). -/
structure TOKEN where
  code : Int
  value : Int
  pos : Int
  s : Option (List Nat)
deriving DecidableEq, Repr

/-! ## Token sets (`sets.c`) -/

def SET_SIZE : Int := 64
def BITS_PER_WORD : Nat := 32
def WORDS_PER_SET : Nat := 2

/-- The `SET` record: `unsigned word[WORDS_PER_SET]`. -/
structure SET where
  word : List Nat
deriving DecidableEq, Repr

/-- A set after `ClearSet`. -/
def ClearSet : SET := ⟨List.replicate WORDS_PER_SET 0⟩

/-- Model of `AddElement`: fatal for an element outside `0 .. SET_SIZE-1`. -/
def AddElement (set : SET) (Element : Int) : Except Fatal SET :=
  if Element < 0 ∨ Element ≥ SET_SIZE then .error .setRange
  else
    let mask := 2 ^ (Element.toNat % BITS_PER_WORD)
    let index := Element.toNat / BITS_PER_WORD
    .ok ⟨set.word.set index (set.word.getD index 0 ||| mask)⟩

/-- Model of `RemoveElement`. -/
def RemoveElement (set : SET) (Element : Int) : Except Fatal SET :=
  if Element < 0 ∨ Element ≥ SET_SIZE then .error .setRange
  else
    let mask := 2 ^ (Element.toNat % BITS_PER_WORD)
    let index := Element.toNat / BITS_PER_WORD
    .ok ⟨set.word.set index (set.word.getD index 0 &&& (2 ^ BITS_PER_WORD - 1 - mask))⟩

/-- Model of `InSet`: the masked word, non-zero for a member. -/
def InSet (set : SET) (Element : Int) : Except Fatal Nat :=
  if Element < 0 ∨ Element ≥ SET_SIZE then .error .setRange
  else
    let mask := 2 ^ (Element.toNat % BITS_PER_WORD)
    let index := Element.toNat / BITS_PER_WORD
    .ok (set.word.getD index 0 &&& mask)

/-- The element loop shared by `InitSet` and `AddElements`. -/
def AddElements (set : SET) : List Int → Except Fatal SET
  | [] => .ok set
  | e :: es => AddElement set e >>= fun s => AddElements s es

/-- Model of `InitSet`: clear, then add the listed elements. -/
def InitSet (elements : List Int) : Except Fatal SET :=
  AddElements ClearSet elements

/-- Model of `Union` for a list of sets: word-wise or. -/
def Union (sets : List SET) : SET :=
  sets.foldl (fun acc sp => ⟨List.zipWith (· ||| ·) acc.word sp.word⟩) ClearSet

/-! ## The symbol table (`symbol.c`) -/

def HASHSIZE : Nat := 997
def MAXHASHLENGTH : Nat := 100

def STYPE_PROGRAM : Int := 1
def STYPE_VARIABLE : Int := 2
def STYPE_PROCEDURE : Int := 3
def STYPE_FUNCTION : Int := 4
def STYPE_LOCALVAR : Int := 5
def STYPE_VALUEPAR : Int := 6
def STYPE_REFPAR : Int := 7

/-- The `SYMBOL` record without its `next` pointer: a chain is the list of
its records from the head on.  The field `s` holds the bytes of the string. -/
structure SYMBOL where
  s : List Nat
  scope : Int
  type : Int
  pcount : Int
  ptypes : Int
  address : Int
deriving DecidableEq, Repr

/-- The array `HashTable`: bucket index to chain. -/
abbrev SymTab := Nat → List SYMBOL

/-- The hash table at program start: every bucket NULL. -/
def emptyTable : SymTab := fun _ => []

/-- The C library's `strncmp` on NUL-terminated strings given by their bytes:
the end of a list reads as the terminator. -/
def strncmp : Nat → List Nat → List Nat → Int
  | 0, _, _ => 0
  | n + 1, s1, s2 =>
    if s1.headD 0 ≠ s2.headD 0 then (s1.headD 0 : Int) - (s2.headD 0 : Int)
    else if s1.headD 0 = 0 then 0
    else strncmp n s1.tail s2.tail

/-- The loop of `Hash`: `i` positions left, bytes from `p` on, sum so far. -/
def hashLoop : Nat → List Nat → Nat → Nat
  | 0, _, hashvalue => hashvalue
  | _ + 1, [], hashvalue => hashvalue
  | i + 1, b :: p, hashvalue =>
    if b ≠ 0 then hashLoop i p (hashvalue + b % 128) else hashvalue

/-- Model of `Hash`. -/
def Hash (String : List Nat) : Nat :=
  hashLoop MAXHASHLENGTH String 0 % HASHSIZE

/-- The chain walk of `Probe`. -/
def probeChain (String : List Nat) : List SYMBOL → Option SYMBOL
  | [] => none
  | symptr :: next =>
    if strncmp 80 symptr.s String ≠ 0 then probeChain String next else some symptr

/-- Model of `Probe`: the symbol found (or `none` for NULL) and the hash
index written through `hashindex`. -/
def Probe (tbl : SymTab) (String : List Nat) : Option SYMBOL × Nat :=
  (probeChain String (tbl (Hash String)), Hash String)

/-- Model of `EnterSymbol` (with `malloc` succeeding): a fresh record becomes
the head of the chain of `hashindex`. -/
def EnterSymbol (String : List Nat) (hashindex : Nat) (tbl : SymTab) : SYMBOL × SymTab :=
  (⟨String, -1, -1, -1, -1, -1⟩,
   fun i => if i = hashindex then ⟨String, -1, -1, -1, -1, -1⟩ :: tbl i else tbl i)

/-- The inner loop of `RemoveSymbols` on one chain. -/
def removeChain (scope : Int) : List SYMBOL → List SYMBOL
  | [] => []
  | symptr :: next => if symptr.scope ≥ scope then removeChain scope next else symptr :: next

/-- Model of `RemoveSymbols`. -/
def RemoveSymbols (scope : Int) (tbl : SymTab) : SymTab :=
  fun i => if i < HASHSIZE then removeChain scope (tbl i) else tbl i

/-- Assignment through the pointer `EnterSymbol` returned: the record at the
head of the chain of `hashindex` is replaced. -/
def setHead (hashindex : Nat) (sym : SYMBOL) (tbl : SymTab) : SymTab :=
  fun i => if i = hashindex then sym :: (tbl i).tail else tbl i

/-! ## The compiler (`comp2.c`) -/

/-- A message handed to `Error` (or printed), in the order of the calls. -/
inductive Diagnostic
  | expected (ExpectedToken : Int) (got : TOKEN)
  | expectedOneOf (F : SET) (got : TOKEN)
  | notAProcedure (pos : Int)
  | undeclaredVariable (pos : Int)
  | notDeclared (pos : Int)
  | alreadyDeclared (pos : Int)
  | printedUndeclaredName
deriving DecidableEq, Repr

/-- The sets that `SetupSets` initialises. -/
structure ParserSets where
  StatementFS_aug : SET
  StatementFBS : SET
  ProgProcDecSet1 : SET
  ProgProcDecSet2 : SET
  BlockSet1 : SET
  FB_Prog : SET
  FB_ProcDec : SET
  FB_Block : SET
  StatementFS_aug2 : SET
  StatementFBS2 : SET
deriving DecidableEq, Repr

/-- Model of `SetupSets`. -/
def SetupSets : Except Fatal ParserSets := do
  let s1 ← InitSet [IDENTIFIER, WHILE, IF, READ, WRITE, END]
  let s2 ← InitSet [SEMICOLON, ELSE, ENDOFPROGRAM, ENDOFINPUT]
  let s3 ← InitSet [VAR, PROCEDURE, BEGIN]
  let s4 ← InitSet [PROCEDURE, BEGIN]
  let s5 ← InitSet [IDENTIFIER, WHILE, IF, READ, WRITE, END]
  let s6 ← InitSet [ENDOFPROGRAM, ENDOFINPUT, END]
  let s7 ← InitSet [ENDOFPROGRAM, ENDOFINPUT, END]
  let s8 ← InitSet [ENDOFINPUT, ELSE, SEMICOLON, ENDOFPROGRAM]
  let s9 ← InitSet [IDENTIFIER, WHILE, IF, READ, WRITE, END]
  let s10 ← InitSet [SEMICOLON, ELSE, ENDOFPROGRAM, ENDOFINPUT]
  pure ⟨s1, s2, s3, s4, s5, s6, s7, s8, s9, s10⟩

/-- The state of a compile: the globals of `comp2.c`, the function-static
variables `recovering` (of `Accept`) and `VarLctn` (of
`MakeSymbolTableEntry`), the code generator, the symbol table, the messages
reported so far, and the tokens the scanner will deliver next (`input`; when
it is used up every further `GetToken` yields `ENDOFINPUT`).  The field
`indeterminate` stands for the value read from a local variable that was never
assigned. -/
structure Compiler where
  CurrentToken : TOKEN
  input : List TOKEN
  recovering : Int
  Read : Int
  Write : Int
  scope : Int
  VarLctn : Int
  FlagError : Int
  code : CodeGen
  HashTable : SymTab
  sets : ParserSets
  errors : List Diagnostic
  indeterminate : Int

/-- The token the scanner returns once the source is used up. -/
def endOfInputToken : TOKEN := ⟨ENDOFINPUT, 0, 0, none⟩

/-- The scanner as the parser sees it: `GetToken` hands out the next token of
the stream. -/
def Compiler.GetToken (c : Compiler) : TOKEN × Compiler :=
  match c.input with
  | [] => (endOfInputToken, c)
  | t :: ts => (t, { c with input := ts })

/-- Calls of `Emit` made by the compiler. -/
def Compiler.Emit (opcode offset : Int) (c : Compiler) : Except Fatal Compiler :=
  (CPL.Emit opcode offset c.code).map fun g => { c with code := g }

/-- Calls of `BackPatch` made by the compiler. -/
def Compiler.BackPatch (codeaddr value : Int) (c : Compiler) : Except Fatal Compiler :=
  (CPL.BackPatch codeaddr value c.code).map fun g => { c with code := g }

/-- A call of `Error` followed by nothing else: the message is recorded. -/
def Compiler.Error (d : Diagnostic) (c : Compiler) : Compiler :=
  { c with errors := c.errors ++ [d] }

/-- The re-synchronising loop of `Accept`:
`while (CurrentToken.code != ExpectedToken && CurrentToken.code != ENDOFINPUT)
CurrentToken = GetToken();` on the lookahead and the remaining stream. -/
def acceptSkip (ExpectedToken : Int) : TOKEN → List TOKEN → TOKEN × List TOKEN
  | cur, [] =>
    if cur.code ≠ ExpectedToken ∧ cur.code ≠ ENDOFINPUT then (endOfInputToken, [])
    else (cur, [])
  | cur, t :: ts =>
    if cur.code ≠ ExpectedToken ∧ cur.code ≠ ENDOFINPUT then acceptSkip ExpectedToken t ts
    else (cur, t :: ts)

/-- The assignment `CurrentToken = GetToken();`. -/
def Compiler.nextToken (c : Compiler) : Compiler :=
  { c.GetToken.2 with CurrentToken := c.GetToken.1 }

/-- The part of `Accept` marked "Error re-sync code". -/
def acceptResync (ExpectedToken : Int) (c : Compiler) : Compiler :=
  if c.recovering ≠ 0 then
    { c with
      CurrentToken := (acceptSkip ExpectedToken c.CurrentToken c.input).1
      input := (acceptSkip ExpectedToken c.CurrentToken c.input).2
      recovering := 0 }
  else c

/-- The part of `Accept` marked "Normal Accept code". -/
def acceptNormal (ExpectedToken : Int) (c : Compiler) : Compiler :=
  if c.CurrentToken.code ≠ ExpectedToken then
    { c with
      errors := c.errors ++ [Diagnostic.expected ExpectedToken c.CurrentToken]
      recovering := 1 }
  else c.nextToken

/-- Model of `Accept`. -/
def Accept (ExpectedToken : Int) (c : Compiler) : Compiler :=
  acceptNormal ExpectedToken (acceptResync ExpectedToken c)

/-- The skipping loop of `Synchronise`:
`while (!InSet(&S, CurrentToken.code)) CurrentToken = GetToken();`.  When the
stream is used up and `ENDOFINPUT` is not in `S` the C loop never ends. -/
def syncSkip (S : SET) : TOKEN → List TOKEN → Except Fatal (TOKEN × List TOKEN)
  | cur, [] => do
    let m ← InSet S cur.code
    if m = 0 then
      let m2 ← InSet S endOfInputToken.code
      if m2 = 0 then .error .endlessLoop else pure (endOfInputToken, [])
    else pure (cur, [])
  | cur, t :: ts => do
    let m ← InSet S cur.code
    if m = 0 then syncSkip S t ts else pure (cur, t :: ts)

/-- Model of `Synchronise`. -/
def Synchronise (F FB : SET) (c : Compiler) : Except Fatal Compiler := do
  let S := Union [F, FB]
  let m ← InSet F c.CurrentToken.code
  if m = 0 then
    let c1 := c.Error (Diagnostic.expectedOneOf F c.CurrentToken)
    let r ← syncSkip S c1.CurrentToken c1.input
    pure { c1 with CurrentToken := r.1, input := r.2 }
  else pure c

/-- Model of `LookupSymbol`. -/
def LookupSymbol (c : Compiler) : Except Fatal (Option SYMBOL × Compiler) :=
  if c.CurrentToken.code = IDENTIFIER then
    match c.CurrentToken.s with
    | none => .error .nullDereference
    | some name =>
      match (Probe c.HashTable name).1 with
      | none =>
        .ok (none, { c.Error (Diagnostic.notDeclared c.CurrentToken.pos) with
                      code := KillCodeGeneration c.code })
      | some sptr => .ok (some sptr, c)
  else .ok (none, c)

/-- Model of `MakeSymbolTableEntry` (with `EnterSymbol` succeeding). -/
def MakeSymbolTableEntry (symtype : Int) (c : Compiler) : Except Fatal Compiler :=
  if c.CurrentToken.code = IDENTIFIER then
    match c.CurrentToken.s with
    | none => .error .nullDereference
    | some name =>
      let oldsptr := (Probe c.HashTable name).1
      let hashindex := (Probe c.HashTable name).2
      if oldsptr = none ∨ (oldsptr.map fun o => decide (o.scope < c.scope)) = some true then
        let cptr := match oldsptr with
          | none => name
          | some o => o.s
        let entered := EnterSymbol cptr hashindex c.HashTable
        let newsym : SYMBOL :=
          { entered.1 with
            scope := c.scope
            type := symtype
            address := if symtype = STYPE_VARIABLE then c.VarLctn else -1 }
        .ok { c with
          HashTable := setHead hashindex newsym entered.2
          VarLctn := if symtype = STYPE_VARIABLE then c.VarLctn + 1 else c.VarLctn }
      else
        .ok { c.Error (Diagnostic.alreadyDeclared c.CurrentToken.pos) with
              code := KillCodeGeneration c.code }
  else .ok c

/-- Model of `ParseIdentifier`. -/
def ParseIdentifier (c : Compiler) : Compiler := Accept IDENTIFIER c

/-- Model of `ParseVariable`. -/
def ParseVariable (c : Compiler) : Compiler := ParseIdentifier c

/-- Model of `ParseIntConst`. -/
def ParseIntConst (c : Compiler) : Compiler := Accept INTCONST c

/-- Model of `ParseAddOp`. -/
def ParseAddOp (c : Compiler) : Compiler :=
  if c.CurrentToken.code = ADD then Accept ADD c else Accept SUBTRACT c

/-- Model of `ParseMultOp`. -/
def ParseMultOp (c : Compiler) : Compiler :=
  if c.CurrentToken.code = MULTIPLY then Accept MULTIPLY c else Accept DIVIDE c

/-- Model of `ParseRelOp`: the branch opcode and the state; when the lookahead
is no relational operator the local `RelOpInstruction` is returned
unassigned. -/
def ParseRelOp (c : Compiler) : Int × Compiler :=
  if c.CurrentToken.code = LESSEQUAL then (I_BG, Accept LESSEQUAL c)
  else if c.CurrentToken.code = GREATEREQUAL then (I_BL, Accept GREATEREQUAL c)
  else if c.CurrentToken.code = LESS then (I_BGZ, Accept LESS c)
  else if c.CurrentToken.code = EQUALITY then (I_BZ, Accept EQUALITY c)
  else if c.CurrentToken.code = GREATER then (I_BLZ, Accept GREATER c)
  else (c.indeterminate, c)

/-- The loop `for (i = 0; i < j - 1; i++) _Emit(I_LOADSP);` with `k` rounds
left. -/
def emitLoadSP : Nat → Compiler → Except Fatal Compiler
  | 0, c => .ok c
  | k + 1, c => c.Emit I_LOADSP 0 >>= emitLoadSP k

/-- The code `ParseSubTerm` emits for a symbol that `LookupSymbol` found. -/
def loadVariable (var : SYMBOL) (c : Compiler) : Except Fatal Compiler :=
  if var.type = STYPE_VARIABLE then
    if c.Write ≠ 0 then c.Emit I_LOADA var.address
    else if c.Read ≠ 0 then c.Emit I_STOREA var.address
    else c.Emit I_LOADA var.address
  else if var.type = STYPE_LOCALVAR then
    if c.scope - var.scope = 0 then c.Emit I_LOADFP var.address
    else do
      let c1 ← c.Emit I_LOADFP 0
      let c2 ← emitLoadSP (c.scope - var.scope - 1).toNat c1
      c2.Emit I_LOADSP var.address
  else .ok { c with errors := c.errors ++ [Diagnostic.printedUndeclaredName] }

mutual
/-- Model of `ParseExpression`. -/
def ParseExpression : Nat → Compiler → Except Fatal Compiler
  | 0, _ => .error .outOfFuel
  | n + 1, c => ParseCompoundTerm n c >>= ParseExpressionLoop n
/-- The `while` loop of `ParseExpression`. -/
def ParseExpressionLoop : Nat → Compiler → Except Fatal Compiler
  | 0, _ => .error .outOfFuel
  | n + 1, c =>
    if c.CurrentToken.code = ADD ∨ c.CurrentToken.code = SUBTRACT then do
      let c2 ← ParseCompoundTerm n (ParseAddOp c)
      let c3 ← if c.CurrentToken.code = ADD then c2.Emit I_ADD 0 else c2.Emit I_SUB 0
      ParseExpressionLoop n c3
    else .ok c
/-- Model of `ParseCompoundTerm`. -/
def ParseCompoundTerm : Nat → Compiler → Except Fatal Compiler
  | 0, _ => .error .outOfFuel
  | n + 1, c => ParseTerm n c >>= ParseCompoundTermLoop n
/-- The `while` loop of `ParseCompoundTerm`. -/
def ParseCompoundTermLoop : Nat → Compiler → Except Fatal Compiler
  | 0, _ => .error .outOfFuel
  | n + 1, c =>
    if c.CurrentToken.code = MULTIPLY ∨ c.CurrentToken.code = DIVIDE then do
      let c2 ← ParseTerm n (ParseMultOp c)
      let c3 ← if c.CurrentToken.code = MULTIPLY then c2.Emit I_MULT 0 else c2.Emit I_DIV 0
      ParseCompoundTermLoop n c3
    else .ok c
/-- Model of `ParseTerm`. -/
def ParseTerm : Nat → Compiler → Except Fatal Compiler
  | 0, _ => .error .outOfFuel
  | n + 1, c =>
    if c.CurrentToken.code = SUBTRACT then
      ParseSubTerm n (Accept SUBTRACT c) >>= fun c1 => c1.Emit I_NEG 0
    else ParseSubTerm n c
/-- Model of `ParseSubTerm`. -/
def ParseSubTerm : Nat → Compiler → Except Fatal Compiler
  | 0, _ => .error .outOfFuel
  | n + 1, c =>
    if c.CurrentToken.code = INTCONST then
      c.Emit I_LOADI c.CurrentToken.value >>= fun c1 => .ok (ParseIntConst c1)
    else if c.CurrentToken.code = LEFTPARENTHESIS then
      ParseExpression n (Accept LEFTPARENTHESIS c) >>= fun c1 =>
        .ok (Accept RIGHTPARENTHESIS c1)
    else do
      let r ← LookupSymbol c
      match r.1 with
      | none => .error .nullDereference
      | some var =>
        let c1 ← loadVariable var r.2
        .ok (ParseVariable c1)
end

/-- Model of `ParseBooleanExpression`: the address to back-patch and the
state. -/
def ParseBooleanExpression (n : Nat) (c : Compiler) : Except Fatal (Int × Compiler) := do
  let c1 ← ParseExpression n c
  let c2 ← ParseExpression n (ParseRelOp c1).2
  let c3 ← c2.Emit I_SUB 0
  let c4 := (ParseRelOp c3).2
  let c5 ← c4.Emit (ParseRelOp c1).1 0
  pure (CurrentCodeAddress c4.code, c5)

/-- Model of `ParseActualParameter`. -/
def ParseActualParameter (n : Nat) (c : Compiler) : Except Fatal Compiler :=
  if c.CurrentToken.code = IDENTIFIER then .ok (Accept IDENTIFIER c)
  else ParseExpression n c

/-- The `while` loop of `ParseProcCallList`. -/
def ParseProcCallListLoop (n : Nat) : Nat → Compiler → Except Fatal Compiler
  | 0, _ => .error .outOfFuel
  | k + 1, c =>
    if c.CurrentToken.code = COMMA then
      ParseActualParameter n (Accept COMMA c) >>= ParseProcCallListLoop n k
    else .ok c

/-- Model of `ParseProcCallList`. -/
def ParseProcCallList (n : Nat) (c : Compiler) : Except Fatal Compiler := do
  let c1 ← ParseActualParameter n (Accept LEFTPARENTHESIS c)
  let c2 ← ParseProcCallListLoop n n c1
  pure (Accept RIGHTPARENTHESIS c2)

/-- Model of `ParseAssignment`. -/
def ParseAssignment (n : Nat) (c : Compiler) : Except Fatal Compiler :=
  ParseExpression n (Accept ASSIGNMENT c)

/-- The body shared by `case LEFTPARENTHESIS` (after the call list) and
`case SEMICOLON` of `ParseRestOfStatement`. -/
def callTarget (target : Option SYMBOL) (c : Compiler) : Except Fatal Compiler :=
  match target with
  | some t =>
    if t.type = STYPE_PROCEDURE then c.Emit I_CALL t.address
    else .ok { c.Error (Diagnostic.notAProcedure c.CurrentToken.pos) with
               code := KillCodeGeneration c.code }
  | none =>
    .ok { c.Error (Diagnostic.notAProcedure c.CurrentToken.pos) with
          code := KillCodeGeneration c.code }

/-- The store emitted after the assignment in `ParseRestOfStatement`. -/
def storeTarget (target : Option SYMBOL) (c : Compiler) : Except Fatal Compiler :=
  match target with
  | some t =>
    if t.type = STYPE_VARIABLE then c.Emit I_STOREA t.address
    else .ok { c.Error (Diagnostic.undeclaredVariable c.CurrentToken.pos) with
               code := KillCodeGeneration c.code }
  | none =>
    .ok { c.Error (Diagnostic.undeclaredVariable c.CurrentToken.pos) with
          code := KillCodeGeneration c.code }

/-- Model of `ParseRestOfStatement`; `case LEFTPARENTHESIS` falls through into
`case SEMICOLON`. -/
def ParseRestOfStatement (n : Nat) (target : Option SYMBOL) (c : Compiler) :
    Except Fatal Compiler :=
  if c.CurrentToken.code = LEFTPARENTHESIS then
    ParseProcCallList n c >>= callTarget target
  else if c.CurrentToken.code = SEMICOLON then callTarget target c
  else ParseAssignment n c >>= storeTarget target

/-- Model of `ParseSimpleStatement`. -/
def ParseSimpleStatement (n : Nat) (c : Compiler) : Except Fatal Compiler := do
  let r ← LookupSymbol c
  ParseRestOfStatement n r.1 (Accept IDENTIFIER r.2)

/-- The loop `while (CurrentToken.code == COMMA) { Accept(COMMA);
Accept(IDENTIFIER); }` of `ParseReadStatement`. -/
def readListLoop : Nat → Compiler → Except Fatal Compiler
  | 0, _ => .error .outOfFuel
  | k + 1, c =>
    if c.CurrentToken.code = COMMA then readListLoop k (Accept IDENTIFIER (Accept COMMA c))
    else .ok c

/-- Model of `ParseReadStatement`. -/
def ParseReadStatement (n : Nat) (c : Compiler) : Except Fatal Compiler := do
  let c1 := Accept IDENTIFIER (Accept LEFTPARENTHESIS (Accept READ c))
  let c2 ← ParseProcCallList n { c1 with Read := 1 }
  let c3 ← readListLoop n { c2 with Read := 0 }
  pure (Accept RIGHTPARENTHESIS c3)

/-- The `while` loop of `ParseWriteStatement`. -/
def writeListLoop (n : Nat) : Nat → Compiler → Except Fatal Compiler
  | 0, _ => .error .outOfFuel
  | k + 1, c =>
    if c.CurrentToken.code = COMMA then
      ParseExpression n (Accept COMMA c) >>= writeListLoop n k
    else .ok c

/-- Model of `ParseWriteStatement`. -/
def ParseWriteStatement (n : Nat) (c : Compiler) : Except Fatal Compiler := do
  let c1 ← ParseExpression n (Accept LEFTPARENTHESIS (Accept WRITE c))
  let c2 ← ParseProcCallList n { c1 with Write := 1 }
  let c3 ← writeListLoop n n c2
  pure (Accept RIGHTPARENTHESIS c3)

/-- The two `Synchronise` calls `ParseBlock` makes after `BEGIN` and after
each statement. -/
def blockSync (c : Compiler) : Except Fatal Compiler :=
  Synchronise c.sets.StatementFS_aug c.sets.StatementFBS c >>= fun c1 =>
    Synchronise c1.sets.BlockSet1 c1.sets.FB_Block c1

mutual
/-- Model of `ParseBlock`. -/
def ParseBlock : Nat → Compiler → Except Fatal Compiler
  | 0, _ => .error .outOfFuel
  | n + 1, c => do
    let c1 ← blockSync (Accept BEGIN c)
    let c2 ← ParseBlockLoop n c1
    pure (Accept END c2)
/-- The `while` loop of `ParseBlock`. -/
def ParseBlockLoop : Nat → Compiler → Except Fatal Compiler
  | 0, _ => .error .outOfFuel
  | n + 1, c =>
    if c.CurrentToken.code = IDENTIFIER ∨ c.CurrentToken.code = WHILE ∨
        c.CurrentToken.code = IF ∨ c.CurrentToken.code = READ ∨
        c.CurrentToken.code = WRITE then do
      let c1 ← ParseStatement n c
      let c2 ← blockSync (Accept SEMICOLON c1)
      ParseBlockLoop n c2
    else .ok c
/-- Model of `ParseStatement`. -/
def ParseStatement : Nat → Compiler → Except Fatal Compiler
  | 0, _ => .error .outOfFuel
  | n + 1, c =>
    if c.CurrentToken.code = IDENTIFIER then ParseSimpleStatement n c
    else if c.CurrentToken.code = WHILE then ParseWhileStatement n c
    else if c.CurrentToken.code = IF then ParseIfStatement n c
    else if c.CurrentToken.code = READ then ParseReadStatement n c
    else if c.CurrentToken.code = WRITE then ParseWriteStatement n c
    else .ok c
/-- Model of `ParseWhileStatement`. -/
def ParseWhileStatement : Nat → Compiler → Except Fatal Compiler
  | 0, _ => .error .outOfFuel
  | n + 1, c => do
    let c0 := Accept WHILE c
    let Label1 := CurrentCodeAddress c0.code
    let b ← ParseBooleanExpression n c0
    let c2 ← ParseBlock n (Accept DO b.2)
    let c3 ← c2.Emit I_BR Label1
    c3.BackPatch b.1 (CurrentCodeAddress c3.code)
/-- Model of `ParseIfStatement`. -/
def ParseIfStatement : Nat → Compiler → Except Fatal Compiler
  | 0, _ => .error .outOfFuel
  | n + 1, c => do
    let b ← ParseBooleanExpression n (Accept IF c)
    let c2 ← ParseBlock n (Accept THEN b.2)
    if c2.CurrentToken.code = ELSE then do
      let c3 ← c2.Emit I_BR 999
      let c4 ← c3.BackPatch b.1 (CurrentCodeAddress c3.code)
      let c5 ← ParseBlock n (Accept ELSE c4)
      c5.BackPatch (CurrentCodeAddress c2.code) (CurrentCodeAddress c5.code)
    else c2.BackPatch b.1 (CurrentCodeAddress c2.code)
end

/-- The state in which `main` calls `ParseProgram`, given the sets that
`SetupSets` built: globals set, code generator initialised, first token
read. -/
def Compiler.initial (sets : ParserSets) (source : List TOKEN) (indeterminate : Int) :
    Compiler :=
  { CurrentToken := source.headD endOfInputToken
    input := source.tail
    recovering := 0
    Read := 0
    Write := 0
    scope := 1
    VarLctn := 0
    FlagError := 0
    code := InitCodeGenerator
    HashTable := emptyTable
    sets := sets
    errors := []
    indeterminate := indeterminate }

/-- The start of a compile: `SetupSets`, then the initial state. -/
def Compiler.start (source : List TOKEN) (indeterminate : Int) : Except Fatal Compiler :=
  SetupSets >>= fun sets => .ok (Compiler.initial sets source indeterminate)

/-- The value of the sets after `SetupSets`, word by word. -/
def builtSets : ParserSets :=
  { StatementFS_aug := ⟨[3797942272, 0]⟩
    StatementFBS := ⟨[1048620, 0]⟩
    ProgProcDecSet1 := ⟨[277086208, 0]⟩
    ProgProcDecSet2 := ⟨[8650752, 0]⟩
    BlockSet1 := ⟨[3797942272, 0]⟩
    FB_Prog := ⟨[2097188, 0]⟩
    FB_ProcDec := ⟨[2097188, 0]⟩
    FB_Block := ⟨[1048620, 0]⟩
    StatementFS_aug2 := ⟨[3797942272, 0]⟩
    StatementFBS2 := ⟨[1048620, 0]⟩ }

/-- The lookahead followed by the tokens still to come. -/
def Compiler.stream (c : Compiler) : List TOKEN := c.CurrentToken :: c.input

/-- A token that carries nothing but its code. -/
def tk (code : Int) : TOKEN := ⟨code, 0, 0, none⟩

/-- An integer-constant token. -/
def intTok (value : Int) : TOKEN := ⟨INTCONST, value, 0, none⟩

/-- An identifier token with the given spelling. -/
def idTok (name : List Nat) : TOKEN := ⟨IDENTIFIER, 0, 0, some name⟩

/-! ## Parse trees of constant expressions -/

mutual
/-- Parse trees of `Expression ::= CompoundTerm {AddOp CompoundTerm}`, the
repetition associated to the left; each operator carries the column of its
token. -/
inductive Expression
  | single (c : CompoundTerm)
  | add (e : Expression) (pos : Int) (c : CompoundTerm)
  | sub (e : Expression) (pos : Int) (c : CompoundTerm)
/-- Parse trees of `CompoundTerm ::= Term {MultOp Term}`. -/
inductive CompoundTerm
  | single (t : Term)
  | mul (c : CompoundTerm) (pos : Int) (t : Term)
  | div (c : CompoundTerm) (pos : Int) (t : Term)
/-- Parse trees of `Term ::= ["-"] SubTerm`. -/
inductive Term
  | plain (s : SubTerm)
  | minus (pos : Int) (s : SubTerm)
/-- Parse trees of `SubTerm ::= intconst | "(" Expression ")"`. -/
inductive SubTerm
  | const (value pos : Int)
  | paren (lpos : Int) (e : Expression) (rpos : Int)
end

mutual
/-- The tokens of an expression, left to right. -/
def Expression.tokens : Expression → List TOKEN
  | .single c => c.tokens
  | .add e pos c => e.tokens ++ ⟨ADD, 0, pos, none⟩ :: c.tokens
  | .sub e pos c => e.tokens ++ ⟨SUBTRACT, 0, pos, none⟩ :: c.tokens
/-- The tokens of a compound term. -/
def CompoundTerm.tokens : CompoundTerm → List TOKEN
  | .single t => t.tokens
  | .mul c pos t => c.tokens ++ ⟨MULTIPLY, 0, pos, none⟩ :: t.tokens
  | .div c pos t => c.tokens ++ ⟨DIVIDE, 0, pos, none⟩ :: t.tokens
/-- The tokens of a term. -/
def Term.tokens : Term → List TOKEN
  | .plain s => s.tokens
  | .minus pos s => ⟨SUBTRACT, 0, pos, none⟩ :: s.tokens
/-- The tokens of a sub-term. -/
def SubTerm.tokens : SubTerm → List TOKEN
  | .const value pos => [⟨INTCONST, value, pos, none⟩]
  | .paren lpos e rpos =>
    ⟨LEFTPARENTHESIS, 0, lpos, none⟩ :: (e.tokens ++ [⟨RIGHTPARENTHESIS, 0, rpos, none⟩])
end

mutual
/-- Post-order (reverse Polish) translation of an expression. -/
def Expression.postorder : Expression → List INSTRUCTION
  | .single c => c.postorder
  | .add e _ c => e.postorder ++ c.postorder ++ [⟨I_ADD, 0⟩]
  | .sub e _ c => e.postorder ++ c.postorder ++ [⟨I_SUB, 0⟩]
/-- Post-order translation of a compound term. -/
def CompoundTerm.postorder : CompoundTerm → List INSTRUCTION
  | .single t => t.postorder
  | .mul c _ t => c.postorder ++ t.postorder ++ [⟨I_MULT, 0⟩]
  | .div c _ t => c.postorder ++ t.postorder ++ [⟨I_DIV, 0⟩]
/-- Post-order translation of a term. -/
def Term.postorder : Term → List INSTRUCTION
  | .plain s => s.postorder
  | .minus _ s => s.postorder ++ [⟨I_NEG, 0⟩]
/-- Post-order translation of a sub-term. -/
def SubTerm.postorder : SubTerm → List INSTRUCTION
  | .const value _ => [⟨I_LOADI, value⟩]
  | .paren _ e _ => e.postorder
end

mutual
/-- Fuel that suffices to parse an expression. -/
def Expression.fuel : Expression → Nat
  | .single c => c.fuel + 2
  | .add e _ c => e.fuel + c.fuel + 2
  | .sub e _ c => e.fuel + c.fuel + 2
/-- Fuel that suffices to parse a compound term. -/
def CompoundTerm.fuel : CompoundTerm → Nat
  | .single t => t.fuel + 2
  | .mul c _ t => c.fuel + t.fuel + 2
  | .div c _ t => c.fuel + t.fuel + 2
/-- Fuel that suffices to parse a term. -/
def Term.fuel : Term → Nat
  | .plain s => s.fuel + 1
  | .minus _ s => s.fuel + 1
/-- Fuel that suffices to parse a sub-term. -/
def SubTerm.fuel : SubTerm → Nat
  | .const _ _ => 1
  | .paren _ e _ => e.fuel + 1
end

/-- The buffer after appending instructions with successful `Emit` calls. -/
def pushCode (g : CodeGen) : List INSTRUCTION → CodeGen
  | [] => g
  | i :: is =>
    pushCode { g with
      CodeTable := fun k => if k = g.CodePosition then ⟨i.opcode, i.address⟩ else g.CodeTable k
      CodePosition := g.CodePosition + 1 } is

/-- The compiler state once a phrase has been parsed without error: its
instructions appended, the lookahead on the first token of `rest`, not
recovering. -/
def Compiler.after (c : Compiler) (instrs : List INSTRUCTION) (rest : List TOKEN) : Compiler :=
  { c with
    CurrentToken := rest.headD endOfInputToken
    input := rest.tail
    recovering := 0
    code := pushCode c.code instrs }

/-- Whether a token continues an expression: one of `+ - * /`. -/
def TOKEN.isArithOp (t : TOKEN) : Prop :=
  t.code = ADD ∨ t.code = SUBTRACT ∨ t.code = MULTIPLY ∨ t.code = DIVIDE

/-- The buffer `g'` holds everything `g` held: no instruction below the
position of `g` was changed and the position did not decrease. -/
def CodeGen.Extends (g g' : CodeGen) : Prop :=
  g.CodePosition ≤ g'.CodePosition ∧ ∀ i, i < g.CodePosition → g'.CodeTable i = g.CodeTable i


/-- Declaring a list of names, each with its symbol type, one after the other:
for each the lookahead is an `IDENTIFIER` token with that spelling and
`MakeSymbolTableEntry` is called. -/
def declareNames : List (List Nat × Int) → Compiler → Except Fatal Compiler
  | [], c => .ok c
  | d :: ds, c =>
    MakeSymbolTableEntry d.2 { c with CurrentToken := ⟨IDENTIFIER, 0, 0, some d.1⟩ } >>=
      declareNames ds

/-- Sample: scope depth 2 with one outer binding, `x` declared at depth 1. -/
def sampleScoped : Compiler :=
  { Compiler.initial builtSets [] 0 with
    scope := 2
    HashTable := fun i => if i = 120 then [⟨[120], 1, STYPE_VARIABLE, -1, -1, 0⟩] else [] }

/-! ## The character processor (`line.c`)

Source bytes are integers as `fgetc` returns them; the model keeps a byte
unchanged when it is stored in and read back from a `char` (exact for the
7-bit ASCII sources the compiler is specified for).  The bodies of error
messages kept per line are not modelled. -/

def M_LINE_WIDTH : Int := 256
def DISPLAY_LINE_NUMBER : Int := 1
def NO_DISPLAY_LINE_NUMBER : Int := 0
def DEFAULT_TAB_WIDTH : Int := 8
def EOF : Int := -1

/-- The `LINE` record; `s` is the array `char s[M_LINE_WIDTH+2]`. -/
structure LINE where
  valid : Int
  cpos : Int
  s : Nat → Int
  cerrs : Int

/-- Model of `NewLine` (with `malloc` succeeding; fresh memory reads as 0). -/
def NewLine : LINE := ⟨0, 0, fun _ => 0, 0⟩

/-- The assignment `*(line->s + i) = ch`, fatal outside the array. -/
def LINE.put (l : LINE) (i ch : Int) : Except Fatal LINE :=
  if 0 ≤ i ∧ i < M_LINE_WIDTH + 2 then
    .ok { l with s := fun k => if k = i.toNat then ch else l.s k }
  else .error .lineOverrun

/-- The read `*(line->s + i)`, fatal outside the array. -/
def LINE.get (l : LINE) (i : Int) : Except Fatal Int :=
  if 0 ≤ i ∧ i < M_LINE_WIDTH + 2 then .ok (l.s i.toNat) else .error .lineOverrun

/-- The module state of `line.c`.  `InputFile` holds the bytes not yet read;
`ListFile` tells whether a listing file is open, and `listed` is what was
written to it: per displayed line its number (if shown) and its text. -/
structure CharProcessor where
  CurrentLine : Option LINE
  PreviousLine : Option LINE
  InputFile : List Int
  ListFile : Bool
  listed : List (Option Int × List Int)
  CurrentLineNum : Int
  PushBack : Int
  ReadEOF : Int
  TabWidth : Int

/-- State after program start and `InitCharProcessor`. -/
def InitCharProcessor (inputfile : List Int) (listfile : Bool) : CharProcessor :=
  { CurrentLine := none
    PreviousLine := none
    InputFile := inputfile
    ListFile := listfile
    listed := []
    CurrentLineNum := 1
    PushBack := 0
    ReadEOF := 0
    TabWidth := DEFAULT_TAB_WIDTH }

/-- The text `fputs` writes for a buffer: the bytes before the first NUL among
the first `n`. -/
def lineText (s : Nat → Int) (n : Nat) : List Int :=
  ((List.range n).map s).takeWhile (· ≠ 0)

/-- Model of `DisplayLine`: the line after the call and the module state. -/
def DisplayLine (number : Int) (line : Option LINE) (p : CharProcessor) :
    Except Fatal (Option LINE × CharProcessor) :=
  match line with
  | none => .ok (none, p)
  | some l =>
    if l.valid ≠ 0 ∧ p.ListFile = true then do
      let l1 ← l.put l.cpos 0
      let text := lineText l1.s (M_LINE_WIDTH + 2).toNat
      let p1 : CharProcessor :=
        if number = DISPLAY_LINE_NUMBER then
          { p with
            listed := p.listed ++ [(some p.CurrentLineNum, text)]
            CurrentLineNum := p.CurrentLineNum + 1 }
        else { p with listed := p.listed ++ [(none, text)] }
      pure (some { l1 with valid := 0, cpos := 0, cerrs := 0 }, p1)
    else .ok (some l, p)

/-- The loop `for (j = TabWidth; j <= i; j += TabWidth);` with `k` rounds
left. -/
def tabLoop (TabWidth i : Int) : Nat → Int → Int
  | 0, j => j
  | k + 1, j => if j ≤ i then tabLoop TabWidth i k (j + TabWidth) else j

/-- The loop `for (; i < j && i < M_LINE_WIDTH; i++) *(CurrentLine->s+i) = ' ';`
with `k` rounds left: the final `i` and the line. -/
def fillLoop (j : Int) : Nat → Int → LINE → Except Fatal (Int × LINE)
  | 0, i, l => .ok (i, l)
  | k + 1, i, l =>
    if i < j ∧ i < M_LINE_WIDTH then l.put i 32 >>= fillLoop j k (i + 1) else .ok (i, l)

/-- `SwapLines(&CurrentLine, &PreviousLine)` followed by the reset of the new
current line. -/
def swapAndReset (p : CharProcessor) : CharProcessor :=
  { p with
    CurrentLine := p.PreviousLine.map fun l => { l with valid := 0, cpos := 0 }
    PreviousLine := p.CurrentLine }

/-- The first half of `ReadChar`: the character, from the pushed-back
position or from the file. -/
def readCharFetch (p : CharProcessor) : Except Fatal (Int × CharProcessor) :=
  if p.PushBack ≠ 0 then
    match p.CurrentLine with
    | none => .error .noCurrentLine
    | some l =>
      l.get l.cpos >>= fun ch =>
        .ok (ch, { p with PushBack := 0, CurrentLine := some { l with cpos := l.cpos + 1 } })
  else
    match p.InputFile with
    | [] => .ok (EOF, { p with CurrentLine := some (p.CurrentLine.getD NewLine) })
    | ch :: rest =>
      if ch = 9 then
        fillLoop (tabLoop p.TabWidth (p.CurrentLine.getD NewLine).cpos
            ((p.CurrentLine.getD NewLine).cpos.toNat + 1) p.TabWidth)
          M_LINE_WIDTH.toNat (p.CurrentLine.getD NewLine).cpos
          { p.CurrentLine.getD NewLine with valid := 1 } >>= fun f =>
          .ok (32, { p with InputFile := rest, CurrentLine := some { f.2 with cpos := f.1 } })
      else if ch ≠ EOF then
        ({ p.CurrentLine.getD NewLine with valid := 1 } : LINE).put
            (p.CurrentLine.getD NewLine).cpos ch >>= fun l1 =>
          .ok (ch, { p with
            InputFile := rest
            CurrentLine := some { l1 with cpos := (p.CurrentLine.getD NewLine).cpos + 1 } })
      else .ok (ch, { p with InputFile := rest, CurrentLine := some (p.CurrentLine.getD NewLine) })

/-- The statement `if (CurrentLine->valid && CurrentLine->cpos != 0) {...}` of
the end-of-file branch of `ReadChar`: a newline is appended to a line in
progress. -/
def closeLastLine (l : LINE) : Except Fatal LINE :=
  if l.valid ≠ 0 ∧ l.cpos ≠ 0 then
    (l.put l.cpos 10).map fun l' => { l' with cpos := l.cpos + 1 }
  else .ok l

/-- The end-of-file branch of `ReadChar` for the current line `l`. -/
def readCharAtEOF (l : LINE) (p : CharProcessor) : Except Fatal CharProcessor :=
  closeLastLine l >>= fun l1 =>
    DisplayLine DISPLAY_LINE_NUMBER p.PreviousLine { p with CurrentLine := some l1 } >>= fun d1 =>
      DisplayLine DISPLAY_LINE_NUMBER (some l1) { d1.2 with PreviousLine := d1.1 } >>= fun d2 =>
        .ok { d2.2 with CurrentLine := d2.1, ReadEOF := 1 }

/-- The second half of `ReadChar`: line handling after the character `ch`. -/
def readCharFinish (ch : Int) (p : CharProcessor) : Except Fatal CharProcessor :=
  if ch = 10 then
    DisplayLine DISPLAY_LINE_NUMBER p.PreviousLine p >>= fun d =>
      .ok (swapAndReset { d.2 with PreviousLine := d.1 })
  else
    match p.CurrentLine with
    | none => .error .nullDereference
    | some l =>
      if l.cpos > M_LINE_WIDTH then
        DisplayLine NO_DISPLAY_LINE_NUMBER p.PreviousLine p >>= fun d =>
          .ok (swapAndReset { d.2 with PreviousLine := d.1 })
      else if ch = EOF then readCharAtEOF l p
      else .ok p

/-- Model of `ReadChar`. -/
def ReadChar (p : CharProcessor) : Except Fatal (Int × CharProcessor) :=
  if p.ReadEOF ≠ 0 then .ok (EOF, p)
  else
    readCharFetch p >>= fun r =>
      readCharFinish r.1 r.2 >>= fun p' => .ok (r.1, p')

/-- Model of `UnReadChar`. -/
def UnReadChar (p : CharProcessor) : Except Fatal CharProcessor :=
  if p.PushBack ≠ 0 then .error .pushBackTwice
  else if p.ReadEOF = 0 then
    (if p.CurrentLine.all (fun l => decide (l.valid = 0 ∨ l.cpos = 0)) then
      match p.PreviousLine with
      | none => .error .pushBackBeforeStart
      | some prev =>
        .ok { p with
          CurrentLine := some prev
          PreviousLine := p.CurrentLine.map fun l => { l with valid := 0, cpos := 0, cerrs := 0 } }
    else .ok p) >>= fun p1 =>
      match p1.CurrentLine with
      | none => .error .nullDereference
      | some l => .ok { p1 with CurrentLine := some { l with cpos := l.cpos - 1 }, PushBack := 1 }
  else .ok { p with PushBack := 1 }

/-- Model of `CurrentCharPos`. -/
def CurrentCharPos (p : CharProcessor) : Int :=
  match p.CurrentLine with
  | none => 0
  | some l => if l.valid = 0 then 0 else l.cpos

/-! ## The string table (`strtab.c`) -/

def CHUNKSIZE : Int := 1024

/-- A pointer into a chunk: the chunk's number and the offset within it. -/
structure StrPtr where
  chunk : Nat
  offset : Int
deriving DecidableEq, Repr

/-- The module state of `strtab.c` together with the heap blocks it has
allocated: `mem c o` is the byte at offset `o` of chunk `c`, `chunks` the
number of chunks allocated so far. -/
structure StrTab where
  mem : Nat → Nat → Nat
  chunks : Nat
  TopOfTable : Option StrPtr
  InsertionPoint : Option StrPtr
  SpaceLeftInChunk : Int

/-- The string table at program start. -/
def StrTab.initial : StrTab :=
  { mem := fun _ _ => 0, chunks := 0, TopOfTable := none, InsertionPoint := none,
    SpaceLeftInChunk := 0 }

/-- The store `*ptr = b`, fatal outside the chunk. -/
def StrTab.poke (t : StrTab) (ptr : StrPtr) (b : Nat) : Except Fatal StrTab :=
  if 0 ≤ ptr.offset ∧ ptr.offset < CHUNKSIZE then
    .ok { t with mem := fun c o =>
      if c = ptr.chunk ∧ o = ptr.offset.toNat then b else t.mem c o }
  else .error .chunkOverrun

/-- Model of `NewString` (with `malloc` succeeding). -/
def NewString (t : StrTab) : Except Fatal StrTab :=
  if t.SpaceLeftInChunk ≤ 0 then
    .ok { t with
      chunks := t.chunks + 1
      TopOfTable := some ⟨t.chunks, 0⟩
      InsertionPoint := some ⟨t.chunks, 0⟩
      SpaceLeftInChunk := CHUNKSIZE }
  else
    match t.TopOfTable, t.InsertionPoint with
    | some top, some ip =>
      .ok { t with
        SpaceLeftInChunk := t.SpaceLeftInChunk + (ip.offset - top.offset)
        InsertionPoint := some top }
    | _, _ => .error .nullDereference

/-- The copy loop of `AddChar`, `while (TopOfTable != InsertionPoint)
{ *p++ = *TopOfTable++; SpaceLeftInChunk--; }`, for `k` bytes still to copy
from `src` to `dst`. -/
def copyLoop : Nat → StrPtr → StrPtr → StrTab → Except Fatal StrTab
  | 0, _, _, t => .ok t
  | k + 1, src, dst, t =>
    t.poke dst (t.mem src.chunk src.offset.toNat) >>= fun t1 =>
      copyLoop k ⟨src.chunk, src.offset + 1⟩ ⟨dst.chunk, dst.offset + 1⟩
        { t1 with SpaceLeftInChunk := t1.SpaceLeftInChunk - 1 }

/-- Model of `AddChar` (with `malloc` succeeding). -/
def AddChar (ch : Int) (t : StrTab) : Except Fatal StrTab :=
  (if t.SpaceLeftInChunk ≤ 1 then
    match t.TopOfTable, t.InsertionPoint with
    | some top, some ip =>
      if top.chunk = ip.chunk ∧ top.offset ≤ ip.offset then
        copyLoop (ip.offset - top.offset).toNat top ⟨t.chunks, 0⟩
            { t with chunks := t.chunks + 1, SpaceLeftInChunk := CHUNKSIZE } >>= fun t1 =>
          .ok { t1 with
            TopOfTable := some ⟨t.chunks, 0⟩
            InsertionPoint := some ⟨t.chunks, ip.offset - top.offset⟩ }
      else .error .chunkOverrun
    | none, none =>
      .ok { t with
        chunks := t.chunks + 1
        SpaceLeftInChunk := CHUNKSIZE
        TopOfTable := some ⟨t.chunks, 0⟩
        InsertionPoint := some ⟨t.chunks, 0⟩ }
    | _, _ => .error .nullDereference
  else .ok t) >>= fun t1 =>
    match t1.InsertionPoint with
    | none => .error .nullDereference
    | some ip =>
      t1.poke ip (ch % 128).toNat >>= fun t2 =>
        .ok { t2 with
          InsertionPoint := some ⟨ip.chunk, ip.offset + 1⟩
          SpaceLeftInChunk := t2.SpaceLeftInChunk - 1 }

/-- Model of `GetString`. -/
def GetString (t : StrTab) : Option StrPtr := t.TopOfTable

/-- Model of `PreserveString`. -/
def PreserveString (t : StrTab) : StrTab :=
  { t with TopOfTable := t.InsertionPoint }

/-- The NUL-terminated string at a pointer, reading at most `n` bytes. -/
def StrTab.stringAt (t : StrTab) (ptr : StrPtr) : Nat → List Nat
  | 0 => []
  | n + 1 =>
    if t.mem ptr.chunk ptr.offset.toNat = 0 then []
    else t.mem ptr.chunk ptr.offset.toNat :: t.stringAt ⟨ptr.chunk, ptr.offset + 1⟩ n

/-- The string a `char *` into the table points at (empty for NULL). -/
def StrTab.stringOf (t : StrTab) (ptr : Option StrPtr) : List Nat :=
  match ptr with
  | none => []
  | some ptr => t.stringAt ptr CHUNKSIZE.toNat

/-! ## The scanner (`scanner.c`) -/

/-- The bytes of a string literal. -/
def bytes (s : String) : List Nat := s.toList.map Char.toNat

/-- The array `Tokens`. -/
def Tokens : List (List Nat) :=
  [bytes "Scanner Error", bytes "Illegal Character", bytes "End of File",
   bytes ";", bytes ",", bytes ".", bytes "(", bytes ")", bytes ":=", bytes "+", bytes "-",
   bytes "*", bytes "/", bytes "=", bytes "<=", bytes ">=", bytes "<", bytes ">",
   bytes "BEGIN", bytes "DO", bytes "ELSE", bytes "END", bytes "IF", bytes "PROCEDURE",
   bytes "PROGRAM", bytes "READ", bytes "REF", bytes "THEN", bytes "VAR", bytes "WHILE",
   bytes "WRITE", bytes "Identifier", bytes "Integer Constant"]

/-- The `do ... while (!found)` loop of `SearchKeywords` with `n` rounds
left. -/
def searchLoop (s : List Nat) : Nat → Int → Int → Int → Except Fatal Int
  | 0, _, _, _ => .error .outOfFuel
  | n + 1, TopIndex, BottomIndex, OldMiddle =>
    if (TopIndex + BottomIndex) / 2 = OldMiddle then .ok IDENTIFIER
    else if strncmp 30 s (Tokens.getD ((TopIndex + BottomIndex) / 2).toNat []) = 0 then
      .ok ((TopIndex + BottomIndex) / 2)
    else if strncmp 30 s (Tokens.getD ((TopIndex + BottomIndex) / 2).toNat []) < 0 then
      searchLoop s n ((TopIndex + BottomIndex) / 2) BottomIndex ((TopIndex + BottomIndex) / 2)
    else
      searchLoop s n TopIndex ((TopIndex + BottomIndex) / 2) ((TopIndex + BottomIndex) / 2)

/-- Model of `SearchKeywords`, the loop given `fuel` rounds. -/
def SearchKeywords (fuel : Nat) (s : List Nat) : Except Fatal Int :=
  searchLoop s fuel (WRITE + 1) BEGIN 0

/-- The `TOKEN` record as the scanner fills it: `s` is a pointer into the
string table (`none` for NULL). -/
structure ScanToken where
  code : Int
  value : Int
  pos : Int
  s : Option StrPtr
deriving DecidableEq, Repr

/-- The state the scanner works on: character processor and string table. -/
structure Scanner where
  chars : CharProcessor
  strings : StrTab

/-- The C library's `isdigit`, `isalpha`, `isalnum` and `isspace` in the "C"
locale. -/
def isdigit (ch : Int) : Bool := decide (48 ≤ ch ∧ ch ≤ 57)
def isalpha (ch : Int) : Bool := decide ((65 ≤ ch ∧ ch ≤ 90) ∨ (97 ≤ ch ∧ ch ≤ 122))
def isalnum (ch : Int) : Bool := isalpha ch || isdigit ch
def isspace (ch : Int) : Bool := decide (ch = 32 ∨ (9 ≤ ch ∧ ch ≤ 13))

/-- `ReadChar` called by the scanner. -/
def Scanner.ReadChar (sc : Scanner) : Except Fatal (Int × Scanner) :=
  (CPL.ReadChar sc.chars).map fun r => (r.1, { sc with chars := r.2 })

/-- `UnReadChar` called by the scanner. -/
def Scanner.UnReadChar (sc : Scanner) : Except Fatal Scanner :=
  (CPL.UnReadChar sc.chars).map fun p => { sc with chars := p }

/-- `AddChar` called by the scanner. -/
def Scanner.AddChar (ch : Int) (sc : Scanner) : Except Fatal Scanner :=
  (CPL.AddChar ch sc.strings).map fun t => { sc with strings := t }

/-- The state that `case 1` of `GetToken` selects for the character read. -/
def startState (ch : Int) : Int :=
  if ch = 33 then 2 else if ch = 59 then 3 else if ch = 44 then 4 else if ch = 46 then 5
  else if ch = 40 then 6 else if ch = 41 then 7 else if ch = 58 then 8 else if ch = 43 then 11
  else if ch = 45 then 12 else if ch = 42 then 13 else if ch = 47 then 14
  else if ch = 61 then 15 else if ch = 60 then 16 else if ch = 62 then 19
  else if ch = EOF then 22
  else if isspace ch then 1 else if isdigit ch then 23 else if isalpha ch then 25 else 27

/-- The `while (scanning)` loop of `GetToken` with `n` rounds left: the
automaton state, the token under construction, the scanner state. -/
def scanLoop : Nat → Int → ScanToken → Scanner → Except Fatal (ScanToken × Scanner)
  | 0, _, _, _ => .error .outOfFuel
  | n + 1, state, token, sc =>
    if state = 0 then
      (NewString sc.strings) >>= fun t =>
        scanLoop n 1 { token with value := 0 } { sc with strings := t }
    else if state = 1 then
      sc.ReadChar >>= fun r =>
        if startState r.1 = 23 then
          scanLoop n 23
            { token with pos := CurrentCharPos sc.chars, value := token.value * 10 + (r.1 - 48) }
            r.2
        else if startState r.1 = 25 then
          (r.2.AddChar r.1) >>= fun sc1 =>
            scanLoop n 25 { token with pos := CurrentCharPos sc.chars } sc1
        else scanLoop n (startState r.1) { token with pos := CurrentCharPos sc.chars } r.2
    else if state = 2 then
      sc.ReadChar >>= fun r =>
        if r.1 = 10 ∨ r.1 = EOF then scanLoop n 1 token r.2 else scanLoop n 2 token r.2
    else if state = 3 then .ok ({ token with code := SEMICOLON }, sc)
    else if state = 4 then .ok ({ token with code := COMMA }, sc)
    else if state = 5 then .ok ({ token with code := ENDOFPROGRAM }, sc)
    else if state = 6 then .ok ({ token with code := LEFTPARENTHESIS }, sc)
    else if state = 7 then .ok ({ token with code := RIGHTPARENTHESIS }, sc)
    else if state = 8 then
      sc.ReadChar >>= fun r =>
        if r.1 = 61 then scanLoop n 9 token r.2 else scanLoop n 10 token r.2
    else if state = 9 then .ok ({ token with code := ASSIGNMENT }, sc)
    else if state = 10 then
      sc.UnReadChar >>= fun sc1 => .ok ({ token with code := ERROR }, sc1)
    else if state = 11 then .ok ({ token with code := ADD }, sc)
    else if state = 12 then .ok ({ token with code := SUBTRACT }, sc)
    else if state = 13 then .ok ({ token with code := MULTIPLY }, sc)
    else if state = 14 then .ok ({ token with code := DIVIDE }, sc)
    else if state = 15 then .ok ({ token with code := EQUALITY }, sc)
    else if state = 16 then
      sc.ReadChar >>= fun r =>
        if r.1 = 61 then scanLoop n 17 token r.2 else scanLoop n 18 token r.2
    else if state = 17 then .ok ({ token with code := LESSEQUAL }, sc)
    else if state = 18 then
      sc.UnReadChar >>= fun sc1 => .ok ({ token with code := LESS }, sc1)
    else if state = 19 then
      sc.ReadChar >>= fun r =>
        if r.1 = 61 then scanLoop n 20 token r.2 else scanLoop n 21 token r.2
    else if state = 20 then .ok ({ token with code := GREATEREQUAL }, sc)
    else if state = 21 then
      sc.UnReadChar >>= fun sc1 => .ok ({ token with code := GREATER }, sc1)
    else if state = 22 then .ok ({ token with code := ENDOFINPUT }, sc)
    else if state = 23 then
      sc.ReadChar >>= fun r =>
        if isdigit r.1 then
          scanLoop n 23 { token with value := token.value * 10 + (r.1 - 48) } r.2
        else scanLoop n 24 token r.2
    else if state = 24 then
      sc.UnReadChar >>= fun sc1 => .ok ({ token with code := INTCONST }, sc1)
    else if state = 25 then
      sc.ReadChar >>= fun r =>
        if isalnum r.1 then (r.2.AddChar r.1) >>= fun sc1 => scanLoop n 25 token sc1
        else scanLoop n 26 token r.2
    else if state = 26 then
      sc.UnReadChar >>= fun sc1 => .ok ({ token with code := IDENTIFIER }, sc1)
    else if state = 27 then .ok ({ token with code := ILLEGALCHAR }, sc)
    else .error .invalidState

/-- Model of `GetToken`: the state machine, then the keyword lookup for an
identifier.  The fields `pos` and `s` of the local `token` start out
unassigned; they are modelled as 0 and NULL. -/
def GetToken (fuel : Nat) (sc : Scanner) : Except Fatal (ScanToken × Scanner) :=
  (scanLoop fuel 0 ⟨ERROR, 0, 0, none⟩ sc) >>= fun r =>
    if r.1.code = IDENTIFIER then
      (r.2.AddChar 0) >>= fun sc1 =>
        (SearchKeywords fuel (sc1.strings.stringOf (GetString sc1.strings))) >>= fun code =>
          .ok ({ r.1 with
                  code := code
                  s := if code ≠ IDENTIFIER then none else GetString sc1.strings }, sc1)
    else .ok r

/-- The scanner at the start of a compile of the given source text. -/
def Scanner.initial (source : List Int) : Scanner :=
  { chars := InitCharProcessor source true, strings := StrTab.initial }

/-- The invariant of the character processor between two calls when no
character is pushed back and the end of the file has not been seen: the
column of the current line is within the line width, that of the previous
line at most one past it, and the tab width is positive. -/
def LineOK (p : CharProcessor) : Prop :=
  p.PushBack = 0 ∧ p.ReadEOF = 0 ∧ 0 < p.TabWidth ∧
  (∀ l, p.CurrentLine = some l → 0 ≤ l.cpos ∧ l.cpos ≤ M_LINE_WIDTH) ∧
  (∀ l, p.PreviousLine = some l → 0 ≤ l.cpos ∧ l.cpos ≤ M_LINE_WIDTH + 1)

/-- The character `ch` is the one in the column before the current one: of the
current line when that line is in use, else of the previous line. -/
def Stored (q : CharProcessor) (ch : Int) : Prop :=
  (∃ l, q.CurrentLine = some l ∧ l.valid ≠ 0 ∧ 1 ≤ l.cpos ∧ l.cpos ≤ M_LINE_WIDTH + 1 ∧
      l.s (l.cpos - 1).toNat = ch ∧
      ∀ l', q.PreviousLine = some l' → 0 ≤ l'.cpos ∧ l'.cpos ≤ M_LINE_WIDTH + 1) ∨
  (q.CurrentLine.all (fun l => decide (l.valid = 0 ∨ l.cpos = 0)) = true ∧
    ∃ l, q.PreviousLine = some l ∧ 1 ≤ l.cpos ∧ l.cpos ≤ M_LINE_WIDTH + 1 ∧
      l.s (l.cpos - 1).toNat = ch)

/-- `n` successive calls of `ReadChar`, the characters discarded. -/
def readN : Nat → CharProcessor → Except Fatal CharProcessor
  | 0, p => .ok p
  | n + 1, p => ReadChar p >>= fun r => readN n r.2

/-- The sequence `ReadChar(); UnReadChar(); ReadChar();`: the two characters
returned, `none` when a call is fatal. -/
def pushbackProbe (p : CharProcessor) : Option (Int × Int) :=
  (ReadChar p >>= fun r1 =>
    UnReadChar r1.2 >>= fun p2 =>
      ReadChar p2 >>= fun r3 => .ok (r1.1, r3.1)).toOption

/-- The calls `AddChar(c)` for the characters of `w` in turn. -/
def addChars : List Int → StrTab → Except Fatal StrTab
  | [], t => .ok t
  | c :: w, t => AddChar c t >>= addChars w

/-- The characters of the spelling of token code `k` in the array `Tokens`. -/
def spelling (k : Nat) : List Int := (Tokens.getD k []).map Int.ofNat

/-- What the string table and the keyword search do with the spelling of the
reserved word with code `k`: the code found and the pointer to the string. -/
def keywordProbe (k : Nat) : Option (Int × Option StrPtr) :=
  (NewString StrTab.initial >>= fun t0 =>
    addChars (spelling k) t0 >>= fun t1 =>
      AddChar 0 t1 >>= fun t2 =>
        SearchKeywords 8 (t2.stringOf (GetString t2)) >>= fun code =>
          .ok (code, GetString t2)).toOption

/-- Whether the spelling of token `k` is a letter followed by at most eight
letters and digits. -/
def keywordShape (k : Nat) : Bool :=
  match spelling k with
  | [] => false
  | c0 :: w => isalpha c0 && w.all isalnum && decide (w.length ≤ 8)

/-! ## Reading off the result of a run -/

/-- The value of a run that returned, else the given default. -/
def returned {α : Type} (r : Except Fatal α) (d : α) : α :=
  match r with
  | .ok a => a
  | .error _ => d

/-- The fatal condition a run ended in, if it did. -/
def failure {α : Type} (r : Except Fatal α) : Option Fatal :=
  match r with
  | .ok _ => none
  | .error e => some e

/-- Whether a run returned. -/
def isOk {α : Type} (r : Except Fatal α) : Bool :=
  match r with
  | .ok _ => true
  | .error _ => false

/-- Sample: `IF 1 < 2 THEN BEGIN END ELSE BEGIN END ;` at the start of a
compile. -/
def sampleIfElse : Compiler :=
  Compiler.initial builtSets
    [tk IF, intTok 1, tk LESS, intTok 2, tk THEN, tk BEGIN, tk END, tk ELSE, tk BEGIN,
      tk END, tk SEMICOLON] 0

/-- Sample: `WHILE 1 <= 2 DO BEGIN END ;` at the start of a compile. -/
def sampleWhile : Compiler :=
  Compiler.initial builtSets
    [tk WHILE, intTok 1, tk LESSEQUAL, intTok 2, tk DO, tk BEGIN, tk END, tk SEMICOLON] 0

/-- Sample: `1 >= 2 THEN` at the start of a compile. -/
def sampleRelation : Compiler :=
  Compiler.initial builtSets [intTok 1, tk GREATEREQUAL, intTok 2, tk THEN] 0

/-! ## Declarations and the invariant of the symbol table -/

/-- The invariant of the symbol table that the declarations keep: a symbol is
in the chain of its string's hash value, and along a chain the symbols that
`strncmp(.., .., 80)` does not tell apart have strictly decreasing scopes. -/
def TableOK (tbl : SymTab) : Prop :=
  (∀ i, ∀ sym ∈ tbl i, Hash sym.s = i) ∧
  ∀ i, (tbl i).Pairwise (fun a b => strncmp 80 a.s b.s = 0 → b.scope < a.scope)

/-- No two symbols of the table have the same string and the same scope. -/
def NoClash (tbl : SymTab) : Prop :=
  (∀ i, (tbl i).Pairwise (fun a b => ¬ (a.s = b.s ∧ a.scope = b.scope))) ∧
  ∀ i j, i ≠ j → ∀ a ∈ tbl i, ∀ b ∈ tbl j, a.s ≠ b.s

/-- The record `MakeSymbolTableEntry` enters for the spelling `name`. -/
def enteredSymbol (symtype : Int) (c : Compiler) (name : List Nat) : SYMBOL :=
  { s := match (Probe c.HashTable name).1 with
      | none => name
      | some o => o.s
    scope := c.scope
    type := symtype
    pcount := -1
    ptypes := -1
    address := if symtype = STYPE_VARIABLE then c.VarLctn else -1 }

/-- The calls of a compile that change the symbol table or the scope depth:
`MakeSymbolTableEntry(symtype)` with a given lookahead, `scope++` at the start
of `ParseProcDeclaration`, and `RemoveSymbols(scope); scope--;` at its end. -/
inductive DeclOp
  | declare (symtype : Int) (lookahead : TOKEN)
  | enter
  | leave

/-- One such call. -/
def DeclOp.run : DeclOp → Compiler → Except Fatal Compiler
  | .declare symtype tok, c => MakeSymbolTableEntry symtype { c with CurrentToken := tok }
  | .enter, c => .ok { c with scope := c.scope + 1 }
  | .leave, c =>
    .ok { c with HashTable := RemoveSymbols c.scope c.HashTable, scope := c.scope - 1 }

/-- The symbol a call put at the head of the chain of the lookahead's
spelling, if it put one there. -/
def addedSymbol (before after : SymTab) (tok : TOKEN) : Option SYMBOL :=
  match tok.s with
  | none => none
  | some name =>
    if (after (Hash name)).length = (before (Hash name)).length + 1 then
      (after (Hash name)).head?
    else none

/-- The symbols one call entered, each with the scope depth at the call. -/
def DeclOp.entered (op : DeclOp) (c c1 : Compiler) : List (Int × SYMBOL) :=
  match op with
  | .declare _ tok => (addedSymbol c.HashTable c1.HashTable tok).toList.map fun s => (c.scope, s)
  | _ => []

/-- A sequence of such calls: the symbols entered, in order, each with the
scope depth at its declaration, and the final state. -/
def declLog : List DeclOp → Compiler → Except Fatal (List (Int × SYMBOL) × Compiler)
  | [], c => .ok ([], c)
  | op :: ops, c =>
    op.run c >>= fun c1 =>
      declLog ops c1 >>= fun r => .ok (op.entered c c1 ++ r.1, r.2)

/-- The variable symbols of a log. -/
def variablesOf (log : List (Int × SYMBOL)) : List SYMBOL :=
  (log.map Prod.snd).filter fun s => decide (s.type = STYPE_VARIABLE)

/-- Sample: the statement `READ ( a ( 1 + b ) ) ;` with `b` a global variable
at address 0. -/
def sampleRead : Compiler :=
  { Compiler.initial builtSets
      [tk READ, tk LEFTPARENTHESIS, idTok [97], tk LEFTPARENTHESIS, intTok 1, tk ADD,
        idTok [98], tk RIGHTPARENTHESIS, tk RIGHTPARENTHESIS, tk SEMICOLON] 0 with
    HashTable := fun i => if i = 98 then [⟨[98], 1, STYPE_VARIABLE, -1, -1, 0⟩] else [] }

/-- Sample: the lookahead `x` at scope depth 3, `x` a local variable of depth 1
at offset 4. -/
def sampleLocal : Compiler :=
  { Compiler.initial builtSets [idTok [120], tk SEMICOLON] 0 with
    scope := 3
    HashTable := fun i => if i = 120 then [⟨[120], 1, STYPE_LOCALVAR, -1, -1, 4⟩] else [] }

/-- Sample: the lookahead `x` at scope depth 2, with `x` bound at depth 1. -/
def sampleRedeclare : Compiler :=
  { sampleScoped with CurrentToken := idTok [120] }

/-- Sample: declarations of a compile, `x`, the program name `p`, and inside a
procedure `x` twice and `y`, then `z` after the procedure. -/
def sampleDeclarations : List DeclOp :=
  [.declare STYPE_VARIABLE (idTok [120]), .declare STYPE_PROGRAM (idTok [112]), .enter,
   .declare STYPE_VARIABLE (idTok [120]), .declare STYPE_VARIABLE (idTok [120]),
   .declare STYPE_VARIABLE (idTok [121]), .leave, .declare STYPE_VARIABLE (idTok [122])]

/-! ## The code file, the program-level parsers and the driver -/

/-- The text `printf` produces for `%3d`: decimal, right-justified in a field
of three characters. -/
def fmt3d (i : Int) : String :=
  "".pushn ' ' (3 - (toString i).length) ++ toString i

/-- The text `printf` produces for `%-4d`: decimal, left-justified in a field
of four characters. -/
def fmtLeft4d (n : Int) : String :=
  toString n ++ "".pushn ' ' (4 - (toString n).length)

/-- Model of `OutputControlInst`: the text written for `"%s  %-4d\n"`. -/
def OutputControlInst (s : String) (ins : INSTRUCTION) : String :=
  s ++ "  " ++ fmtLeft4d ins.address ++ "\n"

/-- Model of `OutputDataInst`: the text written for `"%s %-4d\n"`. -/
def OutputDataInst (s : String) (ins : INSTRUCTION) : String :=
  s ++ " " ++ fmtLeft4d ins.address ++ "\n"

/-- Model of `OutputFPInst`. -/
def OutputFPInst (s : String) (ins : INSTRUCTION) : String :=
  s ++ " FP" ++
    (if ins.address = 0 then "\n"
     else if ins.address > 0 then "+" ++ fmtLeft4d ins.address ++ "\n"
     else fmtLeft4d ins.address ++ "\n")

/-- Model of `OutputSPInst`. -/
def OutputSPInst (s : String) (ins : INSTRUCTION) : String :=
  s ++ " [SP]" ++
    (if ins.address = 0 then "\n"
     else if ins.address > 0 then "+" ++ fmtLeft4d ins.address ++ "\n"
     else fmtLeft4d ins.address ++ "\n")

/-- The `switch` of `Output`: the text written after the address for an
instruction, `none` in the `default` case. -/
def instructionText (ins : INSTRUCTION) : Option String :=
  if ins.opcode = I_ADD then some "Add\n"
  else if ins.opcode = I_SUB then some "Sub\n"
  else if ins.opcode = I_MULT then some "Mult\n"
  else if ins.opcode = I_DIV then some "Div\n"
  else if ins.opcode = I_NEG then some "Neg\n"
  else if ins.opcode = I_RET then some "Ret\n"
  else if ins.opcode = I_BSF then some "Bsf\n"
  else if ins.opcode = I_RSF then some "Rsf\n"
  else if ins.opcode = I_PUSHFP then some "Push  FP\n"
  else if ins.opcode = I_READ then some "Read\n"
  else if ins.opcode = I_WRITE then some "Write\n"
  else if ins.opcode = I_HALT then some "Halt\n"
  else if ins.opcode = I_BR then some (OutputControlInst "Br  " ins)
  else if ins.opcode = I_BGZ then some (OutputControlInst "Bgz " ins)
  else if ins.opcode = I_BG then some (OutputControlInst "Bg  " ins)
  else if ins.opcode = I_BLZ then some (OutputControlInst "Blz " ins)
  else if ins.opcode = I_BL then some (OutputControlInst "Bl  " ins)
  else if ins.opcode = I_BZ then some (OutputControlInst "Bz  " ins)
  else if ins.opcode = I_BNZ then some (OutputControlInst "Bnz " ins)
  else if ins.opcode = I_CALL then some (OutputControlInst "Call" ins)
  else if ins.opcode = I_LDP then some (OutputControlInst "Ldp " ins)
  else if ins.opcode = I_RDP then some (OutputControlInst "Rdp " ins)
  else if ins.opcode = I_INC then some (OutputControlInst "Inc " ins)
  else if ins.opcode = I_DEC then some (OutputControlInst "Dec " ins)
  else if ins.opcode = I_LOADI then some ("Load  #" ++ fmtLeft4d ins.address ++ "\n")
  else if ins.opcode = I_LOADA then some (OutputDataInst "Load " ins)
  else if ins.opcode = I_LOADFP then some (OutputFPInst "Load " ins)
  else if ins.opcode = I_LOADSP then some (OutputSPInst "Load " ins)
  else if ins.opcode = I_STOREA then some (OutputDataInst "Store" ins)
  else if ins.opcode = I_STOREFP then some (OutputFPInst "Store" ins)
  else if ins.opcode = I_STORESP then some (OutputSPInst "Store" ins)
  else none

/-- Model of `Output(i)`: the text it writes to the code file, and whether it
ends the program (`exit` in the `default` case of the `switch`). -/
def Output (g : CodeGen) (i : Nat) : String × Bool :=
  if g.ErrorsInProgram ≠ 0 then ("", false)
  else
    match instructionText (g.CodeTable i) with
    | some text => (fmt3d i ++ "  " ++ text, false)
    | none =>
      (fmt3d i ++ "  " ++ "Fatal compiler error, unknown opcode "
        ++ toString (g.CodeTable i).opcode ++ "\n", true)

/-- The loop `for (i = 0; i < CodePosition; i++) Output(i);` over the addresses
still to write: the texts written, one per call, and the fatal end if the
program exits. -/
def outputLoop (g : CodeGen) : List Nat → List String × Option Fatal
  | [] => ([], none)
  | i :: rest =>
    if (Output g i).2 then ([(Output g i).1], some .unknownOpcode)
    else ((Output g i).1 :: (outputLoop g rest).1, (outputLoop g rest).2)

/-- Model of `WriteCodeFile` (the code file is open): what is written to the
code file, one entry per line, and the fatal end if there is one. -/
def WriteCodeFile (g : CodeGen) : List String × Option Fatal :=
  if g.ErrorsInProgram = 0 then outputLoop g (List.range g.CodePosition)
  else ([";; Errors detected in input file, no code\n", ";; generated\n"], none)

/-- The `while (CurrentToken.code == COMMA)` loop of `ParseDeclarations` with
`k` rounds left: the counter `VarCounter` and the state. -/
def ParseDeclarationsLoop : Nat → Int → Compiler → Except Fatal (Int × Compiler)
  | 0, _, _ => .error .outOfFuel
  | k + 1, VarCounter, c =>
    if c.CurrentToken.code = COMMA then
      MakeSymbolTableEntry STYPE_VARIABLE (Accept COMMA c) >>= fun c1 =>
        ParseDeclarationsLoop k (VarCounter + 1) (ParseVariable (Accept IDENTIFIER c1))
    else .ok (VarCounter, c)

/-- Model of `ParseDeclarations`: the value returned and the state. -/
def ParseDeclarations (n : Nat) (c : Compiler) : Except Fatal (Int × Compiler) :=
  MakeSymbolTableEntry STYPE_VARIABLE (Accept VAR c) >>= fun c1 =>
    ParseDeclarationsLoop n 1 (ParseVariable (Accept IDENTIFIER c1)) >>= fun r =>
      .ok (r.1, Accept SEMICOLON r.2)

/-- The statement `if (CurrentToken.code == REF) { MakeSymbolTableEntry(
STYPE_REFPAR); Accept(REF); }` of `ParseFormalParameter`. -/
def acceptRef (c : Compiler) : Except Fatal Compiler :=
  if c.CurrentToken.code = REF then
    MakeSymbolTableEntry STYPE_REFPAR c >>= fun c1 => .ok (Accept REF c1)
  else .ok c

/-- Model of `ParseFormalParameter`. -/
def ParseFormalParameter (c : Compiler) : Except Fatal Compiler :=
  acceptRef c >>= fun c1 =>
    MakeSymbolTableEntry STYPE_VARIABLE c1 >>= fun c2 =>
      .ok (Accept IDENTIFIER (ParseVariable c2))

/-- The `while` loop of `ParseParameterList` with `k` rounds left. -/
def ParseParameterListLoop : Nat → Compiler → Except Fatal Compiler
  | 0, _ => .error .outOfFuel
  | k + 1, c =>
    if c.CurrentToken.code = COMMA then
      ParseFormalParameter (Accept COMMA c) >>= ParseParameterListLoop k
    else .ok c

/-- Model of `ParseParameterList`. -/
def ParseParameterList (n : Nat) (c : Compiler) : Except Fatal Compiler :=
  ParseFormalParameter (Accept LEFTPARENTHESIS c) >>= fun c1 =>
    ParseParameterListLoop n c1 >>= fun c2 => .ok (Accept RIGHTPARENTHESIS c2)

/-- The statement `if (CurrentToken.code == LEFTPARENTHESIS)
ParseParameterList();` of `ParseProcDeclaration`. -/
def optionalParameterList (n : Nat) (c : Compiler) : Except Fatal Compiler :=
  if c.CurrentToken.code = LEFTPARENTHESIS then ParseParameterList n c else .ok c

/-- The statement `if (CurrentToken.code == VAR) ParseDeclarations();` of
`ParseProgram` and `ParseProcDeclaration`; the value returned is not used. -/
def optionalDeclarations (n : Nat) (c : Compiler) : Except Fatal Compiler :=
  if c.CurrentToken.code = VAR then ParseDeclarations n c >>= fun r => .ok r.2 else .ok c

mutual
/-- Model of `ParseProcDeclaration`. -/
def ParseProcDeclaration : Nat → Compiler → Except Fatal Compiler
  | 0, _ => .error .outOfFuel
  | n + 1, c =>
    optionalParameterList n { c with scope := c.scope + 1 } >>= fun c1 =>
      Synchronise c1.sets.ProgProcDecSet1 c1.sets.FB_ProcDec (Accept SEMICOLON c1) >>= fun c2 =>
        optionalDeclarations n c2 >>= fun c3 =>
          Synchronise c3.sets.ProgProcDecSet2 c3.sets.FB_ProcDec c3 >>= fun c4 =>
            nestedProcedures n c4 >>= fun c5 =>
              Synchronise c5.sets.ProgProcDecSet2 c5.sets.FB_ProcDec c5 >>= fun c6 =>
                ParseBlock n c6 >>= fun c7 =>
                  .ok { Accept SEMICOLON c7 with
                    HashTable := RemoveSymbols c7.scope (Accept SEMICOLON c7).HashTable
                    scope := c7.scope - 1 }
/-- The loop `while (CurrentToken.code == PROCEDURE) ParseProcDeclaration();`
of `ParseProcDeclaration`. -/
def nestedProcedures : Nat → Compiler → Except Fatal Compiler
  | 0, _ => .error .outOfFuel
  | n + 1, c =>
    if c.CurrentToken.code = PROCEDURE then ParseProcDeclaration n c >>= nestedProcedures n
    else .ok c
end

/-- The loop `while (CurrentToken.code == PROCEDURE) { ParseProcDeclaration();
Synchronise(&ProgProcDecSet2, &FB_Prog); }` of `ParseProgram` with `k` rounds
left. -/
def programProcedures (n : Nat) : Nat → Compiler → Except Fatal Compiler
  | 0, _ => .error .outOfFuel
  | k + 1, c =>
    if c.CurrentToken.code = PROCEDURE then
      ParseProcDeclaration n c >>= fun c1 =>
        Synchronise c1.sets.ProgProcDecSet2 c1.sets.FB_Prog c1 >>= programProcedures n k
    else .ok c

/-- Model of `ParseProgram`. -/
def ParseProgram (n : Nat) (c : Compiler) : Except Fatal Compiler :=
  MakeSymbolTableEntry STYPE_PROGRAM
      (Accept SEMICOLON (Accept IDENTIFIER (Accept PROGRAM c))) >>= fun c1 =>
    Synchronise c1.sets.ProgProcDecSet1 c1.sets.FB_Prog c1 >>= fun c2 =>
      optionalDeclarations n c2 >>= fun c3 =>
        Synchronise c3.sets.ProgProcDecSet2 c3.sets.FB_Prog c3 >>= fun c4 =>
          programProcedures n n c4 >>= fun c5 =>
            ParseBlock n c5 >>= fun c6 => .ok (Accept ENDOFPROGRAM c6)

def EXIT_SUCCESS : Int := 0
def EXIT_FAILURE : Int := 1

/-- What a run of the compiler leaves behind: the value `main` returns, the
lines written to the code file, and the state of the compile at the end. -/
structure Run where
  status : Int
  codeFile : List String
  state : Compiler

/-- Model of `main` when `OpenFiles` succeeds, on the token stream that the
scanner delivers for the source file: initialisation, `ParseProgram`,
`WriteCodeFile`, and the return value chosen by `FlagError`.  The listing file
is represented by the messages recorded in the state. -/
def main (fuel : Nat) (source : List TOKEN) (indeterminate : Int) : Except Fatal Run :=
  Compiler.start source indeterminate >>= fun c0 =>
    ParseProgram fuel c0 >>= fun c1 =>
      match (WriteCodeFile c1.code).2 with
      | some e => .error e
      | none =>
        .ok { status := if c1.FlagError ≠ 0 then EXIT_FAILURE else EXIT_SUCCESS
              codeFile := (WriteCodeFile c1.code).1
              state := c1 }

/-- The characters of a source text, as `fgetc` returns them. -/
def sourceOf (text : String) : List Int := text.toList.map fun ch => (ch.toNat : Int)

/-- A token as the parser model holds it: the pointer `s` replaced by the
string it points to at the time the token is returned. -/
def ScanToken.toTOKEN (t : ScanToken) (strings : StrTab) : TOKEN :=
  ⟨t.code, t.value, t.pos, t.s.map fun p => strings.stringOf (some p)⟩

/-- The tokens `GetToken` returns for a source text, up to and including the
first `ENDOFINPUT`, with at most `k` calls. -/
def tokens (fuel : Nat) : Nat → Scanner → Except Fatal (List TOKEN)
  | 0, _ => .error .outOfFuel
  | k + 1, sc =>
    GetToken fuel sc >>= fun r =>
      if r.1.code = ENDOFINPUT then .ok [r.1.toTOKEN r.2.strings]
      else tokens fuel k r.2 >>= fun rest => .ok (r.1.toTOKEN r.2.strings :: rest)

/-- A compile of a source text: the scanner's tokens, then `main`. -/
def compileText (fuel : Nat) (text : String) (indeterminate : Int) : Except Fatal Run :=
  tokens fuel fuel (Scanner.initial (sourceOf text)) >>= fun toks => main fuel toks indeterminate

/-- Sample: the code buffer after `Emit(31, 0); Emit(I_ADD, 0);`. -/
def sampleUnknownOpcode : Except Fatal CodeGen :=
  runOps [.emit 31 0, .emit I_ADD 0] InitCodeGenerator

/-! ## Sequences of string table calls -/

/-- A call of one of the three routines of `strtab.c` that change its state. -/
inductive StrOp
  | newString
  | addChar (ch : Int)
  | preserveString
deriving DecidableEq, Repr

/-- The effect of one call. -/
def StrOp.run : StrOp → StrTab → Except Fatal StrTab
  | .newString, t => NewString t
  | .addChar ch, t => AddChar ch t
  | .preserveString, t => .ok (PreserveString t)

/-- A sequence of calls, made one after the other. -/
def runStrOps : List StrOp → StrTab → Except Fatal StrTab
  | [], t => .ok t
  | op :: ops, t => op.run t >>= runStrOps ops

/-- The state of the string table once a chunk has been allocated: both
pointers lie in the newest use of one chunk, the insertion point not below the
top of the table, and `SpaceLeftInChunk` counts the bytes from the insertion
point to the end of the chunk. -/
def StrTab.WF (t : StrTab) : Prop :=
  ∃ top ip, t.TopOfTable = some top ∧ t.InsertionPoint = some ip ∧ top.chunk = ip.chunk ∧
    top.chunk < t.chunks ∧ 0 ≤ top.offset ∧ top.offset ≤ ip.offset ∧
    ip.offset + t.SpaceLeftInChunk = CHUNKSIZE ∧ 0 ≤ t.SpaceLeftInChunk

/-- The committed bytes: every byte of an allocated chunk other than the
bytes from `TopOfTable` on in the chunk `TopOfTable` points into. -/
def StrTab.Committed (t : StrTab) (c o : Nat) : Prop :=
  c < t.chunks ∧ ∀ top, t.TopOfTable = some top → top.chunk = c → (o : Int) < top.offset

/-- Every byte committed in `t` is committed in `t1` and holds the same value. -/
def StrTab.Keeps (t t1 : StrTab) : Prop :=
  ∀ c o, t.Committed c o → t1.Committed c o ∧ t1.mem c o = t.mem c o

/-- The number of bytes of the string under construction,
`InsertionPoint - TopOfTable`. -/
def StrTab.pending (t : StrTab) : Int :=
  match t.TopOfTable, t.InsertionPoint with
  | some top, some ip => ip.offset - top.offset
  | _, _ => 0

/-- No call of `AddChar` in the sequence finds a whole chunk of bytes already
under construction; `p` is the number of bytes under construction at the
start. -/
def fits : Int → List StrOp → Bool
  | _, [] => true
  | p, .addChar _ :: ops => decide (p < CHUNKSIZE) && fits (p + 1) ops
  | _, _ :: ops => fits 0 ops

/-- The table after `x` and its terminator were added to a new string. -/
def sampleString : StrTab :=
  returned (NewString StrTab.initial >>= AddChar 120 >>= AddChar 0) StrTab.initial

/-! ## Membership in a token set -/

/-- Membership as `InSet` reports it: the call returns a non-zero word. -/
def SET.contains (S : SET) (e : Int) : Prop := ∃ m, InSet S e = .ok m ∧ m ≠ 0

/-- A state in which `Synchronise` has tokens to discard: lookahead `x`, then
`;`, `VAR`, `.`. -/
def sampleSync : Compiler :=
  { sampleScoped with
    CurrentToken := idTok [120]
    input := [tk SEMICOLON, tk VAR, tk ENDOFPROGRAM] }

/-! ## Scope depth and chains of the symbol table -/

/-- The scope depth and the symbol table of a state. -/
def Compiler.bindings (c : Compiler) : Int × SymTab := (c.scope, c.HashTable)

/-- Every chain of the table has non-increasing scope depths from head to
tail, and no symbol has a scope depth above `scope`. -/
def ScopeOrdered (scope : Int) (tbl : SymTab) : Prop :=
  (∀ i, (tbl i).Pairwise (fun a b => b.scope ≤ a.scope)) ∧ ∀ i, ∀ s ∈ tbl i, s.scope ≤ scope

/-- The table `tbl1` is `tbl` with symbols of scope depth `scope` put in front
of chains below `HASHSIZE`. -/
def Grown (scope : Int) (tbl tbl1 : SymTab) : Prop :=
  ∀ i, ∃ news, tbl1 i = news ++ tbl i ∧ (∀ s ∈ news, s.scope = scope) ∧
    (HASHSIZE ≤ i → news = [])

/-- What the declaration parsers do to the scope depth and the table: the
depth stays, symbols of that depth are put in front of chains. -/
def Declares (c c1 : Compiler) : Prop :=
  c1.scope = c.scope ∧ Grown c.scope c.HashTable c1.HashTable

/-- A state in which `ParseProcDeclaration` finds `; BEGIN END ;`, the rest of
a procedure declaration without parameters and declarations. -/
def sampleProcedure : Compiler :=
  Compiler.initial builtSets [tk SEMICOLON, tk BEGIN, tk END, tk SEMICOLON, tk BEGIN] 0

/-! ## The pure parser (`parser1.c`) -/

namespace Parser1

/-- How a run of `parser1.c` ends other than by returning from `main`: the
call `exit(EXIT_FAILURE)` in `Accept`, after `SyntaxError` has reported the
expected code and the lookahead; or the model's recursion bound. -/
inductive Stop
  | syntaxError (ExpectedToken : Int) (got : TOKEN)
  | outOfFuel
deriving DecidableEq, Repr

/-- The state of `parser1.c`: the global `CurrentToken` and the tokens the
scanner will deliver next (after them every `GetToken` yields `ENDOFINPUT`). -/
structure Parser where
  CurrentToken : TOKEN
  input : List TOKEN
deriving DecidableEq, Repr

/-- The assignment `CurrentToken = GetToken();`. -/
def Parser.GetToken (p : Parser) : Parser :=
  match p.input with
  | [] => ⟨endOfInputToken, []⟩
  | t :: ts => ⟨t, ts⟩

/-- Model of `Accept` of `parser1.c`. -/
def Accept (ExpectedToken : Int) (p : Parser) : Except Stop Parser :=
  if p.CurrentToken.code ≠ ExpectedToken then
    .error (.syntaxError ExpectedToken p.CurrentToken)
  else .ok p.GetToken

/-- The loop `while (CurrentToken.code == COMMA) { Accept(COMMA);
Accept(IDENTIFIER); }` of `ParseDeclarations` and `ParseReadStatement`. -/
def identifierList : Nat → Parser → Except Stop Parser
  | 0, _ => .error .outOfFuel
  | k + 1, p =>
    if p.CurrentToken.code = COMMA then
      Accept COMMA p >>= Accept IDENTIFIER >>= identifierList k
    else .ok p

/-- Model of `ParseDeclarations`. -/
def ParseDeclarations (n : Nat) (p : Parser) : Except Stop Parser :=
  Accept VAR p >>= Accept IDENTIFIER >>= identifierList n >>= Accept SEMICOLON

/-- Model of `ParseFormalParameter`. -/
def ParseFormalParameter (p : Parser) : Except Stop Parser :=
  (if p.CurrentToken.code = REF then Accept REF p else .ok p) >>= Accept IDENTIFIER

/-- The `while` loop of `ParseParameterList`. -/
def parameterLoop : Nat → Parser → Except Stop Parser
  | 0, _ => .error .outOfFuel
  | k + 1, p =>
    if p.CurrentToken.code = COMMA then
      Accept COMMA p >>= ParseFormalParameter >>= parameterLoop k
    else .ok p

/-- Model of `ParseParameterList`. -/
def ParseParameterList (n : Nat) (p : Parser) : Except Stop Parser :=
  Accept LEFTPARENTHESIS p >>= ParseFormalParameter >>= parameterLoop n >>=
    Accept RIGHTPARENTHESIS

/-- Model of `ParseAddOp`. -/
def ParseAddOp (p : Parser) : Except Stop Parser :=
  if p.CurrentToken.code = ADD then Accept ADD p else Accept SUBTRACT p

/-- Model of `ParseMultOp`. -/
def ParseMultOp (p : Parser) : Except Stop Parser :=
  if p.CurrentToken.code = MULTIPLY then Accept MULTIPLY p else Accept DIVIDE p

/-- Model of `ParseRelOp`. -/
def ParseRelOp (p : Parser) : Except Stop Parser :=
  if p.CurrentToken.code = EQUALITY then Accept EQUALITY p
  else if p.CurrentToken.code = LESSEQUAL then Accept LESSEQUAL p
  else if p.CurrentToken.code = GREATEREQUAL then Accept GREATEREQUAL p
  else if p.CurrentToken.code = LESS then Accept LESS p
  else if p.CurrentToken.code = GREATER then Accept GREATER p
  else .ok p

mutual
/-- Model of `ParseExpression`. -/
def ParseExpression : Nat → Parser → Except Stop Parser
  | 0, _ => .error .outOfFuel
  | n + 1, p => ParseCompoundTerm n p >>= expressionLoop n
/-- The `while` loop of `ParseExpression`. -/
def expressionLoop : Nat → Parser → Except Stop Parser
  | 0, _ => .error .outOfFuel
  | n + 1, p =>
    if p.CurrentToken.code = ADD ∨ p.CurrentToken.code = SUBTRACT then
      ParseAddOp p >>= ParseCompoundTerm n >>= expressionLoop n
    else .ok p
/-- Model of `ParseCompoundTerm`. -/
def ParseCompoundTerm : Nat → Parser → Except Stop Parser
  | 0, _ => .error .outOfFuel
  | n + 1, p => ParseTerm n p >>= compoundTermLoop n
/-- The `while` loop of `ParseCompoundTerm`. -/
def compoundTermLoop : Nat → Parser → Except Stop Parser
  | 0, _ => .error .outOfFuel
  | n + 1, p =>
    if p.CurrentToken.code = MULTIPLY ∨ p.CurrentToken.code = DIVIDE then
      ParseMultOp p >>= ParseTerm n >>= compoundTermLoop n
    else .ok p
/-- Model of `ParseTerm`. -/
def ParseTerm : Nat → Parser → Except Stop Parser
  | 0, _ => .error .outOfFuel
  | n + 1, p =>
    (if p.CurrentToken.code = SUBTRACT then Accept SUBTRACT p else .ok p) >>= ParseSubTerm n
/-- Model of `ParseSubTerm`. -/
def ParseSubTerm : Nat → Parser → Except Stop Parser
  | 0, _ => .error .outOfFuel
  | n + 1, p =>
    if p.CurrentToken.code = IDENTIFIER then Accept IDENTIFIER p
    else if p.CurrentToken.code = INTCONST then Accept INTCONST p
    else Accept LEFTPARENTHESIS p >>= ParseExpression n >>= Accept RIGHTPARENTHESIS
end

/-- Model of `ParseBooleanExpression`. -/
def ParseBooleanExpression (n : Nat) (p : Parser) : Except Stop Parser :=
  ParseExpression n p >>= ParseRelOp >>= ParseExpression n

/-- Model of `ParseActualParameter`. -/
def ParseActualParameter (n : Nat) (p : Parser) : Except Stop Parser :=
  if p.CurrentToken.code = IDENTIFIER then Accept IDENTIFIER p else ParseExpression n p

/-- The `while` loop of `ParseProcCallList`. -/
def callListLoop (n : Nat) : Nat → Parser → Except Stop Parser
  | 0, _ => .error .outOfFuel
  | k + 1, p =>
    if p.CurrentToken.code = COMMA then
      Accept COMMA p >>= ParseActualParameter n >>= callListLoop n k
    else .ok p

/-- Model of `ParseProcCallList`. -/
def ParseProcCallList (n : Nat) (p : Parser) : Except Stop Parser :=
  Accept LEFTPARENTHESIS p >>= ParseActualParameter n >>= callListLoop n n >>=
    Accept RIGHTPARENTHESIS

/-- Model of `ParseAssignment`. -/
def ParseAssignment (n : Nat) (p : Parser) : Except Stop Parser :=
  Accept ASSIGNMENT p >>= ParseExpression n

/-- Model of `ParseRestOfStatement`. -/
def ParseRestOfStatement (n : Nat) (p : Parser) : Except Stop Parser :=
  if p.CurrentToken.code = LEFTPARENTHESIS then ParseProcCallList n p
  else if p.CurrentToken.code = ASSIGNMENT then ParseAssignment n p
  else .ok p

/-- Model of `ParseSimpleStatement`. -/
def ParseSimpleStatement (n : Nat) (p : Parser) : Except Stop Parser :=
  Accept IDENTIFIER p >>= ParseRestOfStatement n

/-- Model of `ParseReadStatement`. -/
def ParseReadStatement (n : Nat) (p : Parser) : Except Stop Parser :=
  Accept READ p >>= Accept LEFTPARENTHESIS >>= Accept IDENTIFIER >>= identifierList n >>=
    Accept RIGHTPARENTHESIS

/-- The `while` loop of `ParseWriteStatement`. -/
def writeLoop (n : Nat) : Nat → Parser → Except Stop Parser
  | 0, _ => .error .outOfFuel
  | k + 1, p =>
    if p.CurrentToken.code = COMMA then
      Accept COMMA p >>= ParseExpression n >>= writeLoop n k
    else .ok p

/-- Model of `ParseWriteStatement`. -/
def ParseWriteStatement (n : Nat) (p : Parser) : Except Stop Parser :=
  Accept WRITE p >>= Accept LEFTPARENTHESIS >>= ParseExpression n >>= writeLoop n n >>=
    Accept RIGHTPARENTHESIS

mutual
/-- Model of `ParseBlock`. -/
def ParseBlock : Nat → Parser → Except Stop Parser
  | 0, _ => .error .outOfFuel
  | n + 1, p => Accept BEGIN p >>= blockLoop n >>= Accept END
/-- The loop `while (CurrentToken.code == IDENTIFIER) { ParseStatement();
Accept(SEMICOLON); }` of `ParseBlock`. -/
def blockLoop : Nat → Parser → Except Stop Parser
  | 0, _ => .error .outOfFuel
  | n + 1, p =>
    if p.CurrentToken.code = IDENTIFIER then
      ParseStatement n p >>= Accept SEMICOLON >>= blockLoop n
    else .ok p
/-- Model of `ParseStatement`. -/
def ParseStatement : Nat → Parser → Except Stop Parser
  | 0, _ => .error .outOfFuel
  | n + 1, p =>
    if p.CurrentToken.code = IDENTIFIER then ParseSimpleStatement n p
    else if p.CurrentToken.code = WHILE then ParseWhileStatement n p
    else if p.CurrentToken.code = IF then ParseIfStatement n p
    else if p.CurrentToken.code = READ then ParseReadStatement n p
    else if p.CurrentToken.code = WRITE then ParseWriteStatement n p
    else .ok p
/-- Model of `ParseWhileStatement`. -/
def ParseWhileStatement : Nat → Parser → Except Stop Parser
  | 0, _ => .error .outOfFuel
  | n + 1, p => Accept WHILE p >>= ParseBooleanExpression n >>= Accept DO >>= ParseBlock n
/-- Model of `ParseIfStatement`. -/
def ParseIfStatement : Nat → Parser → Except Stop Parser
  | 0, _ => .error .outOfFuel
  | n + 1, p =>
    Accept IF p >>= ParseBooleanExpression n >>= Accept THEN >>= ParseBlock n >>= fun p1 =>
      if p1.CurrentToken.code = ELSE then Accept ELSE p1 >>= ParseBlock n else .ok p1
end

mutual
/-- Model of `ParseProcDeclaration`. -/
def ParseProcDeclaration : Nat → Parser → Except Stop Parser
  | 0, _ => .error .outOfFuel
  | n + 1, p =>
    Accept PROCEDURE p >>= Accept IDENTIFIER >>= fun p1 =>
      (if p1.CurrentToken.code = LEFTPARENTHESIS then ParseParameterList n p1 else .ok p1) >>=
        Accept SEMICOLON >>= fun p2 =>
          (if p2.CurrentToken.code = VAR then ParseDeclarations n p2 else .ok p2) >>=
            procedureLoop n >>= ParseBlock n >>= Accept SEMICOLON
/-- The loop `while (CurrentToken.code == PROCEDURE) ParseProcDeclaration();`. -/
def procedureLoop : Nat → Parser → Except Stop Parser
  | 0, _ => .error .outOfFuel
  | n + 1, p =>
    if p.CurrentToken.code = PROCEDURE then ParseProcDeclaration n p >>= procedureLoop n
    else .ok p
end

/-- Model of `ParseProgram`. -/
def ParseProgram (n : Nat) (p : Parser) : Except Stop Parser :=
  Accept PROGRAM p >>= Accept IDENTIFIER >>= Accept SEMICOLON >>= fun p1 =>
    (if p1.CurrentToken.code = VAR then ParseDeclarations n p1 else .ok p1) >>=
      procedureLoop n >>= ParseBlock n >>= Accept ENDOFPROGRAM

/-- Model of `main` when `OpenFiles` succeeds, on the tokens of the source
file: the exit status of the program and, when `Accept` ended it, the syntax
error reported; `none` when the recursion bound of the model is reached. -/
def main (fuel : Nat) (source : List TOKEN) : Option (Int × Option (Int × TOKEN)) :=
  match ParseProgram fuel ⟨source.headD endOfInputToken, source.tail⟩ with
  | .ok _ => some (EXIT_SUCCESS, none)
  | .error (.syntaxError e got) => some (EXIT_FAILURE, some (e, got))
  | .error .outOfFuel => none

/-- The parser run on a source text: the scanner's tokens, then `main`. -/
def parseText (fuel : Nat) (text : String) : Option (Int × Option (Int × TOKEN)) :=
  match tokens fuel fuel (Scanner.initial (sourceOf text)) with
  | .ok toks => main fuel toks
  | .error _ => none

end Parser1

/-! ## Calls that change the scanner's strings -/

/-- A call the parser makes that changes the string table: `GetToken`, or
`PreserveString` (in `MakeSymbolTableEntry`, for a new name). -/
inductive ScanCall
  | getToken
  | preserveString
deriving DecidableEq, Repr

/-- A sequence of such calls on the scanner's state. -/
def runScanCalls (fuel : Nat) : List ScanCall → Scanner → Except Fatal Scanner
  | [], sc => .ok sc
  | .getToken :: calls, sc => GetToken fuel sc >>= fun r => runScanCalls fuel calls r.2
  | .preserveString :: calls, sc =>
    runScanCalls fuel calls { sc with strings := PreserveString sc.strings }

/-- The string table before any chunk is allocated. -/
def StrTab.Fresh (t : StrTab) : Prop :=
  t.TopOfTable = none ∧ t.InsertionPoint = none ∧ t.SpaceLeftInChunk = 0

/-- The two identifiers of `ab cd` are scanned; reported are the code of the
first token, the string at its handle when it is returned, and the string at
the same handle after the second token has been scanned. -/
def sampleOverwrite : Except Fatal (Int × List Nat × List Nat) :=
  GetToken 50 (Scanner.initial (sourceOf "ab cd")) >>= fun r1 =>
    GetToken 50 r1.2 >>= fun r2 =>
      .ok (r1.1.code, r1.2.strings.stringOf r1.1.s, r2.2.strings.stringOf r1.1.s)

/-- Sample: two strings are built, the first committed. -/
def sampleStringCalls : List StrOp :=
  [.addChar 120, .addChar 0, .preserveString, .newString, .addChar 121, .addChar 0]

/-! ## Samples of declarations -/

/-- A state inside a procedure (scope depth 2) with `VAR y ;` ahead. -/
def sampleLocalDeclaration : Compiler :=
  { Compiler.initial builtSets [tk VAR, idTok [121], tk SEMICOLON, tk BEGIN] 0 with scope := 2 }

/-- A state inside a procedure heading with the parameter `REF a` ahead. -/
def sampleRefParameter : Compiler :=
  { Compiler.initial builtSets [tk REF, idTok [97], tk RIGHTPARENTHESIS] 0 with scope := 2 }

/-- A state inside a procedure heading with the parameter `b` ahead. -/
def sampleValueParameter : Compiler :=
  { Compiler.initial builtSets [idTok [98], tk RIGHTPARENTHESIS] 0 with scope := 2 }

/-- The symbols of a table in the buckets below `n`, as (string, scope, type). -/
def symbolsBelow (tbl : SymTab) (n : Nat) : List (List Nat × Int × Int) :=
  (List.range n).flatMap fun i => (tbl i).map fun s => (s.s, s.scope, s.type)

/-! ## The tab width -/

/-- Model of `SetTabWidth`: `none` stands for the fatal error and `exit`. -/
def SetTabWidth (NewTabWidth : Int) (p : CharProcessor) : Option CharProcessor :=
  if NewTabWidth ≥ 3 ∧ NewTabWidth ≤ 8 then some { p with TabWidth := NewTabWidth } else none

/-- Sample: tab width 4, three characters read on the current line, a tab and
`x` next in the file. -/
def sampleTab : CharProcessor :=
  { InitCharProcessor [9, 120] true with
    TabWidth := 4
    CurrentLine := some { valid := 1, cpos := 3, s := fun _ => 97, cerrs := 0 } }

/-! ## A sample token set -/

/-- A set with the two words 5 and 1: the elements 0, 2 and 32. -/
def sampleSet : SET := ⟨[5, 1]⟩

/-! ## Tables without procedure symbols -/

/-- No symbol of the table has the type `STYPE_PROCEDURE`. -/
def NoProcedure (tbl : SymTab) : Prop := ∀ i, ∀ s ∈ tbl i, s.type ≠ STYPE_PROCEDURE

/-! ## The measure of a parse -/

/-- The number of tokens still to be consumed: the tokens the scanner has not
delivered yet, and the lookahead unless it is `ENDOFINPUT`. -/
def Compiler.size (c : Compiler) : Nat :=
  c.input.length + (if c.CurrentToken.code = ENDOFINPUT then 0 else 1)

/-- The quantity that goes down along a parse: twice the number of tokens to
consume, plus one while the flag `recovering` of `Accept` is clear. -/
def Compiler.weight (c : Compiler) : Nat :=
  2 * c.size + (if c.recovering = 0 then 1 else 0)

/-- A call has come to an end: it returned, with the sets of `SetupSets` still
in place and the weight at most `m`, or the run stopped in a fatal condition;
`outOfFuel` and `endlessLoop` stand for a call that has not ended. -/
def Halts {α : Type} (st : α → Compiler) (m : Nat) : Except Fatal α → Prop
  | .ok a => (st a).sets = builtSets ∧ (st a).weight ≤ m
  | .error e => e ≠ .outOfFuel ∧ e ≠ .endlessLoop

/-- The case of `Halts` for a call that returns the state. -/
def Stops (m : Nat) (r : Except Fatal Compiler) : Prop := Halts id m r

/-- Sample: `PROGRAM p ; PROCEDURE PROCEDURE` and nothing more, as tokens. -/
def sampleProcedureKeywords : List TOKEN :=
  [tk PROGRAM, idTok [112], tk SEMICOLON, tk PROCEDURE, tk PROCEDURE]

/-! # Theorems -/

/-! ### The error monad -/

@[simp] theorem ok_bind {α β : Type} (a : α) (f : α → Except Fatal β) :
    (Except.ok a >>= f) = f a := rfl

@[simp] theorem error_bind {α β : Type} (e : Fatal) (f : α → Except Fatal β) :
    ((Except.error e : Except Fatal α) >>= f) = Except.error e := rfl

theorem bind_eq_ok {α β : Type} {x : Except Fatal α} {f : α → Except Fatal β} {b : β}
    (h : (x >>= f) = Except.ok b) : ∃ a, x = Except.ok a ∧ f a = Except.ok b := by
  cases x with
  | error e => simp at h
  | ok a => exact ⟨a, rfl, h⟩

/-! ### Basic facts about the code buffer -/

theorem Emit_ok {o x : Int} {g g' : CodeGen} (h : Emit o x g = .ok g') :
    g.CodePosition < CODETABLESIZE ∧ g'.CodePosition = g.CodePosition + 1 ∧
    g'.ErrorsInProgram = g.ErrorsInProgram ∧
    g'.CodeTable g.CodePosition = ⟨o, x⟩ ∧
    ∀ i, i ≠ g.CodePosition → g'.CodeTable i = g.CodeTable i := by
  unfold Emit at h
  split at h
  · simp at h
  · cases h
    refine ⟨by omega, rfl, rfl, by simp, ?_⟩
    intro i hi
    simp [hi]

theorem Emit_of_lt (o x : Int) (g : CodeGen) (h : g.CodePosition < CODETABLESIZE) :
    Emit o x g = .ok { g with
      CodeTable := fun i => if i = g.CodePosition then ⟨o, x⟩ else g.CodeTable i
      CodePosition := g.CodePosition + 1 } := by
  unfold Emit
  rw [if_neg (by omega)]

theorem BackPatch_ok {a v : Int} {g g' : CodeGen} (h : BackPatch a v g = .ok g') :
    0 ≤ a ∧ a < (CODETABLESIZE : Int) ∧ g'.CodePosition = g.CodePosition ∧
    g'.ErrorsInProgram = g.ErrorsInProgram ∧
    g'.CodeTable a.toNat = ⟨(g.CodeTable a.toNat).opcode, v⟩ ∧
    ∀ i, i ≠ a.toNat → g'.CodeTable i = g.CodeTable i := by
  unfold BackPatch at h
  split at h
  · simp at h
  · cases h
    refine ⟨by omega, by omega, rfl, rfl, by simp, ?_⟩
    intro i hi
    simp [hi]

theorem BackPatch_of_range (a v : Int) (g : CodeGen) (h0 : 0 ≤ a)
    (h1 : a < (CODETABLESIZE : Int)) :
    BackPatch a v g = .ok { g with
      CodeTable := fun i =>
        if i = a.toNat then { g.CodeTable i with address := v } else g.CodeTable i } := by
  unfold BackPatch
  rw [if_neg (by omega)]

theorem CodeOp.run_position {op : CodeOp} {g g' : CodeGen} (h : op.run g = .ok g') :
    g'.CodePosition = g.CodePosition + emitCount [op] ∧
    (g.CodePosition ≤ CODETABLESIZE → g'.CodePosition ≤ CODETABLESIZE) := by
  cases op with
  | emit o x =>
    have := Emit_ok h
    simp [emitCount]
    omega
  | backPatch a v =>
    have := BackPatch_ok h
    simp [emitCount]
    omega
  | kill =>
    simp [CodeOp.run, KillCodeGeneration] at h
    subst h
    simp [emitCount]

theorem runOps_position (ops : List CodeOp) :
    ∀ (g g' : CodeGen), runOps ops g = .ok g' →
      g'.CodePosition = g.CodePosition + emitCount ops ∧
      (g.CodePosition ≤ CODETABLESIZE → g'.CodePosition ≤ CODETABLESIZE) := by
  induction ops with
  | nil =>
    intro g g' h
    simp [runOps] at h
    subst h
    simp [emitCount]
  | cons op ops ih =>
    intro g g' h
    simp only [runOps] at h
    obtain ⟨g1, h1, h2⟩ := bind_eq_ok h
    have a1 := CodeOp.run_position h1
    have a2 := ih g1 g' h2
    refine ⟨?_, fun hg => a2.2 (a1.2 hg)⟩
    cases op <;> simp [emitCount] at a1 ⊢ <;> omega

theorem CodeGen.Reachable.position_le {g : CodeGen} (h : g.Reachable) :
    g.CodePosition ≤ CODETABLESIZE := by
  obtain ⟨ops, hops⟩ := h
  exact (runOps_position ops _ _ hops).2 (by simp [InitCodeGenerator])

/-- C1: in every code-buffer state, for every address `a` with
`0 <= a < CurrentCodeAddress` and every `v`, `BackPatch a v` returns, keeps the
opcode of instruction `a`, makes its operand `v`, and leaves every other
instruction, the current code address and the errors-present flag as they
were. -/
theorem BackPatch_only_operand (g : CodeGen) (hg : g.Reachable) (a v : Int)
    (h0 : 0 ≤ a) (h1 : a < CurrentCodeAddress g) :
    ∃ g', BackPatch a v g = .ok g' ∧
      (g'.CodeTable a.toNat).opcode = (g.CodeTable a.toNat).opcode ∧
      (g'.CodeTable a.toNat).address = v ∧
      (∀ i, i ≠ a.toNat → g'.CodeTable i = g.CodeTable i) ∧
      CurrentCodeAddress g' = CurrentCodeAddress g ∧
      g'.ErrorsInProgram = g.ErrorsInProgram := by
  have hle := hg.position_le
  have h2 : a < (CODETABLESIZE : Int) := by
    unfold CurrentCodeAddress at h1
    omega
  refine ⟨_, BackPatch_of_range a v g h0 h2, ?_, ?_, ?_, rfl, rfl⟩
  · simp
  · simp
  · intro i hi
    simp [hi]

/-- Witness for C1: the buffer after one `Emit`, patched at address 0. -/
theorem BackPatch_only_operand_witness :
    (0 : Int) ≤ 0 ∧ (0 : Int) < CurrentCodeAddress
        { CodeTable := fun i => if i = 0 then ⟨I_BR, 999⟩ else ⟨0, 0⟩,
          CodePosition := 1, ErrorsInProgram := 0 } ∧
    ∃ g', BackPatch 0 7
        { CodeTable := fun i => if i = 0 then ⟨I_BR, 999⟩ else ⟨0, 0⟩,
          CodePosition := 1, ErrorsInProgram := 0 } = .ok g' ∧
      (g'.CodeTable (0 : Int).toNat).opcode = I_BR ∧
      (g'.CodeTable (0 : Int).toNat).address = 7 :=
  ⟨by decide, by decide,
    by
      obtain ⟨g', h, ho, ha, _⟩ := BackPatch_only_operand
        { CodeTable := fun i => if i = 0 then ⟨I_BR, 999⟩ else ⟨0, 0⟩,
          CodePosition := 1, ErrorsInProgram := 0 }
        ⟨[CodeOp.emit I_BR 999], rfl⟩ 0 7 (by decide) (by decide)
      exact ⟨g', h, by simpa using ho, ha⟩⟩

/-- C2: for every state with `N < 1024`, `Emit op x` stores `(op, x)` at index
`N`, leaves every other instruction (in particular `0 .. N-1`) unchanged and
makes `CurrentCodeAddress` return `N + 1`; `BackPatch` and
`KillCodeGeneration` leave `CurrentCodeAddress` unchanged; hence over any
sequence of calls the address never decreases and grows by the number of
`Emit` calls. -/
theorem Emit_advances_by_one (g : CodeGen) (op x : Int)
    (hN : g.CodePosition < CODETABLESIZE) :
    (∃ g', Emit op x g = .ok g' ∧
      g'.CodeTable g.CodePosition = ⟨op, x⟩ ∧
      (∀ i, i ≠ g.CodePosition → g'.CodeTable i = g.CodeTable i) ∧
      CurrentCodeAddress g' = CurrentCodeAddress g + 1) ∧
    (∀ a v g', BackPatch a v g = .ok g' → CurrentCodeAddress g' = CurrentCodeAddress g) ∧
    CurrentCodeAddress (KillCodeGeneration g) = CurrentCodeAddress g ∧
    (∀ ops g', runOps ops g = .ok g' →
      CurrentCodeAddress g' = CurrentCodeAddress g + emitCount ops ∧
      CurrentCodeAddress g ≤ CurrentCodeAddress g') := by
  refine ⟨⟨_, Emit_of_lt op x g hN, ?_, ?_, ?_⟩, ?_, rfl, ?_⟩
  · simp
  · intro i hi
    simp [hi]
  · simp [CurrentCodeAddress]
  · intro a v g' h
    have := BackPatch_ok h
    simp [CurrentCodeAddress, this.2.2.1]
  · intro ops g' h
    have := (runOps_position ops g g' h).1
    simp only [CurrentCodeAddress]
    omega

/-- Witness for C2: the first `Emit` of a compile. -/
theorem Emit_advances_by_one_witness :
    InitCodeGenerator.CodePosition < CODETABLESIZE ∧
    ∃ g', Emit I_LOADI 3 InitCodeGenerator = .ok g' ∧
      g'.CodeTable 0 = ⟨I_LOADI, 3⟩ ∧ CurrentCodeAddress g' = 1 :=
  ⟨by decide,
    by
      obtain ⟨⟨g', h, hs, _, hc⟩, _⟩ :=
        Emit_advances_by_one InitCodeGenerator I_LOADI 3 (by decide)
      exact ⟨g', h, hs, by simpa [CurrentCodeAddress, InitCodeGenerator] using hc⟩⟩

/-! ### Parsing constant expressions -/


theorem pushCode_append (g : CodeGen) (a b : List INSTRUCTION) :
    pushCode g (a ++ b) = pushCode (pushCode g a) b := by
  induction a generalizing g with
  | nil => rfl
  | cons i is ih => simp [pushCode, ih]

theorem pushCode_position (g : CodeGen) (a : List INSTRUCTION) :
    (pushCode g a).CodePosition = g.CodePosition + a.length := by
  induction a generalizing g with
  | nil => rfl
  | cons i is ih => simp [pushCode, ih]; omega

theorem pushCode_errors (g : CodeGen) (a : List INSTRUCTION) :
    (pushCode g a).ErrorsInProgram = g.ErrorsInProgram := by
  induction a generalizing g with
  | nil => rfl
  | cons i is ih => simp [pushCode, ih]

theorem Emit_pushCode (g : CodeGen) (a : List INSTRUCTION) (op x : Int)
    (h : g.CodePosition + a.length < CODETABLESIZE) :
    Emit op x (pushCode g a) = .ok (pushCode g (a ++ [⟨op, x⟩])) := by
  rw [pushCode_append, Emit_of_lt _ _ _ (by rw [pushCode_position]; exact h)]
  rfl

theorem Compiler.after_after (c : Compiler) (a b : List INSTRUCTION) (r1 r2 : List TOKEN) :
    (c.after a r1).after b r2 = c.after (a ++ b) r2 := by
  simp [Compiler.after, pushCode_append]

theorem Compiler.after_stream (c : Compiler) (a : List INSTRUCTION) (t : TOKEN)
    (r : List TOKEN) : (c.after a (t :: r)).stream = t :: r := rfl

theorem Compiler.Emit_after (c : Compiler) (a : List INSTRUCTION) (r : List TOKEN)
    (op x : Int) (h : c.code.CodePosition + a.length < CODETABLESIZE) :
    (c.after a r).Emit op x = .ok (c.after (a ++ [⟨op, x⟩]) r) := by
  unfold Compiler.Emit
  simp only [Compiler.after]
  rw [Emit_pushCode _ _ _ _ h]
  rfl

theorem Accept_of_stream (c : Compiler) (t : TOKEN) (rest : List TOKEN) (e : Int)
    (hs : c.stream = t :: rest) (ht : t.code = e) : Accept e c = c.after [] rest := by
  simp only [Compiler.stream, List.cons.injEq] at hs
  obtain ⟨h1, h2⟩ := hs
  have hc : c.CurrentToken.code = e := by rw [h1]; exact ht
  have hskip : acceptSkip e c.CurrentToken c.input = (c.CurrentToken, c.input) := by
    cases hi : c.input with
    | nil => simp [acceptSkip, hc]
    | cons a as => simp [acceptSkip, hc]
  have hre : acceptResync e c = { c with recovering := 0 } := by
    unfold acceptResync
    by_cases hr : c.recovering ≠ 0
    · rw [if_pos hr, hskip]
    · have hr0 : c.recovering = 0 := by simpa using hr
      rw [if_neg hr]
      cases c
      simp only at hr0
      subst hr0
      rfl
  unfold Accept
  rw [hre]
  unfold acceptNormal
  rw [if_neg (by simpa using hc)]
  subst h2
  cases hi : c.input with
  | nil => simp [Compiler.nextToken, Compiler.GetToken, hi, Compiler.after, pushCode]
  | cons a as => simp [Compiler.nextToken, Compiler.GetToken, hi, Compiler.after, pushCode]

theorem stream_cons {c : Compiler} {t : TOKEN} {ts rest : List TOKEN}
    (hs : c.stream = (t :: ts) ++ rest) : c.CurrentToken = t ∧ c.stream = t :: (ts ++ rest) := by
  simp only [Compiler.stream, List.cons_append, List.cons.injEq] at hs ⊢
  exact ⟨hs.1, hs⟩

theorem Compiler.after_stream_of_ne (c : Compiler) (a : List INSTRUCTION) (l : List TOKEN)
    (h : l ≠ []) : (c.after a l).stream = l := by
  cases l with
  | nil => exact absurd rfl h
  | cons t r => rfl

theorem Compiler.Emit_eq (c : Compiler) (op x : Int) (h : c.code.CodePosition < CODETABLESIZE) :
    c.Emit op x = .ok { c with code := pushCode c.code [⟨op, x⟩] } := by
  unfold Compiler.Emit
  rw [Emit_of_lt _ _ _ h]
  rfl

theorem after_withCode (c : Compiler) (a b : List INSTRUCTION) (r : List TOKEN) :
    Compiler.after { c with code := pushCode c.code a } b r = c.after (a ++ b) r := by
  simp [Compiler.after, pushCode_append]

theorem SubTerm.tokens_head (s : SubTerm) :
    ∃ t ts, s.tokens = t :: ts ∧ (t.code = INTCONST ∨ t.code = LEFTPARENTHESIS) := by
  cases s with
  | const value pos => exact ⟨_, _, rfl, Or.inl rfl⟩
  | paren lpos e rpos => exact ⟨_, _, rfl, Or.inr rfl⟩

theorem Term.term_tokens_ne_nil (t : Term) : t.tokens ≠ [] := by
  cases t with
  | plain s =>
    obtain ⟨t, ts, h, _⟩ := s.tokens_head
    simp [Term.tokens, h]
  | minus pos s => simp [Term.tokens]

theorem CompoundTerm.compound_tokens_ne_nil (c : CompoundTerm) : c.tokens ≠ [] := by
  cases c with
  | single t => simpa [CompoundTerm.tokens] using t.term_tokens_ne_nil
  | mul c pos t => simp [CompoundTerm.tokens]
  | div c pos t => simp [CompoundTerm.tokens]

theorem Expression.tokens_ne_nil (e : Expression) : e.tokens ≠ [] := by
  cases e with
  | single c => simpa [Expression.tokens] using c.compound_tokens_ne_nil
  | add e pos c => simp [Expression.tokens]
  | sub e pos c => simp [Expression.tokens]

theorem Expression.fuel_pos (e : Expression) : 2 ≤ e.fuel := by
  cases e <;> simp [Expression.fuel]

theorem ParseSubTerm_const (c : Compiler) (m : Nat) (h : c.CurrentToken.code = INTCONST) :
    ParseSubTerm (m + 1) c =
      (c.Emit I_LOADI c.CurrentToken.value >>= fun c1 => .ok (ParseIntConst c1)) := by
  simp [ParseSubTerm, h]

theorem ParseSubTerm_paren (c : Compiler) (m : Nat) (h : c.CurrentToken.code = LEFTPARENTHESIS) :
    ParseSubTerm (m + 1) c =
      (ParseExpression m (Accept LEFTPARENTHESIS c) >>= fun c1 =>
        .ok (Accept RIGHTPARENTHESIS c1)) := by
  have h1 : c.CurrentToken.code ≠ INTCONST := by rw [h]; decide
  simp [ParseSubTerm, h]
  intro h'
  exact absurd h' (by decide)

theorem ParseTerm_minus (c : Compiler) (m : Nat) (h : c.CurrentToken.code = SUBTRACT) :
    ParseTerm (m + 1) c =
      (ParseSubTerm m (Accept SUBTRACT c) >>= fun c1 => c1.Emit I_NEG 0) := by
  simp [ParseTerm, h]

theorem ParseTerm_plain (c : Compiler) (m : Nat) (h : c.CurrentToken.code ≠ SUBTRACT) :
    ParseTerm (m + 1) c = ParseSubTerm m c := by
  simp [ParseTerm, h]

theorem ParseCompoundTermLoop_exit (c : Compiler) (k : Nat)
    (h : c.CurrentToken.code ≠ MULTIPLY ∧ c.CurrentToken.code ≠ DIVIDE) :
    ParseCompoundTermLoop (k + 1) c = .ok c := by
  simp [ParseCompoundTermLoop, h.1, h.2]

theorem ParseExpressionLoop_exit (c : Compiler) (k : Nat)
    (h : c.CurrentToken.code ≠ ADD ∧ c.CurrentToken.code ≠ SUBTRACT) :
    ParseExpressionLoop (k + 1) c = .ok c := by
  simp [ParseExpressionLoop, h.1, h.2]

/-- One round of the loop of `ParseCompoundTerm` on `op Term`. -/
theorem ParseCompoundTermLoop_step (c : Compiler) (pre : List INSTRUCTION) (op : TOKEN)
    (t : Term) (rest : List TOKEN) (k : Nat)
    (hop : op.code = MULTIPLY ∨ op.code = DIVIDE)
    (hroom : c.code.CodePosition + pre.length + t.postorder.length + 1 ≤ CODETABLESIZE)
    (hterm : ∀ c' : Compiler, c'.stream = t.tokens ++ rest →
      c'.code.CodePosition + t.postorder.length ≤ CODETABLESIZE →
      ParseTerm k c' = .ok (c'.after t.postorder rest)) :
    ParseCompoundTermLoop (k + 1) (c.after pre (op :: (t.tokens ++ rest))) =
      ParseCompoundTermLoop k
        (c.after (pre ++ t.postorder ++ [⟨if op.code = MULTIPLY then I_MULT else I_DIV, 0⟩])
          rest) := by
  have hcur : (c.after pre (op :: (t.tokens ++ rest))).CurrentToken = op := rfl
  have hacc : ParseMultOp (c.after pre (op :: (t.tokens ++ rest))) =
      c.after pre (t.tokens ++ rest) := by
    unfold ParseMultOp
    rw [hcur]
    rcases hop with h | h
    · rw [if_pos h, Accept_of_stream (c.after pre (op :: (t.tokens ++ rest))) op (t.tokens ++ rest) MULTIPLY rfl h,
        Compiler.after_after, List.append_nil]
    · have h' : op.code ≠ MULTIPLY := by rw [h]; decide
      rw [if_neg h', Accept_of_stream (c.after pre (op :: (t.tokens ++ rest))) op (t.tokens ++ rest) DIVIDE rfl h,
        Compiler.after_after, List.append_nil]
  have hst : (c.after pre (t.tokens ++ rest)).stream = t.tokens ++ rest :=
    Compiler.after_stream_of_ne _ _ _ (by simp [t.term_tokens_ne_nil])
  have hpos : (c.after pre (t.tokens ++ rest)).code.CodePosition
      = c.code.CodePosition + pre.length := by
    simp [Compiler.after, pushCode_position]
  have hpt := hterm _ hst (by rw [hpos]; omega)
  rw [Compiler.after_after] at hpt
  have hem : ∀ o : Int, (c.after (pre ++ t.postorder) rest).Emit o 0 =
      .ok (c.after (pre ++ t.postorder ++ [⟨o, 0⟩]) rest) := fun o =>
    Compiler.Emit_after _ _ _ _ _ (by simp only [List.length_append]; omega)
  simp only [ParseCompoundTermLoop, hcur, hop, if_true, hacc, hpt, ok_bind]
  by_cases h : op.code = MULTIPLY
  · simp only [h, if_true, hem, ok_bind]
  · simp only [h, if_false, hem, ok_bind]


/-- One round of the loop of `ParseExpression` on `op CompoundTerm`. -/
theorem ParseExpressionLoop_step (c : Compiler) (pre : List INSTRUCTION) (op : TOKEN)
    (ct : CompoundTerm) (rest : List TOKEN) (k : Nat)
    (hop : op.code = ADD ∨ op.code = SUBTRACT)
    (hroom : c.code.CodePosition + pre.length + ct.postorder.length + 1 ≤ CODETABLESIZE)
    (hct : ∀ c' : Compiler, c'.stream = ct.tokens ++ rest →
      c'.code.CodePosition + ct.postorder.length ≤ CODETABLESIZE →
      ParseCompoundTerm k c' = .ok (c'.after ct.postorder rest)) :
    ParseExpressionLoop (k + 1) (c.after pre (op :: (ct.tokens ++ rest))) =
      ParseExpressionLoop k
        (c.after (pre ++ ct.postorder ++ [⟨if op.code = ADD then I_ADD else I_SUB, 0⟩])
          rest) := by
  have hcur : (c.after pre (op :: (ct.tokens ++ rest))).CurrentToken = op := rfl
  have hacc : ParseAddOp (c.after pre (op :: (ct.tokens ++ rest))) =
      c.after pre (ct.tokens ++ rest) := by
    unfold ParseAddOp
    rw [hcur]
    rcases hop with h | h
    · rw [if_pos h, Accept_of_stream (c.after pre (op :: (ct.tokens ++ rest))) op
        (ct.tokens ++ rest) ADD rfl h, Compiler.after_after, List.append_nil]
    · have h' : op.code ≠ ADD := by rw [h]; decide
      rw [if_neg h', Accept_of_stream (c.after pre (op :: (ct.tokens ++ rest))) op
        (ct.tokens ++ rest) SUBTRACT rfl h, Compiler.after_after, List.append_nil]
  have hst : (c.after pre (ct.tokens ++ rest)).stream = ct.tokens ++ rest :=
    Compiler.after_stream_of_ne _ _ _ (by simp [ct.compound_tokens_ne_nil])
  have hpos : (c.after pre (ct.tokens ++ rest)).code.CodePosition
      = c.code.CodePosition + pre.length := by
    simp [Compiler.after, pushCode_position]
  have hpt := hct _ hst (by rw [hpos]; omega)
  rw [Compiler.after_after] at hpt
  have hem : ∀ o : Int, (c.after (pre ++ ct.postorder) rest).Emit o 0 =
      .ok (c.after (pre ++ ct.postorder ++ [⟨o, 0⟩]) rest) := fun o =>
    Compiler.Emit_after _ _ _ _ _ (by simp only [List.length_append]; omega)
  simp only [ParseExpressionLoop, hcur, hop, if_true, hacc, hpt, ok_bind]
  by_cases h : op.code = ADD
  · simp only [h, if_true, hem, ok_bind]
  · simp only [h, if_false, hem, ok_bind]

theorem ParseCompoundTerm_of_leading (c : Compiler) (code : List INSTRUCTION)
    (rest : List TOKEN) (m F : Nat) (hF : F ≤ m + 1)
    (hpre : ∃ n', m + 2 ≤ n' + F ∧
      (ParseTerm m c >>= ParseCompoundTermLoop m) =
        ParseCompoundTermLoop n' (c.after code rest))
    (hrest : (rest.headD endOfInputToken).code ≠ MULTIPLY ∧
      (rest.headD endOfInputToken).code ≠ DIVIDE) :
    ParseCompoundTerm (m + 1) c = .ok (c.after code rest) := by
  obtain ⟨n', hn', heq⟩ := hpre
  obtain ⟨k, rfl⟩ : ∃ k, n' = k + 1 := ⟨n' - 1, by omega⟩
  rw [ParseCompoundTerm, heq, ParseCompoundTermLoop_exit _ _ hrest]

theorem ParseExpression_of_leading (c : Compiler) (code : List INSTRUCTION)
    (rest : List TOKEN) (m F : Nat) (hF : F ≤ m + 1)
    (hpre : ∃ n', m + 2 ≤ n' + F ∧
      (ParseCompoundTerm m c >>= ParseExpressionLoop m) =
        ParseExpressionLoop n' (c.after code rest))
    (hrest : (rest.headD endOfInputToken).code ≠ ADD ∧
      (rest.headD endOfInputToken).code ≠ SUBTRACT) :
    ParseExpression (m + 1) c = .ok (c.after code rest) := by
  obtain ⟨n', hn', heq⟩ := hpre
  obtain ⟨k, rfl⟩ : ∃ k, n' = k + 1 := ⟨n' - 1, by omega⟩
  rw [ParseExpression, heq, ParseExpressionLoop_exit _ _ hrest]

mutual
theorem ParseSubTerm_tree : (s : SubTerm) → (c : Compiler) → (rest : List TOKEN) → (n : Nat) →
    c.stream = s.tokens ++ rest →
    c.code.CodePosition + s.postorder.length ≤ CODETABLESIZE →
    s.fuel ≤ n → ParseSubTerm n c = .ok (c.after s.postorder rest)
  | .const value pos, c, rest, n, hs, hroom, hn => by
    simp only [SubTerm.tokens, SubTerm.postorder, SubTerm.fuel, List.length_singleton]
      at hs hroom hn ⊢
    obtain ⟨hcur, hs'⟩ := stream_cons hs
    obtain ⟨m, rfl⟩ : ∃ m, n = m + 1 := ⟨n - 1, by omega⟩
    have hacc := Accept_of_stream
      { c with code := pushCode c.code [⟨I_LOADI, value⟩] } _ rest INTCONST hs' rfl
    have hval : c.CurrentToken.value = value := by rw [hcur]
    rw [ParseSubTerm_const c m (by rw [hcur]), hval, Compiler.Emit_eq c _ _ (by omega)]
    simp only [ok_bind, ParseIntConst]
    rw [hacc, after_withCode]
    rfl
  | .paren lpos e rpos, c, rest, n, hs, hroom, hn => by
    simp only [SubTerm.tokens, SubTerm.postorder, SubTerm.fuel] at hs hroom hn ⊢
    obtain ⟨hcur, hs'⟩ := stream_cons hs
    obtain ⟨m, rfl⟩ : ∃ m, n = m + 1 := ⟨n - 1, by omega⟩
    obtain ⟨k, rfl⟩ : ∃ k, m = k + 1 := ⟨m - 1, by
      have := e.fuel_pos
      omega⟩
    rw [ParseSubTerm_paren c _ (by rw [hcur]),
      Accept_of_stream c _ _ LEFTPARENTHESIS hs' rfl]
    have hst : (c.after [] (e.tokens ++ [⟨RIGHTPARENTHESIS, 0, rpos, none⟩] ++ rest)).stream
        = e.tokens ++ (⟨RIGHTPARENTHESIS, 0, rpos, none⟩ :: rest) := by
      rw [Compiler.after_stream_of_ne _ _ _ (by simp [e.tokens_ne_nil])]
      simp
    have hpre := ParseExpression_leading e _ (⟨RIGHTPARENTHESIS, 0, rpos, none⟩ :: rest) k hst
      (by simpa [Compiler.after, pushCode] using hroom) (by omega)
      ⟨show RIGHTPARENTHESIS ≠ MULTIPLY by decide, show RIGHTPARENTHESIS ≠ DIVIDE by decide⟩
    rw [ParseExpression_of_leading _ _ _ k e.fuel (by omega) hpre
      ⟨show RIGHTPARENTHESIS ≠ ADD by decide, show RIGHTPARENTHESIS ≠ SUBTRACT by decide⟩]
    simp only [ok_bind]
    rw [Compiler.after_after, Accept_of_stream _ _ rest RIGHTPARENTHESIS
      (Compiler.after_stream _ _ _ _) rfl, Compiler.after_after]
    simp
theorem ParseTerm_tree : (t : Term) → (c : Compiler) → (rest : List TOKEN) → (n : Nat) →
    c.stream = t.tokens ++ rest →
    c.code.CodePosition + t.postorder.length ≤ CODETABLESIZE →
    t.fuel ≤ n → ParseTerm n c = .ok (c.after t.postorder rest)
  | .plain s, c, rest, n, hs, hroom, hn => by
    simp only [Term.tokens, Term.postorder, Term.fuel] at hs hroom hn ⊢
    obtain ⟨m, rfl⟩ : ∃ m, n = m + 1 := ⟨n - 1, by omega⟩
    obtain ⟨t0, ts, hts, hcode⟩ := s.tokens_head
    have hcur : c.CurrentToken = t0 := by
      rw [hts] at hs
      exact (stream_cons hs).1
    have hne : c.CurrentToken.code ≠ SUBTRACT := by
      rw [hcur]
      rcases hcode with h | h <;> rw [h] <;> decide
    rw [ParseTerm_plain c m hne]
    exact ParseSubTerm_tree s c rest m hs hroom (by omega)
  | .minus pos s, c, rest, n, hs, hroom, hn => by
    simp only [Term.tokens, Term.postorder, Term.fuel, List.length_append,
      List.length_singleton] at hs hroom hn ⊢
    obtain ⟨hcur, hs'⟩ := stream_cons hs
    obtain ⟨m, rfl⟩ : ∃ m, n = m + 1 := ⟨n - 1, by omega⟩
    rw [ParseTerm_minus c m (by rw [hcur]), Accept_of_stream c _ _ SUBTRACT hs' rfl]
    have hst : (c.after [] (s.tokens ++ rest)).stream = s.tokens ++ rest := by
      obtain ⟨t0, ts, hts, _⟩ := s.tokens_head
      rw [hts]
      rfl
    rw [ParseSubTerm_tree s _ rest m hst
      (by simp only [Compiler.after, pushCode]; omega) (by omega)]
    simp only [ok_bind]
    rw [Compiler.after_after, List.nil_append, Compiler.Emit_after _ _ _ _ _ (by omega)]
theorem ParseCompoundTerm_leading : (ct : CompoundTerm) → (c : Compiler) →
    (rest : List TOKEN) → (m : Nat) →
    c.stream = ct.tokens ++ rest →
    c.code.CodePosition + ct.postorder.length ≤ CODETABLESIZE →
    ct.fuel ≤ m + 1 →
    ∃ n', m + 2 ≤ n' + ct.fuel ∧
      (ParseTerm m c >>= ParseCompoundTermLoop m) =
        ParseCompoundTermLoop n' (c.after ct.postorder rest)
  | .single t, c, rest, m, hs, hroom, hn => by
    simp only [CompoundTerm.tokens, CompoundTerm.postorder, CompoundTerm.fuel] at hs hroom hn ⊢
    refine ⟨m, by omega, ?_⟩
    rw [ParseTerm_tree t c rest m hs hroom (by omega)]
    rfl
  | .mul ct pos t, c, rest, m, hs, hroom, hn => by
    simp only [CompoundTerm.tokens, CompoundTerm.postorder, CompoundTerm.fuel,
      List.length_append, List.length_singleton, List.append_assoc, List.cons_append] at hs hroom hn ⊢
    obtain ⟨n1, hn1, heq⟩ := ParseCompoundTerm_leading ct c _ m hs (by omega) (by omega)
    obtain ⟨k, rfl⟩ : ∃ k, n1 = k + 1 := ⟨n1 - 1, by omega⟩
    refine ⟨k, by omega, ?_⟩
    rw [heq, ParseCompoundTermLoop_step c _ _ t rest k (Or.inl rfl) (by omega)
      (fun c' h1 h2 => ParseTerm_tree t c' rest k h1 h2 (by omega))]
    simp
  | .div ct pos t, c, rest, m, hs, hroom, hn => by
    simp only [CompoundTerm.tokens, CompoundTerm.postorder, CompoundTerm.fuel,
      List.length_append, List.length_singleton, List.append_assoc, List.cons_append] at hs hroom hn ⊢
    obtain ⟨n1, hn1, heq⟩ := ParseCompoundTerm_leading ct c _ m hs (by omega) (by omega)
    obtain ⟨k, rfl⟩ : ∃ k, n1 = k + 1 := ⟨n1 - 1, by omega⟩
    refine ⟨k, by omega, ?_⟩
    rw [heq, ParseCompoundTermLoop_step c _ _ t rest k (Or.inr rfl) (by omega)
      (fun c' h1 h2 => ParseTerm_tree t c' rest k h1 h2 (by omega))]
    simp [DIVIDE, MULTIPLY]
theorem ParseExpression_leading : (e : Expression) → (c : Compiler) →
    (rest : List TOKEN) → (m : Nat) →
    c.stream = e.tokens ++ rest →
    c.code.CodePosition + e.postorder.length ≤ CODETABLESIZE →
    e.fuel ≤ m + 1 →
    (rest.headD endOfInputToken).code ≠ MULTIPLY ∧
      (rest.headD endOfInputToken).code ≠ DIVIDE →
    ∃ n', m + 2 ≤ n' + e.fuel ∧
      (ParseCompoundTerm m c >>= ParseExpressionLoop m) =
        ParseExpressionLoop n' (c.after e.postorder rest)
  | .single ct, c, rest, m, hs, hroom, hn, hrest => by
    simp only [Expression.tokens, Expression.postorder, Expression.fuel] at hs hroom hn ⊢
    refine ⟨m, by omega, ?_⟩
    obtain ⟨k, rfl⟩ : ∃ k, m = k + 1 := ⟨m - 1, by omega⟩
    rw [ParseCompoundTerm_of_leading c _ rest k ct.fuel (by omega)
      (ParseCompoundTerm_leading ct c rest k hs hroom (by omega)) hrest]
    rfl
  | .add e pos ct, c, rest, m, hs, hroom, hn, hrest => by
    simp only [Expression.tokens, Expression.postorder, Expression.fuel,
      List.length_append, List.length_singleton, List.append_assoc, List.cons_append] at hs hroom hn ⊢
    obtain ⟨n1, hn1, heq⟩ := ParseExpression_leading e c _ m hs (by omega) (by omega)
      ⟨show ADD ≠ MULTIPLY by decide, show ADD ≠ DIVIDE by decide⟩
    obtain ⟨k, rfl⟩ : ∃ k, n1 = k + 1 := ⟨n1 - 1, by omega⟩
    obtain ⟨j, rfl⟩ : ∃ j, k = j + 1 := ⟨k - 1, by omega⟩
    refine ⟨j + 1, by omega, ?_⟩
    rw [heq, ParseExpressionLoop_step c _ _ ct rest (j + 1) (Or.inl rfl) (by omega)
      (fun c' h1 h2 => ParseCompoundTerm_of_leading c' _ rest j ct.fuel (by omega)
        (ParseCompoundTerm_leading ct c' rest j h1 h2 (by omega)) hrest)]
    simp
  | .sub e pos ct, c, rest, m, hs, hroom, hn, hrest => by
    simp only [Expression.tokens, Expression.postorder, Expression.fuel,
      List.length_append, List.length_singleton, List.append_assoc, List.cons_append] at hs hroom hn ⊢
    obtain ⟨n1, hn1, heq⟩ := ParseExpression_leading e c _ m hs (by omega) (by omega)
      ⟨show SUBTRACT ≠ MULTIPLY by decide, show SUBTRACT ≠ DIVIDE by decide⟩
    obtain ⟨k, rfl⟩ : ∃ k, n1 = k + 1 := ⟨n1 - 1, by omega⟩
    obtain ⟨j, rfl⟩ : ∃ j, k = j + 1 := ⟨k - 1, by omega⟩
    refine ⟨j + 1, by omega, ?_⟩
    rw [heq, ParseExpressionLoop_step c _ _ ct rest (j + 1) (Or.inr rfl) (by omega)
      (fun c' h1 h2 => ParseCompoundTerm_of_leading c' _ rest j ct.fuel (by omega)
        (ParseCompoundTerm_leading ct c' rest j h1 h2 (by omega)) hrest)]
    simp [SUBTRACT, ADD]
end



/-! ### Frame properties of the parsers -/

theorem CodeGen.Extends.refl (g : CodeGen) : g.Extends g := ⟨Nat.le_refl _, fun _ _ => rfl⟩

theorem CodeGen.Extends.trans {a b c : CodeGen} (h1 : a.Extends b) (h2 : b.Extends c) :
    a.Extends c :=
  ⟨Nat.le_trans h1.1 h2.1, fun i hi => by
    rw [h2.2 i (Nat.lt_of_lt_of_le hi h1.1), h1.2 i hi]⟩

theorem CodeGen.Extends.of_eq {a b : CodeGen} (h : b = a) : a.Extends b := by
  subst h
  exact CodeGen.Extends.refl _

theorem Emit_extends {o x : Int} {g g' : CodeGen} (h : Emit o x g = .ok g') : g.Extends g' := by
  have := Emit_ok h
  exact ⟨by omega, fun i hi => this.2.2.2.2 i (by omega)⟩

theorem cEmit_ok {o x : Int} {c c' : Compiler} (h : c.Emit o x = .ok c') :
    ∃ g, CPL.Emit o x c.code = .ok g ∧ c' = { c with code := g } := by
  unfold Compiler.Emit at h
  cases hg : CPL.Emit o x c.code with
  | error e => simp [hg, Except.map] at h
  | ok g =>
    simp only [hg, Except.map, Except.ok.injEq] at h
    exact ⟨g, rfl, h.symm⟩

theorem cEmit_extends {o x : Int} {c c' : Compiler} (h : c.Emit o x = .ok c') :
    c.code.Extends c'.code := by
  obtain ⟨g, hg, rfl⟩ := cEmit_ok h
  exact CPL.Emit_extends hg

theorem cBackPatch_ok {a v : Int} {c c' : Compiler} (h : c.BackPatch a v = .ok c') :
    ∃ g, CPL.BackPatch a v c.code = .ok g ∧ c' = { c with code := g } := by
  unfold Compiler.BackPatch at h
  cases hg : CPL.BackPatch a v c.code with
  | error e => simp [hg, Except.map] at h
  | ok g =>
    simp only [hg, Except.map, Except.ok.injEq] at h
    exact ⟨g, rfl, h.symm⟩

/-- A back-patch at or above the position of `g0` keeps `g0` extended. -/
theorem cBackPatch_extends {a v : Int} {c c' : Compiler} {g0 : CodeGen}
    (h : c.BackPatch a v = .ok c') (h0 : g0.Extends c.code) (ha : (g0.CodePosition : Int) ≤ a) :
    g0.Extends c'.code := by
  obtain ⟨g, hg, rfl⟩ := cBackPatch_ok h
  have := CPL.BackPatch_ok hg
  refine ⟨by simpa [this.2.2.1] using h0.1, fun i hi => ?_⟩
  have hne : i ≠ a.toNat := by omega
  simp only
  rw [this.2.2.2.2.2 i hne, h0.2 i hi]

theorem nextToken_fields (c : Compiler) :
    ∃ t r, c.nextToken = { c with CurrentToken := t, input := r } := by
  unfold Compiler.nextToken Compiler.GetToken
  cases c.input with
  | nil => exact ⟨_, _, rfl⟩
  | cons a as => exact ⟨_, _, rfl⟩

theorem Accept_fields (e : Int) (c : Compiler) :
    ∃ t r k es, Accept e c =
      { c with CurrentToken := t, input := r, recovering := k, errors := es } := by
  have h1 : ∃ t r k, acceptResync e c =
      { c with CurrentToken := t, input := r, recovering := k } := by
    unfold acceptResync
    split
    · exact ⟨_, _, _, rfl⟩
    · exact ⟨_, _, _, rfl⟩
  obtain ⟨t, r, k, h1⟩ := h1
  unfold Accept acceptNormal
  rw [h1]
  split
  · exact ⟨_, _, _, _, rfl⟩
  · obtain ⟨t', r', h2⟩ := nextToken_fields
      { c with CurrentToken := t, input := r, recovering := k }
    rw [h2]
    exact ⟨_, _, _, _, rfl⟩

@[simp] theorem Accept_code (e : Int) (c : Compiler) : (Accept e c).code = c.code := by
  obtain ⟨t, r, k, es, h⟩ := Accept_fields e c
  rw [h]

@[simp] theorem Accept_sets (e : Int) (c : Compiler) : (Accept e c).sets = c.sets := by
  obtain ⟨t, r, k, es, h⟩ := Accept_fields e c
  rw [h]

theorem Synchronise_code {F FB : SET} {c c' : Compiler} (h : Synchronise F FB c = .ok c') :
    c'.code = c.code ∧ c'.sets = c.sets := by
  unfold Synchronise at h
  obtain ⟨m, _, h⟩ := bind_eq_ok h
  split at h
  · obtain ⟨r, _, h⟩ := bind_eq_ok h
    cases h
    exact ⟨rfl, rfl⟩
  · cases h
    exact ⟨rfl, rfl⟩

theorem blockSync_code {c c' : Compiler} (h : blockSync c = .ok c') : c'.code = c.code := by
  unfold blockSync at h
  obtain ⟨c1, h1, h2⟩ := bind_eq_ok h
  rw [(Synchronise_code h2).1, (Synchronise_code h1).1]

theorem LookupSymbol_code {c : Compiler} {r : Option SYMBOL × Compiler}
    (h : LookupSymbol c = .ok r) : c.code.Extends r.2.code := by
  unfold LookupSymbol at h
  split at h
  · split at h
    · simp at h
    · split at h <;> cases h
      · exact ⟨Nat.le_refl _, fun _ _ => rfl⟩
      · exact CodeGen.Extends.refl _
  · cases h
    exact CodeGen.Extends.refl _

theorem emitLoadSP_extends (k : Nat) : ∀ {c c' : Compiler}, emitLoadSP k c = .ok c' →
    c.code.Extends c'.code := by
  induction k with
  | zero =>
    intro c c' h
    cases h
    exact CodeGen.Extends.refl _
  | succ k ih =>
    intro c c' h
    simp only [emitLoadSP] at h
    obtain ⟨c1, h1, h2⟩ := bind_eq_ok h
    exact (cEmit_extends h1).trans (ih h2)

theorem loadVariable_extends {var : SYMBOL} {c c' : Compiler} (h : loadVariable var c = .ok c') :
    c.code.Extends c'.code := by
  unfold loadVariable at h
  split at h
  · split at h
    · exact cEmit_extends h
    · split at h <;> exact cEmit_extends h
  · split at h
    · split at h
      · exact cEmit_extends h
      · obtain ⟨c1, h1, h⟩ := bind_eq_ok h
        obtain ⟨c2, h2, h3⟩ := bind_eq_ok h
        exact ((cEmit_extends h1).trans (emitLoadSP_extends _ h2)).trans
          (cEmit_extends h3)
    · cases h
      exact CodeGen.Extends.refl _

@[simp] theorem ParseAddOp_code (c : Compiler) : (ParseAddOp c).code = c.code := by
  unfold ParseAddOp
  split <;> simp

@[simp] theorem ParseMultOp_code (c : Compiler) : (ParseMultOp c).code = c.code := by
  unfold ParseMultOp
  split <;> simp

@[simp] theorem ParseRelOp_code (c : Compiler) : (ParseRelOp c).2.code = c.code := by
  unfold ParseRelOp
  repeat' split
  all_goals simp

/-- Frame property of the expression parsers: they only append. -/
theorem expression_frame (n : Nat) :
    (∀ c c', ParseExpression n c = .ok c' → c.code.Extends c'.code) ∧
    (∀ c c', ParseExpressionLoop n c = .ok c' → c.code.Extends c'.code) ∧
    (∀ c c', ParseCompoundTerm n c = .ok c' → c.code.Extends c'.code) ∧
    (∀ c c', ParseCompoundTermLoop n c = .ok c' → c.code.Extends c'.code) ∧
    (∀ c c', ParseTerm n c = .ok c' → c.code.Extends c'.code) ∧
    (∀ c c', ParseSubTerm n c = .ok c' → c.code.Extends c'.code) := by
  induction n with
  | zero =>
    refine ⟨?_, ?_, ?_, ?_, ?_, ?_⟩ <;> intro c c' h
    · simp [ParseExpression] at h
    · simp [ParseExpressionLoop] at h
    · simp [ParseCompoundTerm] at h
    · simp [ParseCompoundTermLoop] at h
    · simp [ParseTerm] at h
    · simp [ParseSubTerm] at h
  | succ n ih =>
    obtain ⟨ihE, ihEL, ihC, ihCL, ihT, ihS⟩ := ih
    refine ⟨?_, ?_, ?_, ?_, ?_, ?_⟩ <;> intro c c' h
    · simp only [ParseExpression] at h
      obtain ⟨c1, h1, h2⟩ := bind_eq_ok h
      exact (ihC _ _ h1).trans (ihEL _ _ h2)
    · simp only [ParseExpressionLoop] at h
      split at h
      · obtain ⟨c2, h2, h⟩ := bind_eq_ok h
        have e2 := ihC _ _ h2
        rw [ParseAddOp_code] at e2
        split at h
        all_goals
          obtain ⟨c3, h3, h4⟩ := bind_eq_ok h
          exact (e2.trans (cEmit_extends h3)).trans (ihEL _ _ h4)
      · cases h
        exact CodeGen.Extends.refl _
    · simp only [ParseCompoundTerm] at h
      obtain ⟨c1, h1, h2⟩ := bind_eq_ok h
      exact (ihT _ _ h1).trans (ihCL _ _ h2)
    · simp only [ParseCompoundTermLoop] at h
      split at h
      · obtain ⟨c2, h2, h⟩ := bind_eq_ok h
        have e2 := ihT _ _ h2
        rw [ParseMultOp_code] at e2
        split at h
        all_goals
          obtain ⟨c3, h3, h4⟩ := bind_eq_ok h
          exact (e2.trans (cEmit_extends h3)).trans (ihCL _ _ h4)
      · cases h
        exact CodeGen.Extends.refl _
    · simp only [ParseTerm] at h
      split at h
      · obtain ⟨c1, h1, h2⟩ := bind_eq_ok h
        have e1 := ihS _ _ h1
        rw [Accept_code] at e1
        exact e1.trans (cEmit_extends h2)
      · exact ihS _ _ h
    · simp only [ParseSubTerm] at h
      split at h
      · obtain ⟨c1, h1, h2⟩ := bind_eq_ok h
        cases h2
        simpa [ParseIntConst] using cEmit_extends h1
      · split at h
        · obtain ⟨c1, h1, h2⟩ := bind_eq_ok h
          cases h2
          have e1 := ihE _ _ h1
          simpa using e1
        · obtain ⟨r, hr, h⟩ := bind_eq_ok h
          split at h
          · simp at h
          · obtain ⟨c1, h1, h2⟩ := bind_eq_ok h
            cases h2
            have := (LookupSymbol_code hr).trans (loadVariable_extends h1)
            simpa [ParseVariable, ParseIdentifier] using this


theorem kill_extends (c : Compiler) (d : Diagnostic) :
    c.code.Extends
      ({ c.Error d with code := KillCodeGeneration c.code } : Compiler).code :=
  ⟨Nat.le_refl _, fun _ _ => rfl⟩

theorem ParseExpression_extends {n : Nat} {c c' : Compiler}
    (h : ParseExpression n c = .ok c') : c.code.Extends c'.code :=
  (expression_frame n).1 c c' h

/-- What a returning `ParseBooleanExpression` did. -/
theorem ParseBooleanExpression_ok {n : Nat} {c : Compiler} {r : Int × Compiler}
    (h : ParseBooleanExpression n c = .ok r) :
    ∃ c1 c2 c3, ParseExpression n c = .ok c1 ∧
      ParseExpression n (ParseRelOp c1).2 = .ok c2 ∧
      c2.Emit I_SUB 0 = .ok c3 ∧
      (ParseRelOp c3).2.Emit (ParseRelOp c1).1 0 = .ok r.2 ∧
      r.1 = CurrentCodeAddress c3.code := by
  unfold ParseBooleanExpression at h
  obtain ⟨c1, h1, h⟩ := bind_eq_ok h
  obtain ⟨c2, h2, h⟩ := bind_eq_ok h
  obtain ⟨c3, h3, h⟩ := bind_eq_ok h
  obtain ⟨c5, h5, h⟩ := bind_eq_ok h
  cases h
  exact ⟨c1, c2, c3, h1, h2, h3, h5, by simp [CurrentCodeAddress]⟩

/-- Frame property of `ParseBooleanExpression`: it only appends, and the
address it returns is that of the last instruction it emitted, a branch with
operand 0. -/
theorem ParseBooleanExpression_frame {n : Nat} {c : Compiler} {r : Int × Compiler}
    (h : ParseBooleanExpression n c = .ok r) :
    c.code.Extends r.2.code ∧ (c.code.CodePosition : Int) ≤ r.1 ∧
      r.1 + 1 = (r.2.code.CodePosition : Int) ∧
      (r.2.code.CodeTable r.1.toNat).address = 0 := by
  obtain ⟨c1, c2, c3, h1, h2, h3, h5, hr⟩ := ParseBooleanExpression_ok h
  have e1 := ParseExpression_extends h1
  have e2 := ParseExpression_extends h2
  rw [ParseRelOp_code] at e2
  have e3 := cEmit_extends h3
  obtain ⟨g, hg, hc5⟩ := cEmit_ok h5
  have e5 := Emit_ok hg
  rw [ParseRelOp_code] at e5
  have e13 := (e1.trans e2).trans e3
  rw [hc5]
  refine ⟨e13.trans (Emit_extends (by rw [ParseRelOp_code] at hg; exact hg)), ?_, ?_, ?_⟩
  · rw [hr]
    unfold CurrentCodeAddress
    exact_mod_cast e13.1
  · rw [hr]
    unfold CurrentCodeAddress
    simp only
    rw [e5.2.1]
    push_cast
    rfl
  · rw [hr]
    unfold CurrentCodeAddress
    simp only [Int.toNat_ofNat]
    rw [e5.2.2.2.1]

theorem ParseActualParameter_extends {n : Nat} {c c' : Compiler}
    (h : ParseActualParameter n c = .ok c') : c.code.Extends c'.code := by
  unfold ParseActualParameter at h
  split at h
  · cases h
    simpa using CodeGen.Extends.refl c.code
  · exact ParseExpression_extends h

theorem ParseProcCallListLoop_extends (n k : Nat) : ∀ {c c' : Compiler},
    ParseProcCallListLoop n k c = .ok c' → c.code.Extends c'.code := by
  induction k with
  | zero =>
    intro c c' h
    simp [ParseProcCallListLoop] at h
  | succ k ih =>
    intro c c' h
    simp only [ParseProcCallListLoop] at h
    split at h
    · obtain ⟨c1, h1, h2⟩ := bind_eq_ok h
      have e1 := ParseActualParameter_extends h1
      rw [Accept_code] at e1
      exact e1.trans (ih h2)
    · cases h
      exact CodeGen.Extends.refl _

theorem ParseProcCallList_extends {n : Nat} {c c' : Compiler}
    (h : ParseProcCallList n c = .ok c') : c.code.Extends c'.code := by
  unfold ParseProcCallList at h
  obtain ⟨c1, h1, h⟩ := bind_eq_ok h
  obtain ⟨c2, h2, h⟩ := bind_eq_ok h
  cases h
  have e1 := ParseActualParameter_extends h1
  rw [Accept_code] at e1
  simpa using e1.trans (ParseProcCallListLoop_extends n n h2)

theorem ParseAssignment_extends {n : Nat} {c c' : Compiler}
    (h : ParseAssignment n c = .ok c') : c.code.Extends c'.code := by
  unfold ParseAssignment at h
  simpa using ParseExpression_extends h

theorem callTarget_extends {target : Option SYMBOL} {c c' : Compiler}
    (h : callTarget target c = .ok c') : c.code.Extends c'.code := by
  unfold callTarget at h
  split at h
  · split at h
    · exact cEmit_extends h
    · cases h
      exact kill_extends _ _
  · cases h
    exact kill_extends _ _

theorem storeTarget_extends {target : Option SYMBOL} {c c' : Compiler}
    (h : storeTarget target c = .ok c') : c.code.Extends c'.code := by
  unfold storeTarget at h
  split at h
  · split at h
    · exact cEmit_extends h
    · cases h
      exact kill_extends _ _
  · cases h
    exact kill_extends _ _

theorem ParseRestOfStatement_extends {n : Nat} {target : Option SYMBOL} {c c' : Compiler}
    (h : ParseRestOfStatement n target c = .ok c') : c.code.Extends c'.code := by
  unfold ParseRestOfStatement at h
  split at h
  · obtain ⟨c1, h1, h2⟩ := bind_eq_ok h
    exact (ParseProcCallList_extends h1).trans (callTarget_extends h2)
  · split at h
    · exact callTarget_extends h
    · obtain ⟨c1, h1, h2⟩ := bind_eq_ok h
      exact (ParseAssignment_extends h1).trans (storeTarget_extends h2)

theorem ParseSimpleStatement_extends {n : Nat} {c c' : Compiler}
    (h : ParseSimpleStatement n c = .ok c') : c.code.Extends c'.code := by
  unfold ParseSimpleStatement at h
  obtain ⟨r, hr, h2⟩ := bind_eq_ok h
  have e2 := ParseRestOfStatement_extends h2
  rw [Accept_code] at e2
  exact (LookupSymbol_code hr).trans e2

theorem readListLoop_code (k : Nat) : ∀ {c c' : Compiler},
    readListLoop k c = .ok c' → c'.code = c.code := by
  induction k with
  | zero =>
    intro c c' h
    simp [readListLoop] at h
  | succ k ih =>
    intro c c' h
    simp only [readListLoop] at h
    split at h
    · rw [ih h]
      simp
    · cases h
      rfl

theorem ParseReadStatement_extends {n : Nat} {c c' : Compiler}
    (h : ParseReadStatement n c = .ok c') : c.code.Extends c'.code := by
  unfold ParseReadStatement at h
  obtain ⟨c2, h2, h⟩ := bind_eq_ok h
  obtain ⟨c3, h3, h⟩ := bind_eq_ok h
  cases h
  have e2 := ParseProcCallList_extends h2
  have e3 := readListLoop_code n h3
  simp only [Accept_code] at e2 e3 ⊢
  rw [e3]
  exact e2

theorem writeListLoop_extends (n k : Nat) : ∀ {c c' : Compiler},
    writeListLoop n k c = .ok c' → c.code.Extends c'.code := by
  induction k with
  | zero =>
    intro c c' h
    simp [writeListLoop] at h
  | succ k ih =>
    intro c c' h
    simp only [writeListLoop] at h
    split at h
    · obtain ⟨c1, h1, h2⟩ := bind_eq_ok h
      have e1 := ParseExpression_extends h1
      rw [Accept_code] at e1
      exact e1.trans (ih h2)
    · cases h
      exact CodeGen.Extends.refl _

theorem ParseWriteStatement_extends {n : Nat} {c c' : Compiler}
    (h : ParseWriteStatement n c = .ok c') : c.code.Extends c'.code := by
  unfold ParseWriteStatement at h
  obtain ⟨c1, h1, h⟩ := bind_eq_ok h
  obtain ⟨c2, h2, h⟩ := bind_eq_ok h
  obtain ⟨c3, h3, h⟩ := bind_eq_ok h
  cases h
  have e1 := ParseExpression_extends h1
  have e2 := ParseProcCallList_extends h2
  have e3 := writeListLoop_extends n n h3
  simp only [Accept_code] at e1 e2 e3 ⊢
  exact (e1.trans e2).trans e3

/-- Frame property of the statement parsers: instructions below the code
address on entry are never changed (back-patches only reach branches emitted
by the statement itself) and the address never decreases. -/
theorem block_frame (n : Nat) :
    (∀ c c', ParseBlock n c = .ok c' → c.code.Extends c'.code) ∧
    (∀ c c', ParseBlockLoop n c = .ok c' → c.code.Extends c'.code) ∧
    (∀ c c', ParseStatement n c = .ok c' → c.code.Extends c'.code) ∧
    (∀ c c', ParseWhileStatement n c = .ok c' → c.code.Extends c'.code) ∧
    (∀ c c', ParseIfStatement n c = .ok c' → c.code.Extends c'.code) := by
  induction n with
  | zero =>
    refine ⟨?_, ?_, ?_, ?_, ?_⟩ <;> intro c c' h
    · simp [ParseBlock] at h
    · simp [ParseBlockLoop] at h
    · simp [ParseStatement] at h
    · simp [ParseWhileStatement] at h
    · simp [ParseIfStatement] at h
  | succ n ih =>
    obtain ⟨ihB, ihL, ihS, ihW, ihI⟩ := ih
    refine ⟨?_, ?_, ?_, ?_, ?_⟩ <;> intro c c' h
    · simp only [ParseBlock] at h
      obtain ⟨c1, h1, h⟩ := bind_eq_ok h
      obtain ⟨c2, h2, h⟩ := bind_eq_ok h
      cases h
      have e1 := blockSync_code h1
      rw [Accept_code] at e1
      have e2 := ihL _ _ h2
      rw [e1] at e2
      simpa using e2
    · simp only [ParseBlockLoop] at h
      split at h
      · obtain ⟨c1, h1, h⟩ := bind_eq_ok h
        obtain ⟨c2, h2, h3⟩ := bind_eq_ok h
        have e2 := blockSync_code h2
        rw [Accept_code] at e2
        have e3 := ihL _ _ h3
        rw [e2] at e3
        exact (ihS _ _ h1).trans e3
      · cases h
        exact CodeGen.Extends.refl _
    · simp only [ParseStatement] at h
      split at h
      · exact ParseSimpleStatement_extends h
      · split at h
        · exact ihW _ _ h
        · split at h
          · exact ihI _ _ h
          · split at h
            · exact ParseReadStatement_extends h
            · split at h
              · exact ParseWriteStatement_extends h
              · cases h
                exact CodeGen.Extends.refl _
    · simp only [ParseWhileStatement] at h
      obtain ⟨b, hb, h⟩ := bind_eq_ok h
      obtain ⟨c2, h2, h⟩ := bind_eq_ok h
      obtain ⟨c3, h3, h4⟩ := bind_eq_ok h
      have fb := ParseBooleanExpression_frame hb
      rw [Accept_code] at fb
      have e2 := ihB _ _ h2
      rw [Accept_code] at e2
      exact cBackPatch_extends h4 ((fb.1.trans e2).trans (cEmit_extends h3)) fb.2.1
    · simp only [ParseIfStatement] at h
      obtain ⟨b, hb, h⟩ := bind_eq_ok h
      obtain ⟨c2, h2, h⟩ := bind_eq_ok h
      have fb := ParseBooleanExpression_frame hb
      rw [Accept_code] at fb
      have e2 := ihB _ _ h2
      rw [Accept_code] at e2
      split at h
      · obtain ⟨c3, h3, h⟩ := bind_eq_ok h
        obtain ⟨c4, h4, h⟩ := bind_eq_ok h
        obtain ⟨c5, h5, h6⟩ := bind_eq_ok h
        have e4 := cBackPatch_extends h4 ((fb.1.trans e2).trans (cEmit_extends h3)) fb.2.1
        have e5 := ihB _ _ h5
        rw [Accept_code] at e5
        refine cBackPatch_extends h6 (e4.trans e5) ?_
        unfold CurrentCodeAddress
        exact_mod_cast (fb.1.trans e2).1
      · exact cBackPatch_extends h (fb.1.trans e2) fb.2.1

/-! ### Code of expressions -/

theorem pushCode_listing (g : CodeGen) (a : List INSTRUCTION) :
    (pushCode g a).listing = g.listing ++ a := by
  induction a generalizing g with
  | nil => simp [pushCode]
  | cons i is ih =>
    rw [pushCode, ih]
    simp only [CodeGen.listing, List.range_succ, List.map_append, List.map_cons, List.map_nil,
      if_true, List.append_assoc, List.cons_append, List.nil_append]
    congr 1
    apply List.map_congr_left
    intro k hk
    have : k ≠ g.CodePosition := by
      have := List.mem_range.mp hk
      omega
    simp [this]

theorem SetupSets_eq : SetupSets = .ok builtSets := rfl

/-- C9: for every expression built from integer constants, unary minus,
parentheses and `+ - * /` (followed by a token that does not continue it, in
a buffer with room for its code), `ParseExpression` returns and has appended
to the code buffer exactly the post-order translation of the parse tree:
`Load #n` per constant, `Add`/`Sub`/`Mult`/`Div` after the code of the right
operand, `Neg` after the sub-term behind a leading minus, nothing else; the
lookahead is then the first token after the expression and no error was
reported. -/
theorem ParseExpression_emits_postorder (e : Expression) (c : Compiler) (rest : List TOKEN)
    (hs : c.CurrentToken :: c.input = e.tokens ++ rest)
    (hrest : ¬ (rest.headD endOfInputToken).isArithOp)
    (hroom : c.code.CodePosition + e.postorder.length ≤ CODETABLESIZE)
    (n : Nat) (hn : e.fuel ≤ n) :
    ∃ c', ParseExpression n c = .ok c' ∧
      c'.code.listing = c.code.listing ++ e.postorder ∧
      c'.code.ErrorsInProgram = c.code.ErrorsInProgram ∧
      c'.CurrentToken = rest.headD endOfInputToken ∧
      c'.input = rest.tail ∧
      c'.errors = c.errors := by
  have hop : (rest.headD endOfInputToken).code ≠ ADD ∧
      (rest.headD endOfInputToken).code ≠ SUBTRACT ∧
      (rest.headD endOfInputToken).code ≠ MULTIPLY ∧
      (rest.headD endOfInputToken).code ≠ DIVIDE := by
    unfold TOKEN.isArithOp at hrest
    simpa [not_or] using hrest
  obtain ⟨m, rfl⟩ : ∃ m, n = m + 1 := ⟨n - 1, by
    have := e.fuel_pos
    omega⟩
  have hpre := ParseExpression_leading e c rest m hs hroom hn ⟨hop.2.2.1, hop.2.2.2⟩
  refine ⟨c.after e.postorder rest,
    ParseExpression_of_leading c _ rest m e.fuel hn hpre ⟨hop.1, hop.2.1⟩, ?_, ?_, rfl, rfl, rfl⟩
  · exact pushCode_listing _ _
  · exact pushCode_errors _ _

/-- Witness for C9: `1 + 2 * -(3 - 4)` followed by `;` at the start of a
compile. -/
theorem ParseExpression_emits_postorder_witness :
    ∃ c', ParseExpression 40
        (Compiler.initial builtSets
          [intTok 1, tk ADD, intTok 2, tk MULTIPLY, tk SUBTRACT, tk LEFTPARENTHESIS,
            intTok 3, tk SUBTRACT, intTok 4, tk RIGHTPARENTHESIS, tk SEMICOLON] 0) = .ok c' ∧
      c'.code.listing =
        [⟨I_LOADI, 1⟩, ⟨I_LOADI, 2⟩, ⟨I_LOADI, 3⟩, ⟨I_LOADI, 4⟩, ⟨I_SUB, 0⟩, ⟨I_NEG, 0⟩,
          ⟨I_MULT, 0⟩, ⟨I_ADD, 0⟩] ∧
      c'.CurrentToken = tk SEMICOLON := by
  obtain ⟨c', h, hl, _, hc, _⟩ := ParseExpression_emits_postorder
    (.add (.single (.single (.plain (.const 1 0)))) 0
      (.mul (.single (.plain (.const 2 0))) 0
        (.minus 0 (.paren 0
          (.sub (.single (.single (.plain (.const 3 0)))) 0
            (.single (.plain (.const 4 0)))) 0))))
    (Compiler.initial builtSets
      [intTok 1, tk ADD, intTok 2, tk MULTIPLY, tk SUBTRACT, tk LEFTPARENTHESIS,
        intTok 3, tk SUBTRACT, intTok 4, tk RIGHTPARENTHESIS, tk SEMICOLON] 0)
    [tk SEMICOLON] (by decide) (by unfold TOKEN.isArithOp; decide) (by decide) 40 (by decide)
  exact ⟨c', h, hl, hc⟩

/-! ### Boolean expressions, IF and WHILE -/

theorem Extends_listing {g g' : CodeGen} (h : g.Extends g') :
    ∃ l, g'.listing = g.listing ++ l := by
  refine ⟨(List.range' g.CodePosition (g'.CodePosition - g.CodePosition)).map g'.CodeTable, ?_⟩
  unfold CodeGen.listing
  have hsplit : List.range g'.CodePosition =
      List.range g.CodePosition ++
        List.range' g.CodePosition (g'.CodePosition - g.CodePosition) := by
    obtain ⟨d, hd⟩ : ∃ d, g'.CodePosition = g.CodePosition + d := ⟨_, (Nat.add_sub_cancel' h.1).symm⟩
    rw [hd, Nat.add_sub_cancel_left, List.range_eq_range', List.range_eq_range',
      Nat.add_comm g.CodePosition d, ← List.range'_append_1, Nat.zero_add]
  rw [hsplit, List.map_append]
  congr 1
  apply List.map_congr_left
  intro k hk
  exact h.2 k (List.mem_range.mp hk)

theorem ParseRelOp_of_relop (c : Compiler)
    (hop : c.CurrentToken.code = LESSEQUAL ∨ c.CurrentToken.code = GREATEREQUAL ∨
      c.CurrentToken.code = LESS ∨ c.CurrentToken.code = EQUALITY ∨
      c.CurrentToken.code = GREATER) :
    ∃ br, ParseRelOp c = (br, Accept c.CurrentToken.code c) ∧
      (c.CurrentToken.code = LESSEQUAL → br = I_BG) ∧
      (c.CurrentToken.code = GREATEREQUAL → br = I_BL) ∧
      (c.CurrentToken.code = LESS → br = I_BGZ) ∧
      (c.CurrentToken.code = EQUALITY → br = I_BZ) ∧
      (c.CurrentToken.code = GREATER → br = I_BLZ) := by
  unfold ParseRelOp
  rcases hop with h | h | h | h | h <;> rw [h] <;>
    simp [LESSEQUAL, GREATEREQUAL, LESS, EQUALITY, GREATER]

/-- C10: for every boolean expression `E1 op E2` with `op` one of
`<= >= < = >` (both expressions parse and the buffer has room for two more
instructions), `ParseBooleanExpression` returns, having emitted the code of
`E1`, the code of `E2`, then `Sub`, then one conditional branch with operand 0
whose opcode is `Bg` for `<=`, `Bl` for `>=`, `Bgz` for `<`, `Bz` for `=` and
`Blz` for `>`; the value returned is the address of that branch, the code
address just after the `Sub`. -/
theorem ParseBooleanExpression_negated_branch (n : Nat) (c c1 c2 : Compiler)
    (h1 : ParseExpression n c = .ok c1)
    (hop : c1.CurrentToken.code = LESSEQUAL ∨ c1.CurrentToken.code = GREATEREQUAL ∨
      c1.CurrentToken.code = LESS ∨ c1.CurrentToken.code = EQUALITY ∨
      c1.CurrentToken.code = GREATER)
    (h2 : ParseExpression n (Accept c1.CurrentToken.code c1) = .ok c2)
    (hroom : c2.code.CodePosition + 2 ≤ CODETABLESIZE) :
    ∃ br c' l1 l2,
      ParseBooleanExpression n c = .ok (CurrentCodeAddress c2.code + 1, c') ∧
      c1.code.listing = c.code.listing ++ l1 ∧
      c2.code.listing = c1.code.listing ++ l2 ∧
      c'.code.listing = c.code.listing ++ l1 ++ l2 ++ [⟨I_SUB, 0⟩, ⟨br, 0⟩] ∧
      c'.code.CodeTable (c2.code.CodePosition + 1) = ⟨br, 0⟩ ∧
      (c1.CurrentToken.code = LESSEQUAL → br = I_BG) ∧
      (c1.CurrentToken.code = GREATEREQUAL → br = I_BL) ∧
      (c1.CurrentToken.code = LESS → br = I_BGZ) ∧
      (c1.CurrentToken.code = EQUALITY → br = I_BZ) ∧
      (c1.CurrentToken.code = GREATER → br = I_BLZ) := by
  obtain ⟨br, hrel, hmap⟩ := ParseRelOp_of_relop c1 hop
  obtain ⟨l1, hl1⟩ := Extends_listing (ParseExpression_extends h1)
  have e2 := ParseExpression_extends h2
  rw [Accept_code] at e2
  obtain ⟨l2, hl2⟩ := Extends_listing e2
  have hsub := Compiler.Emit_eq c2 I_SUB 0 (by omega)
  have hpos4 : (ParseRelOp { c2 with code := pushCode c2.code [⟨I_SUB, 0⟩] }).2.code =
      pushCode c2.code [⟨I_SUB, 0⟩] := ParseRelOp_code _
  have hbr := Compiler.Emit_eq (ParseRelOp { c2 with code := pushCode c2.code [⟨I_SUB, 0⟩] }).2
    br 0 (by rw [hpos4, pushCode_position]; simp; omega)
  refine ⟨br, { (ParseRelOp { c2 with code := pushCode c2.code [⟨I_SUB, 0⟩] }).2 with
      code := pushCode (ParseRelOp { c2 with code := pushCode c2.code [⟨I_SUB, 0⟩] }).2.code
        [⟨br, 0⟩] }, l1, l2, ?_, hl1, hl2, ?_, ?_, hmap⟩
  · unfold ParseBooleanExpression
    rw [h1, ok_bind, hrel]
    simp only []
    rw [h2, ok_bind, hsub, ok_bind, hbr, ok_bind]
    simp only [pure, Except.pure, hpos4, CurrentCodeAddress, pushCode_position]
    simp
  · simp only [hpos4]
    rw [pushCode_listing, pushCode_listing, hl2, hl1]
    simp
  · simp only [hpos4]
    simp [pushCode]


theorem ParseBlock_extends {n : Nat} {c c' : Compiler}
    (h : ParseBlock n c = .ok c') : c.code.Extends c'.code :=
  (block_frame n).1 c c' h

/-- C4: whenever `ParseIfStatement` returns, the conditional branch emitted
for the boolean expression is at the address `bp` that
`ParseBooleanExpression` returned, and: if `ELSE` follows the then-block, a
`Br` sits at the first address after the then-block, the operand of the
conditional branch is the code address at which the else-block starts, and
the operand of the `Br` is the code address after the else-block; without
`ELSE` nothing is emitted after the then-block and the operand of the
conditional branch is the first address after it. -/
theorem ParseIfStatement_branch_targets (n : Nat) (c c' : Compiler)
    (h : ParseIfStatement (n + 1) c = .ok c') :
    ∃ (bp : Int) (cb cthen : Compiler),
      ParseBooleanExpression n (Accept IF c) = .ok (bp, cb) ∧
      ParseBlock n (Accept THEN cb) = .ok cthen ∧
      0 ≤ bp ∧ bp + 1 = CurrentCodeAddress cb.code ∧
      (cthen.CurrentToken.code = ELSE →
        ∃ cs celse : Compiler,
          CurrentCodeAddress cs.code = CurrentCodeAddress cthen.code + 1 ∧
          ParseBlock n cs = .ok celse ∧
          CurrentCodeAddress c'.code = CurrentCodeAddress celse.code ∧
          c'.code.CodeTable bp.toNat =
            ⟨(cb.code.CodeTable bp.toNat).opcode, CurrentCodeAddress cs.code⟩ ∧
          c'.code.CodeTable cthen.code.CodePosition = ⟨I_BR, CurrentCodeAddress c'.code⟩) ∧
      (cthen.CurrentToken.code ≠ ELSE →
        CurrentCodeAddress c'.code = CurrentCodeAddress cthen.code ∧
        c'.code.CodeTable bp.toNat =
          ⟨(cb.code.CodeTable bp.toNat).opcode, CurrentCodeAddress cthen.code⟩ ∧
        ∀ i, i ≠ bp.toNat → c'.code.CodeTable i = cthen.code.CodeTable i) := by
  simp only [ParseIfStatement] at h
  obtain ⟨b, hb, h⟩ := bind_eq_ok h
  obtain ⟨c2, h2, h⟩ := bind_eq_ok h
  have fb := ParseBooleanExpression_frame hb
  have e2 := ParseBlock_extends h2
  rw [Accept_code] at e2
  have hbp0 : 0 ≤ b.1 := by
    have := fb.2.1
    omega
  have hbplt : b.1.toNat < b.2.code.CodePosition := by
    have := fb.2.2.1
    omega
  have hle := e2.1
  refine ⟨b.1, b.2, c2, hb, h2, hbp0, fb.2.2.1, ?_, ?_⟩
  · intro hE
    rw [if_pos hE] at h
    obtain ⟨c3, h3, h⟩ := bind_eq_ok h
    obtain ⟨c4, h4, h⟩ := bind_eq_ok h
    obtain ⟨c5, h5, h6⟩ := bind_eq_ok h
    obtain ⟨g3, hg3, rfl⟩ := cEmit_ok h3
    have k3 := Emit_ok hg3
    obtain ⟨g4, hg4, rfl⟩ := cBackPatch_ok h4
    have k4 := BackPatch_ok hg4
    have e5 := ParseBlock_extends h5
    rw [Accept_code] at e5
    obtain ⟨g6, hg6, rfl⟩ := cBackPatch_ok h6
    have k6 := BackPatch_ok hg6
    simp only [CurrentCodeAddress] at k4 k6 ⊢
    simp only [Int.toNat_ofNat] at k6
    refine ⟨_, c5, ?_, h5, ?_, ?_, ?_⟩
    · simp only [Accept_code]
      rw [k4.2.2.1, k3.2.1]
      push_cast
      rfl
    · rw [k6.2.2.1]
    · simp only [Accept_code]
      rw [k6.2.2.2.2.2 _ (by omega), e5.2 _ (by rw [k4.2.2.1, k3.2.1]; omega), k4.2.2.2.2.1,
        k3.2.2.2.2 _ (by omega), e2.2 _ hbplt, k4.2.2.1]
    · rw [k6.2.2.2.2.1, e5.2 _ (by rw [k4.2.2.1, k3.2.1]; omega),
        k4.2.2.2.2.2 _ (by omega), k3.2.2.2.1, k6.2.2.1]
  · intro hE
    rw [if_neg hE] at h
    obtain ⟨g, hg, rfl⟩ := cBackPatch_ok h
    have k := BackPatch_ok hg
    simp only [CurrentCodeAddress] at k ⊢
    refine ⟨by rw [k.2.2.1], ?_, k.2.2.2.2.2⟩
    rw [k.2.2.2.2.1, e2.2 _ hbplt]

/-- C5: whenever `ParseWhileStatement` returns, the last instruction it
emitted is a `Br` whose operand is the code address on entry (where the code
of the boolean expression starts), and the operand of the conditional branch
emitted for the boolean expression is the address just after that `Br`. -/
theorem ParseWhileStatement_branch_targets (n : Nat) (c c' : Compiler)
    (h : ParseWhileStatement (n + 1) c = .ok c') :
    ∃ (bp : Int) (cb cbody : Compiler),
      ParseBooleanExpression n (Accept WHILE c) = .ok (bp, cb) ∧
      ParseBlock n (Accept DO cb) = .ok cbody ∧
      0 ≤ bp ∧ bp + 1 = CurrentCodeAddress cb.code ∧
      CurrentCodeAddress c'.code = CurrentCodeAddress cbody.code + 1 ∧
      c'.code.CodeTable cbody.code.CodePosition = ⟨I_BR, CurrentCodeAddress c.code⟩ ∧
      c'.code.CodeTable bp.toNat =
        ⟨(cb.code.CodeTable bp.toNat).opcode, CurrentCodeAddress c'.code⟩ := by
  simp only [ParseWhileStatement] at h
  obtain ⟨b, hb, h⟩ := bind_eq_ok h
  obtain ⟨c2, h2, h⟩ := bind_eq_ok h
  obtain ⟨c3, h3, h4⟩ := bind_eq_ok h
  have fb := ParseBooleanExpression_frame hb
  have e2 := ParseBlock_extends h2
  rw [Accept_code] at e2
  have hbp0 : 0 ≤ b.1 := by
    have := fb.2.1
    omega
  have hbplt : b.1.toNat < b.2.code.CodePosition := by
    have := fb.2.2.1
    omega
  have hle := e2.1
  obtain ⟨g3, hg3, rfl⟩ := cEmit_ok h3
  have k3 := Emit_ok hg3
  obtain ⟨g4, hg4, rfl⟩ := cBackPatch_ok h4
  have k4 := BackPatch_ok hg4
  simp only [CurrentCodeAddress, Accept_code] at k3 k4 ⊢
  refine ⟨b.1, b.2, c2, hb, h2, hbp0, fb.2.2.1, ?_, ?_, ?_⟩
  · rw [k4.2.2.1, k3.2.1]
    push_cast
    rfl
  · rw [k4.2.2.2.2.2 _ (by omega), k3.2.2.2.1]
  · rw [k4.2.2.2.2.1, k3.2.2.2.2 _ (by omega), e2.2 _ hbplt, k4.2.2.1]


theorem ok_of_isOk {α : Type} (r : Except Fatal α) (d : α) (h : isOk r = true) :
    r = .ok (returned r d) := by
  cases r with
  | ok a => rfl
  | error e => simp [isOk] at h

/-- Witness for C10: `1 >= 2` compiles to `Load #1, Load #2, Sub, Bl 0` and
the address returned is 3. -/
theorem ParseBooleanExpression_negated_branch_witness :
    ∃ c', ParseBooleanExpression 20 sampleRelation = .ok (3, c') ∧
      c'.code.CodeTable 3 = ⟨I_BL, 0⟩ ∧ c'.code.CodePosition = 4 := by
  obtain ⟨br, c', l1, l2, hrun, _, _, hl, htab, hmap⟩ :=
    ParseBooleanExpression_negated_branch 20 sampleRelation
      (returned (ParseExpression 20 sampleRelation) sampleRelation)
      (returned (ParseExpression 20
        (Accept GREATEREQUAL (returned (ParseExpression 20 sampleRelation) sampleRelation)))
        sampleRelation)
      (ok_of_isOk _ _ (by decide!))
      (Or.inr (Or.inl (by decide!)))
      (by
        have hc : (returned (ParseExpression 20 sampleRelation) sampleRelation).CurrentToken.code
            = GREATEREQUAL := by decide!
        rw [hc]
        exact ok_of_isOk _ _ (by decide!))
      (by decide!)
  have hbr : br = I_BL := hmap.2.1 (by decide!)
  have hpos : (returned (ParseExpression 20
      (Accept GREATEREQUAL (returned (ParseExpression 20 sampleRelation) sampleRelation)))
      sampleRelation).code.CodePosition = 2 := by decide!
  rw [hpos] at htab
  simp only [CurrentCodeAddress, hpos] at hrun
  have hlen := congrArg List.length hl
  simp only [CodeGen.listing, List.length_map, List.length_range, List.length_append,
    List.length_cons, List.length_nil] at hlen
  have hrun' := ParseBooleanExpression_frame hrun
  refine ⟨c', hrun, by rw [htab, hbr], ?_⟩
  have := hrun'.2.2.1
  simp only at this
  omega

/-- Witness for C4: `IF 1 < 2 THEN BEGIN END ELSE BEGIN END` compiles to
`Load #1, Load #2, Sub, Bgz 5, Br 5`. -/
theorem ParseIfStatement_branch_targets_witness :
    ParseIfStatement (19 + 1) sampleIfElse =
        .ok (returned (ParseIfStatement 20 sampleIfElse) sampleIfElse) ∧
      (returned (ParseIfStatement 20 sampleIfElse) sampleIfElse).code.listing =
        [⟨I_LOADI, 1⟩, ⟨I_LOADI, 2⟩, ⟨I_SUB, 0⟩, ⟨I_BGZ, 5⟩, ⟨I_BR, 5⟩] ∧
      ∃ (bp : Int) (cb cthen : Compiler),
        ParseBooleanExpression 19 (Accept IF sampleIfElse) = .ok (bp, cb) ∧
        ParseBlock 19 (Accept THEN cb) = .ok cthen ∧
        0 ≤ bp ∧ bp + 1 = CurrentCodeAddress cb.code :=
  ⟨ok_of_isOk _ _ (by decide!), by decide!,
    by
      obtain ⟨bp, cb, cthen, h1, h2, h3, h4, _⟩ := ParseIfStatement_branch_targets 19
        sampleIfElse (returned (ParseIfStatement 20 sampleIfElse) sampleIfElse)
        (ok_of_isOk _ _ (by decide!))
      exact ⟨bp, cb, cthen, h1, h2, h3, h4⟩⟩

/-- Witness for C5: `WHILE 1 <= 2 DO BEGIN END` compiles to
`Load #1, Load #2, Sub, Bg 5, Br 0`. -/
theorem ParseWhileStatement_branch_targets_witness :
    ParseWhileStatement (19 + 1) sampleWhile =
        .ok (returned (ParseWhileStatement 20 sampleWhile) sampleWhile) ∧
      (returned (ParseWhileStatement 20 sampleWhile) sampleWhile).code.listing =
        [⟨I_LOADI, 1⟩, ⟨I_LOADI, 2⟩, ⟨I_SUB, 0⟩, ⟨I_BG, 5⟩, ⟨I_BR, 0⟩] ∧
      ∃ (bp : Int) (cb cbody : Compiler),
        ParseBooleanExpression 19 (Accept WHILE sampleWhile) = .ok (bp, cb) ∧
        ParseBlock 19 (Accept DO cb) = .ok cbody ∧
        0 ≤ bp ∧ bp + 1 = CurrentCodeAddress cb.code :=
  ⟨ok_of_isOk _ _ (by decide!), by decide!,
    by
      obtain ⟨bp, cb, cbody, h1, h2, h3, h4, _⟩ := ParseWhileStatement_branch_targets 19
        sampleWhile (returned (ParseWhileStatement 20 sampleWhile) sampleWhile)
        (ok_of_isOk _ _ (by decide!))
      exact ⟨bp, cb, cbody, h1, h2, h3, h4⟩⟩

/-! ### Scopes of the symbol table -/

theorem removeChain_append (d : Int) (news old : List SYMBOL)
    (h : ∀ s ∈ news, s.scope ≥ d) : removeChain d (news ++ old) = removeChain d old := by
  induction news with
  | nil => rfl
  | cons a as ih =>
    have ha : a.scope ≥ d := h a (List.mem_cons_self _ _)
    simp only [List.cons_append, removeChain, ha, if_true]
    exact ih (fun s hs => h s (List.mem_cons_of_mem _ hs))

theorem removeChain_of_lt (d : Int) (old : List SYMBOL)
    (h : ∀ s ∈ old, s.scope < d) : removeChain d old = old := by
  cases old with
  | nil => rfl
  | cons a as =>
    have ha : ¬ a.scope ≥ d := by
      have := h a (List.mem_cons_self _ _)
      omega
    simp [removeChain, ha]

theorem Hash_lt (s : List Nat) : Hash s < HASHSIZE := by
  unfold Hash
  exact Nat.mod_lt _ (by decide)

/-- What `MakeSymbolTableEntry` does to the table when the lookahead is an
identifier with a spelling. -/
theorem MakeSymbolTableEntry_table (ty : Int) (c : Compiler) (name : List Nat) (v p : Int) :
    ∃ c', MakeSymbolTableEntry ty { c with CurrentToken := ⟨IDENTIFIER, v, p, some name⟩ }
        = .ok c' ∧ c'.scope = c.scope ∧
      ((c'.HashTable = c.HashTable) ∨
        ∃ sym : SYMBOL, sym.scope = c.scope ∧
          c'.HashTable = fun i => if i = Hash name then sym :: c.HashTable i else c.HashTable i) := by
  unfold MakeSymbolTableEntry
  simp only [if_true]
  split
  · refine ⟨_, rfl, rfl, Or.inr
      ⟨{ s := match (Probe c.HashTable name).1 with
              | none => name
              | some o => o.s
         scope := c.scope
         type := ty
         pcount := -1
         ptypes := -1
         address := if ty = STYPE_VARIABLE then c.VarLctn else -1 }, rfl, ?_⟩⟩
    funext i
    simp only [setHead, EnterSymbol, Probe]
    split
    · simp only [List.tail_cons, List.cons.injEq, and_true]
    · rfl
  · exact ⟨_, rfl, rfl, Or.inl rfl⟩

theorem declareNames_table (ds : List (List Nat × Int)) : ∀ (c : Compiler),
    ∃ c', declareNames ds c = .ok c' ∧ c'.scope = c.scope ∧
      ∀ i, ∃ news : List SYMBOL, (∀ s ∈ news, s.scope = c.scope) ∧
        c'.HashTable i = news ++ c.HashTable i := by
  induction ds with
  | nil =>
    intro c
    exact ⟨c, rfl, rfl, fun i => ⟨[], by simp, rfl⟩⟩
  | cons d ds ih =>
    intro c
    obtain ⟨c1, h1, hs1, ht1⟩ := MakeSymbolTableEntry_table d.2 c d.1 0 0
    obtain ⟨c2, h2, hs2, ht2⟩ := ih c1
    refine ⟨c2, ?_, by rw [hs2, hs1], fun i => ?_⟩
    · simp only [declareNames, h1, ok_bind, h2]
    · obtain ⟨news, hn, hi⟩ := ht2 i
      rw [hs1] at hn
      rcases ht1 with ht1 | ⟨sym, hsym, ht1⟩
      · exact ⟨news, hn, by rw [hi, ht1]⟩
      · by_cases hh : i = Hash d.1
        · refine ⟨news ++ [sym], ?_, ?_⟩
          · intro s hs
            rcases List.mem_append.mp hs with hs | hs
            · exact hn s hs
            · rw [List.mem_singleton.mp hs, hsym]
          · rw [hi, ht1]
            simp [hh]
        · exact ⟨news, hn, by rw [hi, ht1]; simp [hh]⟩

/-- C3: in a symbol table whose symbols all have a scope below the current
depth `d`, after any sequence of names has been declared at depth `d` with
`MakeSymbolTableEntry` (which probes, and enters with scope `d` when that is
permitted), `RemoveSymbols d` makes `Probe` return for each of those names
what it returned before the declarations: nil when the name had no binding,
otherwise that outer binding, whose scope is below `d`.  (No bound on the
length of the names is needed.) -/
theorem RemoveSymbols_restores (names : List (List Nat × Int)) (c : Compiler)
    (houter : ∀ i, ∀ s ∈ c.HashTable i, s.scope < c.scope) :
    ∃ c', declareNames names c = .ok c' ∧
      ∀ d ∈ names,
        (Probe (RemoveSymbols c.scope c'.HashTable) d.1).1 = (Probe c.HashTable d.1).1 ∧
        ∀ o, (Probe c.HashTable d.1).1 = some o → o.scope < c.scope := by
  obtain ⟨c', hrun, hscope, htab⟩ := declareNames_table names c
  refine ⟨c', hrun, fun d _ => ⟨?_, ?_⟩⟩
  · simp only [Probe]
    have hb : RemoveSymbols c.scope c'.HashTable (Hash d.1) = c.HashTable (Hash d.1) := by
      obtain ⟨news, hn, hi⟩ := htab (Hash d.1)
      simp only [RemoveSymbols, Hash_lt, if_true]
      rw [hi, removeChain_append _ _ _ (fun s hs => by rw [hn s hs]),
        removeChain_of_lt _ _ (houter _)]
    rw [hb]
  · intro o ho
    simp only [Probe] at ho
    have hmem : ∀ (l : List SYMBOL), probeChain d.1 l = some o → o ∈ l := by
      intro l
      induction l with
      | nil => intro h; simp [probeChain] at h
      | cons a as ih =>
        intro h
        simp only [probeChain] at h
        split at h
        · exact List.mem_cons_of_mem _ (ih h)
        · cases h
          exact List.mem_cons_self _ _
    exact houter _ o (hmem _ ho)

/-- Witness for C3: with `x` bound at depth 1, declaring `x` and `y` at depth 2
and removing depth 2 leaves `x` on its outer binding and `y` unbound. -/
theorem RemoveSymbols_restores_witness :
    (∀ i, ∀ s ∈ sampleScoped.HashTable i, s.scope < sampleScoped.scope) ∧
    ∃ c', declareNames [([120], STYPE_VARIABLE), ([121], STYPE_VARIABLE)] sampleScoped = .ok c' ∧
      (Probe (RemoveSymbols 2 c'.HashTable) [120]).1 = some ⟨[120], 1, STYPE_VARIABLE, -1, -1, 0⟩ ∧
      (Probe (RemoveSymbols 2 c'.HashTable) [121]).1 = none := by
  have houter : ∀ i, ∀ s ∈ sampleScoped.HashTable i, s.scope < sampleScoped.scope := by
    intro i s hs
    simp only [sampleScoped] at hs ⊢
    split at hs
    · rw [List.mem_singleton.mp hs]
      decide
    · simp at hs
  refine ⟨houter, ?_⟩
  obtain ⟨c', hrun, h⟩ := RemoveSymbols_restores
    [([120], STYPE_VARIABLE), ([121], STYPE_VARIABLE)] sampleScoped houter
  refine ⟨c', hrun, ?_, ?_⟩
  · have := (h ([120], STYPE_VARIABLE) (by simp)).1
    exact this.trans (by decide!)
  · have := (h ([121], STYPE_VARIABLE) (by simp)).1
    exact this.trans (by decide!)

/-! ### The character processor and the scanner -/

theorem LINE.put_ok (l : LINE) (i ch : Int) (h0 : 0 ≤ i) (h1 : i < M_LINE_WIDTH + 2) :
    l.put i ch = .ok { l with s := fun k => if k = i.toNat then ch else l.s k } := by
  unfold LINE.put
  rw [if_pos ⟨h0, h1⟩]

/-- `DisplayLine` returns for a line whose column is inside the buffer; it
changes only the listing and the line number of the module state, keeps a
NULL line NULL and a line a line. -/
theorem DisplayLine_ok (number : Int) (line : Option LINE) (p : CharProcessor)
    (h : ∀ l, line = some l → 0 ≤ l.cpos ∧ l.cpos ≤ M_LINE_WIDTH + 1) :
    ∃ line' ls num, DisplayLine number line p =
        .ok (line', { p with listed := ls, CurrentLineNum := num }) ∧
      (line'.isSome = line.isSome) := by
  cases line with
  | none => exact ⟨none, p.listed, p.CurrentLineNum, rfl, rfl⟩
  | some l =>
    have hl := h l rfl
    unfold DisplayLine
    simp only
    split
    · rw [LINE.put_ok l l.cpos 0 hl.1 (by omega)]
      simp only [ok_bind, pure, Except.pure]
      split
      · exact ⟨_, _, _, rfl, rfl⟩
      · exact ⟨_, _, _, rfl, rfl⟩
    · exact ⟨some l, p.listed, p.CurrentLineNum, rfl, rfl⟩

theorem LineOK_getD {p : CharProcessor} (h : LineOK p) :
    0 ≤ (p.CurrentLine.getD NewLine).cpos ∧ (p.CurrentLine.getD NewLine).cpos ≤ M_LINE_WIDTH := by
  cases hc : p.CurrentLine with
  | none => simp [NewLine, M_LINE_WIDTH]
  | some l => simpa using h.2.2.2.1 l hc

/-- Reading an ordinary character (no tab, no newline): it is returned, the
input advances and the invariant is kept. -/
theorem ReadChar_plain (p : CharProcessor) (c : Int) (r : List Int) (h : LineOK p)
    (hin : p.InputFile = c :: r) (h9 : c ≠ 9) (h10 : c ≠ 10) (hE : c ≠ EOF) :
    ∃ p', ReadChar p = .ok (c, p') ∧ LineOK p' ∧ p'.InputFile = r ∧
      ((∃ l, p'.CurrentLine = some l ∧ l.valid ≠ 0 ∧ l.cpos ≠ 0) ∨
        p'.PreviousLine.isSome = true) := by
  obtain ⟨hpb, heof, htab, hcur, hprev⟩ := h
  have hg := LineOK_getD ⟨hpb, heof, htab, hcur, hprev⟩
  unfold ReadChar
  rw [if_neg (by simp [heof])]
  unfold readCharFetch
  rw [if_neg (by simp [hpb])]
  simp only [hin, h9, hE, if_false, ne_eq, not_false_eq_true, if_true]
  rw [LINE.put_ok _ _ _ hg.1 (by omega)]
  simp only [ok_bind]
  unfold readCharFinish
  simp only [h10, if_false, hE]
  by_cases hw : (p.CurrentLine.getD NewLine).cpos + 1 > M_LINE_WIDTH
  · rw [if_pos hw]
    obtain ⟨line', ls, num, hd, hsome⟩ := DisplayLine_ok NO_DISPLAY_LINE_NUMBER p.PreviousLine
      { p with
        InputFile := r
        CurrentLine := some
          { ({ p.CurrentLine.getD NewLine with valid := 1 } : LINE) with
            s := fun k => if k = (p.CurrentLine.getD NewLine).cpos.toNat then c
              else (p.CurrentLine.getD NewLine).s k
            cpos := (p.CurrentLine.getD NewLine).cpos + 1 } } hprev
    simp only at hd
    rw [hd]
    simp only [ok_bind]
    refine ⟨_, rfl, ⟨hpb, heof, htab, ?_, ?_⟩, rfl, Or.inr rfl⟩
    · intro l hl
      simp only [swapAndReset, Option.map_eq_some'] at hl
      obtain ⟨a, _, rfl⟩ := hl
      simp [M_LINE_WIDTH]
    · intro l hl
      simp only [swapAndReset, Option.some.injEq] at hl
      subst hl
      simp only
      omega
  · rw [if_neg hw]
    refine ⟨_, rfl, ⟨hpb, heof, htab, ?_, hprev⟩, rfl, Or.inl ⟨_, rfl, ?_, ?_⟩⟩
    · intro l hl
      simp only [Option.some.injEq] at hl
      subst hl
      simp only
      omega
    · simp
    · simp only
      omega

theorem UnReadChar_ok (p : CharProcessor) (hpb : p.PushBack = 0)
    (h : p.ReadEOF ≠ 0 ∨ (∃ l, p.CurrentLine = some l ∧ l.valid ≠ 0 ∧ l.cpos ≠ 0) ∨
      p.PreviousLine.isSome = true) :
    ∃ p', UnReadChar p = .ok p' := by
  unfold UnReadChar
  rw [if_neg (by simp [hpb])]
  by_cases he : p.ReadEOF = 0
  · rw [if_pos he]
    rcases h with h | ⟨l, hl, hv, hc⟩ | h
    · exact absurd he h
    · simp only [hl, Option.all_some, hv, hc, or_self, decide_False, Bool.false_eq_true,
        if_false, ok_bind]
      exact ⟨_, rfl⟩
    · obtain ⟨prev, hprev⟩ := Option.isSome_iff_exists.mp h
      split
      · simp only [hprev, ok_bind]
        exact ⟨_, rfl⟩
      · simp only [ok_bind]
        cases hc : p.CurrentLine with
        | none => simp [hc] at *
        | some l => exact ⟨_, rfl⟩
  · rw [if_neg he]
    exact ⟨_, rfl⟩


theorem tabLoop_gt (TabWidth i : Int) : ∀ (k : Nat) (j : Int),
    i < j + k * TabWidth → i < tabLoop TabWidth i k j := by
  intro k
  induction k with
  | zero =>
    intro j h
    simpa [tabLoop] using h
  | succ k ih =>
    intro j h
    simp only [tabLoop]
    split
    · apply ih
      push_cast at h
      linarith
    · omega

theorem fillLoop_ok (j : Int) : ∀ (k : Nat) (i : Int) (l : LINE), 0 ≤ i →
    ∃ i' l', fillLoop j k i l = .ok (i', l') ∧ i ≤ i' ∧ (i' ≤ i ∨ i' ≤ M_LINE_WIDTH) ∧
      l'.valid = l.valid ∧ (i < j → i < M_LINE_WIDTH → 0 < k → i < i') := by
  intro k
  induction k with
  | zero =>
    intro i l _
    exact ⟨i, l, rfl, Int.le_refl _, Or.inl (Int.le_refl _), rfl, fun _ _ h => absurd h (by simp)⟩
  | succ k ih =>
    intro i l hi
    simp only [fillLoop]
    split
    · rename_i hc
      rw [LINE.put_ok l i 32 hi (by omega)]
      simp only [ok_bind]
      obtain ⟨i', l', h1, h2, h3, h4, _⟩ := ih (i + 1)
        { l with s := fun k => if k = i.toNat then 32 else l.s k } (by omega)
      refine ⟨i', l', h1, by omega, ?_, h4, fun _ _ _ => by omega⟩
      rcases h3 with h3 | h3
      · exact Or.inr (by omega)
      · exact Or.inr h3
    · rename_i hc
      exact ⟨i, l, rfl, Int.le_refl _, Or.inl (Int.le_refl _), rfl,
        fun h1 h2 _ => absurd ⟨h1, h2⟩ hc⟩

theorem readCharAtEOF_ok (l : LINE) (p : CharProcessor)
    (hl : 0 ≤ l.cpos ∧ l.cpos ≤ M_LINE_WIDTH)
    (hprev : ∀ l, p.PreviousLine = some l → 0 ≤ l.cpos ∧ l.cpos ≤ M_LINE_WIDTH + 1) :
    ∃ p', readCharAtEOF l p = .ok p' ∧ p'.ReadEOF = 1 ∧ p'.PushBack = p.PushBack := by
  unfold readCharAtEOF
  have hl1 : ∃ l1 : LINE, closeLastLine l = .ok l1 ∧ 0 ≤ l1.cpos ∧
      l1.cpos ≤ M_LINE_WIDTH + 1 := by
    unfold closeLastLine
    split
    · rw [LINE.put_ok _ _ _ hl.1 (by omega)]
      exact ⟨_, rfl, by simp only; omega, by simp only; omega⟩
    · exact ⟨_, rfl, hl.1, by omega⟩
  obtain ⟨l1, hl1, hb0, hb1⟩ := hl1
  rw [hl1]
  simp only [ok_bind]
  obtain ⟨line1, ls1, num1, hd1, _⟩ := DisplayLine_ok DISPLAY_LINE_NUMBER p.PreviousLine
    { p with CurrentLine := some l1 } hprev
  rw [hd1]
  simp only [ok_bind]
  obtain ⟨line2, ls2, num2, hd2, _⟩ := DisplayLine_ok DISPLAY_LINE_NUMBER (some l1)
    { p with CurrentLine := some l1, PreviousLine := line1, listed := ls1,
             CurrentLineNum := num1 }
    (fun l hl => by
      simp only [Option.some.injEq] at hl
      subst hl
      exact ⟨hb0, hb1⟩)
  rw [hd2]
  exact ⟨_, rfl, rfl, rfl⟩

/-- The character `ReadChar` hands out next: end of file on an empty input, a
space for a tab, else the byte. -/
theorem ReadChar_then_UnReadChar (p : CharProcessor) (h : LineOK p) :
    ∃ ch p' p'', ReadChar p = .ok (ch, p') ∧
      ch = (match p.InputFile with
        | [] => EOF
        | c :: _ => if c = 9 then 32 else c) ∧
      UnReadChar p' = .ok p'' := by
  obtain ⟨hpb, heof, htab, hcur, hprev⟩ := h
  have hg := LineOK_getD ⟨hpb, heof, htab, hcur, hprev⟩
  cases hin : p.InputFile with
  | nil =>
    unfold ReadChar
    rw [if_neg (by simp [heof])]
    unfold readCharFetch
    rw [if_neg (by simp [hpb])]
    simp only [hin, ok_bind]
    unfold readCharFinish
    have hne : EOF ≠ 10 := by decide
    simp only [hne, if_false, if_true]
    rw [if_neg (by omega)]
    obtain ⟨p1, hp1, he1, hb1⟩ := readCharAtEOF_ok (p.CurrentLine.getD NewLine)
      { p with InputFile := [], CurrentLine := some (p.CurrentLine.getD NewLine) } hg hprev
    rw [hp1]
    simp only [ok_bind]
    obtain ⟨p'', hp''⟩ := UnReadChar_ok p1 (by rw [hb1]; exact hpb) (Or.inl (by simp [he1]))
    exact ⟨_, _, p'', rfl, rfl, hp''⟩
  | cons c r =>
    by_cases h9 : c = 9
    · subst h9
      unfold ReadChar
      rw [if_neg (by simp [heof])]
      unfold readCharFetch
      rw [if_neg (by simp [hpb])]
      simp only [hin, if_true]
      have hj := tabLoop_gt p.TabWidth (p.CurrentLine.getD NewLine).cpos
        ((p.CurrentLine.getD NewLine).cpos.toNat + 1) p.TabWidth (by
          push_cast
          have : ((p.CurrentLine.getD NewLine).cpos.toNat : Int)
              = (p.CurrentLine.getD NewLine).cpos := Int.toNat_of_nonneg hg.1
          rw [this]
          nlinarith)
      obtain ⟨i', l', hf, hi1, hi2, hv, hi3⟩ := fillLoop_ok
        (tabLoop p.TabWidth (p.CurrentLine.getD NewLine).cpos
          ((p.CurrentLine.getD NewLine).cpos.toNat + 1) p.TabWidth)
        M_LINE_WIDTH.toNat (p.CurrentLine.getD NewLine).cpos
        { p.CurrentLine.getD NewLine with valid := 1 } hg.1
      rw [hf]
      simp only [ok_bind]
      unfold readCharFinish
      have hne : (32 : Int) ≠ 10 := by decide
      have hne2 : (32 : Int) ≠ EOF := by decide
      simp only [hne, hne2, if_false]
      have hle : i' ≤ M_LINE_WIDTH := by
        rcases hi2 with h | h
        · omega
        · exact h
      rw [if_neg (by omega)]
      have hpos : i' ≠ 0 := by
        by_cases hlt : (p.CurrentLine.getD NewLine).cpos < M_LINE_WIDTH
        · have := hi3 hj hlt (by decide)
          omega
        · have : M_LINE_WIDTH = 256 := rfl
          omega
      obtain ⟨p'', hp''⟩ := UnReadChar_ok
        { p with InputFile := r, CurrentLine := some { l' with cpos := i' } } hpb
        (Or.inr (Or.inl ⟨_, rfl, by simp [hv], hpos⟩))
      exact ⟨_, _, p'', rfl, rfl, hp''⟩
    · by_cases h10 : c = 10
      · subst h10
        unfold ReadChar
        rw [if_neg (by simp [heof])]
        unfold readCharFetch
        rw [if_neg (by simp [hpb])]
        have hne : (10 : Int) ≠ 9 := by decide
        have hne2 : (10 : Int) ≠ EOF := by decide
        simp only [hin, hne, hne2, if_false, ne_eq, not_false_eq_true, if_true]
        rw [LINE.put_ok _ _ _ hg.1 (by omega)]
        simp only [ok_bind]
        unfold readCharFinish
        simp only [if_true]
        obtain ⟨line', ls, num, hd, _⟩ := DisplayLine_ok DISPLAY_LINE_NUMBER p.PreviousLine
          { p with
            InputFile := r
            CurrentLine := some
              { ({ p.CurrentLine.getD NewLine with valid := 1 } : LINE) with
                s := fun k => if k = (p.CurrentLine.getD NewLine).cpos.toNat then 10
                  else (p.CurrentLine.getD NewLine).s k
                cpos := (p.CurrentLine.getD NewLine).cpos + 1 } } hprev
        simp only at hd
        rw [hd]
        simp only [ok_bind]
        obtain ⟨p'', hp''⟩ := UnReadChar_ok (swapAndReset
          { p with
            InputFile := r
            CurrentLine := some
              { ({ p.CurrentLine.getD NewLine with valid := 1 } : LINE) with
                s := fun k => if k = (p.CurrentLine.getD NewLine).cpos.toNat then 10
                  else (p.CurrentLine.getD NewLine).s k
                cpos := (p.CurrentLine.getD NewLine).cpos + 1 }
            PreviousLine := line', listed := ls, CurrentLineNum := num }) hpb
          (Or.inr (Or.inr rfl))
        exact ⟨_, _, p'', rfl, rfl, hp''⟩
      · by_cases hE : c = EOF
        · subst hE
          unfold ReadChar
          rw [if_neg (by simp [heof])]
          unfold readCharFetch
          rw [if_neg (by simp [hpb])]
          have hne : EOF ≠ 9 := by decide
          have hne10 : EOF ≠ 10 := by decide
          simp only [hin, hne, if_false, ne_eq, not_true_eq_false, ok_bind]
          unfold readCharFinish
          simp only [hne10, if_false, if_true]
          rw [if_neg (by omega)]
          obtain ⟨p1, hp1, he1, hb1⟩ := readCharAtEOF_ok (p.CurrentLine.getD NewLine)
            { p with InputFile := r, CurrentLine := some (p.CurrentLine.getD NewLine) } hg hprev
          rw [hp1]
          simp only [ok_bind]
          obtain ⟨p'', hp''⟩ := UnReadChar_ok p1 (by rw [hb1]; exact hpb)
            (Or.inl (by simp [he1]))
          exact ⟨_, _, p'', rfl, by simp [hne], hp''⟩
        · obtain ⟨p', h1, hok, _, hun⟩ := ReadChar_plain p c r ⟨hpb, heof, htab, hcur, hprev⟩
            hin h9 h10 hE
          obtain ⟨p'', hp''⟩ := UnReadChar_ok p' hok.1 (Or.inr hun)
          exact ⟨c, p', p'', h1, by simp [h9], hp''⟩

theorem isalnum_bounds {c : Int} (h : isalnum c = true) : 48 ≤ c ∧ c ≤ 122 := by
  unfold isalnum isalpha isdigit at h
  simp only [Bool.or_eq_true, decide_eq_true_eq] at h
  omega

theorem isalnum_space : isalnum 32 = false := by decide

theorem isalnum_EOF : isalnum EOF = false := by decide

theorem startState_of_isalpha {c : Int} (h : isalpha c = true) : startState c = 25 := by
  have hb : (65 ≤ c ∧ c ≤ 90) ∨ (97 ≤ c ∧ c ≤ 122) := by
    unfold isalpha at h
    simpa using h
  have hd : isdigit c = false := by
    unfold isdigit
    simp only [decide_eq_false_iff_not]
    omega
  have hs : isspace c = false := by
    unfold isspace
    simp only [decide_eq_false_iff_not]
    omega
  have hE : EOF = -1 := rfl
  unfold startState
  iterate 15 rw [if_neg (by omega)]
  simp [hs, hd, h]

theorem Scanner.ReadChar_of (sc : Scanner) (c : Int) (p : CharProcessor)
    (h : CPL.ReadChar sc.chars = .ok (c, p)) :
    sc.ReadChar = .ok (c, { sc with chars := p }) := by
  unfold Scanner.ReadChar
  rw [h]
  rfl

theorem Scanner.UnReadChar_of (sc : Scanner) (p : CharProcessor)
    (h : CPL.UnReadChar sc.chars = .ok p) :
    sc.UnReadChar = .ok { sc with chars := p } := by
  unfold Scanner.UnReadChar
  rw [h]
  rfl

theorem Scanner.AddChar_of (sc : Scanner) (c : Int) (t : StrTab)
    (h : CPL.AddChar c sc.strings = .ok t) :
    sc.AddChar c = .ok { sc with strings := t } := by
  unfold Scanner.AddChar
  rw [h]
  rfl

/-- State 25 of the automaton: the letters and digits of `w` are added to the
string table, the character after them is read and pushed back. -/
theorem scanLoop_letters (rest : List Int) (hrest : ∀ c r, rest = c :: r → isalnum c = false)
    (tok : ScanToken) (n : Nat) :
    ∀ (w : List Int) (p : CharProcessor) (t t' : StrTab), LineOK p →
      p.InputFile = w ++ rest → (∀ c ∈ w, isalnum c = true) → addChars w t = .ok t' →
      ∃ p', scanLoop (n + (w.length + 2)) 25 tok ⟨p, t⟩
        = .ok ({ tok with code := IDENTIFIER }, ⟨p', t'⟩) := by
  intro w
  induction w with
  | nil =>
    intro p t t' hp hin _ hadd
    simp only [addChars, Except.ok.injEq] at hadd
    subst hadd
    obtain ⟨ch, p1, p2, h1, hch, h2⟩ := ReadChar_then_UnReadChar p hp
    have hna : isalnum ch = false := by
      rw [hch]
      simp only [List.nil_append] at hin
      cases hr : rest with
      | nil => rw [hin, hr]; exact isalnum_EOF
      | cons c r =>
        rw [hin, hr]
        simp only
        split
        · exact isalnum_space
        · exact hrest c r hr
    show ∃ p', scanLoop ((n + 1) + 1) 25 tok ⟨p, t⟩ = _
    rw [scanLoop]
    simp only [Int.reduceEq, if_false, if_true]
    rw [Scanner.ReadChar_of ⟨p, t⟩ ch p1 h1]
    simp only [ok_bind, hna, Bool.false_eq_true, if_false]
    rw [scanLoop]
    simp only [Int.reduceEq, if_false, if_true]
    rw [Scanner.UnReadChar_of ⟨p1, t⟩ p2 h2]
    exact ⟨p2, rfl⟩
  | cons c w ih =>
    intro p t t' hp hin hall hadd
    have hc : isalnum c = true := hall c (List.mem_cons_self _ _)
    have hb := isalnum_bounds hc
    have hE : EOF = -1 := rfl
    obtain ⟨p1, h1, hp1, hin1, _⟩ := ReadChar_plain p c (w ++ rest) hp hin
      (by omega) (by omega) (by omega)
    simp only [addChars] at hadd
    obtain ⟨t1, ht1, hadd1⟩ := bind_eq_ok hadd
    obtain ⟨p', hp'⟩ := ih p1 t1 t' hp1 hin1
      (fun d hd => hall d (List.mem_cons_of_mem _ hd)) hadd1
    show ∃ p', scanLoop ((n + (w.length + 2)) + 1) 25 tok ⟨p, t⟩ = _
    rw [scanLoop]
    simp only [Int.reduceEq, if_false, if_true]
    rw [Scanner.ReadChar_of ⟨p, t⟩ c p1 h1]
    simp only [ok_bind, hc, if_true]
    rw [Scanner.AddChar_of ⟨p1, t⟩ c t1 ht1]
    simp only [ok_bind]
    exact ⟨p', hp'⟩

/-- From state 0: an identifier `c0 w` is scanned into the string table. -/
theorem scanLoop_identifier (rest : List Int) (hrest : ∀ c r, rest = c :: r → isalnum c = false)
    (tok : ScanToken) (n : Nat) (c0 : Int) (w : List Int) (sc : Scanner) (t0 t1 : StrTab)
    (hp : LineOK sc.chars) (hin : sc.chars.InputFile = c0 :: (w ++ rest))
    (h0 : isalpha c0 = true) (hall : ∀ c ∈ w, isalnum c = true)
    (hnew : NewString sc.strings = .ok t0) (hadd : addChars (c0 :: w) t0 = .ok t1) :
    ∃ p', scanLoop (n + (w.length + 4)) 0 tok sc
      = .ok ({ tok with value := 0, pos := CurrentCharPos sc.chars, code := IDENTIFIER },
          ⟨p', t1⟩) := by
  have hc : isalnum c0 = true := by
    unfold isalnum
    rw [h0]
    rfl
  have hb := isalnum_bounds hc
  have hE : EOF = -1 := rfl
  obtain ⟨p1, h1, hp1, hin1, _⟩ := ReadChar_plain sc.chars c0 (w ++ rest) hp hin
    (by omega) (by omega) (by omega)
  simp only [addChars] at hadd
  obtain ⟨ta, hta, hadd1⟩ := bind_eq_ok hadd
  obtain ⟨p', hp'⟩ := scanLoop_letters rest hrest
    { tok with value := 0, pos := CurrentCharPos sc.chars } n w p1 ta t1 hp1 hin1 hall hadd1
  show ∃ p', scanLoop ((n + (w.length + 3)) + 1) 0 tok sc = _
  rw [scanLoop]
  simp only [if_true]
  rw [hnew]
  simp only [ok_bind]
  show ∃ p', scanLoop ((n + (w.length + 2)) + 1) 1 _ _ = _
  rw [scanLoop]
  simp only [Int.reduceEq, if_false, if_true]
  rw [Scanner.ReadChar_of ⟨sc.chars, t0⟩ c0 p1 h1]
  simp only [ok_bind, startState_of_isalpha h0, Int.reduceEq, if_false, if_true]
  rw [Scanner.AddChar_of ⟨p1, t0⟩ c0 ta hta]
  simp only [ok_bind]
  exact ⟨p', hp'⟩

/-- More rounds do not change what the keyword search returns. -/
theorem searchLoop_mono (s : List Nat) (m : Nat) :
    ∀ (n : Nat) (T B O k : Int), searchLoop s n T B O = .ok k →
      searchLoop s (n + m) T B O = .ok k := by
  intro n
  induction n with
  | zero =>
    intro T B O k h
    simp [searchLoop] at h
  | succ n ih =>
    intro T B O k h
    rw [show n + 1 + m = (n + m) + 1 by omega]
    rw [searchLoop] at h
    rw [searchLoop]
    split
    · rename_i h1
      rw [if_pos h1] at h
      exact h
    · rename_i h1
      rw [if_neg h1] at h
      split
      · rename_i h2
        rw [if_pos h2] at h
        exact h
      · rename_i h2
        rw [if_neg h2] at h
        split
        · rename_i h3
          rw [if_pos h3] at h
          exact ih _ _ _ _ h
        · rename_i h3
          rw [if_neg h3] at h
          exact ih _ _ _ _ h

/-- The token `GetToken` returns for an identifier or reserved word `c0 w`. -/
theorem GetToken_word (rest : List Int) (hrest : ∀ c r, rest = c :: r → isalnum c = false)
    (fuel : Nat) (c0 : Int) (w : List Int) (sc : Scanner) (t0 t1 t2 : StrTab) (code : Int)
    (hfuel : w.length + 4 ≤ fuel)
    (hp : LineOK sc.chars) (hin : sc.chars.InputFile = c0 :: (w ++ rest))
    (h0 : isalpha c0 = true) (hall : ∀ c ∈ w, isalnum c = true)
    (hnew : NewString sc.strings = .ok t0) (hadd : addChars (c0 :: w) t0 = .ok t1)
    (hnul : AddChar 0 t1 = .ok t2)
    (hsearch : SearchKeywords fuel (t2.stringOf (GetString t2)) = .ok code) :
    ∃ p', GetToken fuel sc
      = .ok (⟨code, 0, CurrentCharPos sc.chars,
          if code ≠ IDENTIFIER then none else GetString t2⟩, ⟨p', t2⟩) := by
  obtain ⟨n, rfl⟩ : ∃ n, fuel = n + (w.length + 4) := ⟨fuel - (w.length + 4), by omega⟩
  obtain ⟨p', hp'⟩ := scanLoop_identifier rest hrest ⟨ERROR, 0, 0, none⟩ n c0 w sc t0 t1
    hp hin h0 hall hnew hadd
  unfold GetToken
  rw [hp']
  simp only [ok_bind, if_true]
  rw [Scanner.AddChar_of ⟨p', t1⟩ 0 t2 hnul]
  simp only [ok_bind]
  rw [hsearch]
  exact ⟨p', rfl⟩

theorem LineOK_initial (source : List Int) (listfile : Bool) :
    LineOK (InitCharProcessor source listfile) :=
  ⟨rfl, rfl, show (0 : Int) < DEFAULT_TAB_WIDTH by decide, fun _ h => by simp [InitCharProcessor] at h,
    fun _ h => by simp [InitCharProcessor] at h⟩

theorem toOption_eq_some {α : Type} {r : Except Fatal α} {a : α}
    (h : r.toOption = some a) : r = .ok a := by
  cases r with
  | error e => simp [Except.toOption] at h
  | ok b =>
    simp only [Except.toOption, Option.some.injEq] at h
    rw [h]

theorem keyword_spellings :
    (List.range 13).map (fun i => Tokens.getD (18 + i) []) =
      [bytes "BEGIN", bytes "DO", bytes "ELSE", bytes "END", bytes "IF", bytes "PROCEDURE",
       bytes "PROGRAM", bytes "READ", bytes "REF", bytes "THEN", bytes "VAR", bytes "WHILE",
       bytes "WRITE"] := by decide

theorem keywordProbe_eq :
    ∀ i : Fin 13, keywordProbe (18 + i.val) = some (((18 + i.val : Nat) : Int), some ⟨0, 0⟩) := by
  decide!

theorem keywordShape_eq : ∀ i : Fin 13, keywordShape (18 + i.val) = true := by
  decide!

theorem SearchKeywords_table :
    ∀ i : Fin 13, (SearchKeywords 8 (Tokens.getD (18 + i.val) [])).toOption
      = some ((18 + i.val : Nat) : Int) := by
  decide!

theorem keywordProbe_some {k : Nat} {code : Int} {ptr : Option StrPtr}
    (h : keywordProbe k = some (code, ptr)) :
    ∃ t0 t1 t2, NewString StrTab.initial = .ok t0 ∧ addChars (spelling k) t0 = .ok t1 ∧
      AddChar 0 t1 = .ok t2 ∧ SearchKeywords 8 (t2.stringOf (GetString t2)) = .ok code ∧
      GetString t2 = ptr := by
  have h' := toOption_eq_some h
  obtain ⟨t0, h0, h'⟩ := bind_eq_ok h'
  obtain ⟨t1, h1, h'⟩ := bind_eq_ok h'
  obtain ⟨t2, h2, h'⟩ := bind_eq_ok h'
  obtain ⟨c, h3, h'⟩ := bind_eq_ok h'
  simp only [Except.ok.injEq, Prod.mk.injEq] at h'
  obtain ⟨rfl, rfl⟩ := h'
  exact ⟨t0, t1, t2, h0, h1, h2, h3, rfl⟩

/-- C6: each reserved word lexes to its keyword code with the spelling
field cleared: for every token code `k` from `BEGIN` to `WRITE`, `GetToken` on a
source text that starts with the spelling `Tokens[k]`, followed by the end of
the input or by a character that is neither a letter nor a digit, returns (for
every loop bound of at least 12) the token with code `k` and `s = NULL`, and
the binary search of `SearchKeywords` finds the table entry `k`. -/
theorem GetToken_reserved_word (k : Nat) (hk : BEGIN ≤ (k : Int) ∧ (k : Int) ≤ WRITE)
    (rest : List Int) (hrest : ∀ c r, rest = c :: r → isalnum c = false)
    (fuel : Nat) (hfuel : 12 ≤ fuel) :
    (∃ sc', GetToken fuel (Scanner.initial (spelling k ++ rest))
      = .ok (⟨(k : Int), 0, 0, none⟩, sc')) ∧
    SearchKeywords fuel (Tokens.getD k []) = .ok (k : Int) := by
  have hB : BEGIN = 18 := rfl
  have hW : WRITE = 30 := rfl
  obtain ⟨i, rfl⟩ : ∃ i : Fin 13, k = 18 + i.val := ⟨⟨k - 18, by omega⟩, by simp only; omega⟩
  obtain ⟨m, rfl⟩ : ∃ m, fuel = 8 + m := ⟨fuel - 8, by omega⟩
  refine ⟨?_, searchLoop_mono _ m 8 _ _ _ _ (toOption_eq_some (SearchKeywords_table i))⟩
  obtain ⟨t0, t1, t2, h0, h1, h2, h3, h4⟩ := keywordProbe_some (keywordProbe_eq i)
  have hshape := keywordShape_eq i
  unfold keywordShape at hshape
  cases hs : spelling (18 + i.val) with
  | nil => rw [hs] at hshape; exact absurd hshape (by decide)
  | cons c0 w =>
    rw [hs] at hshape h1
    simp only [Bool.and_eq_true, List.all_eq_true, decide_eq_true_eq] at hshape
    obtain ⟨⟨ha, hall⟩, hlen⟩ := hshape
    obtain ⟨p', hp'⟩ := GetToken_word rest hrest (8 + m) c0 w
      (Scanner.initial (c0 :: w ++ rest)) t0 t1 t2 ((18 + i.val : Nat) : Int) (by omega)
      (LineOK_initial _ _) rfl ha hall h0 h1 h2 (searchLoop_mono _ m 8 _ _ _ _ h3)
    have hne : ((18 + i.val : Nat) : Int) ≠ IDENTIFIER := by
      have hI : IDENTIFIER = 31 := rfl
      have := i.isLt
      omega
    rw [if_pos hne] at hp'
    exact ⟨⟨p', t2⟩, hp'⟩

/-- Witness for C6: the source text `BEGIN;`. -/
theorem GetToken_reserved_word_witness :
    (BEGIN ≤ ((18 : Nat) : Int) ∧ ((18 : Nat) : Int) ≤ WRITE) ∧
    (∀ c r, [(59 : Int)] = c :: r → isalnum c = false) ∧ 12 ≤ 12 ∧
    ((∃ sc', GetToken 12 (Scanner.initial (spelling 18 ++ [59]))
      = .ok (⟨((18 : Nat) : Int), 0, 0, none⟩, sc')) ∧
    SearchKeywords 12 (Tokens.getD 18 []) = .ok ((18 : Nat) : Int)) :=
  have h1 : BEGIN ≤ ((18 : Nat) : Int) ∧ ((18 : Nat) : Int) ≤ WRITE := by decide
  have h2 : ∀ c r, [(59 : Int)] = c :: r → isalnum c = false := by
    intro c r h
    simp only [List.cons.injEq] at h
    rw [← h.1]
    decide
  ⟨h1, h2, Nat.le_refl _, GetToken_reserved_word 18 h1 [59] h2 12 (Nat.le_refl _)⟩

/-- `strncmp` returns 0 only on equal strings, when the second is shorter than
the bound and neither holds a NUL byte. -/
theorem strncmp_eq_zero : ∀ (n : Nat) (a b : List Nat), (∀ x ∈ a, x ≠ 0) → (∀ x ∈ b, x ≠ 0) →
    b.length < n → strncmp n a b = 0 → a = b := by
  intro n
  induction n with
  | zero =>
    intro a b _ _ hlen _
    omega
  | succ n ih =>
    intro a b ha hb hlen h
    rw [strncmp] at h
    cases a with
    | nil =>
      cases b with
      | nil => rfl
      | cons y b =>
        have hy := hb y (List.mem_cons_self _ _)
        simp only [List.headD_nil, List.headD_cons] at h
        rw [if_pos (fun e => hy e.symm)] at h
        omega
    | cons x a =>
      have hx := ha x (List.mem_cons_self _ _)
      cases b with
      | nil =>
        simp only [List.headD_nil, List.headD_cons] at h
        rw [if_pos hx] at h
        omega
      | cons y b =>
        simp only [List.headD_cons, List.tail_cons] at h
        by_cases hxy : x = y
        · subst hxy
          rw [if_neg (fun e => e rfl), if_neg hx] at h
          rw [ih a b (fun z hz => ha z (List.mem_cons_of_mem _ hz))
            (fun z hz => hb z (List.mem_cons_of_mem _ hz))
            (by simp only [List.length_cons] at hlen; omega) h]
        · rw [if_pos hxy] at h
          omega

/-- The binary search on a string that no entry of the keyword range
compares equal to: every probe misses and the loop leaves with `IDENTIFIER`. -/
theorem searchLoop_miss (s : List Nat)
    (h : ∀ k : Int, 18 ≤ k → k ≤ 30 → strncmp 30 s (Tokens.getD k.toNat []) ≠ 0) :
    ∀ (n : Nat) (T B O : Int), 18 ≤ B → B ≤ 30 → B ≤ T → T ≤ 31 →
      ((T + B) / 2 = O → 2 * (T - B) < n) → ((T + B) / 2 ≠ O → 2 * (T - B) + 1 < n) →
      searchLoop s n T B O = .ok IDENTIFIER := by
  intro n
  induction n with
  | zero =>
    intro T B O h1 h2 h3 h4 h5 h6
    by_cases hm : (T + B) / 2 = O
    · have := h5 hm
      omega
    · have := h6 hm
      omega
  | succ n ih =>
    intro T B O h1 h2 h3 h4 h5 h6
    rw [searchLoop]
    by_cases hm : (T + B) / 2 = O
    · rw [if_pos hm]
    · rw [if_neg hm, if_neg (h ((T + B) / 2) (by omega) (by omega))]
      have h7 := h6 hm
      split
      · apply ih _ _ _ h1 h2 (by omega) (by omega)
        · intro _
          push_cast at h7 ⊢
          omega
        · intro _
          push_cast at h7 ⊢
          omega
      · apply ih _ _ _ (by omega) (by omega) (by omega) h4
        · intro _
          push_cast at h7 ⊢
          omega
        · intro _
          push_cast at h7 ⊢
          omega

/-- `SearchKeywords` terminates with `IDENTIFIER` on every string that is not
the spelling of a reserved word. -/
theorem SearchKeywords_miss (s : List Nat) (hs : ∀ x ∈ s, x ≠ 0)
    (h : ∀ k : Nat, 18 ≤ k → k ≤ 30 → s ≠ Tokens.getD k [])
    (fuel : Nat) (hfuel : 28 ≤ fuel) :
    SearchKeywords fuel s = .ok IDENTIFIER := by
  unfold SearchKeywords
  have hW : WRITE = 30 := rfl
  have hB : BEGIN = 18 := rfl
  rw [hW, hB]
  apply searchLoop_miss s _ fuel _ _ _ (by omega) (by omega) (by omega) (by omega)
  · intro _
    omega
  · intro _
    omega
  · intro k hk1 hk2 h0
    obtain ⟨i, rfl⟩ : ∃ i : Fin 13, k = ((18 + i.val : Nat) : Int) :=
      ⟨⟨(k - 18).toNat, by omega⟩, by simp only; omega⟩
    rw [Int.toNat_ofNat] at h0
    refine h (18 + i.val) (by omega) (by have := i.isLt; omega)
      (strncmp_eq_zero 30 s _ hs ?_ ?_ h0)
    · exact (show ∀ j : Fin 13, ∀ x ∈ Tokens.getD (18 + j.val) [], x ≠ 0 by decide) i
    · exact (show ∀ j : Fin 13, (Tokens.getD (18 + j.val) []).length < 30 by decide) i

/-- `AddChar` with more than one byte left in the chunk stores the character,
masked to 7 bits, at the insertion point. -/
theorem AddChar_roomy (ch : Int) (t : StrTab) (c : Nat) (o : Int)
    (hip : t.InsertionPoint = some ⟨c, o⟩) (h0 : 0 ≤ o) (h1 : o < CHUNKSIZE)
    (hs : 1 < t.SpaceLeftInChunk) :
    AddChar ch t = .ok { t with
      mem := fun c' o' => if c' = c ∧ o' = o.toNat then (ch % 128).toNat else t.mem c' o'
      InsertionPoint := some ⟨c, o + 1⟩
      SpaceLeftInChunk := t.SpaceLeftInChunk - 1 } := by
  unfold AddChar
  rw [if_neg (by omega)]
  simp only [ok_bind, hip]
  unfold StrTab.poke
  rw [if_pos ⟨h0, h1⟩]
  rfl

/-- The characters of `w` added to a chunk with room for them. -/
theorem addChars_roomy : ∀ (w : List Int) (t : StrTab) (c : Nat) (o : Int),
    t.InsertionPoint = some ⟨c, o⟩ → 0 ≤ o → o + w.length ≤ CHUNKSIZE →
    (w.length : Int) < t.SpaceLeftInChunk →
    ∃ t', addChars w t = .ok t' ∧ t'.InsertionPoint = some ⟨c, o + w.length⟩ ∧
      t'.SpaceLeftInChunk = t.SpaceLeftInChunk - w.length ∧
      t'.TopOfTable = t.TopOfTable ∧
      (∀ i, i < w.length → t'.mem c (o.toNat + i) = (w.getD i 0 % 128).toNat) ∧
      (∀ c' o', (c' ≠ c ∨ o' < o.toNat) → t'.mem c' o' = t.mem c' o') := by
  intro w
  induction w with
  | nil =>
    intro t c o hip _ _ _
    exact ⟨t, rfl, by simpa using hip, by simp, rfl, fun i hi => by simp at hi,
      fun _ _ _ => rfl⟩
  | cons ch w ih =>
    intro t c o hip h0 h1 hs
    simp only [List.length_cons, Nat.cast_add, Nat.cast_one] at h1 hs
    have hadd := AddChar_roomy ch t c o hip h0 (by omega) (by omega)
    obtain ⟨t', ht', hip', hsp', htop', hmem', hother'⟩ := ih
      { t with
        mem := fun c' o' => if c' = c ∧ o' = o.toNat then (ch % 128).toNat else t.mem c' o'
        InsertionPoint := some ⟨c, o + 1⟩
        SpaceLeftInChunk := t.SpaceLeftInChunk - 1 } c (o + 1) rfl (by omega)
      (by omega) (by show (w.length : Int) < t.SpaceLeftInChunk - 1; omega)
    refine ⟨t', ?_, ?_, ?_, htop', ?_, ?_⟩
    · simp only [addChars]
      rw [hadd]
      exact ht'
    · rw [hip']
      simp only [List.length_cons, Nat.cast_add, Nat.cast_one]
      congr 2
      omega
    · rw [hsp']
      simp only [List.length_cons, Nat.cast_add, Nat.cast_one]
      omega
    · intro i hi
      cases i with
      | zero =>
        rw [hother' c (o.toNat + 0) (Or.inr (by omega))]
        simp
      | succ i =>
        have := hmem' i (by simp only [List.length_cons] at hi; omega)
        rw [show (o + 1).toNat + i = o.toNat + (i + 1) by omega] at this
        rw [this]
        simp
    · intro c' o' hc
      rw [hother' c' o' (by omega)]
      simp only
      rw [if_neg]
      omega

/-- Reading back a NUL-terminated string from the table. -/
theorem stringAt_eq (t : StrTab) (c : Nat) : ∀ (bs : List Nat) (o : Int) (n : Nat), 0 ≤ o →
    (∀ i, i < bs.length → t.mem c (o.toNat + i) = bs.getD i 0) → (∀ x ∈ bs, x ≠ 0) →
    t.mem c (o.toNat + bs.length) = 0 → bs.length < n → t.stringAt ⟨c, o⟩ n = bs := by
  intro bs
  induction bs with
  | nil =>
    intro o n _ _ _ hz hn
    obtain ⟨m, rfl⟩ : ∃ m, n = m + 1 := ⟨n - 1, by simp only [List.length_nil] at hn; omega⟩
    rw [StrTab.stringAt]
    simp only [List.length_nil, Nat.add_zero] at hz
    rw [if_pos hz]
  | cons b bs ih =>
    intro o n h0 hm hnz hz hn
    simp only [List.length_cons] at hn hz
    obtain ⟨m, rfl⟩ : ∃ m, n = m + 1 := ⟨n - 1, by omega⟩
    have hb : t.mem c o.toNat = b := by
      have := hm 0 (by simp)
      simpa using this
    rw [StrTab.stringAt]
    simp only
    rw [hb, if_neg (hnz b (List.mem_cons_self _ _))]
    congr 1
    apply ih (o + 1) m (by omega)
    · intro i hi
      have := hm (i + 1) (by simp only [List.length_cons]; omega)
      rw [show (o + 1).toNat + i = o.toNat + (i + 1) by omega, this]
      simp
    · exact fun x hx => hnz x (List.mem_cons_of_mem _ hx)
    · rw [show (o + 1).toNat + bs.length = o.toNat + (bs.length + 1) by omega]
      exact hz
    · omega

theorem NewString_initial :
    NewString StrTab.initial = .ok
      { mem := fun _ _ => 0, chunks := 1, TopOfTable := some ⟨0, 0⟩,
        InsertionPoint := some ⟨0, 0⟩, SpaceLeftInChunk := CHUNKSIZE } := by
  rfl

/-- An identifier of at most 1022 characters at the start of a compile:
`GetToken` returns `IDENTIFIER` and the token's string is the spelling read. -/
theorem GetToken_identifier (c0 : Int) (w rest : List Int) (h0 : isalpha c0 = true)
    (hall : ∀ c ∈ w, isalnum c = true) (hrest : ∀ c r, rest = c :: r → isalnum c = false)
    (hlen : w.length + 1 ≤ 1022)
    (hkw : ∀ k : Nat, 18 ≤ k → k ≤ 30 → c0 :: w ≠ spelling k)
    (fuel : Nat) (hf1 : 28 ≤ fuel) (hf2 : w.length + 4 ≤ fuel) :
    ∃ sc' ptr, GetToken fuel (Scanner.initial (c0 :: w ++ rest))
        = .ok (⟨IDENTIFIER, 0, 0, some ptr⟩, sc') ∧
      sc'.strings.stringOf (some ptr) = (c0 :: w).map Int.toNat := by
  have hC : CHUNKSIZE = 1024 := rfl
  have hc0 : isalnum c0 = true := by
    unfold isalnum
    rw [h0]
    rfl
  have hall' : ∀ c ∈ c0 :: w, isalnum c = true := by
    intro c hc
    rcases List.mem_cons.mp hc with rfl | hc
    · exact hc0
    · exact hall c hc
  have hbnd : ∀ c ∈ c0 :: w, 48 ≤ c ∧ c ≤ 122 := fun c hc => isalnum_bounds (hall' c hc)
  obtain ⟨t1, ht1, hip1, hsp1, htop1, hmem1, _⟩ := addChars_roomy (c0 :: w)
    { mem := fun _ _ => 0, chunks := 1, TopOfTable := some ⟨0, 0⟩,
      InsertionPoint := some ⟨0, 0⟩, SpaceLeftInChunk := CHUNKSIZE } 0 0 rfl (Int.le_refl _)
    (by simp only [List.length_cons, Nat.cast_add, Nat.cast_one]; omega)
    (by simp only [List.length_cons, Nat.cast_add, Nat.cast_one]; omega)
  simp only [List.length_cons, Nat.cast_add, Nat.cast_one] at hip1 hsp1
  have hnul := AddChar_roomy 0 t1 0 _ hip1 (by omega) (by omega) (by rw [hsp1]; omega)
  have hstr : StrTab.stringOf
      { t1 with
        mem := fun c' o' =>
          if c' = 0 ∧ o' = (0 + ((w.length : Int) + 1)).toNat then ((0 : Int) % 128).toNat
          else t1.mem c' o'
        InsertionPoint := some ⟨0, 0 + ((w.length : Int) + 1) + 1⟩
        SpaceLeftInChunk := t1.SpaceLeftInChunk - 1 } (some ⟨0, 0⟩)
      = (c0 :: w).map Int.toNat := by
    unfold StrTab.stringOf
    simp only
    apply stringAt_eq _ 0 _ 0 _ (Int.le_refl _)
    · intro i hi
      simp only [List.length_map, List.length_cons] at hi
      simp only [Int.toNat_zero, Nat.zero_add, true_and]
      rw [if_neg (by omega)]
      have := hmem1 i (by simp only [List.length_cons]; omega)
      simp only [Int.toNat_zero, Nat.zero_add] at this
      rw [this]
      have hmem : (c0 :: w).getD i 0 ∈ c0 :: w := by
        rw [List.getD_eq_getElem _ _ (by simp only [List.length_cons]; omega)]
        exact List.getElem_mem _
      have hb := hbnd _ hmem
      rw [show (0 : Nat) = Int.toNat 0 from rfl, List.getD_map]
      congr 1
      omega
    · intro x hx
      obtain ⟨y, hy, rfl⟩ := List.mem_map.mp hx
      have := hbnd y hy
      omega
    · simp only [List.length_map, List.length_cons, Int.toNat_zero, Nat.zero_add, true_and]
      rw [if_pos (by omega)]
      rfl
    · simp only [List.length_map, List.length_cons]
      omega
  have hsearch := SearchKeywords_miss ((c0 :: w).map Int.toNat)
    (by
      intro x hx
      obtain ⟨y, hy, rfl⟩ := List.mem_map.mp hx
      have := hbnd y hy
      omega)
    (by
      intro k hk1 hk2 he
      apply hkw k hk1 hk2
      unfold spelling
      rw [← he, List.map_map]
      symm
      conv_rhs => rw [← List.map_id (c0 :: w)]
      apply List.map_congr_left
      intro y hy
      have := hbnd y hy
      simp only [Function.comp_apply, id_eq]
      exact Int.toNat_of_nonneg (by omega))
    fuel hf1
  rw [← hstr] at hsearch
  have hg : GetString
      { t1 with
        mem := fun c' o' =>
          if c' = 0 ∧ o' = (0 + ((w.length : Int) + 1)).toNat then ((0 : Int) % 128).toNat
          else t1.mem c' o'
        InsertionPoint := some ⟨0, 0 + ((w.length : Int) + 1) + 1⟩
        SpaceLeftInChunk := t1.SpaceLeftInChunk - 1 } = some ⟨0, 0⟩ := htop1
  obtain ⟨p', hp'⟩ := GetToken_word rest hrest fuel c0 w (Scanner.initial (c0 :: w ++ rest))
    _ t1 _ IDENTIFIER hf2 (LineOK_initial _ _) rfl h0 hall NewString_initial ht1 hnul
    (by rw [hg]; exact hsearch)
  rw [hg, if_neg (fun h => h rfl)] at hp'
  exact ⟨⟨p', _⟩, ⟨0, 0⟩, hp', hstr⟩

/-- What the fill loop of a tab leaves in the buffer: spaces from the start
column up to the final one, the columns before unchanged. -/
theorem fillLoop_content (j : Int) : ∀ (k : Nat) (i : Int) (l : LINE) (i' : Int) (l' : LINE),
    0 ≤ i → fillLoop j k i l = .ok (i', l') →
    (∀ n : Nat, i ≤ n → (n : Int) < i' → l'.s n = 32) ∧
      (∀ n : Nat, (n : Int) < i → l'.s n = l.s n) := by
  intro k
  induction k with
  | zero =>
    intro i l i' l' _ h
    simp only [fillLoop, Except.ok.injEq, Prod.mk.injEq] at h
    obtain ⟨rfl, rfl⟩ := h
    exact ⟨fun n h1 h2 => by omega, fun _ _ => rfl⟩
  | succ k ih =>
    intro i l i' l' h0 h
    rw [fillLoop] at h
    split at h
    · rename_i hc
      rw [LINE.put_ok l i 32 h0 (by have : M_LINE_WIDTH = 256 := rfl; omega)] at h
      simp only [ok_bind] at h
      obtain ⟨h1, h2⟩ := ih _ _ _ _ (by omega) h
      constructor
      · intro n hn1 hn2
        by_cases hn : (n : Int) = i
        · rw [h2 n (by omega)]
          simp only
          rw [if_pos (by omega)]
        · exact h1 n (by omega) hn2
      · intro n hn
        rw [h2 n (by omega)]
        simp only
        rw [if_neg (by omega)]
    · simp only [Except.ok.injEq, Prod.mk.injEq] at h
      obtain ⟨rfl, rfl⟩ := h
      exact ⟨fun n h1 h2 => by omega, fun _ _ => rfl⟩

/-- Pushing back and reading again returns the character in the column before
the current one: of the current line when that is in use, else of the previous
line. -/
theorem reread (q : CharProcessor) (ch : Int) (hpb : q.PushBack = 0) (heof : q.ReadEOF = 0)
    (h : (∃ l, q.CurrentLine = some l ∧ l.valid ≠ 0 ∧ 1 ≤ l.cpos ∧ l.cpos ≤ M_LINE_WIDTH + 1 ∧
            l.s (l.cpos - 1).toNat = ch ∧
            ∀ l', q.PreviousLine = some l' → 0 ≤ l'.cpos ∧ l'.cpos ≤ M_LINE_WIDTH + 1) ∨
        (q.CurrentLine.all (fun l => decide (l.valid = 0 ∨ l.cpos = 0)) = true ∧
          ∃ l, q.PreviousLine = some l ∧ 1 ≤ l.cpos ∧ l.cpos ≤ M_LINE_WIDTH + 1 ∧
            l.s (l.cpos - 1).toNat = ch)) :
    ∃ q2 r, UnReadChar q = .ok q2 ∧ ReadChar q2 = .ok (ch, r) := by
  -- the state after `UnReadChar`
  have key : ∃ (l : LINE) (prev : Option LINE), 1 ≤ l.cpos ∧ l.cpos ≤ M_LINE_WIDTH + 1 ∧ l.s (l.cpos - 1).toNat = ch ∧
      (∀ l', prev = some l' → 0 ≤ l'.cpos ∧ l'.cpos ≤ M_LINE_WIDTH + 1) ∧
      UnReadChar q = .ok { q with
        CurrentLine := some { l with cpos := l.cpos - 1 }, PreviousLine := prev,
        PushBack := 1 } := by
    unfold UnReadChar
    rw [if_neg (by simp [hpb]), if_pos heof]
    rcases h with ⟨l, hl, hv, h1, h2, hs, hp⟩ | ⟨hall, l, hl, h1, h2, hs⟩
    · have hne : l.cpos ≠ 0 := by omega
      simp only [hl, Option.all_some, hv, hne, or_self, decide_False, Bool.false_eq_true,
        if_false, ok_bind]
      refine ⟨l, q.PreviousLine, h1, h2, hs, hp, ?_⟩
      cases q
      simp only at hl
      subst hl
      rfl
    · rw [if_pos hall]
      simp only [hl, ok_bind]
      refine ⟨l, _, h1, h2, hs, ?_, rfl⟩
      intro l' hl'
      simp only [Option.map_eq_some'] at hl'
      obtain ⟨a, _, rfl⟩ := hl'
      simp [M_LINE_WIDTH]
  obtain ⟨l, prev, h1, h2, hs, hp, hun⟩ := key
  have hread : ∃ r, ReadChar { q with
      CurrentLine := some { l with cpos := l.cpos - 1 }, PreviousLine := prev,
      PushBack := 1 } = .ok (ch, r) := by
    unfold ReadChar
    rw [if_neg (by simp [heof])]
    unfold readCharFetch
    simp only [ne_eq, one_ne_zero, not_false_eq_true, if_true]
    unfold LINE.get
    simp only
    rw [if_pos ⟨by omega, by omega⟩]
    simp only [ok_bind, hs]
    unfold readCharFinish
    simp only
    by_cases h10 : ch = 10
    · rw [if_pos h10]
      obtain ⟨line', ls, num, hd, _⟩ := DisplayLine_ok DISPLAY_LINE_NUMBER prev
        { q with
          CurrentLine := some { l with cpos := l.cpos - 1 + 1 }, PreviousLine := prev,
          PushBack := 0 } hp
      rw [hd]
      exact ⟨_, rfl⟩
    · rw [if_neg h10]
      by_cases hw : l.cpos - 1 + 1 > M_LINE_WIDTH
      · rw [if_pos hw]
        obtain ⟨line', ls, num, hd, _⟩ := DisplayLine_ok NO_DISPLAY_LINE_NUMBER prev
          { q with
            CurrentLine := some { l with cpos := l.cpos - 1 + 1 }, PreviousLine := prev,
            PushBack := 0 } hp
        rw [hd]
        exact ⟨_, rfl⟩
      · rw [if_neg hw]
        by_cases hE : ch = EOF
        · rw [if_pos hE]
          obtain ⟨p1, hp1, _, _⟩ := readCharAtEOF_ok { l with cpos := l.cpos - 1 + 1 }
            { q with
              CurrentLine := some { l with cpos := l.cpos - 1 + 1 }, PreviousLine := prev,
              PushBack := 0 } ⟨by simp only; omega, by simp only; omega⟩ hp
          rw [hp1]
          exact ⟨_, rfl⟩
        · rw [if_neg hE]
          exact ⟨_, rfl⟩
  obtain ⟨r, hr⟩ := hread
  exact ⟨_, r, hun, hr⟩

theorem swapAndReset_stored (q : CharProcessor) (l : LINE) (ch : Int)
    (hcur : q.CurrentLine = some l)
    (h1 : 1 ≤ l.cpos) (h2 : l.cpos ≤ M_LINE_WIDTH + 1) (hs : l.s (l.cpos - 1).toNat = ch) :
    Stored (swapAndReset q) ch := by
  refine Or.inr ⟨?_, l, hcur, h1, h2, hs⟩
  cases hp : q.PreviousLine with
  | none => simp [swapAndReset, hp]
  | some a => simp [swapAndReset, hp]

/-- A character other than a tab is stored in the line buffer by `ReadChar`. -/
theorem ReadChar_stored (p : CharProcessor) (c : Int) (r : List Int) (h : LineOK p)
    (hin : p.InputFile = c :: r) (h9 : c ≠ 9) (hE : c ≠ EOF) :
    ∃ q, ReadChar p = .ok (c, q) ∧ q.PushBack = 0 ∧ q.ReadEOF = 0 ∧ Stored q c := by
  obtain ⟨hpb, heof, htab, hcur, hprev⟩ := h
  have hg := LineOK_getD ⟨hpb, heof, htab, hcur, hprev⟩
  have hM : M_LINE_WIDTH = 256 := rfl
  unfold ReadChar
  rw [if_neg (by simp [heof])]
  unfold readCharFetch
  rw [if_neg (by simp [hpb])]
  simp only [hin, h9, hE, if_false, ne_eq, not_false_eq_true, if_true]
  rw [LINE.put_ok _ _ _ hg.1 (by omega)]
  simp only [ok_bind]
  unfold readCharFinish
  simp only
  have hs : (if ((p.CurrentLine.getD NewLine).cpos + 1 - 1).toNat
      = (p.CurrentLine.getD NewLine).cpos.toNat then c
      else (p.CurrentLine.getD NewLine).s ((p.CurrentLine.getD NewLine).cpos + 1 - 1).toNat)
      = c := by
    rw [if_pos (by congr 1; omega)]
  by_cases h10 : c = 10
  · rw [if_pos h10]
    obtain ⟨line', ls, num, hd, _⟩ := DisplayLine_ok DISPLAY_LINE_NUMBER p.PreviousLine
      { p with
        InputFile := r
        CurrentLine := some
          { ({ p.CurrentLine.getD NewLine with valid := 1 } : LINE) with
            s := fun k => if k = (p.CurrentLine.getD NewLine).cpos.toNat then c
              else (p.CurrentLine.getD NewLine).s k
            cpos := (p.CurrentLine.getD NewLine).cpos + 1 } } hprev
    simp only at hd
    rw [hd]
    simp only [ok_bind]
    exact ⟨_, rfl, hpb, heof, swapAndReset_stored _ _ _ rfl (by simp only; omega)
      (by simp only; omega) hs⟩
  · rw [if_neg h10]
    by_cases hw : (p.CurrentLine.getD NewLine).cpos + 1 > M_LINE_WIDTH
    · rw [if_pos hw]
      obtain ⟨line', ls, num, hd, _⟩ := DisplayLine_ok NO_DISPLAY_LINE_NUMBER p.PreviousLine
        { p with
          InputFile := r
          CurrentLine := some
            { ({ p.CurrentLine.getD NewLine with valid := 1 } : LINE) with
              s := fun k => if k = (p.CurrentLine.getD NewLine).cpos.toNat then c
                else (p.CurrentLine.getD NewLine).s k
              cpos := (p.CurrentLine.getD NewLine).cpos + 1 } } hprev
      simp only at hd
      rw [hd]
      simp only [ok_bind]
      exact ⟨_, rfl, hpb, heof, swapAndReset_stored _ _ _ rfl (by simp only; omega)
        (by simp only; omega) hs⟩
    · rw [if_neg hw, if_neg hE]
      refine ⟨_, rfl, hpb, heof, Or.inl ⟨_, rfl, by simp, by simp only; omega,
        by simp only; omega, hs, hprev⟩⟩

/-- A tab before the end of the line buffer stores at least one space. -/
theorem ReadChar_tab (p : CharProcessor) (r : List Int) (h : LineOK p)
    (hin : p.InputFile = 9 :: r) (hfull : (p.CurrentLine.getD NewLine).cpos < M_LINE_WIDTH) :
    ∃ q, ReadChar p = .ok (32, q) ∧ q.PushBack = 0 ∧ q.ReadEOF = 0 ∧ Stored q 32 := by
  obtain ⟨hpb, heof, htab, hcur, hprev⟩ := h
  have hg := LineOK_getD ⟨hpb, heof, htab, hcur, hprev⟩
  have hM : M_LINE_WIDTH = 256 := rfl
  unfold ReadChar
  rw [if_neg (by simp [heof])]
  unfold readCharFetch
  rw [if_neg (by simp [hpb])]
  simp only [hin, if_true]
  have hj := tabLoop_gt p.TabWidth (p.CurrentLine.getD NewLine).cpos
    ((p.CurrentLine.getD NewLine).cpos.toNat + 1) p.TabWidth (by
      push_cast
      have : ((p.CurrentLine.getD NewLine).cpos.toNat : Int)
          = (p.CurrentLine.getD NewLine).cpos := Int.toNat_of_nonneg hg.1
      rw [this]
      nlinarith)
  obtain ⟨i', l', hf, hi1, hi2, hv, hi3⟩ := fillLoop_ok
    (tabLoop p.TabWidth (p.CurrentLine.getD NewLine).cpos
      ((p.CurrentLine.getD NewLine).cpos.toNat + 1) p.TabWidth)
    M_LINE_WIDTH.toNat (p.CurrentLine.getD NewLine).cpos
    { p.CurrentLine.getD NewLine with valid := 1 } hg.1
  have hc := (fillLoop_content _ _ _ _ _ _ hg.1 hf).1
  have hlt := hi3 hj hfull (by decide)
  rw [hf]
  simp only [ok_bind]
  unfold readCharFinish
  have hne : (32 : Int) ≠ 10 := by decide
  have hne2 : (32 : Int) ≠ EOF := by decide
  simp only [hne, hne2, if_false]
  have hle : i' ≤ M_LINE_WIDTH := by
    rcases hi2 with h | h
    · omega
    · exact h
  rw [if_neg (by omega)]
  refine ⟨_, rfl, hpb, heof, Or.inl ⟨_, rfl, by simp [hv], by simp only; omega,
    by simp only; omega, ?_, hprev⟩⟩
  simp only
  have := hc (i' - 1).toNat (by omega) (by omega)
  exact this

theorem ReadChar_eof (p : CharProcessor) (h : LineOK p) (hin : p.InputFile = []) :
    ∃ q, ReadChar p = .ok (EOF, q) ∧ q.PushBack = 0 ∧ q.ReadEOF = 1 := by
  obtain ⟨hpb, heof, htab, hcur, hprev⟩ := h
  have hg := LineOK_getD ⟨hpb, heof, htab, hcur, hprev⟩
  unfold ReadChar
  rw [if_neg (by simp [heof])]
  unfold readCharFetch
  rw [if_neg (by simp [hpb])]
  simp only [hin, ok_bind]
  unfold readCharFinish
  have hne : EOF ≠ 10 := by decide
  simp only [hne, if_false, if_true]
  rw [if_neg (by omega)]
  obtain ⟨p1, hp1, he1, hb1⟩ := readCharAtEOF_ok (p.CurrentLine.getD NewLine)
    { p with InputFile := [], CurrentLine := some (p.CurrentLine.getD NewLine) } hg hprev
  rw [hp1]
  exact ⟨p1, rfl, by rw [hb1]; exact hpb, he1⟩

/-- The pushback law where it holds: with no character pushed back and the
end of the file not yet seen, `ReadChar(); UnReadChar(); ReadChar();` returns
the same character twice (the end-of-file value at the end of the input, a
space for a tab, the character itself otherwise), unless the character is a
tab read at column `M_LINE_WIDTH`. -/
theorem pushback_law (p : CharProcessor) (h : LineOK p)
    (hE : ∀ c r, p.InputFile = c :: r → c ≠ EOF)
    (hfull : ∀ r, p.InputFile = 9 :: r → (p.CurrentLine.getD NewLine).cpos < M_LINE_WIDTH) :
    pushbackProbe p = some
      (match p.InputFile with
        | [] => (EOF, EOF)
        | c :: _ => if c = 9 then (32, 32) else (c, c)) := by
  unfold pushbackProbe
  cases hin : p.InputFile with
  | nil =>
    obtain ⟨q, hq, hpb, heof⟩ := ReadChar_eof p h hin
    rw [hq]
    simp only [ok_bind]
    unfold UnReadChar
    rw [if_neg (by simp [hpb]), if_neg (by simp [heof])]
    simp only [ok_bind]
    unfold ReadChar
    rw [if_pos (by simp [heof])]
    rfl
  | cons c r =>
    by_cases h9 : c = 9
    · subst h9
      obtain ⟨q, hq, hpb, heof, hst⟩ := ReadChar_tab p r h hin (hfull r hin)
      obtain ⟨q2, r2, hu, hr⟩ := reread q 32 hpb heof hst
      rw [hq]
      simp only [ok_bind]
      rw [hu]
      simp only [ok_bind]
      rw [hr]
      rfl
    · obtain ⟨q, hq, hpb, heof, hst⟩ := ReadChar_stored p c r h hin h9 (hE c r hin)
      obtain ⟨q2, r2, hu, hr⟩ := reread q c hpb heof hst
      rw [hq]
      simp only [ok_bind]
      rw [hu]
      simp only [ok_bind]
      rw [hr]
      simp [h9, Except.toOption]

/-- C8: the sequence `ReadChar(); UnReadChar(); ReadChar();` at a tab that
follows 256 characters of a line.  After the 256 letters `a` of the source text
`a...a<TAB>b` have been read (no character pushed back, listing on or off),
the first `ReadChar` returns the tab as a space, 32, and the `ReadChar` after
`UnReadChar` returns the letter `a`, 97, of column 255: at column 256 the tab
stores no space in the line buffer, and the pushback reads the buffer. -/
theorem pushback_at_full_line :
    ∀ listfile : Bool,
      (readN 256 (InitCharProcessor (List.replicate 256 97 ++ [9, 98]) listfile)).toOption.bind
        pushbackProbe = some (32, 97) := by
  decide!

/-- C7: an identifier as long as a chunk of the string table.  On a source
text of 1024 letters `a` the terminating `AddChar(0)` of `GetToken` stores
beyond the end of the chunk it has just allocated; on 1023 letters `GetToken`
still returns `IDENTIFIER`, the string at the start of the second chunk, which
it fills. -/
theorem GetToken_identifier_overrun :
    failure (GetToken 1100 (Scanner.initial (List.replicate 1024 97)))
      = some Fatal.chunkOverrun ∧
    (GetToken 1100 (Scanner.initial (List.replicate 1023 97))).toOption.map
        (fun r => (r.1.code, r.1.s, r.2.strings.SpaceLeftInChunk))
      = some (IDENTIFIER, some ⟨1, 0⟩, 0) := by
  decide!

/-! ### Variable references, declarations, lookup and the code table limit -/

/-- C17: `Emit` ends in the fatal code-table overflow exactly when the current
code address is at least `CODETABLESIZE` = 1024 (no state is returned:
nothing is stored); below 1024 it returns, having stored the pair at the
current address and advanced it by one; hence every sequence of calls on the
code buffer that returns has made at most 1024 `Emit` calls, as many as the
final code address. -/
theorem Emit_overflow_exactly (opcode offset : Int) (g : CodeGen) :
    (Emit opcode offset g = .error .codeTableOverflow ↔
      CurrentCodeAddress g ≥ (CODETABLESIZE : Int)) ∧
    (CurrentCodeAddress g < (CODETABLESIZE : Int) →
      ∃ g', Emit opcode offset g = .ok g' ∧
        CurrentCodeAddress g' = CurrentCodeAddress g + 1 ∧
        g'.CodeTable g.CodePosition = ⟨opcode, offset⟩) ∧
    (∀ ops g', runOps ops InitCodeGenerator = .ok g' →
      emitCount ops = g'.CodePosition ∧ emitCount ops ≤ 1024) := by
  refine ⟨?_, ?_, ?_⟩
  · unfold Emit CurrentCodeAddress
    constructor
    · intro h
      by_contra hlt
      rw [if_neg (by omega)] at h
      cases h
    · intro h
      rw [if_pos (by omega)]
  · intro h
    unfold CurrentCodeAddress at h
    rw [Emit_of_lt opcode offset g (by omega)]
    refine ⟨_, rfl, ?_, ?_⟩
    · simp [CurrentCodeAddress]
    · simp
  · intro ops g' h
    have h1 := runOps_position ops _ _ h
    have h2 := h1.2 (by simp [InitCodeGenerator])
    have h3 : InitCodeGenerator.CodePosition = 0 := rfl
    have hC : CODETABLESIZE = 1024 := rfl
    omega

/-- C14: with an `IDENTIFIER` lookahead, `LookupSymbol` returns what `Probe`
returns for the lookahead's spelling; when that is NULL it records "Identifier
not declared" at the token's position and sets the errors-present flag of the
code generator, changing nothing else; when it is a symbol the state is
returned unchanged. -/
theorem LookupSymbol_returns_probe (c : Compiler) (name : List Nat)
    (hcode : c.CurrentToken.code = IDENTIFIER) (hs : c.CurrentToken.s = some name) :
    ∃ c', LookupSymbol c = .ok ((Probe c.HashTable name).1, c') ∧
      ((Probe c.HashTable name).1 = none →
        c' = { c with
          errors := c.errors ++ [Diagnostic.notDeclared c.CurrentToken.pos]
          code := { c.code with ErrorsInProgram := 1 } }) ∧
      ((Probe c.HashTable name).1 ≠ none → c' = c) := by
  unfold LookupSymbol
  rw [if_pos hcode, hs]
  simp only
  cases hp : (Probe c.HashTable name).1 with
  | none => exact ⟨_, rfl, fun _ => rfl, fun h => absurd rfl h⟩
  | some sym => exact ⟨_, rfl, fun h => Option.noConfusion h, fun _ => rfl⟩

theorem strncmp_self : ∀ (n : Nat) (a : List Nat), strncmp n a a = 0 := by
  intro n
  induction n with
  | zero => intro a; rfl
  | succ n ih =>
    intro a
    rw [strncmp, if_neg (fun h => h rfl)]
    split
    · rfl
    · exact ih _

theorem strncmp_symm : ∀ (n : Nat) (a b : List Nat), strncmp n a b = 0 → strncmp n b a = 0 := by
  intro n
  induction n with
  | zero => intro a b _; rfl
  | succ n ih =>
    intro a b h
    rw [strncmp] at h
    rw [strncmp]
    by_cases hxy : a.headD 0 = b.headD 0
    · rw [if_neg (fun e => e hxy)] at h
      rw [if_neg (fun e => e hxy.symm)]
      by_cases h0 : a.headD 0 = 0
      · rw [if_pos (by rw [← hxy]; exact h0)]
      · rw [if_neg h0] at h
        rw [if_neg (by rw [← hxy]; exact h0)]
        exact ih _ _ h
    · rw [if_pos hxy] at h
      omega

theorem strncmp_trans : ∀ (n : Nat) (a b c : List Nat), strncmp n a b = 0 → strncmp n b c = 0 →
    strncmp n a c = 0 := by
  intro n
  induction n with
  | zero => intro a b c _ _; rfl
  | succ n ih =>
    intro a b c h1 h2
    rw [strncmp] at h1 h2
    rw [strncmp]
    by_cases hxy : a.headD 0 = b.headD 0
    · rw [if_neg (fun e => e hxy)] at h1
      by_cases hyz : b.headD 0 = c.headD 0
      · rw [if_neg (fun e => e hyz)] at h2
        rw [if_neg (fun e => e (hxy.trans hyz))]
        by_cases h0 : a.headD 0 = 0
        · rw [if_pos h0]
        · rw [if_neg h0] at h1
          rw [if_neg (by rw [← hxy]; exact h0)] at h2
          rw [if_neg h0]
          exact ih _ _ _ h1 h2
      · rw [if_pos hyz] at h2
        omega
    · rw [if_pos hxy] at h1
      omega

/-- What `Probe` finds in a chain: nothing when every symbol compares unequal,
else the first symbol that compares equal. -/
theorem probeChain_none (name : List Nat) : ∀ (chain : List SYMBOL),
    probeChain name chain = none → ∀ b ∈ chain, strncmp 80 b.s name ≠ 0 := by
  intro chain
  induction chain with
  | nil => intro _ b hb; simp at hb
  | cons a chain ih =>
    intro h b hb
    rw [probeChain] at h
    split at h
    · rename_i hne
      rcases List.mem_cons.mp hb with rfl | hb
      · exact hne
      · exact ih h b hb
    · cases h

theorem probeChain_some (name : List Nat) {o : SYMBOL} : ∀ (chain : List SYMBOL),
    probeChain name chain = some o →
    ∃ pre post, chain = pre ++ o :: post ∧ strncmp 80 o.s name = 0 ∧
      ∀ b ∈ pre, strncmp 80 b.s name ≠ 0 := by
  intro chain
  induction chain with
  | nil => intro h; simp [probeChain] at h
  | cons a chain ih =>
    intro h
    rw [probeChain] at h
    split at h
    · rename_i hne
      obtain ⟨pre, post, hc, h0, hpre⟩ := ih h
      refine ⟨a :: pre, post, by rw [hc]; rfl, h0, ?_⟩
      intro b hb
      rcases List.mem_cons.mp hb with rfl | hb
      · exact hne
      · exact hpre b hb
    · rename_i heq
      simp only [Option.some.injEq] at h
      subst h
      exact ⟨[], chain, rfl, by simpa using heq, fun b hb => by simp at hb⟩

theorem TableOK_empty : TableOK emptyTable :=
  ⟨fun i sym h => by simp [emptyTable] at h, fun i => by simp [emptyTable]⟩

theorem NoClash_of_TableOK {tbl : SymTab} (h : TableOK tbl) : NoClash tbl := by
  refine ⟨fun i => (h.2 i).imp ?_, ?_⟩
  · intro a b hab ⟨hs, hsc⟩
    have := hab (by rw [hs]; exact strncmp_self _ _)
    omega
  · intro i j hij a ha b hb hs
    have h1 := h.1 i a ha
    have h2 := h.1 j b hb
    rw [hs] at h1
    exact hij (h1.symm.trans h2)

theorem removeChain_suffix (scope : Int) : ∀ chain : List SYMBOL,
    ∃ pre, chain = pre ++ removeChain scope chain := by
  intro chain
  induction chain with
  | nil => exact ⟨[], rfl⟩
  | cons a chain ih =>
    rw [removeChain]
    split
    · obtain ⟨pre, hpre⟩ := ih
      exact ⟨a :: pre, by rw [List.cons_append, ← hpre]⟩
    · exact ⟨[], rfl⟩

/-- `RemoveSymbols` keeps the invariant of the table. -/
theorem RemoveSymbols_TableOK (scope : Int) {tbl : SymTab} (h : TableOK tbl) :
    TableOK (RemoveSymbols scope tbl) := by
  constructor
  · intro i sym hs
    unfold RemoveSymbols at hs
    split at hs
    · obtain ⟨pre, hpre⟩ := removeChain_suffix scope (tbl i)
      exact h.1 i sym (by rw [hpre]; exact List.mem_append_right _ hs)
    · exact h.1 i sym hs
  · intro i
    unfold RemoveSymbols
    split
    · obtain ⟨pre, hpre⟩ := removeChain_suffix scope (tbl i)
      have := h.2 i
      rw [hpre] at this
      exact (List.pairwise_append.mp this).2.1
    · exact h.2 i

theorem MakeSymbolTableEntry_enter (symtype : Int) (c : Compiler) (name : List Nat)
    (hcode : c.CurrentToken.code = IDENTIFIER) (hs : c.CurrentToken.s = some name)
    (hnew : (Probe c.HashTable name).1 = none ∨
      ∃ o, (Probe c.HashTable name).1 = some o ∧ o.scope < c.scope) :
    MakeSymbolTableEntry symtype c = .ok { c with
      HashTable := fun i =>
        if i = Hash name then enteredSymbol symtype c name :: c.HashTable i else c.HashTable i
      VarLctn := if symtype = STYPE_VARIABLE then c.VarLctn + 1 else c.VarLctn } := by
  unfold MakeSymbolTableEntry
  rw [if_pos hcode, hs]
  simp only
  rw [if_pos]
  · congr 2
    funext i
    simp only [setHead, EnterSymbol, Probe, enteredSymbol]
    split
    · simp only [List.tail_cons]
    · rfl
  · rcases hnew with h | ⟨o, ho, hlt⟩
    · exact Or.inl h
    · right
      rw [ho]
      simp [hlt]

theorem MakeSymbolTableEntry_refuse (symtype : Int) (c : Compiler) (name : List Nat)
    (hcode : c.CurrentToken.code = IDENTIFIER) (hs : c.CurrentToken.s = some name)
    (o : SYMBOL) (ho : (Probe c.HashTable name).1 = some o) (hge : c.scope ≤ o.scope) :
    MakeSymbolTableEntry symtype c = .ok { c with
      errors := c.errors ++ [Diagnostic.alreadyDeclared c.CurrentToken.pos]
      code := { c.code with ErrorsInProgram := 1 } } := by
  unfold MakeSymbolTableEntry
  rw [if_pos hcode, hs]
  simp only
  rw [if_neg]
  · rfl
  · rw [ho]
    simp only [Option.map_some', Option.some.injEq, decide_eq_true_eq, not_or, not_lt]
    exact ⟨fun h => Option.noConfusion h, hge⟩

/-- A declaration keeps the invariant of the table. -/
theorem MakeSymbolTableEntry_TableOK (symtype : Int) (c c' : Compiler)
    (hinv : TableOK c.HashTable) (h : MakeSymbolTableEntry symtype c = .ok c') :
    TableOK c'.HashTable := by
  by_cases hcode : c.CurrentToken.code = IDENTIFIER
  swap
  · unfold MakeSymbolTableEntry at h
    rw [if_neg hcode] at h
    cases h
    exact hinv
  cases hs : c.CurrentToken.s with
  | none =>
    unfold MakeSymbolTableEntry at h
    rw [if_pos hcode, hs] at h
    cases h
  | some name =>
    cases hp : (Probe c.HashTable name).1 with
    | none =>
      rw [MakeSymbolTableEntry_enter symtype c name hcode hs (Or.inl hp)] at h
      cases h
      have hnone := probeChain_none name (c.HashTable (Hash name)) hp
      constructor
      · intro i sym hsym
        simp only at hsym
        split at hsym
        · rename_i hi
          rcases List.mem_cons.mp hsym with rfl | hsym
          · simp only [enteredSymbol, hp]
            exact hi.symm
          · exact hinv.1 i sym hsym
        · exact hinv.1 i sym hsym
      · intro i
        simp only
        split
        · rename_i hi
          subst hi
          refine List.pairwise_cons.mpr ⟨?_, hinv.2 _⟩
          intro b hb h0
          simp only [enteredSymbol, hp] at h0
          exact absurd (strncmp_symm _ _ _ h0) (hnone b hb)
        · exact hinv.2 i
    | some o =>
      by_cases hlt : o.scope < c.scope
      · rw [MakeSymbolTableEntry_enter symtype c name hcode hs (Or.inr ⟨o, hp, hlt⟩)] at h
        cases h
        obtain ⟨pre, post, hchain, h0, hpre⟩ :=
          probeChain_some name (c.HashTable (Hash name)) hp
        have hmem : o ∈ c.HashTable (Hash name) := by rw [hchain]; simp
        constructor
        · intro i sym hsym
          simp only at hsym
          split at hsym
          · rename_i hi
            rcases List.mem_cons.mp hsym with rfl | hsym
            · simp only [enteredSymbol, hp]
              rw [hi]
              exact hinv.1 _ o hmem
            · exact hinv.1 i sym hsym
          · exact hinv.1 i sym hsym
        · intro i
          simp only
          split
          · rename_i hi
            subst hi
            refine List.pairwise_cons.mpr ⟨?_, hinv.2 _⟩
            intro b hb hb0
            simp only [enteredSymbol, hp] at hb0 ⊢
            rw [hchain] at hb
            have hpw := hinv.2 (Hash name)
            rw [hchain] at hpw
            rcases List.mem_append.mp hb with hb | hb
            · exact absurd
                (strncmp_trans _ _ _ _ (strncmp_symm _ _ _ hb0) h0) (hpre b hb)
            · rcases List.mem_cons.mp hb with rfl | hb
              · exact hlt
              · have := (List.pairwise_cons.mp (List.pairwise_append.mp hpw).2.1).1 b hb hb0
                omega
          · exact hinv.2 i
      · rw [MakeSymbolTableEntry_refuse symtype c name hcode hs o hp (by omega)] at h
        cases h
        exact hinv

theorem declare_step (symtype : Int) (tok : TOKEN) (c c1 : Compiler)
    (h : MakeSymbolTableEntry symtype { c with CurrentToken := tok } = .ok c1) :
    (addedSymbol c.HashTable c1.HashTable tok = none ∧ c1.VarLctn = c.VarLctn) ∨
    ∃ sym, addedSymbol c.HashTable c1.HashTable tok = some sym ∧ sym.scope = c.scope ∧
      sym.type = symtype ∧
      ((symtype = STYPE_VARIABLE ∧ sym.address = c.VarLctn ∧ c1.VarLctn = c.VarLctn + 1) ∨
        (symtype ≠ STYPE_VARIABLE ∧ sym.address = -1 ∧ c1.VarLctn = c.VarLctn)) := by
  by_cases hcode : tok.code = IDENTIFIER
  swap
  · unfold MakeSymbolTableEntry at h
    rw [if_neg hcode] at h
    cases h
    left
    refine ⟨?_, rfl⟩
    unfold addedSymbol
    split
    · rfl
    · simp
  cases hs : tok.s with
  | none =>
    unfold MakeSymbolTableEntry at h
    simp only at h
    rw [if_pos hcode, hs] at h
    cases h
  | some name =>
    have hadd : ∀ sym : SYMBOL, addedSymbol c.HashTable
        (fun i => if i = Hash name then sym :: c.HashTable i else c.HashTable i) tok
        = some sym := by
      intro sym
      unfold addedSymbol
      rw [hs]
      simp
    have hsame : addedSymbol c.HashTable c.HashTable tok = none := by
      unfold addedSymbol
      rw [hs]
      simp
    cases hp : (Probe c.HashTable name).1 with
    | none =>
      rw [MakeSymbolTableEntry_enter symtype { c with CurrentToken := tok } name hcode hs
        (Or.inl hp)] at h
      cases h
      right
      refine ⟨_, hadd _, rfl, rfl, ?_⟩
      by_cases hv : symtype = STYPE_VARIABLE
      · exact Or.inl ⟨hv, by simp [enteredSymbol, hv], by simp [hv]⟩
      · exact Or.inr ⟨hv, by simp [enteredSymbol, hv], by simp [hv]⟩
    | some o =>
      by_cases hlt : o.scope < c.scope
      · rw [MakeSymbolTableEntry_enter symtype { c with CurrentToken := tok } name hcode hs
          (Or.inr ⟨o, hp, hlt⟩)] at h
        cases h
        right
        refine ⟨_, hadd _, rfl, rfl, ?_⟩
        by_cases hv : symtype = STYPE_VARIABLE
        · exact Or.inl ⟨hv, by simp [enteredSymbol, hv], by simp [hv]⟩
        · exact Or.inr ⟨hv, by simp [enteredSymbol, hv], by simp [hv]⟩
      · rw [MakeSymbolTableEntry_refuse symtype { c with CurrentToken := tok } name hcode hs o
          hp (by simp only; omega)] at h
        cases h
        exact Or.inl ⟨hsame, rfl⟩

theorem range_shift (n : Nat) (v : Int) :
    v :: (List.range n).map (fun k : Nat => v + 1 + (k : Int))
      = (List.range (n + 1)).map (fun k : Nat => v + (k : Int)) := by
  rw [List.range_succ_eq_map, List.map_cons, List.map_map]
  congr 1
  · simp
  · apply List.map_congr_left
    intro k _
    simp only [Function.comp_apply, Nat.succ_eq_add_one, Nat.cast_add, Nat.cast_one]
    omega

theorem declLog_slots (ops : List DeclOp) : ∀ (c c' : Compiler) (log : List (Int × SYMBOL)),
    declLog ops c = .ok (log, c') →
    (∀ e ∈ log, e.2.scope = e.1) ∧
    (∀ e ∈ log, e.2.type ≠ STYPE_VARIABLE → e.2.address = -1) ∧
    (variablesOf log).map (fun s => s.address)
      = (List.range (variablesOf log).length).map (fun k : Nat => c.VarLctn + (k : Int)) ∧
    c'.VarLctn = c.VarLctn + (variablesOf log).length := by
  induction ops with
  | nil =>
    intro c c' log h
    simp only [declLog, Except.ok.injEq, Prod.mk.injEq] at h
    obtain ⟨rfl, rfl⟩ := h
    simp [variablesOf]
  | cons op ops ih =>
    intro c c' log h
    simp only [declLog] at h
    obtain ⟨c1, h1, h⟩ := bind_eq_ok h
    obtain ⟨r, h2, h⟩ := bind_eq_ok h
    simp only [Except.ok.injEq, Prod.mk.injEq] at h
    obtain ⟨rfl, rfl⟩ := h
    obtain ⟨ih1, ih2, ih3, ih4⟩ := ih c1 r.2 r.1 h2
    have key : (op.entered c c1 = [] ∧ c1.VarLctn = c.VarLctn) ∨
        ∃ sym, op.entered c c1 = [(c.scope, sym)] ∧ sym.scope = c.scope ∧
          ((sym.type = STYPE_VARIABLE ∧ sym.address = c.VarLctn ∧
              c1.VarLctn = c.VarLctn + 1) ∨
            (sym.type ≠ STYPE_VARIABLE ∧ sym.address = -1 ∧ c1.VarLctn = c.VarLctn)) := by
      cases op with
      | declare symtype tok =>
        rcases declare_step symtype tok c c1 h1 with ⟨ha, hv⟩ | ⟨sym, ha, hsc, hty, hv⟩
        · exact Or.inl ⟨by simp [DeclOp.entered, ha], hv⟩
        · refine Or.inr ⟨sym, by simp [DeclOp.entered, ha], hsc, ?_⟩
          rw [hty]
          exact hv
      | enter =>
        simp only [DeclOp.run, Except.ok.injEq] at h1
        subst h1
        exact Or.inl ⟨rfl, rfl⟩
      | leave =>
        simp only [DeclOp.run, Except.ok.injEq] at h1
        subst h1
        exact Or.inl ⟨rfl, rfl⟩
    rcases key with ⟨he, hv⟩ | ⟨sym, he, hsc, hv⟩
    · rw [he]
      simp only [List.nil_append]
      exact ⟨ih1, ih2, by rw [← hv]; exact ih3, by rw [← hv]; exact ih4⟩
    · rw [he]
      refine ⟨?_, ?_, ?_, ?_⟩
      · intro e hmem
        rcases List.mem_append.mp hmem with hm | hm
        · rw [List.mem_singleton.mp hm]
          exact hsc
        · exact ih1 e hm
      · intro e hmem hne
        rcases List.mem_append.mp hmem with hm | hm
        · rw [List.mem_singleton.mp hm] at hne ⊢
          rcases hv with ⟨hty, _, _⟩ | ⟨_, ha, _⟩
          · exact absurd hty hne
          · exact ha
        · exact ih2 e hm hne
      · rcases hv with ⟨hty, ha, hv⟩ | ⟨hty, ha, hv⟩
        · have hvars : variablesOf ([(c.scope, sym)] ++ r.1) = sym :: variablesOf r.1 := by
            simp [variablesOf, hty]
          rw [hvars]
          simp only [List.map_cons, List.length_cons]
          rw [ih3, hv, ha]
          exact range_shift _ _
        · have hvars : variablesOf ([(c.scope, sym)] ++ r.1) = variablesOf r.1 := by
            simp [variablesOf, hty]
          rw [hvars, ih3, hv]
      · rcases hv with ⟨hty, ha, hv⟩ | ⟨hty, ha, hv⟩
        · have hvars : variablesOf ([(c.scope, sym)] ++ r.1) = sym :: variablesOf r.1 := by
            simp [variablesOf, hty]
          rw [hvars, ih4, hv]
          simp only [List.length_cons, Nat.cast_add, Nat.cast_one]
          omega
        · have hvars : variablesOf ([(c.scope, sym)] ++ r.1) = variablesOf r.1 := by
            simp [variablesOf, hty]
          rw [hvars, ih4, hv]

theorem emitLoadSP_eq (k : Nat) : ∀ (c : Compiler), c.code.CodePosition + k ≤ CODETABLESIZE →
    emitLoadSP k c = .ok { c with code := pushCode c.code (List.replicate k ⟨I_LOADSP, 0⟩) } := by
  induction k with
  | zero => intro c _; rfl
  | succ k ih =>
    intro c h
    rw [emitLoadSP, Compiler.Emit_eq c _ _ (by omega)]
    simp only [ok_bind]
    rw [ih _ (by simp only [pushCode_position, List.length_singleton]; omega)]
    simp only [List.replicate_succ]
    rw [← pushCode_append]
    rfl

/-- Counterexample to C11 as stated: in the statement `READ(a(1+b))`, with `b` a
global variable at address 0, the reference to `b` in the expression `1+b`
emits `Store 0`, not `Load 0`; no error is reported. -/
theorem global_reference_emits_store :
    ((ParseStatement 20 sampleRead).toOption.map fun c =>
        (c.code.listing, c.errors, c.code.ErrorsInProgram))
      = some ([⟨I_LOADI, 1⟩, ⟨I_STOREA, 0⟩, ⟨I_ADD, 0⟩], [], 0) := by
  decide!

/-- C11, amended: for an `IDENTIFIER` lookahead that `Probe` resolves to the
symbol `var`, with `j = scope - var.scope` and room in the code table,
`ParseSubTerm` returns and has appended to the code: for a global variable
(`STYPE_VARIABLE`) exactly one instruction, `Load addr` (`I_LOADA`) when the
flag `Read` is clear or the flag `Write` is set, and `Store addr` (`I_STOREA`)
when `Read` is set and `Write` is clear; for a local variable with `j = 0`
exactly `Load FP+addr`; for a local variable with `j > 0` exactly the `j + 1`
instructions `Load FP` with operand 0, `j - 1` times `Load [SP]` with operand 0,
and `Load [SP]+addr`. -/
theorem ParseSubTerm_variable_load (n : Nat) (c : Compiler) (name : List Nat) (var : SYMBOL)
    (hcode : c.CurrentToken.code = IDENTIFIER) (hs : c.CurrentToken.s = some name)
    (hvar : (Probe c.HashTable name).1 = some var)
    (hkind : var.type = STYPE_VARIABLE ∨ (var.type = STYPE_LOCALVAR ∧ var.scope ≤ c.scope))
    (hroom : c.code.CodePosition
      + (if var.type = STYPE_VARIABLE then 0 else (c.scope - var.scope).toNat) < CODETABLESIZE) :
    ∃ c', ParseSubTerm (n + 1) c = .ok c' ∧
      (var.type = STYPE_VARIABLE → (c.Read = 0 ∨ c.Write ≠ 0) →
        c'.code.listing = c.code.listing ++ [⟨I_LOADA, var.address⟩]) ∧
      (var.type = STYPE_VARIABLE → c.Read ≠ 0 → c.Write = 0 →
        c'.code.listing = c.code.listing ++ [⟨I_STOREA, var.address⟩]) ∧
      (var.type = STYPE_LOCALVAR → c.scope - var.scope = 0 →
        c'.code.listing = c.code.listing ++ [⟨I_LOADFP, var.address⟩]) ∧
      (var.type = STYPE_LOCALVAR → 0 < c.scope - var.scope →
        c'.code.listing = c.code.listing ++
          (⟨I_LOADFP, 0⟩ :: List.replicate ((c.scope - var.scope).toNat - 1) ⟨I_LOADSP, 0⟩
            ++ [⟨I_LOADSP, var.address⟩])) := by
  have hne : STYPE_VARIABLE ≠ STYPE_LOCALVAR := by decide
  have hlook : LookupSymbol c = .ok (some var, c) := by
    unfold LookupSymbol
    rw [if_pos hcode, hs]
    simp only [hvar]
  -- the code `loadVariable` appends
  have hload : ∃ l, loadVariable var c = .ok { c with code := pushCode c.code l } ∧
      (var.type = STYPE_VARIABLE → (c.Read = 0 ∨ c.Write ≠ 0) → l = [⟨I_LOADA, var.address⟩]) ∧
      (var.type = STYPE_VARIABLE → c.Read ≠ 0 → c.Write = 0 →
        l = [⟨I_STOREA, var.address⟩]) ∧
      (var.type = STYPE_LOCALVAR → c.scope - var.scope = 0 →
        l = [⟨I_LOADFP, var.address⟩]) ∧
      (var.type = STYPE_LOCALVAR → 0 < c.scope - var.scope →
        l = ⟨I_LOADFP, 0⟩ :: List.replicate ((c.scope - var.scope).toNat - 1) ⟨I_LOADSP, 0⟩
            ++ [⟨I_LOADSP, var.address⟩]) := by
    unfold loadVariable
    rcases hkind with hv | ⟨hl, hsc⟩
    · rw [if_pos hv] at hroom
      rw [if_pos hv]
      have hE := fun op => Compiler.Emit_eq c op var.address (by omega)
      by_cases hw : c.Write ≠ 0
      · rw [if_pos hw, hE]
        exact ⟨_, rfl, fun _ _ => rfl, fun _ _ h => absurd h hw,
          fun h => absurd (hv.symm.trans h) hne, fun h => absurd (hv.symm.trans h) hne⟩
      · rw [if_neg hw]
        by_cases hr : c.Read ≠ 0
        · rw [if_pos hr, hE]
          refine ⟨_, rfl, fun _ h => ?_, fun _ _ _ => rfl,
            fun h => absurd (hv.symm.trans h) hne, fun h => absurd (hv.symm.trans h) hne⟩
          rcases h with h | h
          · exact absurd h hr
          · exact absurd h hw
        · rw [if_neg hr, hE]
          exact ⟨_, rfl, fun _ _ => rfl, fun _ h => absurd h hr,
            fun h => absurd (hv.symm.trans h) hne, fun h => absurd (hv.symm.trans h) hne⟩
    · have hnv : var.type ≠ STYPE_VARIABLE := fun h => hne (h.symm.trans hl)
      rw [if_neg hnv] at hroom
      rw [if_neg hnv, if_pos hl]
      by_cases hj : c.scope - var.scope = 0
      · rw [if_pos hj, Compiler.Emit_eq c _ _ (by omega)]
        exact ⟨_, rfl, fun h => absurd h hnv, fun h => absurd h hnv, fun _ _ => rfl,
          fun _ h => by omega⟩
      · rw [if_neg hj]
        simp only [bind, Except.bind]
        rw [Compiler.Emit_eq c _ _ (by omega)]
        simp only
        rw [emitLoadSP_eq _ _ (by
          simp only [pushCode_position, List.length_singleton]
          omega)]
        simp only
        rw [Compiler.Emit_eq _ _ _ (by
          simp only [pushCode_position, List.length_singleton, List.length_replicate]
          omega)]
        refine ⟨_, ?_, fun h => absurd h hnv, fun h => absurd h hnv, fun _ h => absurd h hj,
          fun _ _ => rfl⟩
        simp only [← pushCode_append]
        rw [show (c.scope - var.scope - 1).toNat = (c.scope - var.scope).toNat - 1 by omega]
        rfl
  obtain ⟨l, hl, h1, h2, h3, h4⟩ := hload
  have hres : ParseSubTerm (n + 1) c
      = .ok (ParseVariable { c with code := pushCode c.code l }) := by
    rw [ParseSubTerm]
    rw [if_neg (by rw [hcode]; decide), if_neg (by rw [hcode]; decide)]
    simp only [bind, Except.bind, hlook, hl]
  refine ⟨_, hres, ?_, ?_, ?_, ?_⟩
  · intro a b
    rw [ParseVariable, ParseIdentifier, Accept_code, pushCode_listing, h1 a b]
  · intro a b d
    rw [ParseVariable, ParseIdentifier, Accept_code, pushCode_listing, h2 a b d]
  · intro a b
    rw [ParseVariable, ParseIdentifier, Accept_code, pushCode_listing, h3 a b]
  · intro a b
    rw [ParseVariable, ParseIdentifier, Accept_code, pushCode_listing, h4 a b]

/-- Witness for C11: `x`, local at depth 1 and offset 4, referenced at depth 3
compiles to `Load FP`, `Load [SP]`, `Load [SP]+4`. -/
theorem ParseSubTerm_variable_load_witness :
    ∃ c', ParseSubTerm 1 sampleLocal = .ok c' ∧
      c'.code.listing = [⟨I_LOADFP, 0⟩, ⟨I_LOADSP, 0⟩, ⟨I_LOADSP, 4⟩] := by
  obtain ⟨c', h, _, _, _, h4⟩ := ParseSubTerm_variable_load 0 sampleLocal [120]
    ⟨[120], 1, STYPE_LOCALVAR, -1, -1, 4⟩ rfl rfl (by decide!) (Or.inr ⟨rfl, by decide⟩)
    (by decide)
  exact ⟨c', h, (h4 rfl (by decide)).trans (by decide)⟩

/-- C12: with an `IDENTIFIER` lookahead of spelling `name` at scope depth `d`, in
a table that satisfies the invariant of the declarations,
`MakeSymbolTableEntry` returns; when `Probe name` is NULL or a symbol of scope
below `d` it puts a new symbol of scope `d` at the head of the chain and
reports nothing; when `Probe name` is a symbol of scope `d` (or above) it
leaves the symbol table and `VarLctn` unchanged, records "already declared" and
sets the errors-present flag.  The invariant is kept, and with it no two
symbols of the table have the same string and the same scope. -/
theorem MakeSymbolTableEntry_redeclaration (symtype : Int) (c : Compiler) (name : List Nat)
    (hcode : c.CurrentToken.code = IDENTIFIER) (hs : c.CurrentToken.s = some name)
    (hinv : TableOK c.HashTable) :
    ∃ c', MakeSymbolTableEntry symtype c = .ok c' ∧
      (((Probe c.HashTable name).1 = none ∨
          ∃ o, (Probe c.HashTable name).1 = some o ∧ o.scope < c.scope) →
        (c'.HashTable = fun i =>
          if i = Hash name then enteredSymbol symtype c name :: c.HashTable i
          else c.HashTable i) ∧
        (enteredSymbol symtype c name).scope = c.scope ∧
        c'.errors = c.errors ∧ c'.code = c.code) ∧
      (∀ o, (Probe c.HashTable name).1 = some o → c.scope ≤ o.scope →
        c'.HashTable = c.HashTable ∧ c'.VarLctn = c.VarLctn ∧
        c'.errors = c.errors ++ [Diagnostic.alreadyDeclared c.CurrentToken.pos] ∧
        c'.code.ErrorsInProgram = 1) ∧
      TableOK c'.HashTable ∧ NoClash c'.HashTable := by
  have hret : ∃ c', MakeSymbolTableEntry symtype c = .ok c' := by
    cases hp : (Probe c.HashTable name).1 with
    | none => exact ⟨_, MakeSymbolTableEntry_enter symtype c name hcode hs (Or.inl hp)⟩
    | some o =>
      by_cases hlt : o.scope < c.scope
      · exact ⟨_, MakeSymbolTableEntry_enter symtype c name hcode hs (Or.inr ⟨o, hp, hlt⟩)⟩
      · exact ⟨_, MakeSymbolTableEntry_refuse symtype c name hcode hs o hp (by omega)⟩
  obtain ⟨c', hc'⟩ := hret
  have hok := MakeSymbolTableEntry_TableOK symtype c c' hinv hc'
  refine ⟨c', hc', ?_, ?_, hok, NoClash_of_TableOK hok⟩
  · intro hnew
    rw [MakeSymbolTableEntry_enter symtype c name hcode hs hnew] at hc'
    cases hc'
    exact ⟨rfl, rfl, rfl, rfl⟩
  · intro o ho hge
    rw [MakeSymbolTableEntry_refuse symtype c name hcode hs o ho hge] at hc'
    cases hc'
    exact ⟨rfl, rfl, rfl, rfl⟩

theorem TableOK_sampleScoped : TableOK sampleScoped.HashTable := by
  constructor
  · intro i sym h
    simp only [sampleScoped] at h
    split at h
    · rename_i hi
      rw [List.mem_singleton.mp h, hi]
      decide
    · simp at h
  · intro i
    simp only [sampleScoped]
    split
    · exact List.pairwise_singleton _ _
    · exact List.Pairwise.nil

/-- Witness for C12: `x`, bound at depth 1, is declared again at depth 2. -/
theorem MakeSymbolTableEntry_redeclaration_witness :
    sampleRedeclare.CurrentToken.code = IDENTIFIER ∧
    sampleRedeclare.CurrentToken.s = some [120] ∧ TableOK sampleRedeclare.HashTable ∧
    ∃ c', MakeSymbolTableEntry STYPE_VARIABLE sampleRedeclare = .ok c' ∧
      NoClash c'.HashTable := by
  obtain ⟨c', h, _, _, _, hno⟩ := MakeSymbolTableEntry_redeclaration STYPE_VARIABLE
    sampleRedeclare [120] rfl rfl TableOK_sampleScoped
  exact ⟨rfl, rfl, TableOK_sampleScoped, c', h, hno⟩

/-- A sequence of declarations returns when every identifier among the
lookaheads carries a spelling. -/
theorem declLog_returns (ops : List DeclOp)
    (htok : ∀ symtype tok, DeclOp.declare symtype tok ∈ ops → tok.code = IDENTIFIER →
      tok.s ≠ none) :
    ∀ c : Compiler, ∃ r, declLog ops c = .ok r := by
  induction ops with
  | nil => intro c; exact ⟨_, rfl⟩
  | cons op ops ih =>
    intro c
    have h1 : ∃ c1, op.run c = .ok c1 := by
      cases op with
      | declare symtype tok =>
        simp only [DeclOp.run]
        unfold MakeSymbolTableEntry
        split
        · rename_i hcode
          have := htok symtype tok (List.mem_cons_self _ _) hcode
          cases hs : tok.s with
          | none => exact absurd hs this
          | some name =>
            simp only [hs]
            split
            · exact ⟨_, rfl⟩
            · exact ⟨_, rfl⟩
        · exact ⟨_, rfl⟩
      | enter => exact ⟨_, rfl⟩
      | leave => exact ⟨_, rfl⟩
    obtain ⟨c1, h1⟩ := h1
    obtain ⟨r, hr⟩ := ih (fun s t hm => htok s t (List.mem_cons_of_mem _ hm)) c1
    exact ⟨(op.entered c c1 ++ r.1, r.2), by simp only [declLog, h1, ok_bind, hr]⟩

/-- C13: in a compile (`VarLctn` starts at 0), for every sequence of
declarations, scope entries and scope exits: each symbol entered has the scope
depth at its declaration; the variable symbols entered have, in the order of
their declarations, the addresses 0, 1, 2, ..., which are therefore pairwise
distinct; every symbol entered with another type has address -1. -/
theorem declarations_assign_slots (ops : List DeclOp) (c : Compiler) (hstart : c.VarLctn = 0)
    (htok : ∀ symtype tok, DeclOp.declare symtype tok ∈ ops → tok.code = IDENTIFIER →
      tok.s ≠ none) :
    ∃ log c', declLog ops c = .ok (log, c') ∧
      (∀ e ∈ log, e.2.scope = e.1) ∧
      (variablesOf log).map (fun s => s.address)
        = (List.range (variablesOf log).length).map (fun k : Nat => (k : Int)) ∧
      ((variablesOf log).map fun s => s.address).Nodup ∧
      (∀ e ∈ log, e.2.type ≠ STYPE_VARIABLE → e.2.address = -1) := by
  obtain ⟨⟨log, c'⟩, h⟩ := declLog_returns ops htok c
  obtain ⟨h1, h2, h3, _⟩ := declLog_slots ops c c' log h
  have h3' : (variablesOf log).map (fun s => s.address)
      = (List.range (variablesOf log).length).map (fun k : Nat => (k : Int)) := by
    rw [h3, hstart]
    apply List.map_congr_left
    intro k _
    omega
  refine ⟨log, c', h, h1, h3', ?_, h2⟩
  rw [h3']
  exact (List.nodup_range _).map (fun a b hab => by exact_mod_cast hab)

/-- Witness for C13: the sample declarations at the start of a compile. -/
theorem declarations_assign_slots_witness :
    ∃ log c', declLog sampleDeclarations (Compiler.initial builtSets [] 0) = .ok (log, c') ∧
      (variablesOf log).map (fun s => s.address)
        = (List.range (variablesOf log).length).map (fun k : Nat => (k : Int)) := by
  obtain ⟨log, c', h, _, h3, _⟩ := declarations_assign_slots sampleDeclarations
    (Compiler.initial builtSets [] 0) rfl (by
      intro symtype tok hm _
      simp only [sampleDeclarations, List.mem_cons, DeclOp.declare.injEq, List.mem_singleton,
        List.mem_nil_iff, or_false, false_or] at hm
      rcases hm with ⟨_, rfl⟩ | ⟨_, rfl⟩ | h | ⟨_, rfl⟩ | ⟨_, rfl⟩ | ⟨_, rfl⟩ | h | ⟨_, rfl⟩ <;>
        first | exact (fun e => Option.noConfusion e) | cases h)
  exact ⟨log, c', h, h3⟩

/-- The sample declarations enter `x`, `p`, `x`, `y`, `z`: the variables get the
addresses 0 to 3, the program name -1; the second `x` of the procedure is
refused. -/
theorem sampleDeclarations_log :
    (declLog sampleDeclarations (Compiler.initial builtSets [] 0)).toOption.map
        (fun r => r.1.map fun e => (e.1, e.2.s, e.2.scope, e.2.type, e.2.address))
      = some [(1, [120], 1, STYPE_VARIABLE, 0), (1, [112], 1, STYPE_PROGRAM, -1),
          (2, [120], 2, STYPE_VARIABLE, 1), (2, [121], 2, STYPE_VARIABLE, 2),
          (1, [122], 1, STYPE_VARIABLE, 3)] := by
  decide!

/-- Witness for C14: `x`, bound at depth 1, is looked up. -/
theorem LookupSymbol_returns_probe_witness :
    ∃ c', LookupSymbol sampleRedeclare
      = .ok (some ⟨[120], 1, STYPE_VARIABLE, -1, -1, 0⟩, c') := by
  obtain ⟨c', h, _⟩ := LookupSymbol_returns_probe sampleRedeclare [120] rfl rfl
  have hp : (Probe sampleRedeclare.HashTable [120]).1
      = some ⟨[120], 1, STYPE_VARIABLE, -1, -1, 0⟩ := by decide!
  rw [hp] at h
  exact ⟨c', h⟩

/-! ### The code file, undeclared operands and whole compiles -/

/-- `ParseSubTerm` on an identifier that `Probe` does not find: `LookupSymbol`
returns NULL and the test `var->type == STYPE_LOCALVAR` reads through it. -/
theorem ParseSubTerm_undeclared (n : Nat) (c : Compiler) (name : List Nat)
    (hcode : c.CurrentToken.code = IDENTIFIER) (hs : c.CurrentToken.s = some name)
    (hnone : (Probe c.HashTable name).1 = none) :
    ParseSubTerm (n + 1) c = .error .nullDereference := by
  have hlook : LookupSymbol c = .ok (none,
      { c.Error (Diagnostic.notDeclared c.CurrentToken.pos) with
        code := KillCodeGeneration c.code }) := by
    unfold LookupSymbol
    rw [if_pos hcode, hs]
    simp only [hnone]
  rw [ParseSubTerm]
  rw [if_neg (by rw [hcode]; decide), if_neg (by rw [hcode]; decide)]
  simp only [bind, Except.bind, hlook]

/-- C15: the compile of `PROGRAM p; BEGIN x := y; END.`, in which `y` is an
undeclared operand, ends in `ParseSubTerm` reading the field `type` of the NULL
symbol that `LookupSymbol` returned. -/
theorem undeclared_operand_dereferences_null :
    failure (compileText 100 "PROGRAM p; BEGIN x := y; END." 0)
      = some Fatal.nullDereference := by
  decide!

/-- Counterexample to C16 as stated: after `Emit(31, 0); Emit(I_ADD, 0);` the
errors-present flag is clear and the buffer holds 2 instructions, but
`WriteCodeFile` writes one line, the address 0 followed by a fatal message, and
ends the program. -/
theorem WriteCodeFile_unknown_opcode :
    sampleUnknownOpcode.toOption.map
        (fun g => (g.ErrorsInProgram, g.CodePosition, WriteCodeFile g))
      = some (0, 2,
          (["  0  Fatal compiler error, unknown opcode 31\n"], some Fatal.unknownOpcode)) := by
  decide!

theorem instructionText_isSome (ins : INSTRUCTION) (h0 : 0 ≤ ins.opcode)
    (h1 : ins.opcode ≤ 30) : ∃ text, instructionText ins = some text := by
  obtain ⟨k, hk⟩ : ∃ k : Nat, ins.opcode = (k : Int) := ⟨ins.opcode.toNat, by omega⟩
  have hk30 : k ≤ 30 := by omega
  unfold instructionText
  rw [hk]
  interval_cases k <;> exact ⟨_, rfl⟩

theorem outputLoop_lines (g : CodeGen) (hflag : g.ErrorsInProgram = 0) :
    ∀ (l : List Nat), (∀ i ∈ l, 0 ≤ (g.CodeTable i).opcode ∧ (g.CodeTable i).opcode ≤ 30) →
      outputLoop g l
        = (l.map fun i : Nat => fmt3d (i : Int) ++ "  " ++ (instructionText (g.CodeTable i)).getD "", none) := by
  intro l
  induction l with
  | nil => intro _; rfl
  | cons i l ih =>
    intro h
    obtain ⟨text, ht⟩ := instructionText_isSome (g.CodeTable i)
      (h i (List.mem_cons_self _ _)).1 (h i (List.mem_cons_self _ _)).2
    have hout : Output g i = (fmt3d i ++ "  " ++ text, false) := by
      unfold Output
      rw [if_neg (by simp [hflag]), ht]
    rw [outputLoop, hout, ih (fun j hj => h j (List.mem_cons_of_mem _ hj))]
    simp [ht]

theorem runOps_flag (ops : List CodeOp) : ∀ (g g' : CodeGen), g.ErrorsInProgram = 1 →
    runOps ops g = .ok g' → g'.ErrorsInProgram = 1 := by
  induction ops with
  | nil =>
    intro g g' h hr
    simp only [runOps, Except.ok.injEq] at hr
    rw [← hr]
    exact h
  | cons op ops ih =>
    intro g g' h hr
    simp only [runOps] at hr
    obtain ⟨g1, h1, h2⟩ := bind_eq_ok hr
    refine ih g1 g' ?_ h2
    cases op with
    | emit o x => rw [(Emit_ok h1).2.2.1, h]
    | backPatch a v => rw [(BackPatch_ok h1).2.2.2.1, h]
    | kill =>
      simp only [CodeOp.run, Except.ok.injEq] at h1
      rw [← h1]
      rfl

theorem instructionText_none (ins : INSTRUCTION) (h : ¬ (0 ≤ ins.opcode ∧ ins.opcode ≤ 30)) :
    instructionText ins = none := by
  have hne : ∀ k : Int, 0 ≤ k → k ≤ 30 → ¬ ins.opcode = k := by
    intro k h0 h1 he
    exact h (by omega)
  unfold instructionText
  iterate 31 rw [if_neg (hne _ (by decide) (by decide))]

theorem range_split : ∀ (n k : Nat), k < n → ∃ rest, List.range n = List.range k ++ k :: rest := by
  intro n
  induction n with
  | zero =>
    intro k hk
    omega
  | succ n ih =>
    intro k hk
    rw [List.range_succ]
    by_cases hkn : k = n
    · subst hkn
      exact ⟨[], rfl⟩
    · obtain ⟨rest, hr⟩ := ih k (by omega)
      exact ⟨rest ++ [n], by rw [hr]; simp⟩

/-- The loop of `WriteCodeFile` ends at the first address whose opcode is none
of the 31 of `code.h`: the lines of the addresses before it are written, then
the address and the fatal message, and the program exits. -/
theorem outputLoop_unknown (g : CodeGen) (hflag : g.ErrorsInProgram = 0) (k : Nat)
    (rest : List Nat) (hk : ¬ (0 ≤ (g.CodeTable k).opcode ∧ (g.CodeTable k).opcode ≤ 30)) :
    ∀ (l : List Nat), (∀ i ∈ l, 0 ≤ (g.CodeTable i).opcode ∧ (g.CodeTable i).opcode ≤ 30) →
      outputLoop g (l ++ k :: rest)
        = ((l.map fun i : Nat =>
              fmt3d (i : Int) ++ "  " ++ (instructionText (g.CodeTable i)).getD "")
            ++ [fmt3d (k : Int) ++ "  " ++ "Fatal compiler error, unknown opcode "
                ++ toString (g.CodeTable k).opcode ++ "\n"],
          some Fatal.unknownOpcode) := by
  intro l
  induction l with
  | nil =>
    intro _
    have hout : Output g k = (fmt3d k ++ "  " ++ "Fatal compiler error, unknown opcode "
        ++ toString (g.CodeTable k).opcode ++ "\n", true) := by
      unfold Output
      rw [if_neg (by simp [hflag]), instructionText_none _ hk]
    rw [List.nil_append, outputLoop, hout]
    simp
  | cons i l ih =>
    intro h
    obtain ⟨text, ht⟩ := instructionText_isSome (g.CodeTable i)
      (h i (List.mem_cons_self _ _)).1 (h i (List.mem_cons_self _ _)).2
    have hout : Output g i = (fmt3d i ++ "  " ++ text, false) := by
      unfold Output
      rw [if_neg (by simp [hflag]), ht]
    rw [List.cons_append, outputLoop, hout, ih (fun j hj => h j (List.mem_cons_of_mem _ hj))]
    simp [ht]

/-- C16, amended: `KillCodeGeneration` sets the errors-present flag, and once
set it stays set through every later `Emit`, `BackPatch` and
`KillCodeGeneration`; `Emit` appends and advances whatever the flag is; with
the flag set `WriteCodeFile` writes exactly the two banner lines; with the flag
clear and every opcode at the addresses `0 .. N-1` one of the 31 opcodes of
`code.h`, `WriteCodeFile` writes exactly `N` lines, for the addresses `0 .. N-1`
in increasing order, each the address in a field of three followed by two
blanks and the instruction's text; with the flag clear and `k` the first
address below `N` that holds any other opcode, `WriteCodeFile` writes the `k`
instruction lines of the addresses before `k`, then the address `k` followed by
the fatal message with the opcode, and the program exits. -/
theorem WriteCodeFile_banner_or_listing (g : CodeGen) :
    (KillCodeGeneration g).ErrorsInProgram = 1 ∧
    (∀ ops g', g.ErrorsInProgram = 1 → runOps ops g = .ok g' → g'.ErrorsInProgram = 1) ∧
    (∀ opcode offset, g.CodePosition < CODETABLESIZE →
      ∃ g', Emit opcode offset g = .ok g' ∧ CurrentCodeAddress g' = CurrentCodeAddress g + 1 ∧
        g'.CodeTable g.CodePosition = ⟨opcode, offset⟩ ∧
        g'.ErrorsInProgram = g.ErrorsInProgram) ∧
    (g.ErrorsInProgram ≠ 0 →
      WriteCodeFile g
        = ([";; Errors detected in input file, no code\n", ";; generated\n"], none)) ∧
    (g.ErrorsInProgram = 0 →
      (∀ i, i < g.CodePosition → 0 ≤ (g.CodeTable i).opcode ∧ (g.CodeTable i).opcode ≤ 30) →
      WriteCodeFile g
        = ((List.range g.CodePosition).map fun i : Nat =>
            fmt3d (i : Int) ++ "  " ++ (instructionText (g.CodeTable i)).getD "", none)) ∧
    (g.ErrorsInProgram = 0 →
      ∀ k, k < g.CodePosition →
      (∀ i, i < k → 0 ≤ (g.CodeTable i).opcode ∧ (g.CodeTable i).opcode ≤ 30) →
      ¬ (0 ≤ (g.CodeTable k).opcode ∧ (g.CodeTable k).opcode ≤ 30) →
      WriteCodeFile g
        = (((List.range k).map fun i : Nat =>
              fmt3d (i : Int) ++ "  " ++ (instructionText (g.CodeTable i)).getD "")
            ++ [fmt3d (k : Int) ++ "  " ++ "Fatal compiler error, unknown opcode "
                ++ toString (g.CodeTable k).opcode ++ "\n"],
          some Fatal.unknownOpcode)) := by
  refine ⟨rfl, fun ops g' h hr => runOps_flag ops g g' h hr, ?_, ?_, ?_, ?_⟩
  · intro opcode offset h
    rw [Emit_of_lt opcode offset g h]
    exact ⟨_, rfl, by simp [CurrentCodeAddress], by simp, rfl⟩
  · intro h
    unfold WriteCodeFile
    rw [if_neg h]
  · intro h hop
    unfold WriteCodeFile
    rw [if_pos h]
    exact outputLoop_lines g h _ (fun i hi => hop i (List.mem_range.mp hi))
  · intro h k hk hbefore hbad
    obtain ⟨rest, hr⟩ := range_split g.CodePosition k hk
    unfold WriteCodeFile
    rw [if_pos h, hr]
    exact outputLoop_unknown g h k rest hbad _ (fun i hi => hbefore i (List.mem_range.mp hi))

/-- C18: the compile of `PROGRAM p VAR x; BEGIN x := 1 END.` reports three
syntax errors through `Accept` (`;` expected at `VAR`, an identifier expected
at `;`, `;` expected at `END`), the errors-present flag stays clear, and the
code file receives the two instructions instead of the banner. -/
theorem syntax_error_leaves_code_file :
    (compileText 100 "PROGRAM p VAR x; BEGIN x := 1 END." 0).toOption.map
        (fun r => (r.state.errors, r.state.code.ErrorsInProgram, r.codeFile))
      = some ([.expected SEMICOLON ⟨VAR, 0, 10, none⟩,
               .expected IDENTIFIER ⟨SEMICOLON, 0, 15, none⟩,
               .expected SEMICOLON ⟨END, 0, 30, none⟩],
              0, ["  0  Load  #1   \n", "  1  Store 0   \n"]) := by
  decide!

/-- C19: the compile of `PROGRAM p; VAR x, x; BEGIN END.` reports the second `x`
as already declared and writes the banner to the code file, and `main` returns
`EXIT_SUCCESS`, 0: `FlagError` is still 0. -/
theorem semantic_error_exit_status :
    (compileText 100 "PROGRAM p; VAR x, x; BEGIN END." 0).toOption.map
        (fun r => (r.status, r.state.FlagError, r.state.errors, r.codeFile))
      = some (0, 0,
          [.expected IDENTIFIER ⟨COMMA, 0, 16, none⟩, .alreadyDeclared 18,
           .expected IDENTIFIER ⟨SEMICOLON, 0, 19, none⟩],
          [";; Errors detected in input file, no code\n", ";; generated\n"]) := by
  decide!

/-- C20: the compile of `PROGRAM p; VAR x; BEGIN END.` reports a syntax error:
after `Accept(IDENTIFIER)` has consumed `x`, `ParseVariable` accepts an
identifier once more and finds the `;`. -/
theorem declaration_list_reports_error :
    (compileText 100 "PROGRAM p; VAR x; BEGIN END." 0).toOption.map
        (fun r => (r.state.errors, r.state.CurrentToken.code, r.state.input))
      = some ([.expected IDENTIFIER ⟨SEMICOLON, 0, 16, none⟩], ENDOFINPUT, []) := by
  decide!

/-- Further programs of the grammar that `ParseProgram` does not parse cleanly:
a procedure declaration (neither `PROCEDURE` nor the name is accepted) leads to
eight diagnostics, and a `WRITE` or a `READ` statement ends in the NULL
dereference of `ParseSubTerm`, reached through `ParseProcCallList`. -/
theorem grammar_programs_rejected :
    (compileText 100 "PROGRAM p; PROCEDURE q; BEGIN END; BEGIN END." 0).toOption.map
        (fun r => r.state.errors.length) = some 8 ∧
    failure (compileText 100 "PROGRAM p; BEGIN WRITE(1); END." 0)
      = some Fatal.nullDereference ∧
    failure (compileText 100 "PROGRAM p; VAR x; BEGIN READ(x); END." 0)
      = some Fatal.nullDereference := by
  decide!

/-- A program without declarations, procedures, `READ` and `WRITE` compiles
without a diagnostic. -/
theorem plain_program_compiles :
    (compileText 100 "PROGRAM p; BEGIN IF 1 < 2 THEN BEGIN END; END." 0).toOption.map
        (fun r => (r.status, r.state.errors, r.codeFile))
      = some (0, [], ["  0  Load  #1   \n", "  1  Load  #2   \n", "  2  Sub\n",
          "  3  Bgz   4   \n"]) := by
  decide!

/-! ### The string table: committed strings -/

theorem copyLoop_spec : ∀ (k : Nat) (src dst : StrPtr) (t : StrTab),
    0 ≤ dst.offset → dst.offset + k ≤ CHUNKSIZE →
    ∃ t1, copyLoop k src dst t = .ok t1 ∧ t1.chunks = t.chunks ∧
      t1.TopOfTable = t.TopOfTable ∧ t1.InsertionPoint = t.InsertionPoint ∧
      t1.SpaceLeftInChunk = t.SpaceLeftInChunk - k ∧
      ∀ c o, c ≠ dst.chunk → t1.mem c o = t.mem c o := by
  intro k
  induction k with
  | zero =>
    intro src dst t _ _
    exact ⟨t, rfl, rfl, rfl, rfl, by simp, fun _ _ _ => rfl⟩
  | succ k ih =>
    intro src dst t h0 h1
    have hC : CHUNKSIZE = 1024 := rfl
    have hp : t.poke dst (t.mem src.chunk src.offset.toNat) = .ok { t with
        mem := fun c o => if c = dst.chunk ∧ o = dst.offset.toNat
          then t.mem src.chunk src.offset.toNat else t.mem c o } := by
      unfold StrTab.poke
      rw [if_pos ⟨h0, by push_cast at h1; omega⟩]
    obtain ⟨t1, ht1, hc, htop, hip, hs, hm⟩ := ih ⟨src.chunk, src.offset + 1⟩
      ⟨dst.chunk, dst.offset + 1⟩
      { t with
        mem := fun c o => if c = dst.chunk ∧ o = dst.offset.toNat
          then t.mem src.chunk src.offset.toNat else t.mem c o
        SpaceLeftInChunk := t.SpaceLeftInChunk - 1 }
      (by show 0 ≤ dst.offset + 1; omega)
      (by show dst.offset + 1 + (k : Int) ≤ CHUNKSIZE; push_cast at h1; omega)
    refine ⟨t1, ?_, hc, htop, hip, ?_, ?_⟩
    · rw [copyLoop, hp, ok_bind]
      exact ht1
    · rw [hs]
      show t.SpaceLeftInChunk - 1 - (k : Int) = t.SpaceLeftInChunk - ((k + 1 : Nat) : Int)
      push_cast
      omega
    · intro c o hne
      rw [hm c o hne]
      show (if c = dst.chunk ∧ o = dst.offset.toNat then _ else t.mem c o) = t.mem c o
      rw [if_neg (fun h => hne h.1)]

theorem NewString_result (t : StrTab) (hwf : t.WF) :
    ∃ t1, NewString t = .ok t1 ∧ t1.WF ∧ t.Keeps t1 ∧ t1.pending = 0 := by
  obtain ⟨top, ip, htop, hip, hch, hlt, h0, hle, hsp, hs0⟩ := hwf
  have hC : CHUNKSIZE = 1024 := rfl
  unfold NewString
  by_cases hs : t.SpaceLeftInChunk ≤ 0
  · rw [if_pos hs]
    refine ⟨_, rfl, ⟨⟨t.chunks, 0⟩, ⟨t.chunks, 0⟩, rfl, rfl, rfl, ?_, le_refl _, le_refl _, ?_, ?_⟩,
      ?_, ?_⟩
    · show t.chunks < t.chunks + 1
      omega
    · show (0 : Int) + CHUNKSIZE = CHUNKSIZE
      omega
    · show (0 : Int) ≤ CHUNKSIZE
      omega
    · intro c o hco
      refine ⟨⟨?_, ?_⟩, rfl⟩
      · show c < t.chunks + 1
        have := hco.1
        omega
      · intro top1 htop1 hc1
        have h1 : top1 = ⟨t.chunks, 0⟩ := (Option.some.inj htop1).symm
        rw [h1] at hc1
        have := hco.1
        simp only at hc1
        omega
    · simp [StrTab.pending]
  · rw [if_neg hs]
    simp only [htop, hip]
    refine ⟨_, rfl, ⟨top, top, rfl, rfl, rfl, hlt, h0, le_refl _, ?_, ?_⟩, ?_, ?_⟩
    · show top.offset + (t.SpaceLeftInChunk + (ip.offset - top.offset)) = CHUNKSIZE
      omega
    · show 0 ≤ t.SpaceLeftInChunk + (ip.offset - top.offset)
      omega
    · intro c o hco
      exact ⟨⟨hco.1, fun top1 h1 hc => hco.2 top1 (by rw [htop]; exact h1) hc⟩, rfl⟩
    · simp [StrTab.pending]

theorem PreserveString_result (t : StrTab) (hwf : t.WF) :
    (PreserveString t).WF ∧ t.Keeps (PreserveString t) ∧ (PreserveString t).pending = 0 := by
  obtain ⟨top, ip, htop, hip, hch, hlt, h0, hle, hsp, hs0⟩ := hwf
  refine ⟨⟨ip, ip, hip, hip, rfl, by rw [← hch]; exact hlt, by omega, le_refl _, hsp, hs0⟩, ?_, ?_⟩
  · intro c o hco
    refine ⟨⟨hco.1, ?_⟩, rfl⟩
    intro top1 htop1 hc1
    have h1 : top1 = ip := by
      have : t.InsertionPoint = some top1 := htop1
      rw [hip] at this
      exact (Option.some.inj this).symm
    rw [h1] at hc1 ⊢
    have := hco.2 top htop (by rw [hch]; exact hc1)
    omega
  · simp [StrTab.pending, PreserveString, hip]

theorem AddChar_result (ch : Int) (t : StrTab) (hwf : t.WF) :
    (AddChar ch t = .error .chunkOverrun ∧ CHUNKSIZE ≤ t.pending) ∨
    ∃ t1, AddChar ch t = .ok t1 ∧ t1.WF ∧ t.Keeps t1 ∧ t1.pending = t.pending + 1 := by
  obtain ⟨top, ip, htop, hip, hch, hlt, h0, hle, hsp, hs0⟩ := hwf
  have hC : CHUNKSIZE = 1024 := rfl
  have hpend : t.pending = ip.offset - top.offset := by simp [StrTab.pending, htop, hip]
  by_cases hs : 1 < t.SpaceLeftInChunk
  · right
    have hadd := AddChar_roomy ch t ip.chunk ip.offset hip (by omega) (by omega) hs
    refine ⟨_, hadd, ⟨top, ⟨ip.chunk, ip.offset + 1⟩, htop, rfl, hch, hlt, h0, ?_, ?_, ?_⟩, ?_, ?_⟩
    · show top.offset ≤ ip.offset + 1
      omega
    · show ip.offset + 1 + (t.SpaceLeftInChunk - 1) = CHUNKSIZE
      omega
    · show 0 ≤ t.SpaceLeftInChunk - 1
      omega
    · intro c o hco
      refine ⟨⟨hco.1, fun top1 h1 hc => hco.2 top1 h1 hc⟩, ?_⟩
      show (if c = ip.chunk ∧ o = ip.offset.toNat then _ else t.mem c o) = t.mem c o
      rw [if_neg]
      rintro ⟨hc, ho⟩
      have := hco.2 top htop (by rw [hch, hc])
      omega
    · rw [hpend]
      simp [StrTab.pending, htop]
      omega
  · obtain ⟨t1, ht1, hc1, htop1, hip1, hsp1, hm1⟩ := copyLoop_spec
      (ip.offset - top.offset).toNat top ⟨t.chunks, 0⟩
      { mem := t.mem, chunks := t.chunks + 1, TopOfTable := some top, InsertionPoint := some ip,
        SpaceLeftInChunk := CHUNKSIZE } (le_refl _)
      (by show (0 : Int) + ((ip.offset - top.offset).toNat : Int) ≤ CHUNKSIZE; omega)
    have hsp2 : t1.SpaceLeftInChunk = CHUNKSIZE - (ip.offset - top.offset) := by
      rw [hsp1]
      show CHUNKSIZE - ((ip.offset - top.offset).toNat : Int) = _
      omega
    have hstep : AddChar ch t =
        (({ t1 with
            TopOfTable := some ⟨t.chunks, 0⟩
            InsertionPoint := some ⟨t.chunks, ip.offset - top.offset⟩ } : StrTab).poke
          ⟨t.chunks, ip.offset - top.offset⟩ (ch % 128).toNat) >>= fun t2 =>
          .ok { t2 with
            InsertionPoint := some ⟨t.chunks, ip.offset - top.offset + 1⟩
            SpaceLeftInChunk := t2.SpaceLeftInChunk - 1 } := by
      unfold AddChar
      rw [if_pos (by omega)]
      simp only [htop, hip]
      rw [if_pos ⟨hch, hle⟩, ht1]
      rfl
    rw [hstep, hpend]
    by_cases hfull : ip.offset - top.offset < CHUNKSIZE
    · right
      unfold StrTab.poke
      rw [if_pos ⟨by show 0 ≤ ip.offset - top.offset; omega, hfull⟩]
      refine ⟨_, rfl, ⟨⟨t.chunks, 0⟩, ⟨t.chunks, ip.offset - top.offset + 1⟩, rfl, rfl, rfl,
        ?_, le_refl _, ?_, ?_, ?_⟩, ?_, ?_⟩
      · show t.chunks < t1.chunks
        rw [hc1]
        show t.chunks < t.chunks + 1
        omega
      · show (0 : Int) ≤ ip.offset - top.offset + 1
        omega
      · show ip.offset - top.offset + 1 + (t1.SpaceLeftInChunk - 1) = CHUNKSIZE
        omega
      · show 0 ≤ t1.SpaceLeftInChunk - 1
        omega
      · intro c o hco
        have hlt2 := hco.1
        refine ⟨⟨?_, ?_⟩, ?_⟩
        · show c < t1.chunks
          rw [hc1]
          show c < t.chunks + 1
          omega
        · intro top1 h1 hc
          have h2 : top1 = ⟨t.chunks, 0⟩ := (Option.some.inj h1).symm
          rw [h2] at hc
          simp only at hc
          omega
        · show (if c = t.chunks ∧ o = (ip.offset - top.offset).toNat then _ else t1.mem c o)
            = t.mem c o
          rw [if_neg (by omega), hm1 c o (by show c ≠ t.chunks; omega)]
      · simp [StrTab.pending]
    · left
      unfold StrTab.poke
      rw [if_neg (fun h => hfull h.2)]
      exact ⟨rfl, by omega⟩

theorem StrTab.Keeps_refl (t : StrTab) : t.Keeps t := fun _ _ h => ⟨h, rfl⟩

theorem StrTab.Keeps_trans {t t1 t2 : StrTab} (h1 : t.Keeps t1) (h2 : t1.Keeps t2) :
    t.Keeps t2 :=
  fun c o h => ⟨(h2 c o (h1 c o h).1).1, by rw [(h2 c o (h1 c o h).1).2, (h1 c o h).2]⟩

/-- A sequence of calls on an allocated table either ends in the store past
the end of a chunk, and then some `AddChar` found a whole chunk of bytes under
construction, or returns with every committed byte kept. -/
theorem runStrOps_result : ∀ (ops : List StrOp) (t : StrTab), t.WF →
    (runStrOps ops t = .error .chunkOverrun ∧ fits t.pending ops = false) ∨
    ∃ t1, runStrOps ops t = .ok t1 ∧ t1.WF ∧ t.Keeps t1 := by
  intro ops
  induction ops with
  | nil => exact fun t hwf => Or.inr ⟨t, rfl, hwf, t.Keeps_refl⟩
  | cons op ops ih =>
    intro t hwf
    cases op with
    | newString =>
      obtain ⟨t1, h1, hwf1, hk1, hp1⟩ := NewString_result t hwf
      rcases ih t1 hwf1 with ⟨he, hf⟩ | ⟨t2, h2, hwf2, hk2⟩
      · left
        refine ⟨?_, ?_⟩
        · show (NewString t >>= runStrOps ops) = _
          rw [h1]
          exact he
        · rw [hp1] at hf
          exact hf
      · right
        refine ⟨t2, ?_, hwf2, StrTab.Keeps_trans hk1 hk2⟩
        show (NewString t >>= runStrOps ops) = _
        rw [h1]
        exact h2
    | preserveString =>
      obtain ⟨hwf1, hk1, hp1⟩ := PreserveString_result t hwf
      rcases ih _ hwf1 with ⟨he, hf⟩ | ⟨t2, h2, hwf2, hk2⟩
      · left
        refine ⟨he, ?_⟩
        rw [hp1] at hf
        exact hf
      · exact Or.inr ⟨t2, h2, hwf2, StrTab.Keeps_trans hk1 hk2⟩
    | addChar ch =>
      rcases AddChar_result ch t hwf with ⟨he, hp⟩ | ⟨t1, h1, hwf1, hk1, hp1⟩
      · left
        refine ⟨?_, ?_⟩
        · show (AddChar ch t >>= runStrOps ops) = _
          rw [he]
          rfl
        · show (decide (t.pending < CHUNKSIZE) && fits (t.pending + 1) ops) = false
          rw [decide_eq_false (by omega)]
          rfl
      · rcases ih t1 hwf1 with ⟨he, hf⟩ | ⟨t2, h2, hwf2, hk2⟩
        · left
          refine ⟨?_, ?_⟩
          · show (AddChar ch t >>= runStrOps ops) = _
            rw [h1]
            exact he
          · show (decide (t.pending < CHUNKSIZE) && fits (t.pending + 1) ops) = false
            rw [← hp1, hf]
            simp
        · right
          refine ⟨t2, ?_, hwf2, StrTab.Keeps_trans hk1 hk2⟩
          show (AddChar ch t >>= runStrOps ops) = _
          rw [h1]
          exact h2

/-- Two tables that agree on the bytes of a string up to its terminator read
the same string there. -/
theorem stringAt_congr (t t1 : StrTab) (c : Nat) : ∀ (n : Nat) (o : Int) (k : Nat), 0 ≤ o →
    t.mem c (o + k).toNat = 0 →
    (∀ j : Nat, j ≤ k → t1.mem c (o + j).toNat = t.mem c (o + j).toNat) →
    t1.stringAt ⟨c, o⟩ n = t.stringAt ⟨c, o⟩ n := by
  intro n
  induction n with
  | zero => exact fun _ _ _ _ _ => rfl
  | succ n ih =>
    intro o k h0 hz hm
    have hm0 : t1.mem c o.toNat = t.mem c o.toNat := by
      have := hm 0 (Nat.zero_le _)
      simpa using this
    rw [StrTab.stringAt, StrTab.stringAt]
    simp only
    rw [hm0]
    by_cases hb : t.mem c o.toNat = 0
    · rw [if_pos hb, if_pos hb]
    · rw [if_neg hb, if_neg hb]
      congr 1
      cases k with
      | zero =>
        exfalso
        apply hb
        simpa using hz
      | succ k =>
        apply ih (o + 1) k (by omega)
        · rw [show o + 1 + (k : Int) = o + ((k + 1 : Nat) : Int) by push_cast; omega]
          exact hz
        · intro j hj
          have := hm (j + 1) (by omega)
          rw [show o + 1 + (j : Int) = o + ((j + 1 : Nat) : Int) by push_cast; omega]
          exact this

/-- C23: let `h` be the handle `GetString` returns for a string under
construction whose terminator already lies below the insertion point.  After
`PreserveString`, every sequence of `NewString`, `AddChar` and `PreserveString`
calls that returns leaves the string read at `h` as it was, also when `AddChar`
moves the string under construction to a new chunk; the sequence returns
whenever no `AddChar` in it finds a whole chunk of bytes under construction,
and the only other outcome is the store past the end of a chunk. -/
theorem committed_string_unchanged (t : StrTab) (h ip : StrPtr) (k : Nat) (ops : List StrOp)
    (hwf : t.WF) (hh : GetString t = some h) (hip : t.InsertionPoint = some ip)
    (hend : h.offset + k < ip.offset) (hnul : t.mem h.chunk (h.offset + k).toNat = 0) :
    (fits 0 ops = true → isOk (runStrOps ops (PreserveString t)) = true) ∧
    (∀ e, runStrOps ops (PreserveString t) = .error e → e = .chunkOverrun) ∧
    ∀ t1, runStrOps ops (PreserveString t) = .ok t1 →
      ∀ n, t1.stringAt h n = (PreserveString t).stringAt h n := by
  obtain ⟨hwf1, hk1, hp1⟩ := PreserveString_result t hwf
  obtain ⟨top, ip1, htop, hip1, hch, hlt, h0, hle, hsp, hs0⟩ := hwf
  have e1 : top = h := by
    have : t.TopOfTable = some h := hh
    rw [htop] at this
    exact Option.some.inj this
  have e2 : ip1 = ip := by
    rw [hip1] at hip
    exact Option.some.inj hip
  subst e1 e2
  have hcom : ∀ j : Nat, j ≤ k → (PreserveString t).Committed top.chunk (top.offset + j).toNat := by
    intro j hj
    refine ⟨hlt, ?_⟩
    intro top1 h1 _
    have : top1 = ip1 := by
      have h2 : t.InsertionPoint = some top1 := h1
      rw [hip1] at h2
      exact (Option.some.inj h2).symm
    rw [this]
    omega
  rcases runStrOps_result ops _ hwf1 with ⟨he, hf⟩ | ⟨t2, h2, _, hk2⟩
  · rw [hp1] at hf
    refine ⟨fun hfit => ?_, fun e hrun => ?_, fun t1 hrun => ?_⟩
    · rw [hf] at hfit
      cases hfit
    · rw [he] at hrun
      cases hrun
      rfl
    · rw [he] at hrun
      cases hrun
  · refine ⟨fun _ => by rw [h2]; rfl, fun e hrun => ?_, fun t1 hrun n => ?_⟩
    · rw [h2] at hrun
      cases hrun
    · rw [h2] at hrun
      cases hrun
      exact stringAt_congr _ _ top.chunk n top.offset k h0 hnul
        (fun j hj => (hk2 _ _ (hcom j hj)).2)

/-- Witness for C23: after `x` is committed, a second string is built and
committed. -/
theorem committed_string_unchanged_witness :
    (fits 0 [.newString, .addChar 121, .addChar 0, .preserveString] = true →
      isOk (runStrOps [.newString, .addChar 121, .addChar 0, .preserveString]
        (PreserveString sampleString)) = true) ∧
    (∀ e, runStrOps [.newString, .addChar 121, .addChar 0, .preserveString]
        (PreserveString sampleString) = .error e → e = .chunkOverrun) ∧
    ∀ t1, runStrOps [.newString, .addChar 121, .addChar 0, .preserveString]
        (PreserveString sampleString) = .ok t1 →
      ∀ n, t1.stringAt ⟨0, 0⟩ n = (PreserveString sampleString).stringAt ⟨0, 0⟩ n :=
  committed_string_unchanged sampleString ⟨0, 0⟩ ⟨0, 2⟩ 1
    [.newString, .addChar 121, .addChar 0, .preserveString]
    ⟨⟨0, 0⟩, ⟨0, 2⟩, by decide!, by decide!, rfl, by decide!, by decide, by decide, by decide!,
      by decide!⟩
    (by decide!) (by decide!) (by decide) (by decide!)

/-! ### Whole compiles of an assignment and of IF with ELSE -/

/-- C21: compiling `PROGRAM p; VAR x; BEGIN x := 3 + 4; END.` leaves the four
instructions `Load #3`, `Load #4`, `Add`, `Store 0` in the code buffer, and the
code file written at the end lists the same four instructions in that order. -/
theorem assignment_program_code :
    (compileText 100 "PROGRAM p; VAR x; BEGIN x := 3 + 4; END." 0).toOption.map
        (fun r => (r.state.code.listing, r.state.code.ErrorsInProgram, r.codeFile))
      = some ([⟨I_LOADI, 3⟩, ⟨I_LOADI, 4⟩, ⟨I_ADD, 0⟩, ⟨I_STOREA, 0⟩], 0,
          ["  0  Load  #3   \n", "  1  Load  #4   \n", "  2  Add\n", "  3  Store 0   \n"]) := by
  decide!

/-- C22: for `IF x = 0 THEN BEGIN y := 1; END ELSE BEGIN y := 2; END` with the
globals `x` at address 0 and `y` at address 1, the instruction after `Sub` is
`Bz 7`, not `Bnz 7`; the operands are as described: 7 is the address of
`Load #2` and the `Br` goes to 9, the address after the second `Store`. -/
theorem if_equality_emits_bz :
    (compileText 100
        "PROGRAM p; VAR x, y; BEGIN IF x = 0 THEN BEGIN y := 1; END ELSE BEGIN y := 2; END; END."
        0).toOption.map (fun r => r.state.code.listing)
      = some [⟨I_LOADA, 0⟩, ⟨I_LOADI, 0⟩, ⟨I_SUB, 0⟩, ⟨I_BZ, 7⟩, ⟨I_LOADI, 1⟩, ⟨I_STOREA, 1⟩,
          ⟨I_BR, 9⟩, ⟨I_LOADI, 2⟩, ⟨I_STOREA, 1⟩] := by
  decide!

/-! ### The recovery protocol of Accept and Synchronise -/

/-- The skipping loop of `Accept` stops at the first token that carries the
expected code or is `ENDOFINPUT`. -/
theorem acceptSkip_stops (e : Int) : ∀ (pre : List TOKEN) (cur : TOKEN) (rest : List TOKEN)
    (t : TOKEN) (post : List TOKEN), cur :: rest = pre ++ t :: post →
    (∀ p ∈ pre, p.code ≠ e ∧ p.code ≠ ENDOFINPUT) → (t.code = e ∨ t.code = ENDOFINPUT) →
    acceptSkip e cur rest = (t, post) := by
  intro pre
  induction pre with
  | nil =>
    intro cur rest t post h _ ht
    simp only [List.nil_append, List.cons.injEq] at h
    obtain ⟨rfl, rfl⟩ := h
    have hn : ¬(cur.code ≠ e ∧ cur.code ≠ ENDOFINPUT) := by
      rintro ⟨h1, h2⟩
      rcases ht with h | h
      · exact h1 h
      · exact h2 h
    cases rest with
    | nil => rw [acceptSkip, if_neg hn]
    | cons a as => rw [acceptSkip, if_neg hn]
  | cons p pre ih =>
    intro cur rest t post h hpre ht
    simp only [List.cons_append, List.cons.injEq] at h
    obtain ⟨rfl, rfl⟩ := h
    have hc := hpre cur (List.mem_cons_self _ _)
    have hrest : ∃ a as, pre ++ t :: post = a :: as := by
      cases pre with
      | nil => exact ⟨t, post, rfl⟩
      | cons a as => exact ⟨a, as ++ t :: post, rfl⟩
    obtain ⟨a, as, has⟩ := hrest
    rw [has, acceptSkip, if_pos hc]
    exact ih a as t post has.symm (fun q hq => hpre q (List.mem_cons_of_mem _ hq)) ht

/-- The skipping loop of `Accept` on a stream without the expected code and
without `ENDOFINPUT` runs to the end of the stream. -/
theorem acceptSkip_exhausts (e : Int) : ∀ (rest : List TOKEN) (cur : TOKEN),
    (∀ p ∈ cur :: rest, p.code ≠ e ∧ p.code ≠ ENDOFINPUT) →
    acceptSkip e cur rest = (endOfInputToken, []) := by
  intro rest
  induction rest with
  | nil =>
    intro cur h
    rw [acceptSkip, if_pos (h cur (List.mem_cons_self _ _))]
  | cons a as ih =>
    intro cur h
    rw [acceptSkip, if_pos (h cur (List.mem_cons_self _ _))]
    exact ih a (fun q hq => h q (List.mem_cons_of_mem _ hq))

/-- C25: the recovery protocol of `Accept`.  Not recovering: a lookahead with
the expected code is consumed and nothing is reported; any other lookahead
stays, one expected-versus-got error is reported and the recovering flag is
set.  Recovering: tokens are discarded up to the first one that carries the
expected code or is `ENDOFINPUT` and the flag is cleared; if that token
carries the expected code it is consumed without any report, so that the
lookahead is the token just past the first occurrence of the expected code;
otherwise one error is reported and the flag is set again.  At the end of a
stream the scanner keeps returning `ENDOFINPUT`. -/
theorem Accept_recovery_protocol (e : Int) (c : Compiler) :
    (c.recovering = 0 → c.CurrentToken.code = e → Accept e c = c.nextToken) ∧
    (c.recovering = 0 → c.CurrentToken.code ≠ e →
      Accept e c = { c with
        errors := c.errors ++ [Diagnostic.expected e c.CurrentToken], recovering := 1 }) ∧
    (c.recovering ≠ 0 → ∀ pre t post, c.stream = pre ++ t :: post →
      (∀ p ∈ pre, p.code ≠ e ∧ p.code ≠ ENDOFINPUT) →
      (t.code = e → Accept e c = { c with
        CurrentToken := post.headD endOfInputToken, input := post.tail, recovering := 0 }) ∧
      (t.code ≠ e → t.code = ENDOFINPUT → Accept e c = { c with
        CurrentToken := t, input := post, recovering := 1,
        errors := c.errors ++ [Diagnostic.expected e t] })) ∧
    (c.recovering ≠ 0 → (∀ p ∈ c.stream, p.code ≠ e ∧ p.code ≠ ENDOFINPUT) →
      (e = ENDOFINPUT → Accept e c = { c with
        CurrentToken := endOfInputToken, input := [], recovering := 0 }) ∧
      (e ≠ ENDOFINPUT → Accept e c = { c with
        CurrentToken := endOfInputToken, input := [], recovering := 1,
        errors := c.errors ++ [Diagnostic.expected e endOfInputToken] })) := by
  refine ⟨fun hr hc => ?_, fun hr hc => ?_, fun hr pre t post hs hpre => ⟨fun ht => ?_,
    fun ht1 ht2 => ?_⟩, fun hr hall => ⟨fun he => ?_, fun he => ?_⟩⟩
  · unfold Accept acceptResync
    rw [if_neg (by simpa using hr)]
    unfold acceptNormal
    rw [if_neg (by simpa using hc)]
  · unfold Accept acceptResync
    rw [if_neg (by simpa using hr)]
    unfold acceptNormal
    rw [if_pos hc]
  · have hskip := acceptSkip_stops e pre c.CurrentToken c.input t post hs hpre (Or.inl ht)
    unfold Accept acceptResync
    rw [if_pos hr, hskip]
    unfold acceptNormal
    rw [if_neg (by simpa using ht)]
    unfold Compiler.nextToken Compiler.GetToken
    cases post <;> rfl
  · have hskip := acceptSkip_stops e pre c.CurrentToken c.input t post hs hpre (Or.inr ht2)
    unfold Accept acceptResync
    rw [if_pos hr, hskip]
    unfold acceptNormal
    rw [if_pos ht1]
  · have hskip := acceptSkip_exhausts e c.input c.CurrentToken hall
    unfold Accept acceptResync
    rw [if_pos hr, hskip]
    unfold acceptNormal
    rw [if_neg (by simp only [ne_eq, not_not]; rw [he]; rfl)]
    rfl
  · have hskip := acceptSkip_exhausts e c.input c.CurrentToken hall
    unfold Accept acceptResync
    rw [if_pos hr, hskip]
    unfold acceptNormal
    rw [if_pos (by intro h; exact he h.symm)]

/-- An instance of the recovery of `Accept`: recovering, with `; x )` ahead,
`Accept(RIGHTPARENTHESIS)` reports nothing and leaves the lookahead past the
parenthesis. -/
theorem Accept_recovery_example :
    (fun c : Compiler => (c.CurrentToken.code, c.input.length, c.recovering, c.errors.length))
      (Accept RIGHTPARENTHESIS { sampleScoped with
        CurrentToken := tk SEMICOLON
        input := [idTok [120], tk RIGHTPARENTHESIS, tk END, tk ENDOFPROGRAM]
        recovering := 1 })
      = (END, 1, 0, 0) := by
  decide!

theorem lor_eq_zero {a b : Nat} (h : a ||| b = 0) : a = 0 ∧ b = 0 := by
  have key : ∀ i, (a.testBit i || b.testBit i) = false := fun i => by
    rw [← Nat.testBit_or, h, Nat.zero_testBit]
  constructor <;> apply Nat.eq_of_testBit_eq <;> intro i <;> have := key i <;> simp_all

theorem InSet_ok (S : SET) (e : Int) (h : 0 ≤ e ∧ e < SET_SIZE) :
    InSet S e = .ok (S.word.getD (e.toNat / BITS_PER_WORD) 0 &&& 2 ^ (e.toNat % BITS_PER_WORD)) := by
  unfold InSet
  rw [if_neg (by omega)]

theorem InSet_range {S : SET} {e : Int} {m : Nat} (h : InSet S e = .ok m) :
    0 ≤ e ∧ e < SET_SIZE := by
  unfold InSet at h
  split at h
  · cases h
  · omega

theorem not_contains {S : SET} {e : Int} (h : 0 ≤ e ∧ e < SET_SIZE) :
    ¬ S.contains e ↔ InSet S e = .ok 0 := by
  constructor
  · intro hn
    rw [InSet_ok S e h]
    by_cases hz : S.word.getD (e.toNat / BITS_PER_WORD) 0 &&& 2 ^ (e.toNat % BITS_PER_WORD) = 0
    · rw [hz]
    · exact absurd ⟨_, InSet_ok S e h, hz⟩ hn
  · rintro h0 ⟨m, hm, hne⟩
    rw [h0] at hm
    cases hm
    exact hne rfl

/-- The words of the union of two sets. -/
theorem Union_word (F FB : SET) (hF : F.word.length = WORDS_PER_SET)
    (hFB : FB.word.length = WORDS_PER_SET) (i : Nat) :
    (Union [F, FB]).word.getD i 0 = F.word.getD i 0 ||| FB.word.getD i 0 := by
  obtain ⟨f⟩ := F
  obtain ⟨g⟩ := FB
  match f, hF, g, hFB with
  | [f0, f1], _, [g0, g1], _ =>
    match i with
    | 0 => simp [Union, ClearSet, WORDS_PER_SET]
    | 1 => simp [Union, ClearSet, WORDS_PER_SET]
    | i + 2 => simp [Union, ClearSet, WORDS_PER_SET]

/-- A token code is in the union exactly when it is in one of the two sets. -/
theorem Union_contains (F FB : SET) (hF : F.word.length = WORDS_PER_SET)
    (hFB : FB.word.length = WORDS_PER_SET) (e : Int) :
    (Union [F, FB]).contains e ↔ F.contains e ∨ FB.contains e := by
  by_cases h : 0 ≤ e ∧ e < SET_SIZE
  · have hu : InSet (Union [F, FB]) e = .ok
        ((F.word.getD (e.toNat / BITS_PER_WORD) 0 &&& 2 ^ (e.toNat % BITS_PER_WORD)) |||
          (FB.word.getD (e.toNat / BITS_PER_WORD) 0 &&& 2 ^ (e.toNat % BITS_PER_WORD))) := by
      rw [InSet_ok _ e h, Union_word F FB hF hFB, Nat.and_distrib_right]
    constructor
    · rintro ⟨m, hm, hne⟩
      rw [hu] at hm
      cases hm
      by_cases hz : F.word.getD (e.toNat / BITS_PER_WORD) 0 &&& 2 ^ (e.toNat % BITS_PER_WORD) = 0
      · right
        refine ⟨_, InSet_ok FB e h, fun hz2 => hne ?_⟩
        rw [hz, hz2]
        rfl
      · exact Or.inl ⟨_, InSet_ok F e h, hz⟩
    · rintro (⟨m, hm, hne⟩ | ⟨m, hm, hne⟩)
      · rw [InSet_ok F e h] at hm
        cases hm
        exact ⟨_, hu, fun hz => hne (lor_eq_zero hz).1⟩
      · rw [InSet_ok FB e h] at hm
        cases hm
        exact ⟨_, hu, fun hz => hne (lor_eq_zero hz).2⟩
  · constructor
    · rintro ⟨m, hm, _⟩
      exact absurd (InSet_range hm) h
    · rintro (⟨m, hm, _⟩ | ⟨m, hm, _⟩) <;> exact absurd (InSet_range hm) h

/-- The skipping loop of `Synchronise` stops at the first token in `S`. -/
theorem syncSkip_stops (S : SET) : ∀ (pre : List TOKEN) (cur : TOKEN) (rest : List TOKEN)
    (t : TOKEN) (post : List TOKEN), cur :: rest = pre ++ t :: post →
    (∀ p ∈ pre, InSet S p.code = .ok 0) → S.contains t.code →
    syncSkip S cur rest = .ok (t, post) := by
  intro pre
  induction pre with
  | nil =>
    intro cur rest t post h _ ht
    simp only [List.nil_append, List.cons.injEq] at h
    obtain ⟨rfl, rfl⟩ := h
    obtain ⟨m, hm, hne⟩ := ht
    cases rest with
    | nil => simp [syncSkip, hm, hne, pure, Except.pure]
    | cons a as => simp [syncSkip, hm, hne, pure, Except.pure]
  | cons p pre ih =>
    intro cur rest t post h hpre ht
    simp only [List.cons_append, List.cons.injEq] at h
    obtain ⟨rfl, rfl⟩ := h
    have hc := hpre cur (List.mem_cons_self _ _)
    have hrest : ∃ a as, pre ++ t :: post = a :: as := by
      cases pre with
      | nil => exact ⟨t, post, rfl⟩
      | cons a as => exact ⟨a, as ++ t :: post, rfl⟩
    obtain ⟨a, as, has⟩ := hrest
    rw [has]
    simp only [syncSkip, hc, ok_bind, if_true]
    exact ih a as t post has.symm (fun q hq => hpre q (List.mem_cons_of_mem _ hq)) ht

/-- The skipping loop of `Synchronise` on a stream with no token in `S`: it
returns at the end of the stream if `ENDOFINPUT` is in `S` and never returns
otherwise. -/
theorem syncSkip_exhausts (S : SET) : ∀ (rest : List TOKEN) (cur : TOKEN),
    (∀ p ∈ cur :: rest, InSet S p.code = .ok 0) →
    (S.contains ENDOFINPUT → syncSkip S cur rest = .ok (endOfInputToken, [])) ∧
    (¬ S.contains ENDOFINPUT → syncSkip S cur rest = .error .endlessLoop) := by
  intro rest
  induction rest with
  | nil =>
    intro cur h
    have hc := h cur (List.mem_cons_self _ _)
    constructor
    · rintro ⟨m, hm, hne⟩
      have hm2 : InSet S endOfInputToken.code = .ok m := hm
      simp [syncSkip, hc, hm2, hne, pure, Except.pure]
    · intro hn
      have hm2 : InSet S endOfInputToken.code = .ok 0 :=
        (not_contains (by decide)).1 hn
      simp [syncSkip, hc, hm2]
  | cons a as ih =>
    intro cur h
    have hc := h cur (List.mem_cons_self _ _)
    have := ih a (fun q hq => h q (List.mem_cons_of_mem _ hq))
    simp only [syncSkip, hc, ok_bind, if_true]
    exact this

/-- Wherever the skipping loop of `Synchronise` returns, the lookahead is in `S`. -/
theorem syncSkip_lands (S : SET) : ∀ (rest : List TOKEN) (cur : TOKEN) (r : TOKEN × List TOKEN),
    syncSkip S cur rest = .ok r → S.contains r.1.code := by
  intro rest
  induction rest with
  | nil =>
    intro cur r h
    simp only [syncSkip] at h
    obtain ⟨m, hm, h⟩ := bind_eq_ok h
    split at h
    · obtain ⟨m2, hm2, h⟩ := bind_eq_ok h
      split at h
      · cases h
      · cases h
        exact ⟨m2, hm2, by assumption⟩
    · cases h
      exact ⟨m, hm, by assumption⟩
  | cons a as ih =>
    intro cur r h
    simp only [syncSkip] at h
    obtain ⟨m, hm, h⟩ := bind_eq_ok h
    split at h
    · exact ih a r h
    · cases h
      exact ⟨m, hm, by assumption⟩

theorem Synchronise_skips (F FB : SET) (c : Compiler) (r : TOKEN × List TOKEN)
    (hF : InSet F c.CurrentToken.code = .ok 0)
    (hr : syncSkip (Union [F, FB]) c.CurrentToken c.input = .ok r) :
    Synchronise F FB c = .ok { c with
      errors := c.errors ++ [Diagnostic.expectedOneOf F c.CurrentToken]
      CurrentToken := r.1, input := r.2 } := by
  unfold Synchronise
  simp only [hF, ok_bind, if_true, Compiler.Error, hr]
  rfl

/-- C26: `Synchronise(F, FB)` on a stream of token codes within the range of a
set.  With the lookahead in `F` nothing is reported and nothing consumed.
Otherwise one set-expected error is reported and the tokens before the first
one in `F` or `FB` are discarded (none when the lookahead is in `FB`); when no
token of the stream is in either set, the call returns at the end of the
stream if `ENDOFINPUT` is in one of them and never returns otherwise.  On
return the lookahead is in `F` or in `FB`. -/
theorem Synchronise_protocol (F FB : SET) (c : Compiler)
    (hF : F.word.length = WORDS_PER_SET) (hFB : FB.word.length = WORDS_PER_SET)
    (hcodes : ∀ t ∈ c.stream, 0 ≤ t.code ∧ t.code < SET_SIZE) :
    (F.contains c.CurrentToken.code → Synchronise F FB c = .ok c) ∧
    (¬ F.contains c.CurrentToken.code → ∀ pre t post, c.stream = pre ++ t :: post →
      (∀ p ∈ pre, ¬ F.contains p.code ∧ ¬ FB.contains p.code) →
      (F.contains t.code ∨ FB.contains t.code) →
      Synchronise F FB c = .ok { c with
        errors := c.errors ++ [Diagnostic.expectedOneOf F c.CurrentToken]
        CurrentToken := t, input := post }) ∧
    (¬ F.contains c.CurrentToken.code →
      (∀ p ∈ c.stream, ¬ F.contains p.code ∧ ¬ FB.contains p.code) →
      ((F.contains ENDOFINPUT ∨ FB.contains ENDOFINPUT) →
        Synchronise F FB c = .ok { c with
          errors := c.errors ++ [Diagnostic.expectedOneOf F c.CurrentToken]
          CurrentToken := endOfInputToken, input := [] }) ∧
      (¬ (F.contains ENDOFINPUT ∨ FB.contains ENDOFINPUT) →
        Synchronise F FB c = .error .endlessLoop)) ∧
    (∀ c1, Synchronise F FB c = .ok c1 →
      F.contains c1.CurrentToken.code ∨ FB.contains c1.CurrentToken.code) := by
  have hcur := hcodes c.CurrentToken (List.mem_cons_self _ _)
  have hout : ∀ p ∈ c.stream, ¬ F.contains p.code ∧ ¬ FB.contains p.code →
      InSet (Union [F, FB]) p.code = .ok 0 := by
    intro p hp hn
    apply (not_contains (hcodes p hp)).1
    rw [Union_contains F FB hF hFB]
    exact fun h => h.elim hn.1 hn.2
  have hin : F.contains c.CurrentToken.code → Synchronise F FB c = .ok c := by
    rintro ⟨m, hm, hne⟩
    unfold Synchronise
    simp only [hm, ok_bind, if_neg hne]
    rfl
  refine ⟨hin, ?_, ?_, ?_⟩
  · intro hn pre t post hs hpre ht
    have h0 := (not_contains hcur).1 hn
    have hsk := syncSkip_stops (Union [F, FB]) pre c.CurrentToken c.input t post hs
      (fun p hp => hout p (by
        rw [hs]
        exact List.mem_append_left _ hp) (hpre p hp))
      ((Union_contains F FB hF hFB t.code).2 ht)
    exact Synchronise_skips F FB c _ h0 hsk
  · intro hn hall
    have h0 := (not_contains hcur).1 hn
    have hsk := syncSkip_exhausts (Union [F, FB]) c.input c.CurrentToken
      (fun p hp => hout p hp (hall p hp))
    constructor
    · intro he
      exact Synchronise_skips F FB c _ h0 (hsk.1 ((Union_contains F FB hF hFB _).2 he))
    · intro he
      have := hsk.2 (fun h => he ((Union_contains F FB hF hFB _).1 h))
      unfold Synchronise
      simp only [h0, ok_bind, if_true, Compiler.Error, this]
      rfl
  · intro c1 h
    by_cases hc : F.contains c.CurrentToken.code
    · rw [hin hc] at h
      cases h
      exact Or.inl hc
    · have h0 := (not_contains hcur).1 hc
      unfold Synchronise at h
      simp only [h0, ok_bind, if_true, Compiler.Error] at h
      obtain ⟨r, hr, h⟩ := bind_eq_ok h
      cases h
      exact (Union_contains F FB hF hFB _).1 (syncSkip_lands _ _ _ r hr)

/-- Witness for C26: with `x ; VAR .` ahead, `Synchronise` on the sets of the
program level discards `x ;` and stops at `VAR`. -/
theorem Synchronise_protocol_witness :
    (builtSets.ProgProcDecSet1.contains sampleSync.CurrentToken.code →
      Synchronise builtSets.ProgProcDecSet1 builtSets.FB_Prog sampleSync = .ok sampleSync) ∧
    (¬ builtSets.ProgProcDecSet1.contains sampleSync.CurrentToken.code →
      ∀ pre t post, sampleSync.stream = pre ++ t :: post →
      (∀ p ∈ pre, ¬ builtSets.ProgProcDecSet1.contains p.code ∧
        ¬ builtSets.FB_Prog.contains p.code) →
      (builtSets.ProgProcDecSet1.contains t.code ∨ builtSets.FB_Prog.contains t.code) →
      Synchronise builtSets.ProgProcDecSet1 builtSets.FB_Prog sampleSync = .ok { sampleSync with
        errors := sampleSync.errors ++
          [Diagnostic.expectedOneOf builtSets.ProgProcDecSet1 sampleSync.CurrentToken]
        CurrentToken := t, input := post }) ∧
    (¬ builtSets.ProgProcDecSet1.contains sampleSync.CurrentToken.code →
      (∀ p ∈ sampleSync.stream, ¬ builtSets.ProgProcDecSet1.contains p.code ∧
        ¬ builtSets.FB_Prog.contains p.code) →
      ((builtSets.ProgProcDecSet1.contains ENDOFINPUT ∨ builtSets.FB_Prog.contains ENDOFINPUT) →
        Synchronise builtSets.ProgProcDecSet1 builtSets.FB_Prog sampleSync = .ok { sampleSync with
          errors := sampleSync.errors ++
            [Diagnostic.expectedOneOf builtSets.ProgProcDecSet1 sampleSync.CurrentToken]
          CurrentToken := endOfInputToken, input := [] }) ∧
      (¬ (builtSets.ProgProcDecSet1.contains ENDOFINPUT ∨
          builtSets.FB_Prog.contains ENDOFINPUT) →
        Synchronise builtSets.ProgProcDecSet1 builtSets.FB_Prog sampleSync =
          .error .endlessLoop)) ∧
    (∀ c1, Synchronise builtSets.ProgProcDecSet1 builtSets.FB_Prog sampleSync = .ok c1 →
      builtSets.ProgProcDecSet1.contains c1.CurrentToken.code ∨
        builtSets.FB_Prog.contains c1.CurrentToken.code) :=
  Synchronise_protocol builtSets.ProgProcDecSet1 builtSets.FB_Prog sampleSync rfl rfl
    (by decide!)

/-- The run of the witness for C26: one report, lookahead `VAR`, `.` left. -/
theorem Synchronise_sample :
    (Synchronise builtSets.ProgProcDecSet1 builtSets.FB_Prog sampleSync).toOption.map
        (fun c => (c.CurrentToken.code, c.input.map TOKEN.code, c.errors.length))
      = some (VAR, [ENDOFPROGRAM], 1) := by
  decide!

/-- With `ENDOFINPUT` in `S` the skipping loop of `Synchronise` returns on
every finite stream of token codes within the range of a set. -/
theorem syncSkip_returns (S : SET) (hS : S.contains ENDOFINPUT) :
    ∀ (rest : List TOKEN) (cur : TOKEN), (∀ t ∈ cur :: rest, 0 ≤ t.code ∧ t.code < SET_SIZE) →
    ∃ r, syncSkip S cur rest = .ok r := by
  intro rest
  induction rest with
  | nil =>
    intro cur h
    obtain ⟨m, hm, hne⟩ := hS
    have hm2 : InSet S endOfInputToken.code = .ok m := hm
    rw [syncSkip, InSet_ok S cur.code (h cur (List.mem_cons_self _ _))]
    simp only [ok_bind, hm2, if_neg hne]
    split
    · exact ⟨_, rfl⟩
    · exact ⟨_, rfl⟩
  | cons a as ih =>
    intro cur h
    rw [syncSkip, InSet_ok S cur.code (h cur (List.mem_cons_self _ _))]
    simp only [ok_bind]
    split
    · exact ih a (fun q hq => h q (List.mem_cons_of_mem _ hq))
    · exact ⟨_, rfl⟩

/-- C27: the sets built by `SetupSets` are those of `builtSets`; each of the
four follow-plus-beacons sets handed to `Synchronise` contains `ENDOFINPUT`,
and with any of them as `FB` a call of `Synchronise` returns, whatever the
first set and whatever finite stream of tokens is left, the scanner returning
`ENDOFINPUT` from the end of the stream on. -/
theorem follow_sets_end_every_skip :
    SetupSets = .ok builtSets ∧
    ∀ FB ∈ [builtSets.FB_Prog, builtSets.FB_ProcDec, builtSets.FB_Block,
        builtSets.StatementFBS],
      FB.contains ENDOFINPUT ∧
      ∀ (F : SET) (c : Compiler), F.word.length = WORDS_PER_SET →
        (∀ t ∈ c.stream, 0 ≤ t.code ∧ t.code < SET_SIZE) →
        ∃ c1, Synchronise F FB c = .ok c1 := by
  refine ⟨rfl, ?_⟩
  intro FB hFB
  have hlen : FB.word.length = WORDS_PER_SET := by
    simp only [List.mem_cons, List.mem_singleton, List.not_mem_nil, or_false] at hFB
    rcases hFB with h | h | h | h <;> rw [h] <;> rfl
  have hend : FB.contains ENDOFINPUT := by
    simp only [List.mem_cons, List.mem_singleton, List.not_mem_nil, or_false] at hFB
    rcases hFB with h | h | h | h <;> rw [h]
    · exact ⟨4, rfl, by decide⟩
    · exact ⟨4, rfl, by decide⟩
    · exact ⟨4, rfl, by decide⟩
    · exact ⟨4, rfl, by decide⟩
  refine ⟨hend, ?_⟩
  intro F c hF hcodes
  obtain ⟨r, hr⟩ := syncSkip_returns (Union [F, FB])
    ((Union_contains F FB hF hlen _).2 (Or.inr hend)) c.input c.CurrentToken hcodes
  unfold Synchronise
  rw [InSet_ok F _ (hcodes c.CurrentToken (List.mem_cons_self _ _))]
  simp only [ok_bind, Compiler.Error, hr]
  split
  · exact ⟨_, rfl⟩
  · exact ⟨_, rfl⟩

/-! ### Scope depth and symbol table across the parsers -/

@[simp] theorem Accept_bindings (e : Int) (c : Compiler) : (Accept e c).bindings = c.bindings := by
  obtain ⟨t, r, k, es, h⟩ := Accept_fields e c
  rw [h]
  rfl

@[simp] theorem ParseVariable_bindings (c : Compiler) : (ParseVariable c).bindings = c.bindings := by
  simp [ParseVariable, ParseIdentifier]

@[simp] theorem ParseIntConst_bindings (c : Compiler) : (ParseIntConst c).bindings = c.bindings := by
  simp [ParseIntConst]

@[simp] theorem ParseAddOp_bindings (c : Compiler) : (ParseAddOp c).bindings = c.bindings := by
  unfold ParseAddOp
  split <;> simp

@[simp] theorem ParseMultOp_bindings (c : Compiler) : (ParseMultOp c).bindings = c.bindings := by
  unfold ParseMultOp
  split <;> simp

@[simp] theorem ParseRelOp_bindings (c : Compiler) : (ParseRelOp c).2.bindings = c.bindings := by
  unfold ParseRelOp
  repeat' split
  all_goals simp

theorem cEmit_bindings {o x : Int} {c c1 : Compiler} (h : c.Emit o x = .ok c1) :
    c1.bindings = c.bindings := by
  obtain ⟨g, _, rfl⟩ := cEmit_ok h
  rfl

theorem cBackPatch_bindings {a v : Int} {c c1 : Compiler} (h : c.BackPatch a v = .ok c1) :
    c1.bindings = c.bindings := by
  obtain ⟨g, _, rfl⟩ := cBackPatch_ok h
  rfl

theorem Synchronise_bindings {F FB : SET} {c c1 : Compiler} (h : Synchronise F FB c = .ok c1) :
    c1.bindings = c.bindings := by
  unfold Synchronise at h
  obtain ⟨m, _, h⟩ := bind_eq_ok h
  split at h
  · obtain ⟨r, _, h⟩ := bind_eq_ok h
    cases h
    rfl
  · cases h
    rfl

theorem blockSync_bindings {c c1 : Compiler} (h : blockSync c = .ok c1) :
    c1.bindings = c.bindings := by
  unfold blockSync at h
  obtain ⟨c2, h1, h2⟩ := bind_eq_ok h
  rw [Synchronise_bindings h2, Synchronise_bindings h1]

theorem LookupSymbol_bindings {c : Compiler} {r : Option SYMBOL × Compiler}
    (h : LookupSymbol c = .ok r) : r.2.bindings = c.bindings := by
  unfold LookupSymbol at h
  split at h
  · split at h
    · simp at h
    · split at h <;> cases h <;> rfl
  · cases h
    rfl

theorem emitLoadSP_bindings (k : Nat) : ∀ {c c1 : Compiler}, emitLoadSP k c = .ok c1 →
    c1.bindings = c.bindings := by
  induction k with
  | zero =>
    intro c c1 h
    cases h
    rfl
  | succ k ih =>
    intro c c1 h
    simp only [emitLoadSP] at h
    obtain ⟨c2, h1, h2⟩ := bind_eq_ok h
    rw [ih h2, cEmit_bindings h1]

theorem loadVariable_bindings {var : SYMBOL} {c c1 : Compiler} (h : loadVariable var c = .ok c1) :
    c1.bindings = c.bindings := by
  unfold loadVariable at h
  split at h
  · split at h
    · exact cEmit_bindings h
    · split at h <;> exact cEmit_bindings h
  · split at h
    · split at h
      · exact cEmit_bindings h
      · obtain ⟨c2, h1, h⟩ := bind_eq_ok h
        obtain ⟨c3, h2, h3⟩ := bind_eq_ok h
        rw [cEmit_bindings h3, emitLoadSP_bindings _ h2, cEmit_bindings h1]
    · cases h
      rfl

/-- The expression parsers change neither the scope depth nor the symbol
table. -/
theorem expression_bindings (n : Nat) :
    (∀ c c1, ParseExpression n c = .ok c1 → c1.bindings = c.bindings) ∧
    (∀ c c1, ParseExpressionLoop n c = .ok c1 → c1.bindings = c.bindings) ∧
    (∀ c c1, ParseCompoundTerm n c = .ok c1 → c1.bindings = c.bindings) ∧
    (∀ c c1, ParseCompoundTermLoop n c = .ok c1 → c1.bindings = c.bindings) ∧
    (∀ c c1, ParseTerm n c = .ok c1 → c1.bindings = c.bindings) ∧
    (∀ c c1, ParseSubTerm n c = .ok c1 → c1.bindings = c.bindings) := by
  induction n with
  | zero =>
    refine ⟨?_, ?_, ?_, ?_, ?_, ?_⟩ <;> intro c c1 h
    · simp [ParseExpression] at h
    · simp [ParseExpressionLoop] at h
    · simp [ParseCompoundTerm] at h
    · simp [ParseCompoundTermLoop] at h
    · simp [ParseTerm] at h
    · simp [ParseSubTerm] at h
  | succ n ih =>
    obtain ⟨ihE, ihEL, ihC, ihCL, ihT, ihS⟩ := ih
    refine ⟨?_, ?_, ?_, ?_, ?_, ?_⟩ <;> intro c c1 h
    · simp only [ParseExpression] at h
      obtain ⟨c2, h1, h2⟩ := bind_eq_ok h
      rw [ihEL _ _ h2, ihC _ _ h1]
    · simp only [ParseExpressionLoop] at h
      split at h
      · obtain ⟨c2, h2, h⟩ := bind_eq_ok h
        have e2 := ihC _ _ h2
        rw [ParseAddOp_bindings] at e2
        split at h
        all_goals
          obtain ⟨c3, h3, h4⟩ := bind_eq_ok h
          rw [ihEL _ _ h4, cEmit_bindings h3, e2]
      · cases h
        rfl
    · simp only [ParseCompoundTerm] at h
      obtain ⟨c2, h1, h2⟩ := bind_eq_ok h
      rw [ihCL _ _ h2, ihT _ _ h1]
    · simp only [ParseCompoundTermLoop] at h
      split at h
      · obtain ⟨c2, h2, h⟩ := bind_eq_ok h
        have e2 := ihT _ _ h2
        rw [ParseMultOp_bindings] at e2
        split at h
        all_goals
          obtain ⟨c3, h3, h4⟩ := bind_eq_ok h
          rw [ihCL _ _ h4, cEmit_bindings h3, e2]
      · cases h
        rfl
    · simp only [ParseTerm] at h
      split at h
      · obtain ⟨c2, h1, h2⟩ := bind_eq_ok h
        rw [cEmit_bindings h2, ihS _ _ h1, Accept_bindings]
      · exact ihS _ _ h
    · simp only [ParseSubTerm] at h
      split at h
      · obtain ⟨c2, h1, h2⟩ := bind_eq_ok h
        cases h2
        rw [ParseIntConst_bindings, cEmit_bindings h1]
      · split at h
        · obtain ⟨c2, h1, h2⟩ := bind_eq_ok h
          cases h2
          rw [Accept_bindings, ihE _ _ h1, Accept_bindings]
        · obtain ⟨r, hr, h⟩ := bind_eq_ok h
          split at h
          · simp at h
          · obtain ⟨c2, h1, h2⟩ := bind_eq_ok h
            cases h2
            rw [ParseVariable_bindings, loadVariable_bindings h1, LookupSymbol_bindings hr]

theorem ParseExpression_bindings {n : Nat} {c c1 : Compiler}
    (h : ParseExpression n c = .ok c1) : c1.bindings = c.bindings :=
  (expression_bindings n).1 c c1 h

theorem ParseBooleanExpression_bindings {n : Nat} {c : Compiler} {r : Int × Compiler}
    (h : ParseBooleanExpression n c = .ok r) : r.2.bindings = c.bindings := by
  obtain ⟨c1, c2, c3, h1, h2, h3, h5, _⟩ := ParseBooleanExpression_ok h
  rw [cEmit_bindings h5, ParseRelOp_bindings, cEmit_bindings h3, ParseExpression_bindings h2,
    ParseRelOp_bindings, ParseExpression_bindings h1]

theorem ParseActualParameter_bindings {n : Nat} {c c1 : Compiler}
    (h : ParseActualParameter n c = .ok c1) : c1.bindings = c.bindings := by
  unfold ParseActualParameter at h
  split at h
  · cases h
    simp
  · exact ParseExpression_bindings h

theorem ParseProcCallListLoop_bindings (n k : Nat) : ∀ {c c1 : Compiler},
    ParseProcCallListLoop n k c = .ok c1 → c1.bindings = c.bindings := by
  induction k with
  | zero =>
    intro c c1 h
    simp [ParseProcCallListLoop] at h
  | succ k ih =>
    intro c c1 h
    simp only [ParseProcCallListLoop] at h
    split at h
    · obtain ⟨c2, h1, h2⟩ := bind_eq_ok h
      rw [ih h2, ParseActualParameter_bindings h1, Accept_bindings]
    · cases h
      rfl

theorem ParseProcCallList_bindings {n : Nat} {c c1 : Compiler}
    (h : ParseProcCallList n c = .ok c1) : c1.bindings = c.bindings := by
  unfold ParseProcCallList at h
  obtain ⟨c2, h1, h⟩ := bind_eq_ok h
  obtain ⟨c3, h2, h⟩ := bind_eq_ok h
  cases h
  rw [Accept_bindings, ParseProcCallListLoop_bindings n n h2, ParseActualParameter_bindings h1,
    Accept_bindings]

theorem callTarget_bindings {target : Option SYMBOL} {c c1 : Compiler}
    (h : callTarget target c = .ok c1) : c1.bindings = c.bindings := by
  unfold callTarget at h
  split at h
  · split at h
    · exact cEmit_bindings h
    · cases h
      rfl
  · cases h
    rfl

theorem storeTarget_bindings {target : Option SYMBOL} {c c1 : Compiler}
    (h : storeTarget target c = .ok c1) : c1.bindings = c.bindings := by
  unfold storeTarget at h
  split at h
  · split at h
    · exact cEmit_bindings h
    · cases h
      rfl
  · cases h
    rfl

theorem ParseRestOfStatement_bindings {n : Nat} {target : Option SYMBOL} {c c1 : Compiler}
    (h : ParseRestOfStatement n target c = .ok c1) : c1.bindings = c.bindings := by
  unfold ParseRestOfStatement at h
  split at h
  · obtain ⟨c2, h1, h2⟩ := bind_eq_ok h
    rw [callTarget_bindings h2, ParseProcCallList_bindings h1]
  · split at h
    · exact callTarget_bindings h
    · obtain ⟨c2, h1, h2⟩ := bind_eq_ok h
      unfold ParseAssignment at h1
      rw [storeTarget_bindings h2, ParseExpression_bindings h1, Accept_bindings]

theorem ParseSimpleStatement_bindings {n : Nat} {c c1 : Compiler}
    (h : ParseSimpleStatement n c = .ok c1) : c1.bindings = c.bindings := by
  unfold ParseSimpleStatement at h
  obtain ⟨r, hr, h2⟩ := bind_eq_ok h
  rw [ParseRestOfStatement_bindings h2, Accept_bindings, LookupSymbol_bindings hr]

theorem readListLoop_bindings (k : Nat) : ∀ {c c1 : Compiler},
    readListLoop k c = .ok c1 → c1.bindings = c.bindings := by
  induction k with
  | zero =>
    intro c c1 h
    simp [readListLoop] at h
  | succ k ih =>
    intro c c1 h
    simp only [readListLoop] at h
    split at h
    · rw [ih h]
      simp
    · cases h
      rfl

theorem ParseReadStatement_bindings {n : Nat} {c c1 : Compiler}
    (h : ParseReadStatement n c = .ok c1) : c1.bindings = c.bindings := by
  unfold ParseReadStatement at h
  obtain ⟨c2, h2, h⟩ := bind_eq_ok h
  obtain ⟨c3, h3, h⟩ := bind_eq_ok h
  cases h
  have e2 := ParseProcCallList_bindings h2
  have e3 := readListLoop_bindings n h3
  rw [Accept_bindings, e3]
  show c2.bindings = c.bindings
  rw [e2]
  show (Accept IDENTIFIER (Accept LEFTPARENTHESIS (Accept READ c))).bindings = c.bindings
  simp

theorem writeListLoop_bindings (n k : Nat) : ∀ {c c1 : Compiler},
    writeListLoop n k c = .ok c1 → c1.bindings = c.bindings := by
  induction k with
  | zero =>
    intro c c1 h
    simp [writeListLoop] at h
  | succ k ih =>
    intro c c1 h
    simp only [writeListLoop] at h
    split at h
    · obtain ⟨c2, h1, h2⟩ := bind_eq_ok h
      rw [ih h2, ParseExpression_bindings h1, Accept_bindings]
    · cases h
      rfl

theorem ParseWriteStatement_bindings {n : Nat} {c c1 : Compiler}
    (h : ParseWriteStatement n c = .ok c1) : c1.bindings = c.bindings := by
  unfold ParseWriteStatement at h
  obtain ⟨c2, h1, h⟩ := bind_eq_ok h
  obtain ⟨c3, h2, h⟩ := bind_eq_ok h
  obtain ⟨c4, h3, h⟩ := bind_eq_ok h
  cases h
  have e1 := ParseExpression_bindings h1
  have e2 := ParseProcCallList_bindings h2
  have e3 := writeListLoop_bindings n n h3
  rw [Accept_bindings, e3, e2]
  show c2.bindings = c.bindings
  rw [e1]
  simp

/-- The statement parsers change neither the scope depth nor the symbol
table. -/
theorem block_bindings (n : Nat) :
    (∀ c c1, ParseBlock n c = .ok c1 → c1.bindings = c.bindings) ∧
    (∀ c c1, ParseBlockLoop n c = .ok c1 → c1.bindings = c.bindings) ∧
    (∀ c c1, ParseStatement n c = .ok c1 → c1.bindings = c.bindings) ∧
    (∀ c c1, ParseWhileStatement n c = .ok c1 → c1.bindings = c.bindings) ∧
    (∀ c c1, ParseIfStatement n c = .ok c1 → c1.bindings = c.bindings) := by
  induction n with
  | zero =>
    refine ⟨?_, ?_, ?_, ?_, ?_⟩ <;> intro c c1 h
    · simp [ParseBlock] at h
    · simp [ParseBlockLoop] at h
    · simp [ParseStatement] at h
    · simp [ParseWhileStatement] at h
    · simp [ParseIfStatement] at h
  | succ n ih =>
    obtain ⟨ihB, ihL, ihS, ihW, ihI⟩ := ih
    refine ⟨?_, ?_, ?_, ?_, ?_⟩ <;> intro c c1 h
    · simp only [ParseBlock] at h
      obtain ⟨c2, h1, h⟩ := bind_eq_ok h
      obtain ⟨c3, h2, h⟩ := bind_eq_ok h
      cases h
      rw [Accept_bindings, ihL _ _ h2, blockSync_bindings h1, Accept_bindings]
    · simp only [ParseBlockLoop] at h
      split at h
      · obtain ⟨c2, h1, h⟩ := bind_eq_ok h
        obtain ⟨c3, h2, h3⟩ := bind_eq_ok h
        rw [ihL _ _ h3, blockSync_bindings h2, Accept_bindings, ihS _ _ h1]
      · cases h
        rfl
    · simp only [ParseStatement] at h
      split at h
      · exact ParseSimpleStatement_bindings h
      · split at h
        · exact ihW _ _ h
        · split at h
          · exact ihI _ _ h
          · split at h
            · exact ParseReadStatement_bindings h
            · split at h
              · exact ParseWriteStatement_bindings h
              · cases h
                rfl
    · simp only [ParseWhileStatement] at h
      obtain ⟨b, hb, h⟩ := bind_eq_ok h
      obtain ⟨c2, h2, h⟩ := bind_eq_ok h
      obtain ⟨c3, h3, h4⟩ := bind_eq_ok h
      rw [cBackPatch_bindings h4, cEmit_bindings h3, ihB _ _ h2, Accept_bindings,
        ParseBooleanExpression_bindings hb, Accept_bindings]
    · simp only [ParseIfStatement] at h
      obtain ⟨b, hb, h⟩ := bind_eq_ok h
      obtain ⟨c2, h2, h⟩ := bind_eq_ok h
      have e2 : c2.bindings = c.bindings := by
        rw [ihB _ _ h2, Accept_bindings, ParseBooleanExpression_bindings hb, Accept_bindings]
      split at h
      · obtain ⟨c3, h3, h⟩ := bind_eq_ok h
        obtain ⟨c4, h4, h⟩ := bind_eq_ok h
        obtain ⟨c5, h5, h6⟩ := bind_eq_ok h
        rw [cBackPatch_bindings h6, ihB _ _ h5, Accept_bindings, cBackPatch_bindings h4,
          cEmit_bindings h3, e2]
      · rw [cBackPatch_bindings h, e2]

theorem ParseBlock_bindings {n : Nat} {c c1 : Compiler}
    (h : ParseBlock n c = .ok c1) : c1.bindings = c.bindings :=
  (block_bindings n).1 c c1 h

theorem Grown.grown_refl (scope : Int) (tbl : SymTab) : Grown scope tbl tbl :=
  fun _ => ⟨[], rfl, fun _ h => by simp at h, fun _ => rfl⟩

theorem Grown.grown_trans {scope : Int} {a b c : SymTab} (h1 : Grown scope a b)
    (h2 : Grown scope b c) : Grown scope a c := by
  intro i
  obtain ⟨n1, e1, s1, z1⟩ := h1 i
  obtain ⟨n2, e2, s2, z2⟩ := h2 i
  refine ⟨n2 ++ n1, by rw [e2, e1, List.append_assoc], ?_, ?_⟩
  · intro s hs
    rcases List.mem_append.mp hs with h | h
    · exact s2 s h
    · exact s1 s h
  · intro hi
    rw [z1 hi, z2 hi]
    rfl

/-- What a returning `MakeSymbolTableEntry` did to the scope depth and to the
table: nothing, or one symbol of the current depth put at the head of the
chain of the lookahead's spelling. -/
theorem MakeSymbolTableEntry_effect (symtype : Int) (c c1 : Compiler)
    (h : MakeSymbolTableEntry symtype c = .ok c1) :
    c1.scope = c.scope ∧
    (c1.HashTable = c.HashTable ∨
      ∃ name, c.CurrentToken.s = some name ∧ c1.HashTable = fun i =>
        if i = Hash name then enteredSymbol symtype c name :: c.HashTable i
        else c.HashTable i) := by
  by_cases hcode : c.CurrentToken.code = IDENTIFIER
  swap
  · unfold MakeSymbolTableEntry at h
    rw [if_neg hcode] at h
    cases h
    exact ⟨rfl, Or.inl rfl⟩
  cases hs : c.CurrentToken.s with
  | none =>
    unfold MakeSymbolTableEntry at h
    rw [if_pos hcode, hs] at h
    cases h
  | some name =>
    cases hp : (Probe c.HashTable name).1 with
    | none =>
      rw [MakeSymbolTableEntry_enter symtype c name hcode hs (Or.inl hp)] at h
      cases h
      exact ⟨rfl, Or.inr ⟨name, rfl, rfl⟩⟩
    | some o =>
      by_cases hlt : o.scope < c.scope
      · rw [MakeSymbolTableEntry_enter symtype c name hcode hs (Or.inr ⟨o, hp, hlt⟩)] at h
        cases h
        exact ⟨rfl, Or.inr ⟨name, rfl, rfl⟩⟩
      · rw [MakeSymbolTableEntry_refuse symtype c name hcode hs o hp (by omega)] at h
        cases h
        exact ⟨rfl, Or.inl rfl⟩

theorem MakeSymbolTableEntry_grows (symtype : Int) (c c1 : Compiler)
    (h : MakeSymbolTableEntry symtype c = .ok c1) :
    c1.scope = c.scope ∧ Grown c.scope c.HashTable c1.HashTable := by
  obtain ⟨hsc, ht | ⟨name, _, ht⟩⟩ := MakeSymbolTableEntry_effect symtype c c1 h
  · rw [ht]
    exact ⟨hsc, Grown.grown_refl _ _⟩
  · refine ⟨hsc, fun i => ?_⟩
    rw [ht]
    by_cases hi : i = Hash name
    · refine ⟨[enteredSymbol symtype c name], by simp [hi], ?_, ?_⟩
      · intro s hs
        rw [List.mem_singleton.mp hs]
        rfl
      · intro hge
        have := Hash_lt name
        omega
    · exact ⟨[], by simp [hi], fun _ h => by simp at h, fun _ => rfl⟩

/-- On a chain with non-increasing scopes, the loop of `RemoveSymbols` leaves
the symbols of scope below `d`, in their order. -/
theorem removeChain_filter (d : Int) : ∀ chain : List SYMBOL,
    chain.Pairwise (fun a b => b.scope ≤ a.scope) →
    removeChain d chain = chain.filter (fun s => decide (s.scope < d)) := by
  intro chain
  induction chain with
  | nil => intro _; rfl
  | cons a chain ih =>
    intro hp
    rw [List.pairwise_cons] at hp
    rw [removeChain]
    by_cases ha : a.scope ≥ d
    · rw [if_pos ha, ih hp.2, List.filter_cons_of_neg (by simpa using ha)]
    · rw [if_neg ha]
      symm
      apply List.filter_eq_self.mpr
      intro b hb
      rcases List.mem_cons.mp hb with rfl | hb
      · simpa using ha
      · have := hp.1 b hb
        simp only [decide_eq_true_eq]
        omega

/-- The symbols `RemoveSymbols` deletes from a chain are a run at its head. -/
theorem removeChain_split (d : Int) : ∀ chain : List SYMBOL,
    ∃ removed, chain = removed ++ removeChain d chain ∧ ∀ s ∈ removed, d ≤ s.scope := by
  intro chain
  induction chain with
  | nil => exact ⟨[], rfl, fun _ h => by simp at h⟩
  | cons a chain ih =>
    rw [removeChain]
    by_cases ha : a.scope ≥ d
    · rw [if_pos ha]
      obtain ⟨removed, hr, hs⟩ := ih
      refine ⟨a :: removed, by rw [List.cons_append, ← hr], ?_⟩
      intro s hmem
      rcases List.mem_cons.mp hmem with rfl | hmem
      · exact ha
      · exact hs s hmem
    · rw [if_neg ha]
      exact ⟨[], rfl, fun _ h => by simp at h⟩

/-- One call of the declaration contract keeps the symbols in the chain of
their string. -/
theorem DeclOp.run_TableOK (op : DeclOp) (c c1 : Compiler) (h : op.run c = .ok c1)
    (hok : TableOK c.HashTable) : TableOK c1.HashTable := by
  cases op with
  | declare symtype tok =>
    exact MakeSymbolTableEntry_TableOK symtype { c with CurrentToken := tok } c1 hok h
  | enter =>
    cases h
    exact hok
  | leave =>
    cases h
    exact RemoveSymbols_TableOK c.scope hok

/-- On a table whose chains have non-increasing scopes and whose symbols are
in the chain of their string, `RemoveSymbols(d)` leaves in every chain the
symbols of scope below `d`, in their order. -/
theorem RemoveSymbols_filter (d : Int) (tbl : SymTab) (hok : TableOK tbl)
    (hord : ∀ i, (tbl i).Pairwise (fun a b => b.scope ≤ a.scope)) (i : Nat) :
    RemoveSymbols d tbl i = (tbl i).filter (fun s => decide (s.scope < d)) := by
  unfold RemoveSymbols
  split
  · exact removeChain_filter d _ (hord i)
  · rename_i hi
    have hempty : tbl i = [] := by
      cases hc : tbl i with
      | nil => rfl
      | cons a as =>
        have := hok.1 i a (by rw [hc]; exact List.mem_cons_self _ _)
        have := Hash_lt a.s
        omega
    rw [hempty]
    rfl

/-- One call of the declaration contract keeps the scopes of every chain
non-increasing and at most the scope depth. -/
theorem DeclOp.run_ordered (op : DeclOp) (c c1 : Compiler) (h : op.run c = .ok c1)
    (hok : TableOK c.HashTable)
    (hord : ScopeOrdered c.scope c.HashTable) : ScopeOrdered c1.scope c1.HashTable := by
  cases op with
  | declare symtype tok =>
    obtain ⟨hsc, hg⟩ := MakeSymbolTableEntry_grows symtype _ c1 h
    rw [hsc]
    constructor
    · intro i
      obtain ⟨news, e, hs, _⟩ := hg i
      rw [e]
      refine List.pairwise_append.mpr ⟨?_, hord.1 i, ?_⟩
      · refine List.pairwise_of_forall_mem_list ?_
        intro a ha b hb
        rw [hs a ha, hs b hb]
      · intro a ha b hb
        rw [hs a ha]
        exact hord.2 i b hb
    · intro i s hmem
      obtain ⟨news, e, hs, _⟩ := hg i
      rw [e] at hmem
      rcases List.mem_append.mp hmem with h1 | h1
      · rw [hs s h1]
      · exact hord.2 i s h1
  | enter =>
    cases h
    exact ⟨hord.1, fun i s hs => by
      have := hord.2 i s hs
      show s.scope ≤ c.scope + 1
      omega⟩
  | leave =>
    cases h
    constructor
    · intro i
      show (RemoveSymbols c.scope c.HashTable i).Pairwise _
      rw [RemoveSymbols_filter c.scope _ hok hord.1 i]
      exact (hord.1 i).filter _
    · intro i s hmem
      show s.scope ≤ c.scope - 1
      have hmem2 : s ∈ RemoveSymbols c.scope c.HashTable i := hmem
      rw [RemoveSymbols_filter c.scope _ hok hord.1 i] at hmem2
      have := (List.mem_filter.mp hmem2).2
      simp only [decide_eq_true_eq] at this
      omega

theorem declLog_ordered (ops : List DeclOp) : ∀ (c c1 : Compiler) (log : List (Int × SYMBOL)),
    declLog ops c = .ok (log, c1) → TableOK c.HashTable → ScopeOrdered c.scope c.HashTable →
    TableOK c1.HashTable ∧ ScopeOrdered c1.scope c1.HashTable := by
  induction ops with
  | nil =>
    intro c c1 log h hok hord
    cases h
    exact ⟨hok, hord⟩
  | cons op ops ih =>
    intro c c1 log h hok hord
    simp only [declLog] at h
    obtain ⟨c2, h2, h⟩ := bind_eq_ok h
    obtain ⟨r, hr, h⟩ := bind_eq_ok h
    cases h
    exact ih c2 r.2 r.1 hr (op.run_TableOK c c2 h2 hok) (op.run_ordered c c2 h2 hok hord)

/-- C28: from an empty table, every sequence of declarations at the current
scope depth, scope entries, and scope exits (`RemoveSymbols(scope); scope--`)
returns and leads to a table in which every chain has non-increasing scope
depths from head to tail, none above the current depth.  A declaration puts
its symbol at the head of a chain and changes nothing else, and a scope exit
deletes a run at the head of each chain, so a chain lists its symbols from the
most recent to the least recent.  In such a table `RemoveSymbols(d)` leaves in
every chain exactly the symbols of scope depth below `d`, in their order. -/
theorem chains_scope_ordered (ops : List DeclOp) (c0 : Compiler)
    (h0 : c0.HashTable = emptyTable)
    (htok : ∀ symtype tok, DeclOp.declare symtype tok ∈ ops → tok.code = IDENTIFIER →
      tok.s ≠ none) :
    ∃ log c, declLog ops c0 = .ok (log, c) ∧
      ScopeOrdered c.scope c.HashTable ∧
      (∀ d i, RemoveSymbols d c.HashTable i
        = (c.HashTable i).filter (fun s => decide (s.scope < d))) ∧
      (∀ symtype tok c1, (DeclOp.declare symtype tok).run c = .ok c1 →
        c1.HashTable = c.HashTable ∨
        ∃ name sym, sym.scope = c.scope ∧ c1.HashTable = fun i =>
          if i = Hash name then sym :: c.HashTable i else c.HashTable i) ∧
      (∀ c1, DeclOp.leave.run c = .ok c1 → ∀ i, ∃ removed,
        c.HashTable i = removed ++ c1.HashTable i ∧ (∀ s ∈ removed, c.scope ≤ s.scope) ∧
        ∀ s ∈ c1.HashTable i, s.scope < c.scope) := by
  obtain ⟨⟨log, c⟩, h⟩ := declLog_returns ops htok c0
  have hstart : TableOK c0.HashTable ∧ ScopeOrdered c0.scope c0.HashTable := by
    rw [h0]
    exact ⟨TableOK_empty, fun i => by simp [emptyTable], fun i s hs => by simp [emptyTable] at hs⟩
  obtain ⟨hok, hord⟩ := declLog_ordered ops c0 c log h hstart.1 hstart.2
  refine ⟨log, c, h, hord, fun d i => RemoveSymbols_filter d _ hok hord.1 i, ?_, ?_⟩
  · intro symtype tok c1 h1
    obtain ⟨_, ht | ⟨name, _, ht⟩⟩ := MakeSymbolTableEntry_effect symtype _ c1 h1
    · exact Or.inl ht
    · exact Or.inr ⟨name, _, rfl, ht⟩
  · intro c1 h1 i
    cases h1
    show ∃ removed, c.HashTable i = removed ++ RemoveSymbols c.scope c.HashTable i ∧ _ ∧
      ∀ s ∈ RemoveSymbols c.scope c.HashTable i, s.scope < c.scope
    have hf := RemoveSymbols_filter c.scope _ hok hord.1 i
    unfold RemoveSymbols at hf ⊢
    split
    · obtain ⟨removed, hr, hs⟩ := removeChain_split c.scope (c.HashTable i)
      refine ⟨removed, hr, hs, ?_⟩
      intro s hmem
      rw [removeChain_filter c.scope _ (hord.1 i)] at hmem
      simpa using (List.mem_filter.mp hmem).2
    · rename_i hi
      rw [if_neg hi] at hf
      refine ⟨[], rfl, fun _ h => by simp at h, ?_⟩
      intro s hmem
      rw [hf] at hmem
      simpa using (List.mem_filter.mp hmem).2

/-- Witness for C28: the sample declarations from the start of a compile. -/
theorem chains_scope_ordered_witness :
    ∃ log c, declLog sampleDeclarations (Compiler.initial builtSets [] 0) = .ok (log, c) ∧
      ScopeOrdered c.scope c.HashTable := by
  obtain ⟨log, c, h, hord, _⟩ := chains_scope_ordered sampleDeclarations
    (Compiler.initial builtSets [] 0) rfl (by
      intro symtype tok hm _
      simp only [sampleDeclarations, List.mem_cons, DeclOp.declare.injEq, List.mem_singleton,
        List.mem_nil_iff, or_false, false_or] at hm
      rcases hm with ⟨_, rfl⟩ | ⟨_, rfl⟩ | h | ⟨_, rfl⟩ | ⟨_, rfl⟩ | ⟨_, rfl⟩ | h | ⟨_, rfl⟩ <;>
        first | exact (fun e => Option.noConfusion e) | cases h)
  exact ⟨log, c, h, hord⟩

/-- C29: `Probe` reports `Hash(s)` as the hash index and returns the first
symbol in that chain whose string agrees with `s` on the first 80 bytes, NULL
when there is none; the table is not changed (in the model `Probe` is a
function of the table).  When every symbol is in the chain of its string and
no string holds a NUL byte, for a spelling of fewer than 80 bytes the symbol
returned is spelled `s` with only other spellings before it in the chain (the
most recent such symbol, by the order of the chains), and NULL is returned if
and only if no symbol of the table is spelled `s`. -/
theorem Probe_first_match (tbl : SymTab) (s : List Nat) :
    (Probe tbl s).2 = Hash s ∧
    ((Probe tbl s).1 = none ↔ ∀ sym ∈ tbl (Hash s), strncmp 80 sym.s s ≠ 0) ∧
    (∀ o, (Probe tbl s).1 = some o → ∃ pre post, tbl (Hash s) = pre ++ o :: post ∧
      strncmp 80 o.s s = 0 ∧ ∀ b ∈ pre, strncmp 80 b.s s ≠ 0) ∧
    (TableOK tbl → (∀ i, ∀ sym ∈ tbl i, ∀ x ∈ sym.s, x ≠ 0) → (∀ x ∈ s, x ≠ 0) →
      s.length < 80 →
      ((Probe tbl s).1 = none ↔ ∀ i, ∀ sym ∈ tbl i, sym.s ≠ s) ∧
      (∀ o, (Probe tbl s).1 = some o → o.s = s ∧ ∃ pre post,
        tbl (Hash s) = pre ++ o :: post ∧ ∀ b ∈ pre, b.s ≠ s)) := by
  have hnone : (Probe tbl s).1 = none ↔ ∀ sym ∈ tbl (Hash s), strncmp 80 sym.s s ≠ 0 := by
    constructor
    · exact probeChain_none s _
    · intro hall
      cases hp : (Probe tbl s).1 with
      | none => rfl
      | some o =>
        obtain ⟨pre, post, hc, h0, _⟩ := probeChain_some s _ hp
        exact absurd h0 (hall o (by rw [hc]; simp))
  refine ⟨rfl, hnone, fun o ho => probeChain_some s _ ho, ?_⟩
  intro hok hnul hs hlen
  constructor
  · rw [hnone]
    constructor
    · intro hall i sym hmem heq
      have hi : Hash sym.s = i := hok.1 i sym hmem
      rw [heq] at hi
      rw [← hi] at hmem
      exact hall sym hmem (by rw [heq]; exact strncmp_self 80 s)
    · intro hall sym hmem h0
      exact hall _ sym hmem (strncmp_eq_zero 80 sym.s s (hnul _ sym hmem) hs hlen h0)
  · intro o ho
    obtain ⟨pre, post, hc, h0, hpre⟩ := probeChain_some s _ ho
    have hmem : o ∈ tbl (Hash s) := by rw [hc]; simp
    refine ⟨strncmp_eq_zero 80 o.s s (hnul _ o hmem) hs hlen h0, pre, post, hc, ?_⟩
    intro b hb heq
    exact hpre b hb (by rw [heq]; exact strncmp_self 80 s)

theorem Declares.declares_refl (c : Compiler) : Declares c c := ⟨rfl, Grown.grown_refl _ _⟩

theorem Declares.andThen {a b c : Compiler} (h1 : Declares a b) (h2 : Declares b c) :
    Declares a c := by
  refine ⟨by rw [h2.1, h1.1], h1.2.grown_trans ?_⟩
  have := h2.2
  rw [h1.1] at this
  exact this

theorem Declares.of_bindings {c c1 : Compiler} (h : c1.bindings = c.bindings) :
    Declares c c1 := by
  have hs : c1.scope = c.scope := congrArg Prod.fst h
  have ht : c1.HashTable = c.HashTable := congrArg Prod.snd h
  refine ⟨hs, ?_⟩
  rw [ht]
  exact Grown.grown_refl _ _

theorem Declares.accept (e : Int) (c : Compiler) : Declares c (Accept e c) :=
  Declares.of_bindings (Accept_bindings e c)

theorem Declares.entry {symtype : Int} {c c1 : Compiler}
    (h : MakeSymbolTableEntry symtype c = .ok c1) : Declares c c1 :=
  MakeSymbolTableEntry_grows symtype c c1 h

theorem ParseDeclarationsLoop_declares (k : Nat) : ∀ (v : Int) (c : Compiler) (r : Int × Compiler),
    ParseDeclarationsLoop k v c = .ok r → Declares c r.2 := by
  induction k with
  | zero =>
    intro v c r h
    simp [ParseDeclarationsLoop] at h
  | succ k ih =>
    intro v c r h
    simp only [ParseDeclarationsLoop] at h
    split at h
    · obtain ⟨c1, h1, h2⟩ := bind_eq_ok h
      exact ((Declares.accept COMMA c).andThen (Declares.entry h1)).andThen
        (((Declares.accept IDENTIFIER c1).andThen
          (Declares.of_bindings (ParseVariable_bindings _))).andThen (ih _ _ _ h2))
    · cases h
      exact Declares.declares_refl _

theorem ParseDeclarations_declares {n : Nat} {c : Compiler} {r : Int × Compiler}
    (h : ParseDeclarations n c = .ok r) : Declares c r.2 := by
  unfold ParseDeclarations at h
  obtain ⟨c1, h1, h⟩ := bind_eq_ok h
  obtain ⟨r1, h2, h⟩ := bind_eq_ok h
  cases h
  exact (((Declares.accept VAR c).andThen (Declares.entry h1)).andThen
    (((Declares.accept IDENTIFIER c1).andThen
      (Declares.of_bindings (ParseVariable_bindings _))).andThen
        (ParseDeclarationsLoop_declares n _ _ _ h2))).andThen (Declares.accept SEMICOLON r1.2)

theorem acceptRef_declares {c c1 : Compiler} (h : acceptRef c = .ok c1) : Declares c c1 := by
  unfold acceptRef at h
  split at h
  · obtain ⟨c2, h1, h2⟩ := bind_eq_ok h
    cases h2
    exact (Declares.entry h1).andThen (Declares.accept REF c2)
  · cases h
    exact Declares.declares_refl _

theorem ParseFormalParameter_declares {c c1 : Compiler} (h : ParseFormalParameter c = .ok c1) :
    Declares c c1 := by
  unfold ParseFormalParameter at h
  obtain ⟨c2, h1, h⟩ := bind_eq_ok h
  obtain ⟨c3, h2, h⟩ := bind_eq_ok h
  cases h
  exact ((acceptRef_declares h1).andThen (Declares.entry h2)).andThen
    ((Declares.of_bindings (ParseVariable_bindings c3)).andThen (Declares.accept IDENTIFIER _))

theorem ParseParameterListLoop_declares (k : Nat) : ∀ (c c1 : Compiler),
    ParseParameterListLoop k c = .ok c1 → Declares c c1 := by
  induction k with
  | zero =>
    intro c c1 h
    simp [ParseParameterListLoop] at h
  | succ k ih =>
    intro c c1 h
    simp only [ParseParameterListLoop] at h
    split at h
    · obtain ⟨c2, h1, h2⟩ := bind_eq_ok h
      exact ((Declares.accept COMMA c).andThen (ParseFormalParameter_declares h1)).andThen
        (ih _ _ h2)
    · cases h
      exact Declares.declares_refl _

theorem ParseParameterList_declares {n : Nat} {c c1 : Compiler}
    (h : ParseParameterList n c = .ok c1) : Declares c c1 := by
  unfold ParseParameterList at h
  obtain ⟨c2, h1, h⟩ := bind_eq_ok h
  obtain ⟨c3, h2, h⟩ := bind_eq_ok h
  cases h
  exact (((Declares.accept LEFTPARENTHESIS c).andThen (ParseFormalParameter_declares h1)).andThen
    (ParseParameterListLoop_declares n _ _ h2)).andThen (Declares.accept RIGHTPARENTHESIS c3)

theorem optionalParameterList_declares {n : Nat} {c c1 : Compiler}
    (h : optionalParameterList n c = .ok c1) : Declares c c1 := by
  unfold optionalParameterList at h
  split at h
  · exact ParseParameterList_declares h
  · cases h
    exact Declares.declares_refl _

theorem optionalDeclarations_declares {n : Nat} {c c1 : Compiler}
    (h : optionalDeclarations n c = .ok c1) : Declares c c1 := by
  unfold optionalDeclarations at h
  split at h
  · obtain ⟨r, h1, h2⟩ := bind_eq_ok h
    cases h2
    exact ParseDeclarations_declares h1
  · cases h
    exact Declares.declares_refl _

/-- The steps of a returning `ParseProcDeclaration`. -/
theorem ParseProcDeclaration_steps {n : Nat} {c c8 : Compiler}
    (h : ParseProcDeclaration (n + 1) c = .ok c8) :
    ∃ c1 c2 c3 c4 c5 c6 c7,
      optionalParameterList n { c with scope := c.scope + 1 } = .ok c1 ∧
      Synchronise c1.sets.ProgProcDecSet1 c1.sets.FB_ProcDec (Accept SEMICOLON c1) = .ok c2 ∧
      optionalDeclarations n c2 = .ok c3 ∧
      Synchronise c3.sets.ProgProcDecSet2 c3.sets.FB_ProcDec c3 = .ok c4 ∧
      nestedProcedures n c4 = .ok c5 ∧
      Synchronise c5.sets.ProgProcDecSet2 c5.sets.FB_ProcDec c5 = .ok c6 ∧
      ParseBlock n c6 = .ok c7 ∧
      c8 = { Accept SEMICOLON c7 with
        HashTable := RemoveSymbols c7.scope (Accept SEMICOLON c7).HashTable
        scope := c7.scope - 1 } := by
  simp only [ParseProcDeclaration] at h
  obtain ⟨c1, h1, h⟩ := bind_eq_ok h
  obtain ⟨c2, h2, h⟩ := bind_eq_ok h
  obtain ⟨c3, h3, h⟩ := bind_eq_ok h
  obtain ⟨c4, h4, h⟩ := bind_eq_ok h
  obtain ⟨c5, h5, h⟩ := bind_eq_ok h
  obtain ⟨c6, h6, h⟩ := bind_eq_ok h
  obtain ⟨c7, h7, h⟩ := bind_eq_ok h
  cases h
  exact ⟨c1, c2, c3, c4, c5, c6, c7, h1, h2, h3, h4, h5, h6, h7, rfl⟩

/-- Symbols of scope depth `d + 1` in front of chains whose symbols have depth
at most `d` are what `RemoveSymbols(d + 1)` deletes. -/
theorem RemoveSymbols_grown (d : Int) (tbl tbl1 : SymTab) (hg : Grown (d + 1) tbl tbl1)
    (hb : ∀ i, ∀ s ∈ tbl i, s.scope ≤ d) : RemoveSymbols (d + 1) tbl1 = tbl := by
  funext i
  obtain ⟨news, e, hs, hz⟩ := hg i
  unfold RemoveSymbols
  split
  · rw [e, removeChain_append (d + 1) news (tbl i) (fun s h => by rw [hs s h]),
      removeChain_of_lt (d + 1) (tbl i) (fun s h => by have := hb i s h; omega)]
  · rename_i hi
    rw [e, hz (by omega)]
    rfl

/-- `ParseProcDeclaration` and the loop over nested procedures return at the
scope depth at which they were entered, and with the table they were entered
with when no symbol of that table lies above that depth. -/
theorem procedure_scope (n : Nat) :
    (∀ c c1, ParseProcDeclaration n c = .ok c1 → c1.scope = c.scope ∧
      ((∀ i, ∀ s ∈ c.HashTable i, s.scope ≤ c.scope) → c1.HashTable = c.HashTable)) ∧
    (∀ c c1, nestedProcedures n c = .ok c1 → c1.scope = c.scope ∧
      ((∀ i, ∀ s ∈ c.HashTable i, s.scope ≤ c.scope) → c1.HashTable = c.HashTable)) := by
  induction n with
  | zero =>
    constructor <;> intro c c1 h
    · simp [ParseProcDeclaration] at h
    · simp [nestedProcedures] at h
  | succ n ih =>
    obtain ⟨ihP, ihN⟩ := ih
    constructor <;> intro c c1 h
    · obtain ⟨k1, k2, k3, k4, k5, k6, k7, h1, h2, h3, h4, h5, h6, h7, rfl⟩ :=
        ParseProcDeclaration_steps h
      have d1 := optionalParameterList_declares h1
      have d2 : Declares k1 k2 :=
        (Declares.accept SEMICOLON k1).andThen (Declares.of_bindings (Synchronise_bindings h2))
      have d3 := optionalDeclarations_declares h3
      have d4 : Declares k3 k4 := Declares.of_bindings (Synchronise_bindings h4)
      have d14 := ((d1.andThen d2).andThen d3).andThen d4
      have e5 := ihN _ _ h5
      have b6 := Synchronise_bindings h6
      have b7 := ParseBlock_bindings h7
      have s6 : k6.scope = k5.scope := congrArg Prod.fst b6
      have t6 : k6.HashTable = k5.HashTable := congrArg Prod.snd b6
      have s7 : k7.scope = k6.scope := congrArg Prod.fst b7
      have t7 : k7.HashTable = k6.HashTable := congrArg Prod.snd b7
      have s4 : k4.scope = c.scope + 1 := d14.1
      have hsc : k7.scope = c.scope + 1 := by rw [s7, s6, e5.1, s4]
      refine ⟨by show k7.scope - 1 = c.scope; omega, fun hb => ?_⟩
      have hg : Grown (c.scope + 1) c.HashTable k4.HashTable := d14.2
      have hb4 : ∀ i, ∀ s ∈ k4.HashTable i, s.scope ≤ k4.scope := by
        intro i s hmem
        obtain ⟨news, e, hs, _⟩ := hg i
        rw [e] at hmem
        rw [s4]
        rcases List.mem_append.mp hmem with h | h
        · rw [hs s h]
        · have := hb i s h
          omega
      have t5 := e5.2 hb4
      have ta : (Accept SEMICOLON k7).HashTable = k4.HashTable := by
        have := congrArg Prod.snd (Accept_bindings SEMICOLON k7)
        rw [show (Accept SEMICOLON k7).HashTable = k7.HashTable from this, t7, t6, t5]
      show RemoveSymbols k7.scope (Accept SEMICOLON k7).HashTable = c.HashTable
      rw [ta, hsc]
      exact RemoveSymbols_grown c.scope _ _ hg hb
    · simp only [nestedProcedures] at h
      split at h
      · obtain ⟨c2, h1, h2⟩ := bind_eq_ok h
        have e1 := ihP _ _ h1
        have e2 := ihN _ _ h2
        refine ⟨by rw [e2.1, e1.1], fun hb => ?_⟩
        have t1 := e1.2 hb
        rw [e2.2 (by rw [t1, e1.1]; exact hb), t1]
      · cases h
        exact ⟨rfl, fun _ => rfl⟩

theorem programProcedures_scope (n k : Nat) : ∀ (c c1 : Compiler),
    programProcedures n k c = .ok c1 → c1.scope = c.scope := by
  induction k with
  | zero =>
    intro c c1 h
    simp [programProcedures] at h
  | succ k ih =>
    intro c c1 h
    simp only [programProcedures] at h
    split at h
    · obtain ⟨c2, h1, h⟩ := bind_eq_ok h
      obtain ⟨c3, h2, h3⟩ := bind_eq_ok h
      rw [ih _ _ h3, show c3.scope = c2.scope from congrArg Prod.fst (Synchronise_bindings h2),
        ((procedure_scope n).1 _ _ h1).1]
    · cases h
      rfl

/-- `ParseProgram` returns at the scope depth at which it was entered. -/
theorem ParseProgram_scope {n : Nat} {c c1 : Compiler} (h : ParseProgram n c = .ok c1) :
    c1.scope = c.scope := by
  unfold ParseProgram at h
  obtain ⟨k1, h1, h⟩ := bind_eq_ok h
  obtain ⟨k2, h2, h⟩ := bind_eq_ok h
  obtain ⟨k3, h3, h⟩ := bind_eq_ok h
  obtain ⟨k4, h4, h⟩ := bind_eq_ok h
  obtain ⟨k5, h5, h⟩ := bind_eq_ok h
  obtain ⟨k6, h6, h⟩ := bind_eq_ok h
  cases h
  have a0 : (Accept SEMICOLON (Accept IDENTIFIER (Accept PROGRAM c))).scope = c.scope := by
    have : (Accept SEMICOLON (Accept IDENTIFIER (Accept PROGRAM c))).bindings = c.bindings := by
      simp
    exact congrArg Prod.fst this
  have a1 := (Declares.entry h1).1
  have a2 : k2.scope = k1.scope := congrArg Prod.fst (Synchronise_bindings h2)
  have a3 := (optionalDeclarations_declares h3).1
  have a4 : k4.scope = k3.scope := congrArg Prod.fst (Synchronise_bindings h4)
  have a5 := programProcedures_scope n n _ _ h5
  have a6 : k6.scope = k5.scope := congrArg Prod.fst (ParseBlock_bindings h6)
  have a7 : (Accept ENDOFPROGRAM k6).scope = k6.scope :=
    congrArg Prod.fst (Accept_bindings ENDOFPROGRAM k6)
  rw [a7, a6, a5, a4, a3, a2, a1, a0]

/-- C30: a returning `ParseProcDeclaration` entered at scope depth `d` returns
at depth `d`; its parameter list, its declarations, its nested procedures and
its block are all entered and left at depth `d + 1`; when no symbol of the
table on entry lies above `d`, as in every state the declarations of a compile
lead to, the table on return is the table on entry, so that no symbol of a
deeper scope remains and every symbol present on entry is still there,
unchanged.  A compile starts at depth 1 and `main` finds depth 1 after
`ParseProgram`. -/
theorem ParseProcDeclaration_scope (n : Nat) (c c8 : Compiler)
    (h : ParseProcDeclaration (n + 1) c = .ok c8) :
    c8.scope = c.scope ∧
    ((∀ i, ∀ s ∈ c.HashTable i, s.scope ≤ c.scope) → c8.HashTable = c.HashTable) ∧
    (∃ c1 c2 c3 c4 c5 c6 c7,
      optionalParameterList n { c with scope := c.scope + 1 } = .ok c1 ∧
      Synchronise c1.sets.ProgProcDecSet1 c1.sets.FB_ProcDec (Accept SEMICOLON c1) = .ok c2 ∧
      optionalDeclarations n c2 = .ok c3 ∧
      Synchronise c3.sets.ProgProcDecSet2 c3.sets.FB_ProcDec c3 = .ok c4 ∧
      nestedProcedures n c4 = .ok c5 ∧
      Synchronise c5.sets.ProgProcDecSet2 c5.sets.FB_ProcDec c5 = .ok c6 ∧
      ParseBlock n c6 = .ok c7 ∧
      c1.scope = c.scope + 1 ∧ c2.scope = c.scope + 1 ∧ c3.scope = c.scope + 1 ∧
      c4.scope = c.scope + 1 ∧ c5.scope = c.scope + 1 ∧ c6.scope = c.scope + 1 ∧
      c7.scope = c.scope + 1) ∧
    ∀ fuel source indeterminate r, main fuel source indeterminate = .ok r →
      r.state.scope = 1 := by
  have hp := (procedure_scope (n + 1)).1 c c8 h
  refine ⟨hp.1, hp.2, ?_, ?_⟩
  · obtain ⟨k1, k2, k3, k4, k5, k6, k7, h1, h2, h3, h4, h5, h6, h7, _⟩ :=
      ParseProcDeclaration_steps h
    have s1 : k1.scope = c.scope + 1 := (optionalParameterList_declares h1).1
    have s2 : k2.scope = k1.scope :=
      ((Declares.accept SEMICOLON k1).andThen (Declares.of_bindings (Synchronise_bindings h2))).1
    have s3 := (optionalDeclarations_declares h3).1
    have s4 : k4.scope = k3.scope := congrArg Prod.fst (Synchronise_bindings h4)
    have s5 := ((procedure_scope n).2 _ _ h5).1
    have s6 : k6.scope = k5.scope := congrArg Prod.fst (Synchronise_bindings h6)
    have s7 : k7.scope = k6.scope := congrArg Prod.fst (ParseBlock_bindings h7)
    exact ⟨k1, k2, k3, k4, k5, k6, k7, h1, h2, h3, h4, h5, h6, h7, s1, by omega, by omega,
      by omega, by omega, by omega, by omega⟩
  · intro fuel source indeterminate r hr
    unfold main at hr
    obtain ⟨c0, h0, hr⟩ := bind_eq_ok hr
    obtain ⟨c1, h1, hr⟩ := bind_eq_ok hr
    split at hr
    · cases hr
    · cases hr
      show c1.scope = 1
      rw [ParseProgram_scope h1]
      unfold Compiler.start at h0
      obtain ⟨sets, _, h0⟩ := bind_eq_ok h0
      cases h0
      rfl

/-- Witness for C30: the rest of a procedure declaration, `; BEGIN END ;`, is
parsed at depth 2 and left at depth 1 with the table as it was. -/
theorem ParseProcDeclaration_scope_witness :
    (returned (ParseProcDeclaration 10 sampleProcedure) sampleProcedure).scope = 1 ∧
    (returned (ParseProcDeclaration 10 sampleProcedure) sampleProcedure).HashTable
      = sampleProcedure.HashTable := by
  have h := ParseProcDeclaration_scope 9 sampleProcedure
    (returned (ParseProcDeclaration 10 sampleProcedure) sampleProcedure)
    (ok_of_isOk _ _ (by decide!))
  exact ⟨h.1, h.2.1 (fun i s hs => by simp [sampleProcedure, Compiler.initial, emptyTable] at hs)⟩

/-! ### The pure parser -/

/-- C24: `parser1` rejects a program of the grammar whose block holds a WHILE
statement: on `PROGRAM p; BEGIN WHILE x < 1 DO BEGIN END; END.` the loop of
`ParseBlock` is not entered, `Accept(END)` finds `WHILE`, reports the syntax
error and the program exits with `EXIT_FAILURE`. -/
theorem parser1_rejects_while_block :
    (Parser1.parseText 100 "PROGRAM p; BEGIN WHILE x < 1 DO BEGIN END; END.").map
        (fun r => (r.1, r.2.map fun e => (e.1, e.2.code)))
      = some (EXIT_FAILURE, some (END, WHILE)) := by
  decide!

/-- The same happens for blocks that start with IF, READ or WRITE, while a
block of assignments and calls is accepted. -/
theorem parser1_block_statements :
    ((Parser1.parseText 100 "PROGRAM p; BEGIN IF x = 1 THEN BEGIN END; END.").map
        (fun r => (r.1, r.2.map fun e => (e.1, e.2.code)))
      = some (EXIT_FAILURE, some (END, IF))) ∧
    ((Parser1.parseText 100 "PROGRAM p; BEGIN READ(x); END.").map
        (fun r => (r.1, r.2.map fun e => (e.1, e.2.code)))
      = some (EXIT_FAILURE, some (END, READ))) ∧
    ((Parser1.parseText 100 "PROGRAM p; BEGIN WRITE(x); END.").map
        (fun r => (r.1, r.2.map fun e => (e.1, e.2.code)))
      = some (EXIT_FAILURE, some (END, WRITE))) ∧
    ((Parser1.parseText 100 "PROGRAM p; VAR x; BEGIN x := 1 + 2; f(x, 3); END.").map
        (fun r => (r.1, r.2.map fun e => (e.1, e.2.code)))
      = some (EXIT_SUCCESS, none)) := by
  decide!

/-! ### The scanner's strings and the cursor of the string table -/

theorem runStrOps_append : ∀ (a b : List StrOp) (t : StrTab),
    runStrOps (a ++ b) t = runStrOps a t >>= runStrOps b := by
  intro a
  induction a with
  | nil => intro b t; rfl
  | cons op a ih =>
    intro b t
    simp only [List.cons_append, runStrOps]
    cases h : op.run t with
    | error e => rfl
    | ok t1 =>
      simp only [ok_bind]
      exact ih b t1

theorem Scanner.ReadChar_strings {sc : Scanner} {r : Int × Scanner}
    (h : sc.ReadChar = .ok r) : r.2.strings = sc.strings := by
  unfold Scanner.ReadChar at h
  cases hr : CPL.ReadChar sc.chars with
  | error e => simp [hr, Except.map] at h
  | ok a =>
    simp only [hr, Except.map, Except.ok.injEq] at h
    rw [← h]

theorem Scanner.UnReadChar_strings {sc sc1 : Scanner}
    (h : sc.UnReadChar = .ok sc1) : sc1.strings = sc.strings := by
  unfold Scanner.UnReadChar at h
  cases hr : CPL.UnReadChar sc.chars with
  | error e => simp [hr, Except.map] at h
  | ok a =>
    simp only [hr, Except.map, Except.ok.injEq] at h
    rw [← h]

theorem Scanner.AddChar_strings {ch : Int} {sc sc1 : Scanner}
    (h : sc.AddChar ch = .ok sc1) : CPL.AddChar ch sc.strings = .ok sc1.strings := by
  unfold Scanner.AddChar at h
  cases hr : CPL.AddChar ch sc.strings with
  | error e => simp [hr, Except.map] at h
  | ok a =>
    simp only [hr, Except.map, Except.ok.injEq] at h
    rw [← h]

/-- What the automaton of `GetToken` does to the string table is a sequence of
`NewString` and `AddChar` calls. -/
theorem scanLoop_strings : ∀ (n : Nat) (state : Int) (tok : ScanToken) (sc : Scanner)
    (r : ScanToken × Scanner), scanLoop n state tok sc = .ok r →
    ∃ ops, runStrOps ops sc.strings = .ok r.2.strings := by
  intro n
  induction n with
  | zero =>
    intro state tok sc r h
    simp [scanLoop] at h
  | succ n ih =>
    intro state tok sc r h
    have hread : ∀ (f : Int × Scanner → Except Fatal (ScanToken × Scanner)),
        (∀ r1, (∃ st tk, f r1 = scanLoop n st tk r1.2) ∨
          (∃ st tk sc1, r1.2.AddChar r1.1 = .ok sc1 ∧ f r1 = scanLoop n st tk sc1) ∨
          (∃ e, r1.2.AddChar r1.1 = .error e ∧ f r1 = .error e)) →
        (sc.ReadChar >>= f) = .ok r → ∃ ops, runStrOps ops sc.strings = .ok r.2.strings := by
      intro f hf hrun
      obtain ⟨r1, h1, h2⟩ := bind_eq_ok hrun
      have hs := Scanner.ReadChar_strings h1
      rcases hf r1 with ⟨st, tk, e⟩ | ⟨st, tk, sc1, ha, e⟩ | ⟨e1, _, e⟩
      · rw [e] at h2
        obtain ⟨ops, ho⟩ := ih st tk r1.2 r h2
        exact ⟨ops, by rw [← hs]; exact ho⟩
      · rw [e] at h2
        obtain ⟨ops, ho⟩ := ih st tk sc1 r h2
        refine ⟨StrOp.addChar r1.1 :: ops, ?_⟩
        show (AddChar r1.1 sc.strings >>= runStrOps ops) = _
        rw [← hs, Scanner.AddChar_strings ha]
        exact ho
      · rw [e] at h2
        cases h2
    have hunread : ∀ (tk : ScanToken),
        (sc.UnReadChar >>= fun sc1 => Except.ok (tk, sc1)) = .ok r →
        ∃ ops, runStrOps ops sc.strings = .ok r.2.strings := by
      intro tk hrun
      obtain ⟨sc1, h1, h2⟩ := bind_eq_ok hrun
      cases h2
      exact ⟨[], by rw [Scanner.UnReadChar_strings h1]; rfl⟩
    have hdone : ∀ (tk : ScanToken), (Except.ok (tk, sc) : Except Fatal _) = .ok r →
        ∃ ops, runStrOps ops sc.strings = .ok r.2.strings := by
      intro tk hrun
      cases hrun
      exact ⟨[], rfl⟩
    have hplain : ∀ (g : Int × Scanner → Int) (tk : Int × Scanner → ScanToken),
        (sc.ReadChar >>= fun r1 => scanLoop n (g r1) (tk r1) r1.2) = .ok r →
        ∃ ops, runStrOps ops sc.strings = .ok r.2.strings :=
      fun g tk hrun => hread _ (fun r1 => Or.inl ⟨g r1, tk r1, rfl⟩) hrun
    rw [scanLoop] at h
    by_cases h0 : state = 0
    · rw [if_pos h0] at h
      obtain ⟨t, h1, h2⟩ := bind_eq_ok h
      obtain ⟨ops, ho⟩ := ih _ _ _ r h2
      exact ⟨StrOp.newString :: ops, by
        show (NewString sc.strings >>= runStrOps ops) = _
        rw [h1]
        exact ho⟩
    rw [if_neg h0] at h
    by_cases h1 : state = 1
    · rw [if_pos h1] at h
      refine hread _ (fun r1 => ?_) h
      by_cases h23 : startState r1.1 = 23
      · exact Or.inl ⟨_, _, by rw [if_pos h23]⟩
      · by_cases h25 : startState r1.1 = 25
        · cases ha : r1.2.AddChar r1.1 with
          | error e => exact Or.inr (Or.inr ⟨e, rfl, by rw [if_neg h23, if_pos h25]; rfl⟩)
          | ok sc1 =>
            exact Or.inr (Or.inl ⟨_, _, sc1, rfl, by rw [if_neg h23, if_pos h25]; rfl⟩)
        · exact Or.inl ⟨_, _, by rw [if_neg h23, if_neg h25]⟩
    rw [if_neg h1] at h
    by_cases h2 : state = 2
    · rw [if_pos h2] at h
      refine hread _ (fun r1 => ?_) h
      by_cases hc : r1.1 = 10 ∨ r1.1 = EOF
      · exact Or.inl ⟨_, _, by rw [if_pos hc]⟩
      · exact Or.inl ⟨_, _, by rw [if_neg hc]⟩
    rw [if_neg h2] at h
    by_cases h3 : state = 3
    · rw [if_pos h3] at h
      exact hdone _ h
    rw [if_neg h3] at h
    by_cases h4 : state = 4
    · rw [if_pos h4] at h
      exact hdone _ h
    rw [if_neg h4] at h
    by_cases h5 : state = 5
    · rw [if_pos h5] at h
      exact hdone _ h
    rw [if_neg h5] at h
    by_cases h6 : state = 6
    · rw [if_pos h6] at h
      exact hdone _ h
    rw [if_neg h6] at h
    by_cases h7 : state = 7
    · rw [if_pos h7] at h
      exact hdone _ h
    rw [if_neg h7] at h
    by_cases h8 : state = 8
    · rw [if_pos h8] at h
      refine hread _ (fun r1 => ?_) h
      by_cases hc : r1.1 = 61
      · exact Or.inl ⟨_, _, by rw [if_pos hc]⟩
      · exact Or.inl ⟨_, _, by rw [if_neg hc]⟩
    rw [if_neg h8] at h
    by_cases h9 : state = 9
    · rw [if_pos h9] at h
      exact hdone _ h
    rw [if_neg h9] at h
    by_cases h10 : state = 10
    · rw [if_pos h10] at h
      exact hunread _ h
    rw [if_neg h10] at h
    by_cases h11 : state = 11
    · rw [if_pos h11] at h
      exact hdone _ h
    rw [if_neg h11] at h
    by_cases h12 : state = 12
    · rw [if_pos h12] at h
      exact hdone _ h
    rw [if_neg h12] at h
    by_cases h13 : state = 13
    · rw [if_pos h13] at h
      exact hdone _ h
    rw [if_neg h13] at h
    by_cases h14 : state = 14
    · rw [if_pos h14] at h
      exact hdone _ h
    rw [if_neg h14] at h
    by_cases h15 : state = 15
    · rw [if_pos h15] at h
      exact hdone _ h
    rw [if_neg h15] at h
    by_cases h16 : state = 16
    · rw [if_pos h16] at h
      refine hread _ (fun r1 => ?_) h
      by_cases hc : r1.1 = 61
      · exact Or.inl ⟨_, _, by rw [if_pos hc]⟩
      · exact Or.inl ⟨_, _, by rw [if_neg hc]⟩
    rw [if_neg h16] at h
    by_cases h17 : state = 17
    · rw [if_pos h17] at h
      exact hdone _ h
    rw [if_neg h17] at h
    by_cases h18 : state = 18
    · rw [if_pos h18] at h
      exact hunread _ h
    rw [if_neg h18] at h
    by_cases h19 : state = 19
    · rw [if_pos h19] at h
      refine hread _ (fun r1 => ?_) h
      by_cases hc : r1.1 = 61
      · exact Or.inl ⟨_, _, by rw [if_pos hc]⟩
      · exact Or.inl ⟨_, _, by rw [if_neg hc]⟩
    rw [if_neg h19] at h
    by_cases h20 : state = 20
    · rw [if_pos h20] at h
      exact hdone _ h
    rw [if_neg h20] at h
    by_cases h21 : state = 21
    · rw [if_pos h21] at h
      exact hunread _ h
    rw [if_neg h21] at h
    by_cases h22 : state = 22
    · rw [if_pos h22] at h
      exact hdone _ h
    rw [if_neg h22] at h
    by_cases h23 : state = 23
    · rw [if_pos h23] at h
      refine hread _ (fun r1 => ?_) h
      by_cases hc : isdigit r1.1 = true
      · exact Or.inl ⟨_, _, by rw [if_pos hc]⟩
      · exact Or.inl ⟨_, _, by rw [if_neg hc]⟩
    rw [if_neg h23] at h
    by_cases h24 : state = 24
    · rw [if_pos h24] at h
      exact hunread _ h
    rw [if_neg h24] at h
    by_cases h25 : state = 25
    · rw [if_pos h25] at h
      refine hread _ (fun r1 => ?_) h
      by_cases hc : isalnum r1.1 = true
      · cases ha : r1.2.AddChar r1.1 with
        | error e => exact Or.inr (Or.inr ⟨e, rfl, by rw [if_pos hc]; rfl⟩)
        | ok sc1 => exact Or.inr (Or.inl ⟨_, _, sc1, rfl, by rw [if_pos hc]; rfl⟩)
      · exact Or.inl ⟨_, _, by rw [if_neg hc]⟩
    rw [if_neg h25] at h
    by_cases h26 : state = 26
    · rw [if_pos h26] at h
      exact hunread _ h
    rw [if_neg h26] at h
    by_cases h27 : state = 27
    · rw [if_pos h27] at h
      exact hdone _ h
    rw [if_neg h27] at h
    cases h

theorem NewString_fresh (t : StrTab) (h : t.Fresh) : ∃ t1, NewString t = .ok t1 ∧ t1.WF := by
  obtain ⟨_, _, hs⟩ := h
  unfold NewString
  rw [if_pos (by omega)]
  refine ⟨_, rfl, ⟨t.chunks, 0⟩, ⟨t.chunks, 0⟩, rfl, rfl, rfl, ?_, le_refl _, le_refl _, ?_, ?_⟩
  · show t.chunks < t.chunks + 1
    omega
  · show (0 : Int) + CHUNKSIZE = CHUNKSIZE
    omega
  · show (0 : Int) ≤ CHUNKSIZE
    decide

/-- A returning sequence of string table calls keeps an allocated table well
formed and its committed bytes unchanged. -/
theorem runStrOps_keeps {ops : List StrOp} {t t1 : StrTab} (hwf : t.WF)
    (h : runStrOps ops t = .ok t1) : t1.WF ∧ t.Keeps t1 := by
  rcases runStrOps_result ops t hwf with ⟨he, _⟩ | ⟨t2, h2, hwf2, hk2⟩
  · rw [he] at h
    cases h
  · rw [h2] at h
    cases h
    exact ⟨hwf2, hk2⟩

/-- The byte `AddChar` stored lies just below the insertion point, at or above
the top of the table. -/
theorem AddChar_last (ch : Int) (t t1 : StrTab) (hwf : t.WF) (h : AddChar ch t = .ok t1) :
    ∃ top ip, t1.TopOfTable = some top ∧ t1.InsertionPoint = some ip ∧ top.chunk = ip.chunk ∧
      top.offset < ip.offset ∧ t1.mem top.chunk (ip.offset - 1).toNat = (ch % 128).toNat := by
  obtain ⟨top, ip, htop, hip, hch, hlt, h0, hle, hsp, hs0⟩ := hwf
  have hC : CHUNKSIZE = 1024 := rfl
  by_cases hs : 1 < t.SpaceLeftInChunk
  · rw [AddChar_roomy ch t ip.chunk ip.offset hip (by omega) (by omega) hs] at h
    cases h
    refine ⟨top, ⟨ip.chunk, ip.offset + 1⟩, htop, rfl, hch, ?_, ?_⟩
    · show top.offset < ip.offset + 1
      omega
    · show (if top.chunk = ip.chunk ∧ (ip.offset + 1 - 1).toNat = ip.offset.toNat
        then (ch % 128).toNat else _) = _
      rw [if_pos ⟨hch, by simp⟩]
  · obtain ⟨t2, ht2, hc2, htop2, hip2, hsp2, hm2⟩ := copyLoop_spec
      (ip.offset - top.offset).toNat top ⟨t.chunks, 0⟩
      { mem := t.mem, chunks := t.chunks + 1, TopOfTable := some top, InsertionPoint := some ip,
        SpaceLeftInChunk := CHUNKSIZE } (le_refl _)
      (by show (0 : Int) + ((ip.offset - top.offset).toNat : Int) ≤ CHUNKSIZE; omega)
    have hstep : AddChar ch t =
        (({ t2 with
            TopOfTable := some ⟨t.chunks, 0⟩
            InsertionPoint := some ⟨t.chunks, ip.offset - top.offset⟩ } : StrTab).poke
          ⟨t.chunks, ip.offset - top.offset⟩ (ch % 128).toNat) >>= fun t3 =>
          .ok { t3 with
            InsertionPoint := some ⟨t.chunks, ip.offset - top.offset + 1⟩
            SpaceLeftInChunk := t3.SpaceLeftInChunk - 1 } := by
      unfold AddChar
      rw [if_pos (by omega)]
      simp only [htop, hip]
      rw [if_pos ⟨hch, hle⟩, ht2]
      rfl
    rw [hstep] at h
    unfold StrTab.poke at h
    by_cases hfull : ip.offset - top.offset < CHUNKSIZE
    · rw [if_pos ⟨by show 0 ≤ ip.offset - top.offset; omega, hfull⟩] at h
      cases h
      refine ⟨⟨t.chunks, 0⟩, ⟨t.chunks, ip.offset - top.offset + 1⟩, rfl, rfl, rfl, ?_, ?_⟩
      · show (0 : Int) < ip.offset - top.offset + 1
        omega
      · show (if t.chunks = t.chunks ∧
            (ip.offset - top.offset + 1 - 1).toNat = (ip.offset - top.offset).toNat
          then (ch % 128).toNat else _) = _
        rw [if_pos ⟨rfl, by simp⟩]
    · rw [if_neg (fun hh => hfull hh.2)] at h
      cases h

/-- What `GetToken` does to the string table is a sequence of `NewString` and
`AddChar` calls. -/
theorem GetToken_strings {fuel : Nat} {sc : Scanner} {r : ScanToken × Scanner}
    (h : GetToken fuel sc = .ok r) : ∃ ops, runStrOps ops sc.strings = .ok r.2.strings := by
  unfold GetToken at h
  obtain ⟨r0, h0, h⟩ := bind_eq_ok h
  obtain ⟨ops, ho⟩ := scanLoop_strings fuel 0 _ sc r0 h0
  split at h
  · obtain ⟨sc1, h1, h⟩ := bind_eq_ok h
    obtain ⟨code, _, h⟩ := bind_eq_ok h
    cases h
    refine ⟨ops ++ [StrOp.addChar 0], ?_⟩
    rw [runStrOps_append, ho]
    show (AddChar 0 r0.2.strings >>= fun t => Except.ok t) = _
    rw [Scanner.AddChar_strings h1]
    rfl
  · cases h
    exact ⟨ops, ho⟩

theorem runScanCalls_strings (fuel : Nat) : ∀ (calls : List ScanCall) (sc sc1 : Scanner),
    runScanCalls fuel calls sc = .ok sc1 → ∃ ops, runStrOps ops sc.strings = .ok sc1.strings := by
  intro calls
  induction calls with
  | nil =>
    intro sc sc1 h
    cases h
    exact ⟨[], rfl⟩
  | cons call calls ih =>
    intro sc sc1 h
    cases call with
    | getToken =>
      simp only [runScanCalls] at h
      obtain ⟨r, h1, h2⟩ := bind_eq_ok h
      obtain ⟨ops1, ho1⟩ := GetToken_strings h1
      obtain ⟨ops2, ho2⟩ := ih _ _ h2
      exact ⟨ops1 ++ ops2, by rw [runStrOps_append, ho1]; exact ho2⟩
    | preserveString =>
      simp only [runScanCalls] at h
      obtain ⟨ops2, ho2⟩ := ih _ _ h
      exact ⟨StrOp.preserveString :: ops2, ho2⟩

/-- A string whose terminator lies below the insertion point reads the same
in every table that keeps the bytes committed by `PreserveString`. -/
theorem kept_string (t t1 : StrTab) (h ip : StrPtr) (k : Nat) (hwf : t.WF)
    (hh : t.TopOfTable = some h) (hip : t.InsertionPoint = some ip)
    (hend : h.offset + k < ip.offset) (hnul : t.mem h.chunk (h.offset + k).toNat = 0)
    (hk : (PreserveString t).Keeps t1) : ∀ n, t1.stringAt h n = t.stringAt h n := by
  obtain ⟨top, ip1, htop, hip1, hch, hlt, h0, hle, hsp, hs0⟩ := hwf
  have e1 : top = h := by
    rw [htop] at hh
    exact Option.some.inj hh
  have e2 : ip1 = ip := by
    rw [hip1] at hip
    exact Option.some.inj hip
  subst e1 e2
  intro n
  refine stringAt_congr _ _ top.chunk n top.offset k h0 hnul (fun j hj => (hk _ _ ⟨hlt, ?_⟩).2)
  intro top1 h1 _
  have : top1 = ip1 := by
    have h2 : t.InsertionPoint = some top1 := h1
    rw [hip1] at h2
    exact (Option.some.inj h2).symm
  rw [this]
  omega

/-- C33, counterexample: in `ab cd` the handle of the first identifier reads
`ab` when the token is returned and `cd` once the second identifier has been
scanned. -/
theorem identifier_spelling_overwritten :
    sampleOverwrite.toOption = some (IDENTIFIER, [97, 98], [99, 100]) := by
  decide!

/-- C33, amended: when `GetToken` returns an `IDENTIFIER` token, the token's
handle is what `GetString` returns, the top of the table: the spelling and its
terminator lie between the top of the table and the insertion point, under
construction and not committed.  While the chunk has space left, `NewString`
puts the insertion point back on the handle, and the character the next
`AddChar` adds is stored at the handle.  Once the caller has called
`PreserveString`, the string read at the handle is unchanged by every later
sequence of `GetToken` and `PreserveString` calls that returns. -/
theorem GetToken_identifier_uncommitted (fuel : Nat) (sc : Scanner) (r : ScanToken × Scanner)
    (hstart : sc.strings.WF ∨ sc.strings.Fresh)
    (h : GetToken fuel sc = .ok r) (hid : r.1.code = IDENTIFIER) :
    ∃ ptr ip, r.1.s = some ptr ∧ GetString r.2.strings = some ptr ∧
      r.2.strings.InsertionPoint = some ip ∧ ptr.chunk = ip.chunk ∧ ptr.offset < ip.offset ∧
      r.2.strings.mem ptr.chunk (ip.offset - 1).toNat = 0 ∧
      (0 < r.2.strings.SpaceLeftInChunk →
        ∃ t1, NewString r.2.strings = .ok t1 ∧ t1.TopOfTable = some ptr ∧
          t1.InsertionPoint = some ptr ∧
          ∀ ch : Int, ∃ t2, AddChar ch t1 = .ok t2 ∧ t2.TopOfTable = some ptr ∧
            t2.mem ptr.chunk ptr.offset.toNat = (ch % 128).toNat) ∧
      ∀ (calls : List ScanCall) (sc1 : Scanner),
        runScanCalls fuel calls { r.2 with strings := PreserveString r.2.strings } = .ok sc1 →
        ∀ n, sc1.strings.stringAt ptr n = r.2.strings.stringAt ptr n := by
  unfold GetToken at h
  obtain ⟨r0, h0, h⟩ := bind_eq_ok h
  split at h
  swap
  · rename_i hne
    cases h
    exact absurd hid hne
  obtain ⟨sc1, h1, h⟩ := bind_eq_ok h
  obtain ⟨code, _, h⟩ := bind_eq_ok h
  cases h
  have hcode : code = IDENTIFIER := hid
  -- the table after the state machine is well formed
  have hwf0 : r0.2.strings.WF := by
    cases fuel with
    | zero => simp [scanLoop] at h0
    | succ n =>
      rw [scanLoop, if_pos rfl] at h0
      obtain ⟨t, hn, h2⟩ := bind_eq_ok h0
      have hwt : t.WF := by
        rcases hstart with hw | hf
        · obtain ⟨t1, e1, hw1, _⟩ := NewString_result sc.strings hw
          rw [e1] at hn
          cases hn
          exact hw1
        · obtain ⟨t1, e1, hw1⟩ := NewString_fresh sc.strings hf
          rw [e1] at hn
          cases hn
          exact hw1
      obtain ⟨ops, ho⟩ := scanLoop_strings n 1 _ _ r0 h2
      exact (runStrOps_keeps hwt ho).1
  have hadd := Scanner.AddChar_strings h1
  have hwf1 : sc1.strings.WF := by
    rcases AddChar_result 0 r0.2.strings hwf0 with ⟨he, _⟩ | ⟨t1, e1, hw1, _⟩
    · rw [he] at hadd
      cases hadd
    · rw [e1] at hadd
      cases hadd
      exact hw1
  obtain ⟨top, ip, htop, hip, hch, hlt, hmem⟩ := AddChar_last 0 _ _ hwf0 hadd
  refine ⟨top, ip, ?_, htop, hip, hch, hlt, hmem, ?_, ?_⟩
  · show (if code ≠ IDENTIFIER then none else GetString sc1.strings) = some top
    rw [if_neg (by simpa using hcode)]
    exact htop
  · intro hspace
    have hspace1 : 0 < sc1.strings.SpaceLeftInChunk := hspace
    have htop1 : sc1.strings.TopOfTable = some top := htop
    obtain ⟨top1, ip1, e1, e2, _, _, w0, _, wsp, _⟩ := hwf1
    rw [htop1] at e1
    rw [hip] at e2
    cases e1
    cases e2
    have hM : CHUNKSIZE = 1024 := rfl
    refine ⟨{ mem := sc1.strings.mem
              chunks := sc1.strings.chunks
              TopOfTable := some top
              InsertionPoint := some top
              SpaceLeftInChunk := sc1.strings.SpaceLeftInChunk + (ip.offset - top.offset) },
      ?_, rfl, rfl, ?_⟩
    · show NewString sc1.strings = .ok _
      unfold NewString
      rw [if_neg (by omega), htop1, hip]
    · intro ch
      unfold AddChar
      rw [if_neg (by
        show ¬ sc1.strings.SpaceLeftInChunk + (ip.offset - top.offset) ≤ 1
        omega)]
      simp only [ok_bind]
      unfold StrTab.poke
      rw [if_pos (by omega)]
      simp only [ok_bind]
      exact ⟨_, rfl, rfl, by simp⟩
  · intro calls sc2 hrun n
    obtain ⟨ops, ho⟩ := runScanCalls_strings fuel calls _ sc2 hrun
    have hp := PreserveString_result sc1.strings hwf1
    have hk := (runStrOps_keeps hp.1 ho).2
    obtain ⟨k, hk1⟩ : ∃ k : Nat, top.offset + (k : Int) = ip.offset - 1 :=
      ⟨(ip.offset - 1 - top.offset).toNat, by omega⟩
    exact kept_string sc1.strings sc2.strings top ip k hwf1 htop hip (by omega)
      (by rw [hk1]; exact hmem) hk n

/-- Witness for C33 (amended): the first token of `ab cd`. -/
theorem GetToken_identifier_uncommitted_witness :
    ∃ ptr, (returned (GetToken 50 (Scanner.initial (sourceOf "ab cd")))
        (⟨ERROR, 0, 0, none⟩, Scanner.initial [])).1.s = some ptr := by
  obtain ⟨ptr, ip, h, _⟩ := GetToken_identifier_uncommitted 50
    (Scanner.initial (sourceOf "ab cd"))
    (returned (GetToken 50 (Scanner.initial (sourceOf "ab cd")))
      (⟨ERROR, 0, 0, none⟩, Scanner.initial []))
    (Or.inr ⟨rfl, rfl, rfl⟩) (ok_of_isOk _ _ (by decide!)) (by decide!)
  exact ⟨ptr, h⟩

theorem fits_take : ∀ (ops : List StrOp) (p : Int) (k : Nat), fits p ops = true →
    fits p (ops.take k) = true := by
  intro ops
  induction ops with
  | nil => intro p k h; simp [fits]
  | cons op ops ih =>
    intro p k h
    cases k with
    | zero => rfl
    | succ k =>
      cases op with
      | newString => exact ih 0 k h
      | preserveString => exact ih 0 k h
      | addChar ch =>
        simp only [fits, Bool.and_eq_true] at h
        simp only [List.take_succ_cons, fits, Bool.and_eq_true]
        exact ⟨h.1, ih _ k h.2⟩

/-- C39: a sequence of calls that starts with `NewString` at program start and
in which no `AddChar` finds a whole chunk of bytes under construction (as when
no string is longer than 1023 bytes with its terminator): every call returns,
and after each call `SpaceLeftInChunk` is between 0 and 1024, both pointers
lie in one allocated chunk, and the insertion point is `1024 -
SpaceLeftInChunk` bytes from the start of that chunk.  A store outside the
chunk would end the run of the model; so every byte `AddChar` stores lies
within the chunk. -/
theorem string_table_cursor (ops : List StrOp) (hfit : fits 0 ops = true) (k : Nat) :
    ∃ t top ip, runStrOps ((StrOp.newString :: ops).take (k + 1)) StrTab.initial = .ok t ∧
      0 ≤ t.SpaceLeftInChunk ∧ t.SpaceLeftInChunk ≤ CHUNKSIZE ∧
      t.TopOfTable = some top ∧ t.InsertionPoint = some ip ∧ top.chunk = ip.chunk ∧
      ip.chunk < t.chunks ∧ 0 ≤ top.offset ∧ top.offset ≤ ip.offset ∧
      ip.offset = CHUNKSIZE - t.SpaceLeftInChunk := by
  have h0 : (NewString StrTab.initial >>= runStrOps (ops.take k))
      = runStrOps ((StrOp.newString :: ops).take (k + 1)) StrTab.initial := rfl
  obtain ⟨t1, e1, hw1⟩ := NewString_fresh StrTab.initial ⟨rfl, rfl, rfl⟩
  have hp1 : t1.pending = 0 := by
    rw [NewString_initial] at e1
    cases e1
    rfl
  rcases runStrOps_result (ops.take k) t1 hw1 with ⟨_, hf⟩ | ⟨t2, h2, hw2, _⟩
  · rw [hp1, fits_take ops 0 k hfit] at hf
    cases hf
  · obtain ⟨top, ip, htop, hip, hch, hlt, ht0, hle, hsp, hs0⟩ := hw2
    refine ⟨t2, top, ip, ?_, hs0, ?_, htop, hip, hch, by rw [← hch]; exact hlt, ht0, hle, ?_⟩
    · rw [← h0, e1]
      exact h2
    · omega
    · omega

/-- Witness for C39: the sample calls, after each of which the cursor is
inside the chunk. -/
theorem string_table_cursor_witness :
    ∃ t, runStrOps (StrOp.newString :: sampleStringCalls) StrTab.initial = .ok t ∧
      0 ≤ t.SpaceLeftInChunk ∧ t.SpaceLeftInChunk ≤ CHUNKSIZE := by
  obtain ⟨t, _, _, h, h1, h2, _⟩ := string_table_cursor sampleStringCalls (by decide) 6
  exact ⟨t, h, h1, h2⟩

/-! ### The program name and the kinds of declared symbols -/

/-- C31: after the compile of `PROGRAM p; BEGIN END.` the symbol table is
empty and `Probe` does not find `p`: `MakeSymbolTableEntry(STYPE_PROGRAM)` is
called when the lookahead is `BEGIN`. -/
theorem program_name_not_entered :
    ((compileText 100 "PROGRAM p; BEGIN END." 0).toOption.map
        (fun r => symbolsBelow r.state.HashTable HASHSIZE) = some []) ∧
    ((compileText 100 "PROGRAM p; BEGIN END." 0).toOption.map
        (fun r => ((Probe r.state.HashTable [112]).1, r.state.errors)) = some (none, [])) := by
  decide!

/-- With an identifier after the header, that identifier is entered as the
program's symbol: in `PROGRAM p; q := 1` the table gets `q`, not `p`. -/
theorem program_symbol_is_next_identifier :
    (MakeSymbolTableEntry STYPE_PROGRAM (Accept SEMICOLON (Accept IDENTIFIER (Accept PROGRAM
        (Compiler.initial builtSets
          [tk PROGRAM, idTok [112], tk SEMICOLON, idTok [113], tk ASSIGNMENT] 0))))).toOption.map
        (fun c => symbolsBelow c.HashTable HASHSIZE)
      = some [([113], 1, STYPE_PROGRAM)] := by
  decide!

/-- C32: a `VAR` identifier inside a procedure, a parameter with `REF` and a
parameter without `REF` are all entered with the type `STYPE_VARIABLE`. -/
theorem declared_kinds_are_variable :
    ((ParseDeclarations 10 sampleLocalDeclaration).toOption.map
        (fun r => symbolsBelow r.2.HashTable HASHSIZE) = some [([121], 2, STYPE_VARIABLE)]) ∧
    ((ParseFormalParameter sampleRefParameter).toOption.map
        (fun c => symbolsBelow c.HashTable HASHSIZE) = some [([97], 2, STYPE_VARIABLE)]) ∧
    ((ParseFormalParameter sampleValueParameter).toOption.map
        (fun c => symbolsBelow c.HashTable HASHSIZE) = some [([98], 2, STYPE_VARIABLE)]) := by
  decide!

/-! ### Numbers and tabs in the scanner's input -/

/-- C35: a run of 256 digits, `0` 255 times and then `7`, followed by a tab
and `x`.  The first token is `INTCONST` 7; the tab is read at column 256,
where no space is stored, so the push-back steps onto the digit `7` and the
next token is scanned from that digit, not from the tab: it is `INTCONST` 7
again, and `x` follows. -/
theorem number_before_tab_at_full_line :
    (tokens 300 5 (Scanner.initial (List.replicate 255 48 ++ [55, 9, 120]))).toOption.map
        (fun ts => ts.map fun t => (t.code, t.value))
      = some [(INTCONST, 7), (INTCONST, 7), (IDENTIFIER, 0), (ENDOFINPUT, 0)] := by
  decide!

/-- Elsewhere on a line the character after a number is scanned next: `12`
followed by a tab and `x`, and `007;`. -/
theorem number_then_terminator :
    ((tokens 100 5 (Scanner.initial (sourceOf "12\tx"))).toOption.map
        (fun ts => ts.map fun t => (t.code, t.value))
      = some [(INTCONST, 12), (IDENTIFIER, 0), (ENDOFINPUT, 0)]) ∧
    ((tokens 100 5 (Scanner.initial (sourceOf "007;"))).toOption.map
        (fun ts => ts.map fun t => (t.code, t.value))
      = some [(INTCONST, 7), (SEMICOLON, 0), (ENDOFINPUT, 0)]) ∧
    ((tokens 100 5 (Scanner.initial (sourceOf "2147483647"))).toOption.map
        (fun ts => ts.map fun t => (t.code, t.value))
      = some [(INTCONST, 2147483647), (ENDOFINPUT, 0)]) := by
  decide!

/-- The first loop of the tab branch of `ReadChar` ends at the least multiple
of the tab width above `i`. -/
theorem tabLoop_least (T i : Int) (hT : 3 ≤ T ∧ T ≤ 8) :
    ∀ (k : Nat) (m : Int), 1 ≤ m → m ≤ i / T + 1 → (i / T + 1 - m).toNat < k →
    tabLoop T i k (T * m) = T * (i / T + 1) := by
  intro k
  induction k with
  | zero =>
    intro m _ _ hk
    omega
  | succ k ih =>
    intro m hm1 hm2 hk
    rw [tabLoop]
    have hdiv : T * m ≤ i ↔ m ≤ i / T := by
      rw [Int.le_ediv_iff_mul_le (by omega), Int.mul_comm]
    by_cases hle : T * m ≤ i
    · rw [if_pos hle]
      have hm3 := hdiv.1 hle
      rw [show T * m + T = T * (m + 1) by ring]
      exact ih (m + 1) (by omega) (by omega) (by omega)
    · rw [if_neg hle]
      have hm3 : ¬ m ≤ i / T := fun h => hle (hdiv.2 h)
      rw [show m = i / T + 1 by omega]

/-- The second loop of the tab branch of `ReadChar` runs up to `j` or to the
line width, whichever is less. -/
theorem fillLoop_reach (j : Int) : ∀ (k : Nat) (i : Int) (l : LINE), 0 ≤ i → i ≤ j →
    i ≤ M_LINE_WIDTH → (min j M_LINE_WIDTH - i).toNat ≤ k →
    ∃ l1, fillLoop j k i l = .ok (min j M_LINE_WIDTH, l1) := by
  have hM : M_LINE_WIDTH = 256 := rfl
  intro k
  induction k with
  | zero =>
    intro i l h0 hj hw hk
    have : min j M_LINE_WIDTH = i := by omega
    rw [this]
    exact ⟨l, rfl⟩
  | succ k ih =>
    intro i l h0 hj hw hk
    rw [fillLoop]
    by_cases hc : i < j ∧ i < M_LINE_WIDTH
    · rw [if_pos hc]
      obtain ⟨l1, hl1⟩ : ∃ l1, l.put i 32 = .ok l1 := by
        unfold LINE.put
        rw [if_pos ⟨h0, by omega⟩]
        exact ⟨_, rfl⟩
      rw [hl1]
      exact ih (i + 1) l1 (by omega) (by omega) (by omega) (by omega)
    · rw [if_neg hc]
      have : min j M_LINE_WIDTH = i := by omega
      rw [this]
      exact ⟨l, rfl⟩

/-- C36: with a tab width `T` in 3..8 (the default is 8, and `SetTabWidth`
accepts exactly the widths 3..8), when the next character of the file is a tab
and the column of the current line is `i`, `ReadChar` returns one space; the
line has spaces from column `i` up to the new column and is unchanged below
`i`; the new column is the least multiple of `T` above `i`, or 256 if that is
less; no character is pushed back, so the next call takes its character from
the file. -/
theorem ReadChar_expands_tab (p : CharProcessor) (r : List Int) (h : LineOK p)
    (hT : 3 ≤ p.TabWidth ∧ p.TabWidth ≤ 8) (hin : p.InputFile = 9 :: r) :
    (∃ l, ReadChar p = .ok (32, { p with InputFile := r, CurrentLine := some l }) ∧
      l.cpos = min (p.TabWidth * ((p.CurrentLine.getD NewLine).cpos / p.TabWidth + 1))
        M_LINE_WIDTH ∧
      l.valid = 1 ∧
      (∀ n : Nat, (p.CurrentLine.getD NewLine).cpos ≤ n → (n : Int) < l.cpos → l.s n = 32) ∧
      (∀ n : Nat, (n : Int) < (p.CurrentLine.getD NewLine).cpos →
        l.s n = (p.CurrentLine.getD NewLine).s n) ∧
      (∀ c r1, r = c :: r1 → c ≠ 9 → c ≠ 10 → c ≠ EOF →
        ∃ q, ReadChar { p with InputFile := r, CurrentLine := some l } = .ok (c, q))) ∧
    (∀ (T : Int) (q : CharProcessor), SetTabWidth T q
      = if 3 ≤ T ∧ T ≤ 8 then some { q with TabWidth := T } else none) ∧
    (∀ source listfile, (InitCharProcessor source listfile).TabWidth = 8) := by
  refine ⟨?_, fun T q => by unfold SetTabWidth; rfl, fun _ _ => rfl⟩
  obtain ⟨hpb, heof, htab, hcur, hprev⟩ := h
  have hg := LineOK_getD ⟨hpb, heof, htab, hcur, hprev⟩
  have hM : M_LINE_WIDTH = 256 := rfl
  have hdiv : 0 ≤ (p.CurrentLine.getD NewLine).cpos / p.TabWidth :=
    Int.ediv_nonneg hg.1 (by omega)
  have hdle : (p.CurrentLine.getD NewLine).cpos / p.TabWidth
      ≤ (p.CurrentLine.getD NewLine).cpos :=
    Int.ediv_le_self _ hg.1
  have hj : tabLoop p.TabWidth (p.CurrentLine.getD NewLine).cpos
      ((p.CurrentLine.getD NewLine).cpos.toNat + 1) p.TabWidth
      = p.TabWidth * ((p.CurrentLine.getD NewLine).cpos / p.TabWidth + 1) := by
    have := tabLoop_least p.TabWidth (p.CurrentLine.getD NewLine).cpos hT
      ((p.CurrentLine.getD NewLine).cpos.toNat + 1) 1 (le_refl _) (by omega) (by omega)
    rw [Int.mul_one] at this
    exact this
  have hgt : (p.CurrentLine.getD NewLine).cpos
      < p.TabWidth * ((p.CurrentLine.getD NewLine).cpos / p.TabWidth + 1) := by
    have := Int.lt_mul_ediv_self_add (x := (p.CurrentLine.getD NewLine).cpos) htab
    rw [show p.TabWidth * ((p.CurrentLine.getD NewLine).cpos / p.TabWidth + 1)
      = p.TabWidth * ((p.CurrentLine.getD NewLine).cpos / p.TabWidth) + p.TabWidth by ring]
    exact this
  obtain ⟨l1, hf⟩ := fillLoop_reach
    (p.TabWidth * ((p.CurrentLine.getD NewLine).cpos / p.TabWidth + 1))
    M_LINE_WIDTH.toNat (p.CurrentLine.getD NewLine).cpos
    { p.CurrentLine.getD NewLine with valid := 1 } hg.1 (by omega) hg.2 (by
      rw [hM]
      omega)
  obtain ⟨_, _, hf2, _, _, hv, _⟩ := fillLoop_ok
    (p.TabWidth * ((p.CurrentLine.getD NewLine).cpos / p.TabWidth + 1))
    M_LINE_WIDTH.toNat (p.CurrentLine.getD NewLine).cpos
    { p.CurrentLine.getD NewLine with valid := 1 } hg.1
  rw [hf] at hf2
  cases hf2
  have hc := fillLoop_content _ _ _ _ _ _ hg.1 hf
  have hread : ReadChar p = .ok (32, { p with
      InputFile := r
      CurrentLine := some { l1 with
        cpos := min (p.TabWidth * ((p.CurrentLine.getD NewLine).cpos / p.TabWidth + 1))
          M_LINE_WIDTH } }) := by
    unfold ReadChar
    rw [if_neg (by simp [heof])]
    unfold readCharFetch
    rw [if_neg (by simp [hpb])]
    simp only [hin, if_true]
    rw [hj, hf]
    simp only [ok_bind]
    unfold readCharFinish
    have hne : (32 : Int) ≠ 10 := by decide
    have hne2 : (32 : Int) ≠ EOF := by decide
    simp only [hne, hne2, if_false]
    rw [if_neg (by omega)]
    rfl
  refine ⟨_, hread, rfl, by simpa using hv, fun n h1 h2 => hc.1 n h1 h2, fun n h1 => ?_, ?_⟩
  · exact hc.2 n h1
  · intro c r1 hr h9 h10 hE
    obtain ⟨q, hq, _⟩ := ReadChar_plain
      { p with
        InputFile := r
        CurrentLine := some { l1 with
          cpos := min (p.TabWidth * ((p.CurrentLine.getD NewLine).cpos / p.TabWidth + 1))
            M_LINE_WIDTH } } c r1
      ⟨hpb, heof, htab, fun l hl => by
        cases hl
        simp only
        omega, hprev⟩ hr h9 h10 hE
    exact ⟨q, hq⟩

/-- Witness for C36: tab width 4, a tab read at column 3: the new column is 4. -/
theorem ReadChar_expands_tab_witness :
    ∃ l, ReadChar sampleTab = .ok (32, { sampleTab with
        InputFile := [120], CurrentLine := some l }) ∧
      l.cpos = min (4 * (3 / 4 + 1)) M_LINE_WIDTH := by
  obtain ⟨l, h1, h2, _⟩ := (ReadChar_expands_tab sampleTab [120]
    ⟨rfl, rfl, by decide, fun l hl => by cases hl; decide, fun l hl => by cases hl⟩
    (by decide) rfl).1
  exact ⟨l, h1, h2⟩

/-! ### The hash function -/

/-- The loop of `Hash` adds the 7-bit values of the bytes before the
terminator, at most `i` of them. -/
theorem hashLoop_sum : ∀ (i : Nat) (p : List Nat) (acc : Nat),
    hashLoop i p acc = acc + (((p.takeWhile (· ≠ 0)).take i).map (· % 128)).sum := by
  intro i
  induction i with
  | zero => intro p acc; simp [hashLoop]
  | succ i ih =>
    intro p acc
    cases p with
    | nil => simp [hashLoop]
    | cons b p =>
      rw [hashLoop]
      by_cases hb : b ≠ 0
      · rw [if_pos hb, ih, List.takeWhile_cons_of_pos (by simpa using hb)]
        simp only [List.take_succ_cons, List.map_cons, List.sum_cons]
        omega
      · rw [if_neg hb, List.takeWhile_cons_of_neg (by simpa using hb)]
        simp

theorem sum_mod_le : ∀ (l : List Nat), (l.map (· % 128)).sum ≤ 127 * l.length := by
  intro l
  induction l with
  | nil => simp
  | cons a l ih =>
    simp only [List.map_cons, List.sum_cons, List.length_cons]
    have : a % 128 < 128 := Nat.mod_lt _ (by decide)
    omega

/-- C34: `Hash(s)` is the sum of the 7-bit values of the bytes of `s` before
its terminator, the first 100 at most, reduced modulo 997; the sum is at most
12700, so no `int` overflows; the value is below 997, the number of buckets;
the bytes after the first 100 and the bytes after the terminator do not
matter. -/
theorem Hash_is_bounded_sum (s : List Nat) :
    Hash s = (((s.takeWhile (· ≠ 0)).take MAXHASHLENGTH).map (· % 128)).sum % HASHSIZE ∧
    (((s.takeWhile (· ≠ 0)).take MAXHASHLENGTH).map (· % 128)).sum ≤ 12700 ∧
    Hash s < HASHSIZE ∧
    (∀ t, (∀ b ∈ s, b ≠ 0) → MAXHASHLENGTH ≤ s.length → Hash (s ++ t) = Hash s) ∧
    (∀ t, (∀ b ∈ s, b ≠ 0) → Hash (s ++ 0 :: t) = Hash s) ∧
    (∀ tbl : SymTab, (Probe tbl s).2 < HASHSIZE) := by
  have hsum : ∀ u : List Nat, Hash u
      = (((u.takeWhile (· ≠ 0)).take MAXHASHLENGTH).map (· % 128)).sum % HASHSIZE := by
    intro u
    unfold Hash
    rw [hashLoop_sum, Nat.zero_add]
  have hall : ∀ u : List Nat, (∀ b ∈ u, b ≠ 0) → u.takeWhile (· ≠ 0) = u := by
    intro u hu
    apply List.takeWhile_eq_self_iff.mpr
    intro b hb
    simpa using hu b hb
  refine ⟨hsum s, ?_, Hash_lt s, ?_, ?_, fun _ => Hash_lt s⟩
  · refine le_trans (sum_mod_le _) ?_
    have : ((s.takeWhile (· ≠ 0)).take MAXHASHLENGTH).length ≤ MAXHASHLENGTH :=
      List.length_take_le _ _
    have hM : MAXHASHLENGTH = 100 := rfl
    omega
  · intro t hs hlen
    rw [hsum, hsum, hall s hs]
    have h1 : ((s ++ t).takeWhile (· ≠ 0)).take MAXHASHLENGTH = s.take MAXHASHLENGTH := by
      have h2 : (s ++ t).takeWhile (· ≠ 0) = s ++ t.takeWhile (· ≠ 0) := by
        rw [List.takeWhile_append_of_pos]
        intro b hb
        simpa using hs b hb
      rw [h2, List.take_append_of_le_length hlen]
    rw [h1]
  · intro t hs
    rw [hsum, hsum, hall s hs]
    have h2 : (s ++ 0 :: t).takeWhile (· ≠ 0) = s := by
      rw [List.takeWhile_append_of_pos]
      · simp
      · intro b hb
        simpa using hs b hb
    rw [h2]

/-! ### Operations on token sets -/

theorem and_two_pow_ne_zero (w b : Nat) : w &&& 2 ^ b ≠ 0 ↔ w.testBit b = true := by
  constructor
  · intro h
    by_contra hb
    apply h
    apply Nat.eq_of_testBit_eq
    intro i
    rw [Nat.testBit_and, Nat.testBit_two_pow, Nat.zero_testBit]
    by_cases hi : b = i
    · subst hi
      simp [hb]
    · simp [hi]
  · intro hb h
    have := congrArg (fun x => x.testBit b) h
    simp only [Nat.testBit_and, Nat.testBit_two_pow_self, Nat.zero_testBit, hb] at this
    simp at this

/-- Reading a word of a set after one word was replaced. -/
theorem getD_set_word (l : List Nat) (hl : l.length = WORDS_PER_SET) (k j v : Nat)
    (hk : k < WORDS_PER_SET) :
    (l.set k v).getD j 0 = if j = k then v else l.getD j 0 := by
  match l, hl with
  | [a, b], _ =>
    have hW : WORDS_PER_SET = 2 := rfl
    rw [hW] at hk
    match k, hk with
    | 0, _ =>
      match j with
      | 0 => simp
      | 1 => simp
      | j + 2 => simp
    | 1, _ =>
      match j with
      | 0 => simp
      | 1 => simp
      | j + 2 => simp

/-- C37: on a set of two words, for elements `i` and `j` in 0..63:
`AddElement` and `RemoveElement` return, after `AddElement(i)` `InSet` is
non-zero for `j` exactly when `j = i` or it was non-zero before, after
`RemoveElement(i)` exactly when `j ≠ i` and it was non-zero before; a cleared
set has no member; for an element outside 0..63 `AddElement` and
`RemoveElement` end the program and no set results. -/
theorem set_operations_faithful (s : SET) (hs : s.word.length = WORDS_PER_SET) :
    (∀ i j : Int, 0 ≤ i ∧ i < SET_SIZE → 0 ≤ j ∧ j < SET_SIZE →
      (∃ s1, AddElement s i = .ok s1 ∧ s1.word.length = WORDS_PER_SET ∧
        (s1.contains j ↔ j = i ∨ s.contains j)) ∧
      (∃ s2, RemoveElement s i = .ok s2 ∧ s2.word.length = WORDS_PER_SET ∧
        (s2.contains j ↔ j ≠ i ∧ s.contains j))) ∧
    (∀ j : Int, 0 ≤ j ∧ j < SET_SIZE → InSet ClearSet j = .ok 0) ∧
    (∀ e : Int, ¬ (0 ≤ e ∧ e < SET_SIZE) →
      AddElement s e = .error .setRange ∧ RemoveElement s e = .error .setRange) := by
  have hS : SET_SIZE = 64 := rfl
  have hB : BITS_PER_WORD = 32 := rfl
  have hW : WORDS_PER_SET = 2 := rfl
  have hcontains : ∀ (u : SET) (j : Int), 0 ≤ j ∧ j < SET_SIZE →
      (u.contains j ↔ (u.word.getD (j.toNat / BITS_PER_WORD) 0).testBit
        (j.toNat % BITS_PER_WORD) = true) := by
    intro u j hj
    rw [← and_two_pow_ne_zero]
    constructor
    · rintro ⟨m, hm, hne⟩
      rw [InSet_ok u j hj] at hm
      cases hm
      exact hne
    · intro h
      exact ⟨_, InSet_ok u j hj, h⟩
  refine ⟨?_, ?_, ?_⟩
  · intro i j hi hj
    have hidx : i.toNat / BITS_PER_WORD < WORDS_PER_SET := by
      rw [hB, hW]
      omega
    have hsame : (j.toNat / BITS_PER_WORD = i.toNat / BITS_PER_WORD ∧
        j.toNat % BITS_PER_WORD = i.toNat % BITS_PER_WORD) ↔ j = i := by
      constructor
      · rintro ⟨h1, h2⟩
        have := Nat.div_add_mod j.toNat BITS_PER_WORD
        have := Nat.div_add_mod i.toNat BITS_PER_WORD
        have : j.toNat = i.toNat := by
          rw [← Nat.div_add_mod j.toNat BITS_PER_WORD, ← Nat.div_add_mod i.toNat BITS_PER_WORD,
            h1, h2]
        omega
      · rintro rfl
        exact ⟨rfl, rfl⟩
    constructor
    · refine ⟨_, by unfold AddElement; rw [if_neg (by omega)], by simp [hs], ?_⟩
      rw [hcontains _ j hj, hcontains s j hj]
      simp only
      rw [getD_set_word _ hs _ _ _ hidx]
      by_cases hq : j.toNat / BITS_PER_WORD = i.toNat / BITS_PER_WORD
      · rw [if_pos hq, Nat.testBit_or, Nat.testBit_two_pow, ← hq]
        by_cases hr : i.toNat % BITS_PER_WORD = j.toNat % BITS_PER_WORD
        · have : j = i := hsame.1 ⟨hq, hr.symm⟩
          simp [hr, this]
        · have : ¬ j = i := fun e => hr (hsame.2 e).2.symm
          simp [hr, this]
      · rw [if_neg hq]
        have : ¬ j = i := fun e => hq (hsame.2 e).1
        simp [this]
    · refine ⟨_, by unfold RemoveElement; rw [if_neg (by omega)], by simp [hs], ?_⟩
      rw [hcontains _ j hj, hcontains s j hj]
      simp only
      rw [getD_set_word _ hs _ _ _ hidx]
      have hmask : ∀ a b : Nat, a < 32 → b < 32 →
          (2 ^ 32 - 1 - 2 ^ a).testBit b = decide (a ≠ b) := by
        intro a b ha hb
        interval_cases a <;> interval_cases b <;> decide
      by_cases hq : j.toNat / BITS_PER_WORD = i.toNat / BITS_PER_WORD
      · rw [if_pos hq, Nat.testBit_and, ← hq, hB,
          hmask (i.toNat % 32) (j.toNat % 32) (Nat.mod_lt _ (by decide))
            (Nat.mod_lt _ (by decide))]
        by_cases hr : i.toNat % BITS_PER_WORD = j.toNat % BITS_PER_WORD
        · have : j = i := hsame.1 ⟨hq, hr.symm⟩
          rw [hB] at hr
          simp [hr, this]
        · have : ¬ j = i := fun e => hr (hsame.2 e).2.symm
          rw [hB] at hr
          simp [hr, this]
      · rw [if_neg hq]
        have : ¬ j = i := fun e => hq (hsame.2 e).1
        simp [this]
  · intro j hj
    rw [InSet_ok ClearSet j hj]
    have : ClearSet.word.getD (j.toNat / BITS_PER_WORD) 0 = 0 := by
      have h1 : j.toNat / BITS_PER_WORD = 0 ∨ j.toNat / BITS_PER_WORD = 1 := by
        rw [hB]
        omega
      rcases h1 with h | h <;> rw [h] <;> rfl
    rw [this, Nat.zero_and]
  · intro e he
    constructor
    · unfold AddElement
      rw [if_pos (by omega)]
    · unfold RemoveElement
      rw [if_pos (by omega)]

/-- Witness for C37: the set of 0, 2 and 32, with 31 added and 2 removed. -/
theorem set_operations_faithful_witness :
    (∃ s1, AddElement sampleSet 31 = .ok s1 ∧ (s1.contains 31 ↔ (31 : Int) = 31 ∨
      sampleSet.contains 31)) ∧
    (∃ s2, RemoveElement sampleSet 2 = .ok s2 ∧ (s2.contains 2 ↔ (2 : Int) ≠ 2 ∧
      sampleSet.contains 2)) := by
  have h := (set_operations_faithful sampleSet rfl).1
  obtain ⟨s1, h1, _, h1c⟩ := (h 31 31 (by decide) (by decide)).1
  obtain ⟨s2, h2, _, h2c⟩ := (h 2 2 (by decide) (by decide)).2
  exact ⟨⟨s1, h1, h1c⟩, ⟨s2, h2, h2c⟩⟩

/-! ### Symbols of type procedure -/

theorem Accept_table (e : Int) (c : Compiler) : (Accept e c).HashTable = c.HashTable :=
  congrArg Prod.snd (Accept_bindings e c)

theorem MakeSymbolTableEntry_noProcedure {symtype : Int} {c c1 : Compiler}
    (hty : symtype ≠ STYPE_PROCEDURE) (h : MakeSymbolTableEntry symtype c = .ok c1)
    (hno : NoProcedure c.HashTable) : NoProcedure c1.HashTable := by
  obtain ⟨_, ht | ⟨name, _, ht⟩⟩ := MakeSymbolTableEntry_effect symtype c c1 h
  · rw [ht]
    exact hno
  · rw [ht]
    intro i s hs
    simp only at hs
    split at hs
    · rcases List.mem_cons.mp hs with rfl | hs
      · exact hty
      · exact hno i s hs
    · exact hno i s hs

theorem RemoveSymbols_noProcedure (d : Int) {tbl : SymTab} (hno : NoProcedure tbl) :
    NoProcedure (RemoveSymbols d tbl) := by
  intro i s hs
  unfold RemoveSymbols at hs
  split at hs
  · obtain ⟨pre, hpre⟩ := removeChain_suffix d (tbl i)
    exact hno i s (by rw [hpre]; exact List.mem_append_right _ hs)
  · exact hno i s hs

theorem ParseDeclarationsLoop_noProcedure (k : Nat) : ∀ (v : Int) (c : Compiler)
    (r : Int × Compiler), ParseDeclarationsLoop k v c = .ok r → NoProcedure c.HashTable →
    NoProcedure r.2.HashTable := by
  induction k with
  | zero =>
    intro v c r h
    simp [ParseDeclarationsLoop] at h
  | succ k ih =>
    intro v c r h hno
    simp only [ParseDeclarationsLoop] at h
    split at h
    · obtain ⟨c1, h1, h2⟩ := bind_eq_ok h
      have n1 := MakeSymbolTableEntry_noProcedure (by decide) h1
        (by rw [Accept_table]; exact hno)
      refine ih _ _ _ h2 ?_
      unfold ParseVariable ParseIdentifier
      rw [Accept_table, Accept_table]
      exact n1
    · cases h
      exact hno

theorem ParseDeclarations_noProcedure {n : Nat} {c : Compiler} {r : Int × Compiler}
    (h : ParseDeclarations n c = .ok r) (hno : NoProcedure c.HashTable) :
    NoProcedure r.2.HashTable := by
  unfold ParseDeclarations at h
  obtain ⟨c1, h1, h⟩ := bind_eq_ok h
  obtain ⟨r1, h2, h⟩ := bind_eq_ok h
  cases h
  have n1 := MakeSymbolTableEntry_noProcedure (by decide) h1 (by rw [Accept_table]; exact hno)
  have n2 := ParseDeclarationsLoop_noProcedure n _ _ _ h2 (by
    unfold ParseVariable ParseIdentifier
    rw [Accept_table, Accept_table]
    exact n1)
  show NoProcedure (Accept SEMICOLON r1.2).HashTable
  rw [Accept_table]
  exact n2

theorem ParseFormalParameter_noProcedure {c c1 : Compiler} (h : ParseFormalParameter c = .ok c1)
    (hno : NoProcedure c.HashTable) : NoProcedure c1.HashTable := by
  unfold ParseFormalParameter at h
  obtain ⟨c2, h1, h⟩ := bind_eq_ok h
  obtain ⟨c3, h2, h⟩ := bind_eq_ok h
  cases h
  have n2 : NoProcedure c2.HashTable := by
    unfold acceptRef at h1
    split at h1
    · obtain ⟨c4, h4, h5⟩ := bind_eq_ok h1
      cases h5
      rw [Accept_table]
      exact MakeSymbolTableEntry_noProcedure (by decide) h4 hno
    · cases h1
      exact hno
  have n3 := MakeSymbolTableEntry_noProcedure (by decide) h2 n2
  unfold ParseVariable ParseIdentifier
  rw [Accept_table, Accept_table]
  exact n3

theorem ParseParameterListLoop_noProcedure (k : Nat) : ∀ (c c1 : Compiler),
    ParseParameterListLoop k c = .ok c1 → NoProcedure c.HashTable →
    NoProcedure c1.HashTable := by
  induction k with
  | zero =>
    intro c c1 h
    simp [ParseParameterListLoop] at h
  | succ k ih =>
    intro c c1 h hno
    simp only [ParseParameterListLoop] at h
    split at h
    · obtain ⟨c2, h1, h2⟩ := bind_eq_ok h
      exact ih _ _ h2 (ParseFormalParameter_noProcedure h1 (by rw [Accept_table]; exact hno))
    · cases h
      exact hno

theorem optionalParameterList_noProcedure {n : Nat} {c c1 : Compiler}
    (h : optionalParameterList n c = .ok c1) (hno : NoProcedure c.HashTable) :
    NoProcedure c1.HashTable := by
  unfold optionalParameterList at h
  split at h
  · unfold ParseParameterList at h
    obtain ⟨c2, h1, h⟩ := bind_eq_ok h
    obtain ⟨c3, h2, h⟩ := bind_eq_ok h
    cases h
    rw [Accept_table]
    exact ParseParameterListLoop_noProcedure n _ _ h2
      (ParseFormalParameter_noProcedure h1 (by rw [Accept_table]; exact hno))
  · cases h
    exact hno

theorem optionalDeclarations_noProcedure {n : Nat} {c c1 : Compiler}
    (h : optionalDeclarations n c = .ok c1) (hno : NoProcedure c.HashTable) :
    NoProcedure c1.HashTable := by
  unfold optionalDeclarations at h
  split at h
  · obtain ⟨r, h1, h2⟩ := bind_eq_ok h
    cases h2
    exact ParseDeclarations_noProcedure h1 hno
  · cases h
    exact hno

theorem Synchronise_table {F FB : SET} {c c1 : Compiler} (h : Synchronise F FB c = .ok c1) :
    c1.HashTable = c.HashTable :=
  congrArg Prod.snd (Synchronise_bindings h)

theorem ParseBlock_table {n : Nat} {c c1 : Compiler} (h : ParseBlock n c = .ok c1) :
    c1.HashTable = c.HashTable :=
  congrArg Prod.snd (ParseBlock_bindings h)

theorem procedure_noProcedure (n : Nat) :
    (∀ c c1, ParseProcDeclaration n c = .ok c1 → NoProcedure c.HashTable →
      NoProcedure c1.HashTable) ∧
    (∀ c c1, nestedProcedures n c = .ok c1 → NoProcedure c.HashTable →
      NoProcedure c1.HashTable) := by
  induction n with
  | zero =>
    constructor <;> intro c c1 h
    · simp [ParseProcDeclaration] at h
    · simp [nestedProcedures] at h
  | succ n ih =>
    obtain ⟨ihP, ihN⟩ := ih
    constructor <;> intro c c1 h hno
    · obtain ⟨k1, k2, k3, k4, k5, k6, k7, h1, h2, h3, h4, h5, h6, h7, rfl⟩ :=
        ParseProcDeclaration_steps h
      have n1 := optionalParameterList_noProcedure h1 hno
      have n2 : NoProcedure k2.HashTable := by
        rw [Synchronise_table h2, Accept_table]
        exact n1
      have n3 := optionalDeclarations_noProcedure h3 n2
      have n4 : NoProcedure k4.HashTable := by
        rw [Synchronise_table h4]
        exact n3
      have n5 := ihN _ _ h5 n4
      have n7 : NoProcedure (Accept SEMICOLON k7).HashTable := by
        rw [Accept_table, ParseBlock_table h7, Synchronise_table h6]
        exact n5
      exact RemoveSymbols_noProcedure _ n7
    · simp only [nestedProcedures] at h
      split at h
      · obtain ⟨c2, h1, h2⟩ := bind_eq_ok h
        exact ihN _ _ h2 (ihP _ _ h1 hno)
      · cases h
        exact hno

theorem programProcedures_noProcedure (n k : Nat) : ∀ (c c1 : Compiler),
    programProcedures n k c = .ok c1 → NoProcedure c.HashTable → NoProcedure c1.HashTable := by
  induction k with
  | zero =>
    intro c c1 h
    simp [programProcedures] at h
  | succ k ih =>
    intro c c1 h hno
    simp only [programProcedures] at h
    split at h
    · obtain ⟨c2, h1, h⟩ := bind_eq_ok h
      obtain ⟨c3, h2, h3⟩ := bind_eq_ok h
      refine ih _ _ h3 ?_
      rw [Synchronise_table h2]
      exact (procedure_noProcedure n).1 _ _ h1 hno
    · cases h
      exact hno

theorem ParseProgram_noProcedure {n : Nat} {c c1 : Compiler} (h : ParseProgram n c = .ok c1)
    (hno : NoProcedure c.HashTable) : NoProcedure c1.HashTable := by
  unfold ParseProgram at h
  obtain ⟨k1, h1, h⟩ := bind_eq_ok h
  obtain ⟨k2, h2, h⟩ := bind_eq_ok h
  obtain ⟨k3, h3, h⟩ := bind_eq_ok h
  obtain ⟨k4, h4, h⟩ := bind_eq_ok h
  obtain ⟨k5, h5, h⟩ := bind_eq_ok h
  obtain ⟨k6, h6, h⟩ := bind_eq_ok h
  cases h
  have n1 := MakeSymbolTableEntry_noProcedure (by decide) h1
    (by rw [Accept_table, Accept_table, Accept_table]; exact hno)
  have n2 : NoProcedure k2.HashTable := by
    rw [Synchronise_table h2]
    exact n1
  have n3 := optionalDeclarations_noProcedure h3 n2
  have n4 : NoProcedure k4.HashTable := by
    rw [Synchronise_table h4]
    exact n3
  have n5 := programProcedures_noProcedure n n _ _ h5 n4
  rw [Accept_table, ParseBlock_table h6]
  exact n5

/-- The symbol `LookupSymbol` returns is a symbol of the table. -/
theorem LookupSymbol_mem {c : Compiler} {r : Option SYMBOL × Compiler}
    (h : LookupSymbol c = .ok r) (t : SYMBOL) (ht : r.1 = some t) :
    ∃ i, t ∈ c.HashTable i := by
  unfold LookupSymbol at h
  split at h
  · split at h
    · cases h
    · rename_i name _
      split at h
      · cases h
        cases ht
      · rename_i sptr hp
        cases h
        cases ht
        obtain ⟨pre, post, hc, _, _⟩ := probeChain_some name _ hp
        exact ⟨Hash name, by rw [hc]; simp⟩
  · cases h
    cases ht

/-- With a target that is no procedure symbol, the body of `case SEMICOLON`
in `ParseRestOfStatement` reports the error and kills code generation. -/
theorem callTarget_kills (target : Option SYMBOL) (c : Compiler)
    (h : ∀ t, target = some t → t.type ≠ STYPE_PROCEDURE) :
    callTarget target c = .ok { c.Error (Diagnostic.notAProcedure c.CurrentToken.pos) with
      code := KillCodeGeneration c.code } := by
  unfold callTarget
  cases target with
  | none => rfl
  | some t =>
    simp only
    rw [if_neg (h t rfl)]

/-- C38: no symbol of type `STYPE_PROCEDURE` is ever in the table of a
compile: `MakeSymbolTableEntry` with another type keeps it so, and so do
`ParseProcDeclaration` and `ParseProgram`, which starts from the empty table;
the statement parsers do not change the table.  Hence the target that
`LookupSymbol` hands to `ParseRestOfStatement` is no procedure, the branch
that emits `Call` is not taken, and a returning `ParseSimpleStatement` whose
identifier is followed by `(` or `;` leaves the errors-present flag set. -/
theorem no_procedure_symbol :
    (∀ fuel source indeterminate r, main fuel source indeterminate = .ok r →
      NoProcedure r.state.HashTable) ∧
    (∀ n c c1, ParseProgram n c = .ok c1 → NoProcedure c.HashTable →
      NoProcedure c1.HashTable) ∧
    (∀ n c c1, ParseProcDeclaration n c = .ok c1 → NoProcedure c.HashTable →
      NoProcedure c1.HashTable) ∧
    (∀ symtype c c1, symtype ≠ STYPE_PROCEDURE → MakeSymbolTableEntry symtype c = .ok c1 →
      NoProcedure c.HashTable → NoProcedure c1.HashTable) ∧
    (∀ n c c1, ParseBlock n c = .ok c1 → c1.HashTable = c.HashTable) ∧
    (∀ c r c2, NoProcedure c.HashTable → LookupSymbol c = .ok r →
      callTarget r.1 c2 = .ok { c2.Error (Diagnostic.notAProcedure c2.CurrentToken.pos) with
        code := KillCodeGeneration c2.code }) ∧
    (∀ n c c1 t rest, NoProcedure c.HashTable → c.CurrentToken.code = IDENTIFIER →
      c.input = t :: rest → (t.code = LEFTPARENTHESIS ∨ t.code = SEMICOLON) →
      ParseSimpleStatement n c = .ok c1 → c1.code.ErrorsInProgram = 1) := by
  have hcall : ∀ (c : Compiler) (r : Option SYMBOL × Compiler) (c2 : Compiler),
      NoProcedure c.HashTable → LookupSymbol c = .ok r →
      callTarget r.1 c2 = .ok { c2.Error (Diagnostic.notAProcedure c2.CurrentToken.pos) with
        code := KillCodeGeneration c2.code } := by
    intro c r c2 hno hr
    apply callTarget_kills
    intro t ht
    obtain ⟨i, hi⟩ := LookupSymbol_mem hr t ht
    exact hno i t hi
  refine ⟨?_, fun n c c1 h hno => ParseProgram_noProcedure h hno,
    fun n c c1 h hno => (procedure_noProcedure n).1 c c1 h hno,
    fun symtype c c1 hty h hno => MakeSymbolTableEntry_noProcedure hty h hno,
    fun n c c1 h => ParseBlock_table h, hcall, ?_⟩
  · intro fuel source indeterminate r hr
    unfold main at hr
    obtain ⟨c0, h0, hr⟩ := bind_eq_ok hr
    obtain ⟨c1, h1, hr⟩ := bind_eq_ok hr
    split at hr
    · cases hr
    · cases hr
      refine ParseProgram_noProcedure h1 ?_
      unfold Compiler.start at h0
      obtain ⟨sets, _, h0⟩ := bind_eq_ok h0
      cases h0
      intro i s hs
      simp [Compiler.initial, emptyTable] at hs
  · intro n c c1 t rest hno hcode hin ht h
    unfold ParseSimpleStatement at h
    obtain ⟨r, hr, h2⟩ := bind_eq_ok h
    have hk := hcall c r
    have hstream : r.2.CurrentToken = c.CurrentToken ∧ r.2.input = c.input := by
      unfold LookupSymbol at hr
      rw [if_pos hcode] at hr
      split at hr
      · cases hr
      · split at hr <;> cases hr <;> exact ⟨rfl, rfl⟩
    have hnext : (Accept IDENTIFIER r.2).CurrentToken = t := by
      have hskip : acceptSkip IDENTIFIER r.2.CurrentToken r.2.input
          = (r.2.CurrentToken, r.2.input) := by
        rw [hstream.2, hin, acceptSkip, if_neg]
        rw [hstream.1]
        exact fun hh => hh.1 hcode
      unfold Accept acceptResync
      split
      · simp only [hskip]
        unfold acceptNormal
        rw [if_neg (by simp [hstream.1, hcode])]
        simp [Compiler.nextToken, Compiler.GetToken, hstream.2, hin]
      · unfold acceptNormal
        rw [if_neg (by simp [hstream.1, hcode])]
        simp [Compiler.nextToken, Compiler.GetToken, hstream.2, hin]
    unfold ParseRestOfStatement at h2
    rw [hnext] at h2
    rcases ht with ht | ht
    · rw [if_pos ht] at h2
      obtain ⟨c3, _, h4⟩ := bind_eq_ok h2
      rw [hk c3 hno hr] at h4
      cases h4
      rfl
    · rw [if_neg (by rw [ht]; decide), if_pos ht] at h2
      rw [hk _ hno hr] at h2
      cases h2
      rfl

/-- An instance for C38: `f(1);` and `f;` with `f` a variable set the flag. -/
theorem call_statements_set_flag :
    ((compileText 100 "PROGRAM p; VAR f; BEGIN f(1); END." 0).toOption.map
        (fun r => r.state.code.ErrorsInProgram) = some 1) ∧
    ((compileText 100 "PROGRAM p; VAR f; BEGIN f; END." 0).toOption.map
        (fun r => r.state.code.ErrorsInProgram) = some 1) := by
  decide!

/-! ### The parse comes to an end -/

theorem Halts.bindStep {α β : Type} {st : α → Compiler} {st2 : β → Compiler} {m m2 : Nat}
    {r : Except Fatal α} {f : α → Except Fatal β} (h : Halts st m r)
    (hf : ∀ a, (st a).sets = builtSets → (st a).weight ≤ m → Halts st2 m2 (f a)) :
    Halts st2 m2 (r >>= f) := by
  cases r with
  | error e => exact h
  | ok a => exact hf a h.1 h.2

theorem Halts.weaken {α : Type} {st : α → Compiler} {m m2 : Nat} {r : Except Fatal α}
    (h : Halts st m r) (hm : m ≤ m2) : Halts st m2 r := by
  cases r with
  | error e => exact h
  | ok a => exact ⟨h.1, le_trans h.2 hm⟩

theorem Halts.not_hanging {α : Type} {st : α → Compiler} {m : Nat} {r : Except Fatal α}
    (h : Halts st m r) : r ≠ .error .outOfFuel ∧ r ≠ .error .endlessLoop := by
  cases r with
  | error e =>
    constructor
    · intro he
      cases he
      exact h.1 rfl
    · intro he
      cases he
      exact h.2 rfl
  | ok a =>
    constructor <;> intro he <;> cases he

/-! #### The token stream under `Accept` -/

theorem acceptSkip_size (e : Int) : ∀ (rest : List TOKEN) (cur : TOKEN),
    ((acceptSkip e cur rest).1.code = e ∨ (acceptSkip e cur rest).1.code = ENDOFINPUT) ∧
    (acceptSkip e cur rest).2.length
        + (if (acceptSkip e cur rest).1.code = ENDOFINPUT then 0 else 1)
      ≤ rest.length + (if cur.code = ENDOFINPUT then 0 else 1) ∧
    (cur.code ≠ e → cur.code ≠ ENDOFINPUT →
      (acceptSkip e cur rest).2.length
          + (if (acceptSkip e cur rest).1.code = ENDOFINPUT then 0 else 1)
        < rest.length + 1) ∧
    (cur.code = e → acceptSkip e cur rest = (cur, rest)) := by
  intro rest
  induction rest with
  | nil =>
    intro cur
    rw [acceptSkip]
    by_cases h : cur.code ≠ e ∧ cur.code ≠ ENDOFINPUT
    · rw [if_pos h]
      have he : endOfInputToken.code = ENDOFINPUT := rfl
      simp only [he, List.length_nil, if_true, if_neg h.2]
      exact ⟨Or.inr trivial, by omega, fun _ _ => by omega, fun h1 => absurd h1 h.1⟩
    · rw [if_neg h]
      refine ⟨by tauto, le_refl _, fun h1 h2 => absurd ⟨h1, h2⟩ h, fun _ => rfl⟩
  | cons a as ih =>
    intro cur
    rw [acceptSkip]
    by_cases h : cur.code ≠ e ∧ cur.code ≠ ENDOFINPUT
    · rw [if_pos h]
      obtain ⟨i1, i2, _⟩ := ih a
      have hb : (if a.code = ENDOFINPUT then 0 else 1) ≤ 1 := by split <;> omega
      refine ⟨i1, ?_, fun _ _ => ?_, fun h1 => absurd h1 h.1⟩
      · rw [if_neg h.2]
        simp only [List.length_cons]
        omega
      · simp only [List.length_cons]
        omega
    · rw [if_neg h]
      refine ⟨by tauto, le_refl _, fun h1 h2 => absurd ⟨h1, h2⟩ h, fun _ => rfl⟩

theorem nextToken_size (c : Compiler) :
    c.nextToken.size ≤ c.size ∧ (c.CurrentToken.code ≠ ENDOFINPUT → c.nextToken.size < c.size) := by
  unfold Compiler.nextToken Compiler.GetToken Compiler.size
  cases hin : c.input with
  | nil =>
    have he : endOfInputToken.code = ENDOFINPUT := rfl
    simp only [he, hin, List.length_nil, if_true]
    constructor
    · omega
    · intro hne
      rw [if_neg hne]
      omega
  | cons t ts =>
    simp only [hin, List.length_cons]
    constructor
    · split <;> split <;> omega
    · intro hne
      rw [if_neg hne]
      split <;> omega

/-- The state of `Accept` after its re-synchronising part. -/
theorem acceptResync_size (e : Int) (c : Compiler) :
    (acceptResync e c).size ≤ c.size ∧
    (c.recovering = 0 → acceptResync e c = c) ∧
    (c.recovering ≠ 0 → (acceptResync e c).recovering = 0 ∧
      ((acceptResync e c).CurrentToken.code = e ∨
        (acceptResync e c).CurrentToken.code = ENDOFINPUT) ∧
      (c.CurrentToken.code ≠ e → c.CurrentToken.code ≠ ENDOFINPUT →
        (acceptResync e c).size < c.size) ∧
      (c.CurrentToken.code = e → (acceptResync e c).CurrentToken = c.CurrentToken ∧
        (acceptResync e c).input = c.input)) := by
  unfold acceptResync
  by_cases hr : c.recovering = 0
  · rw [if_neg (by simpa using hr)]
    exact ⟨le_refl _, fun _ => rfl, fun h => absurd hr h⟩
  · rw [if_pos hr]
    obtain ⟨i1, i2, i3, i4⟩ := acceptSkip_size e c.input c.CurrentToken
    refine ⟨i2, fun h => absurd h hr, fun _ => ⟨rfl, i1, fun h1 h2 => ?_, fun h1 => ?_⟩⟩
    · have := i3 h1 h2
      unfold Compiler.size
      rw [if_neg h2]
      exact this
    · simp only [i4 h1, and_self]

theorem Accept_weight (e : Int) (c : Compiler) (hE : e ≠ ENDOFINPUT) :
    (Accept e c).weight ≤ c.weight ∧
    (c.CurrentToken.code = e → (Accept e c).weight < c.weight) ∧
    (c.CurrentToken.code ≠ e → c.CurrentToken.code ≠ ENDOFINPUT → c.recovering ≠ 0 →
      (Accept e c).weight + 2 ≤ 2 * c.size) ∧
    (c.CurrentToken.code ≠ e → c.recovering = 0 →
      (Accept e c).CurrentToken = c.CurrentToken ∧ (Accept e c).input = c.input ∧
      (Accept e c).recovering = 1) := by
  obtain ⟨r1, r2, r3⟩ := acceptResync_size e c
  have hN := nextToken_size (acceptResync e c)
  have hnormal : ∀ d : Compiler,
      (d.CurrentToken.code ≠ e → (acceptNormal e d).size = d.size ∧
        (acceptNormal e d).recovering = 1) ∧
      (d.CurrentToken.code = e → acceptNormal e d = d.nextToken ∧
        (acceptNormal e d).recovering = d.recovering) := by
    intro d
    unfold acceptNormal
    constructor
    · intro h
      rw [if_pos h]
      exact ⟨rfl, rfl⟩
    · intro h
      rw [if_neg (by simpa using h)]
      refine ⟨rfl, ?_⟩
      unfold Compiler.nextToken Compiler.GetToken
      split <;> rfl
  obtain ⟨n1, n2⟩ := hnormal (acceptResync e c)
  unfold Accept
  by_cases hr : c.recovering = 0
  · have hcc := r2 hr
    rw [hcc] at n1 n2 hN ⊢
    refine ⟨?_, ?_, ?_, ?_⟩
    · by_cases hm : c.CurrentToken.code = e
      · obtain ⟨m1, m2⟩ := n2 hm
        unfold Compiler.weight
        rw [m2, m1]
        have := hN.1
        omega
      · obtain ⟨m1, m2⟩ := n1 hm
        unfold Compiler.weight
        rw [m1, m2, if_pos hr]
        simp
    · intro hm
      obtain ⟨m1, m2⟩ := n2 hm
      unfold Compiler.weight
      rw [m2, m1]
      have := hN.2 (by rw [hm]; exact hE)
      omega
    · intro _ _ h
      exact absurd hr h
    · intro hm _
      unfold acceptNormal
      rw [if_pos hm]
      exact ⟨rfl, rfl, rfl⟩
  · obtain ⟨q1, q2, q3, q4⟩ := r3 hr
    have hw : c.weight = 2 * c.size := by
      unfold Compiler.weight
      rw [if_neg hr]
      rfl
    have hcase : (acceptNormal e (acceptResync e c)).weight
        ≤ 2 * (acceptResync e c).size ∧
        ((acceptResync e c).CurrentToken.code = e →
          (acceptNormal e (acceptResync e c)).weight < 2 * (acceptResync e c).size) := by
      by_cases hm : (acceptResync e c).CurrentToken.code = e
      · obtain ⟨m1, m2⟩ := n2 hm
        have := hN.2 (by rw [hm]; exact hE)
        have hlt : (acceptNormal e (acceptResync e c)).weight
            < 2 * (acceptResync e c).size := by
          unfold Compiler.weight
          rw [m2, m1, q1]
          simp only [if_true]
          omega
        exact ⟨le_of_lt hlt, fun _ => hlt⟩
      · obtain ⟨m1, m2⟩ := n1 hm
        refine ⟨?_, fun h => absurd h hm⟩
        unfold Compiler.weight
        rw [m1, m2]
        simp
    refine ⟨?_, ?_, ?_, fun _ h => absurd h hr⟩
    · have := hcase.1
      omega
    · intro hm
      obtain ⟨k1, k2⟩ := q4 hm
      have hsz : (acceptResync e c).size = c.size := by
        unfold Compiler.size
        rw [k1, k2]
      have := hcase.2 (by rw [k1]; exact hm)
      omega
    · intro hm hne _
      have := q3 hm hne
      have := hcase.1
      omega

/-! #### The token stream under `Synchronise` -/

theorem syncSkip_size (S : SET) (hS : S.contains ENDOFINPUT) :
    ∀ (rest : List TOKEN) (cur : TOKEN),
    (∀ r, syncSkip S cur rest = .ok r →
      r.2.length + (if r.1.code = ENDOFINPUT then 0 else 1)
        ≤ rest.length + (if cur.code = ENDOFINPUT then 0 else 1)) ∧
    (∀ e, syncSkip S cur rest = .error e → e = .setRange) := by
  obtain ⟨mE, hmE, hneE⟩ := hS
  have hmE2 : InSet S endOfInputToken.code = .ok mE := hmE
  have hrange : ∀ (x : Int) (e : Fatal), InSet S x = .error e → e = .setRange := by
    intro x e h
    unfold InSet at h
    split at h
    · cases h
      rfl
    · cases h
  intro rest
  induction rest with
  | nil =>
    intro cur
    rw [syncSkip]
    cases hc : InSet S cur.code with
    | error e =>
      refine ⟨fun r h => (by cases h), fun e2 h => ?_⟩
      cases h
      exact hrange _ _ hc
    | ok m =>
      simp only [ok_bind, hmE2, if_neg hneE]
      by_cases hm : m = 0
      · rw [if_pos hm]
        refine ⟨fun r h => ?_, fun e2 h => (by cases h)⟩
        cases h
        have he : endOfInputToken.code = ENDOFINPUT := rfl
        simp [he]
      · rw [if_neg hm]
        refine ⟨fun r h => ?_, fun e2 h => (by cases h)⟩
        cases h
        exact le_refl _
  | cons a as ih =>
    intro cur
    rw [syncSkip]
    cases hc : InSet S cur.code with
    | error e =>
      refine ⟨fun r h => (by cases h), fun e2 h => ?_⟩
      cases h
      exact hrange _ _ hc
    | ok m =>
      simp only [ok_bind]
      by_cases hm : m = 0
      · rw [if_pos hm]
        obtain ⟨i1, i2⟩ := ih a
        refine ⟨fun r h => ?_, i2⟩
        have := i1 r h
        have hb : (if a.code = ENDOFINPUT then 0 else 1) ≤ 1 := by split <;> omega
        have hcur : cur.code ≠ ENDOFINPUT := by
          intro hcur
          rw [hcur, hmE] at hc
          cases hc
          exact hneE hm
        rw [if_neg hcur]
        simp only [List.length_cons]
        omega
      · rw [if_neg hm]
        refine ⟨fun r h => ?_, fun e2 h => (by cases h)⟩
        cases h
        exact le_refl _

theorem Synchronise_stops (F FB : SET) (c : Compiler) (hs : c.sets = builtSets)
    (hEnd : (Union [F, FB]).contains ENDOFINPUT) :
    Stops c.weight (Synchronise F FB c) ∧
    (∀ c1, Synchronise F FB c = .ok c1 → c1.recovering = c.recovering ∧ c1.size ≤ c.size) ∧
    (F.contains c.CurrentToken.code → Synchronise F FB c = .ok c) := by
  have hrange : ∀ (x : Int) (e : Fatal), InSet F x = .error e → e = .setRange := by
    intro x e h
    unfold InSet at h
    split at h
    · cases h
      rfl
    · cases h
  obtain ⟨i1, i2⟩ := syncSkip_size (Union [F, FB]) hEnd c.input c.CurrentToken
  unfold Synchronise
  cases hc : InSet F c.CurrentToken.code with
  | error e =>
    refine ⟨?_, fun c1 h => (by cases h), ?_⟩
    · have := hrange _ _ hc
      subst this
      exact ⟨by decide, by decide⟩
    · rintro ⟨m, hm, _⟩
      rw [hc] at hm
      cases hm
  | ok m =>
    simp only [ok_bind]
    by_cases hm : m = 0
    · rw [if_pos hm]
      simp only [Compiler.Error]
      cases hk : syncSkip (Union [F, FB]) c.CurrentToken c.input with
      | error e =>
        refine ⟨?_, fun c1 h => (by cases h), ?_⟩
        · have := i2 e hk
          subst this
          exact ⟨by decide, by decide⟩
        · rintro ⟨m2, hm2, hne⟩
          rw [hc] at hm2
          cases hm2
          exact absurd hm hne
      | ok r =>
        have := i1 r hk
        refine ⟨⟨hs, ?_⟩, fun c1 h => ?_, ?_⟩
        · show 2 * (r.2.length + (if r.1.code = ENDOFINPUT then 0 else 1))
              + (if c.recovering = 0 then 1 else 0) ≤ c.weight
          unfold Compiler.weight Compiler.size
          omega
        · cases h
          exact ⟨rfl, this⟩
        · rintro ⟨m2, hm2, hne⟩
          rw [hc] at hm2
          cases hm2
          exact absurd hm hne
    · rw [if_neg hm]
      exact ⟨⟨hs, le_refl _⟩, fun c1 h => (by cases h; exact ⟨rfl, le_refl _⟩), fun _ => rfl⟩

/-! #### Steps that leave the token stream alone -/

theorem Emit_stops (opcode offset : Int) (c : Compiler) (hs : c.sets = builtSets) :
    Stops c.weight (c.Emit opcode offset) := by
  unfold Compiler.Emit CPL.Emit
  split
  · exact ⟨by decide, by decide⟩
  · exact ⟨hs, le_refl _⟩

theorem BackPatch_stops (codeaddr value : Int) (c : Compiler) (hs : c.sets = builtSets) :
    Stops c.weight (c.BackPatch codeaddr value) := by
  unfold Compiler.BackPatch CPL.BackPatch
  split
  · exact ⟨by decide, by decide⟩
  · exact ⟨hs, le_refl _⟩

theorem LookupSymbol_halts (c : Compiler) (hs : c.sets = builtSets) :
    Halts Prod.snd c.weight (LookupSymbol c) ∧
    (∀ r, LookupSymbol c = .ok r → r.2.CurrentToken = c.CurrentToken ∧
      r.2.input = c.input ∧ r.2.recovering = c.recovering) := by
  unfold LookupSymbol
  split
  · split
    · exact ⟨⟨by decide, by decide⟩, fun r h => (by cases h)⟩
    · split
      · exact ⟨⟨hs, le_refl _⟩, fun r h => (by cases h; exact ⟨rfl, rfl, rfl⟩)⟩
      · exact ⟨⟨hs, le_refl _⟩, fun r h => (by cases h; exact ⟨rfl, rfl, rfl⟩)⟩
  · exact ⟨⟨hs, le_refl _⟩, fun r h => (by cases h; exact ⟨rfl, rfl, rfl⟩)⟩

theorem MakeSymbolTableEntry_stops (symtype : Int) (c : Compiler) (hs : c.sets = builtSets) :
    Stops c.weight (MakeSymbolTableEntry symtype c) ∧
    (∀ c1, MakeSymbolTableEntry symtype c = .ok c1 → c1.CurrentToken = c.CurrentToken ∧
      c1.input = c.input ∧ c1.recovering = c.recovering) := by
  unfold MakeSymbolTableEntry
  split
  · split
    · exact ⟨⟨by decide, by decide⟩, fun r h => (by cases h)⟩
    · simp only
      split
      · exact ⟨⟨hs, le_refl _⟩, fun r h => (by cases h; exact ⟨rfl, rfl, rfl⟩)⟩
      · exact ⟨⟨hs, le_refl _⟩, fun r h => (by cases h; exact ⟨rfl, rfl, rfl⟩)⟩
  · exact ⟨⟨hs, le_refl _⟩, fun r h => (by cases h; exact ⟨rfl, rfl, rfl⟩)⟩

theorem emitLoadSP_stops (k : Nat) : ∀ (c : Compiler), c.sets = builtSets →
    Stops c.weight (emitLoadSP k c) := by
  induction k with
  | zero =>
    intro c hs
    exact ⟨hs, le_refl _⟩
  | succ k ih =>
    intro c hs
    rw [emitLoadSP]
    refine Halts.bindStep (Emit_stops _ _ c hs) ?_
    intro c1 hs1 hw1
    exact Halts.weaken (ih c1 hs1) hw1

theorem loadVariable_stops (var : SYMBOL) (c : Compiler) (hs : c.sets = builtSets) :
    Stops c.weight (loadVariable var c) := by
  unfold loadVariable
  split
  · split
    · exact Emit_stops _ _ c hs
    · split
      · exact Emit_stops _ _ c hs
      · exact Emit_stops _ _ c hs
  · split
    · split
      · exact Emit_stops _ _ c hs
      · refine Halts.bindStep (Emit_stops _ _ c hs) ?_
        intro c1 hs1 hw1
        refine Halts.bindStep (Halts.weaken (emitLoadSP_stops _ c1 hs1) hw1) ?_
        intro c2 hs2 hw2
        exact Halts.weaken (Emit_stops _ _ c2 hs2) hw2
    · exact ⟨hs, le_refl _⟩

theorem callTarget_stops (target : Option SYMBOL) (c : Compiler) (hs : c.sets = builtSets) :
    Stops c.weight (callTarget target c) := by
  unfold callTarget
  split
  · split
    · exact Emit_stops _ _ c hs
    · exact ⟨hs, le_refl _⟩
  · exact ⟨hs, le_refl _⟩

theorem storeTarget_stops (target : Option SYMBOL) (c : Compiler) (hs : c.sets = builtSets) :
    Stops c.weight (storeTarget target c) := by
  unfold storeTarget
  split
  · split
    · exact Emit_stops _ _ c hs
    · exact ⟨hs, le_refl _⟩
  · exact ⟨hs, le_refl _⟩

theorem ParseAddOp_weight (c : Compiler)
    (h : c.CurrentToken.code = ADD ∨ c.CurrentToken.code = SUBTRACT) :
    (ParseAddOp c).sets = c.sets ∧ (ParseAddOp c).weight < c.weight := by
  unfold ParseAddOp
  split
  · rename_i h1
    exact ⟨Accept_sets _ _, (Accept_weight ADD c (by decide)).2.1 h1⟩
  · rename_i h1
    have h2 : c.CurrentToken.code = SUBTRACT := by tauto
    exact ⟨Accept_sets _ _, (Accept_weight SUBTRACT c (by decide)).2.1 h2⟩

theorem ParseMultOp_weight (c : Compiler)
    (h : c.CurrentToken.code = MULTIPLY ∨ c.CurrentToken.code = DIVIDE) :
    (ParseMultOp c).sets = c.sets ∧ (ParseMultOp c).weight < c.weight := by
  unfold ParseMultOp
  split
  · rename_i h1
    exact ⟨Accept_sets _ _, (Accept_weight MULTIPLY c (by decide)).2.1 h1⟩
  · rename_i h1
    have h2 : c.CurrentToken.code = DIVIDE := by tauto
    exact ⟨Accept_sets _ _, (Accept_weight DIVIDE c (by decide)).2.1 h2⟩

theorem ParseRelOp_weight (c : Compiler) :
    (ParseRelOp c).2.sets = c.sets ∧ (ParseRelOp c).2.weight ≤ c.weight := by
  unfold ParseRelOp
  split
  · exact ⟨Accept_sets _ _, (Accept_weight _ c (by decide)).1⟩
  · split
    · exact ⟨Accept_sets _ _, (Accept_weight _ c (by decide)).1⟩
    · split
      · exact ⟨Accept_sets _ _, (Accept_weight _ c (by decide)).1⟩
      · split
        · exact ⟨Accept_sets _ _, (Accept_weight _ c (by decide)).1⟩
        · split
          · exact ⟨Accept_sets _ _, (Accept_weight _ c (by decide)).1⟩
          · exact ⟨rfl, le_refl _⟩

/-! #### The expression parsers come to an end -/

theorem expression_stops (n : Nat) :
    (∀ c : Compiler, c.sets = builtSets → 4 * c.weight + 4 ≤ n →
      Stops c.weight (ParseExpression n c)) ∧
    (∀ c : Compiler, c.sets = builtSets → 4 * c.weight + 1 ≤ n →
      Stops c.weight (ParseExpressionLoop n c)) ∧
    (∀ c : Compiler, c.sets = builtSets → 4 * c.weight + 3 ≤ n →
      Stops c.weight (ParseCompoundTerm n c)) ∧
    (∀ c : Compiler, c.sets = builtSets → 4 * c.weight + 1 ≤ n →
      Stops c.weight (ParseCompoundTermLoop n c)) ∧
    (∀ c : Compiler, c.sets = builtSets → 4 * c.weight + 2 ≤ n →
      Stops c.weight (ParseTerm n c)) ∧
    (∀ c : Compiler, c.sets = builtSets → 4 * c.weight + 1 ≤ n →
      Stops c.weight (ParseSubTerm n c)) := by
  induction n with
  | zero =>
    refine ⟨?_, ?_, ?_, ?_, ?_, ?_⟩ <;> intro c _ hn <;> omega
  | succ n ih =>
    obtain ⟨ihE, ihEL, ihCT, ihCTL, ihT, ihST⟩ := ih
    refine ⟨?_, ?_, ?_, ?_, ?_, ?_⟩ <;> intro c hs hn
    · rw [ParseExpression]
      refine Halts.bindStep (ihCT c hs (by omega)) ?_
      intro c1 hs1 hw1
      exact Halts.weaken (ihEL c1 hs1 (by have : c1.weight ≤ c.weight := hw1; omega)) hw1
    · rw [ParseExpressionLoop]
      split
      · rename_i hop
        obtain ⟨a1, a2⟩ := ParseAddOp_weight c hop
        refine Halts.bindStep (ihCT (ParseAddOp c) (a1.trans hs) (by omega)) ?_
        intro c2 hs2 hw2
        have hw2b : c2.weight ≤ (ParseAddOp c).weight := hw2
        have hk : ∀ c3 : Compiler, c3.sets = builtSets → c3.weight ≤ c2.weight →
            Stops c.weight (ParseExpressionLoop n c3) := by
          intro c3 hs3 hw3
          exact Halts.weaken (ihEL c3 hs3 (by omega)) (by omega)
        dsimp only
        split
        · exact Halts.bindStep (Emit_stops _ _ c2 hs2) hk
        · exact Halts.bindStep (Emit_stops _ _ c2 hs2) hk
      · exact ⟨hs, le_refl _⟩
    · rw [ParseCompoundTerm]
      refine Halts.bindStep (ihT c hs (by omega)) ?_
      intro c1 hs1 hw1
      exact Halts.weaken (ihCTL c1 hs1 (by have : c1.weight ≤ c.weight := hw1; omega)) hw1
    · rw [ParseCompoundTermLoop]
      split
      · rename_i hop
        obtain ⟨a1, a2⟩ := ParseMultOp_weight c hop
        refine Halts.bindStep (ihT (ParseMultOp c) (a1.trans hs) (by omega)) ?_
        intro c2 hs2 hw2
        have hw2b : c2.weight ≤ (ParseMultOp c).weight := hw2
        have hk : ∀ c3 : Compiler, c3.sets = builtSets → c3.weight ≤ c2.weight →
            Stops c.weight (ParseCompoundTermLoop n c3) := by
          intro c3 hs3 hw3
          exact Halts.weaken (ihCTL c3 hs3 (by omega)) (by omega)
        dsimp only
        split
        · exact Halts.bindStep (Emit_stops _ _ c2 hs2) hk
        · exact Halts.bindStep (Emit_stops _ _ c2 hs2) hk
      · exact ⟨hs, le_refl _⟩
    · rw [ParseTerm]
      split
      · have a1 := Accept_sets SUBTRACT c
        have a2 := (Accept_weight SUBTRACT c (by decide)).1
        refine Halts.bindStep (Halts.weaken (ihST _ (a1.trans hs) (by omega)) a2) ?_
        intro c1 hs1 hw1
        exact Halts.weaken (Emit_stops _ _ c1 hs1) hw1
      · exact ihST c hs (by omega)
    · rw [ParseSubTerm]
      split
      · refine Halts.bindStep (Emit_stops _ _ c hs) ?_
        intro c1 hs1 hw1
        have hw1b : c1.weight ≤ c.weight := hw1
        have a2 := (Accept_weight INTCONST c1 (by decide)).1
        exact ⟨(Accept_sets _ _).trans hs1, by
          show (Accept INTCONST c1).weight ≤ c.weight
          omega⟩
      · split
        · rename_i hlp
          have a1 := Accept_sets LEFTPARENTHESIS c
          have a2 := (Accept_weight LEFTPARENTHESIS c (by decide)).2.1 hlp
          refine Halts.bindStep (ihE _ (a1.trans hs) (by omega)) ?_
          intro c1 hs1 hw1
          have hw1b : c1.weight ≤ (Accept LEFTPARENTHESIS c).weight := hw1
          have a3 := (Accept_weight RIGHTPARENTHESIS c1 (by decide)).1
          exact ⟨(Accept_sets _ _).trans hs1, by
            show (Accept RIGHTPARENTHESIS c1).weight ≤ c.weight
            omega⟩
        · obtain ⟨l1, l2⟩ := LookupSymbol_halts c hs
          refine Halts.bindStep l1 ?_
          intro r hr1 hr2
          have hr2b : r.2.weight ≤ c.weight := hr2
          cases hv : r.1 with
          | none => exact ⟨by decide, by decide⟩
          | some var =>
            simp only
            refine Halts.bindStep (Halts.weaken (loadVariable_stops var r.2 hr1) hr2) ?_
            intro c1 hs1 hw1
            have hw1b : c1.weight ≤ c.weight := hw1
            have a3 := (Accept_weight IDENTIFIER c1 (by decide)).1
            exact ⟨(Accept_sets _ _).trans hs1, by
              show (Accept IDENTIFIER c1).weight ≤ c.weight
              omega⟩

/-! #### The statement parsers come to an end -/

theorem ParseExpression_stops (n : Nat) (c : Compiler) (hs : c.sets = builtSets)
    (hn : 4 * c.weight + 4 ≤ n) : Stops c.weight (ParseExpression n c) :=
  (expression_stops n).1 c hs hn

theorem ParseBooleanExpression_halts (n : Nat) (c : Compiler) (hs : c.sets = builtSets)
    (hn : 4 * c.weight + 4 ≤ n) : Halts Prod.snd c.weight (ParseBooleanExpression n c) := by
  unfold ParseBooleanExpression
  refine Halts.bindStep (ParseExpression_stops n c hs hn) ?_
  intro c1 hs1 hw1
  have hw1b : c1.weight ≤ c.weight := hw1
  obtain ⟨r1, r2⟩ := ParseRelOp_weight c1
  refine Halts.bindStep (ParseExpression_stops n _ (r1.trans hs1) (by omega)) ?_
  intro c2 hs2 hw2
  have hw2b : c2.weight ≤ (ParseRelOp c1).2.weight := hw2
  refine Halts.bindStep (Emit_stops _ _ c2 hs2) ?_
  intro c3 hs3 hw3
  have hw3b : c3.weight ≤ c2.weight := hw3
  obtain ⟨q1, q2⟩ := ParseRelOp_weight c3
  refine Halts.bindStep (Emit_stops _ _ _ (q1.trans hs3)) ?_
  intro c5 hs5 hw5
  have hw5b : c5.weight ≤ (ParseRelOp c3).2.weight := hw5
  exact ⟨hs5, by
    show c5.weight ≤ c.weight
    omega⟩

theorem ParseActualParameter_stops (n : Nat) (c : Compiler) (hs : c.sets = builtSets)
    (hn : 4 * c.weight + 4 ≤ n) : Stops c.weight (ParseActualParameter n c) := by
  unfold ParseActualParameter
  split
  · exact ⟨(Accept_sets _ _).trans hs, (Accept_weight IDENTIFIER c (by decide)).1⟩
  · exact ParseExpression_stops n c hs hn

theorem ParseProcCallListLoop_stops (n : Nat) (k : Nat) : ∀ c : Compiler, c.sets = builtSets →
    4 * c.weight + 4 ≤ n → c.weight + 1 ≤ k →
    Stops c.weight (ParseProcCallListLoop n k c) := by
  induction k with
  | zero =>
    intro c _ _ hk
    omega
  | succ k ih =>
    intro c hs hn hk
    rw [ParseProcCallListLoop]
    split
    · rename_i hc
      have a1 := Accept_sets COMMA c
      have a2 := (Accept_weight COMMA c (by decide)).2.1 hc
      refine Halts.bindStep (ParseActualParameter_stops n _ (a1.trans hs) (by omega)) ?_
      intro c1 hs1 hw1
      have hw1b : c1.weight ≤ (Accept COMMA c).weight := hw1
      exact Halts.weaken (ih c1 hs1 (by omega) (by omega)) (by omega)
    · exact ⟨hs, le_refl _⟩

theorem ParseProcCallList_stops (n : Nat) (c : Compiler) (hs : c.sets = builtSets)
    (hn : 4 * c.weight + 4 ≤ n) : Stops c.weight (ParseProcCallList n c) := by
  unfold ParseProcCallList
  have a1 := Accept_sets LEFTPARENTHESIS c
  have a2 := (Accept_weight LEFTPARENTHESIS c (by decide)).1
  refine Halts.bindStep (ParseActualParameter_stops n _ (a1.trans hs) (by omega)) ?_
  intro c1 hs1 hw1
  have hw1b : c1.weight ≤ (Accept LEFTPARENTHESIS c).weight := hw1
  refine Halts.bindStep (ParseProcCallListLoop_stops n n c1 hs1 (by omega) (by omega)) ?_
  intro c2 hs2 hw2
  have hw2b : c2.weight ≤ c1.weight := hw2
  have a3 := (Accept_weight RIGHTPARENTHESIS c2 (by decide)).1
  exact ⟨(Accept_sets _ _).trans hs2, by
    show (Accept RIGHTPARENTHESIS c2).weight ≤ c.weight
    omega⟩

theorem ParseAssignment_stops (n : Nat) (c : Compiler) (hs : c.sets = builtSets)
    (hn : 4 * c.weight + 4 ≤ n) : Stops c.weight (ParseAssignment n c) := by
  unfold ParseAssignment
  have a1 := Accept_sets ASSIGNMENT c
  have a2 := (Accept_weight ASSIGNMENT c (by decide)).1
  exact Halts.weaken (ParseExpression_stops n _ (a1.trans hs) (by omega)) a2

theorem ParseRestOfStatement_stops (n : Nat) (target : Option SYMBOL) (c : Compiler)
    (hs : c.sets = builtSets) (hn : 4 * c.weight + 4 ≤ n) :
    Stops c.weight (ParseRestOfStatement n target c) := by
  unfold ParseRestOfStatement
  split
  · refine Halts.bindStep (ParseProcCallList_stops n c hs hn) ?_
    intro c1 hs1 hw1
    exact Halts.weaken (callTarget_stops target c1 hs1) hw1
  · split
    · exact callTarget_stops target c hs
    · refine Halts.bindStep (ParseAssignment_stops n c hs hn) ?_
      intro c1 hs1 hw1
      exact Halts.weaken (storeTarget_stops target c1 hs1) hw1

theorem ParseSimpleStatement_stops (n : Nat) (c : Compiler) (hs : c.sets = builtSets)
    (hn : 4 * c.weight + 4 ≤ n) (hc : c.CurrentToken.code = IDENTIFIER) :
    Stops (c.weight - 1) (ParseSimpleStatement n c) := by
  unfold ParseSimpleStatement
  obtain ⟨l1, l2⟩ := LookupSymbol_halts c hs
  cases hr : LookupSymbol c with
  | error e =>
    rw [hr] at l1
    exact l1
  | ok r =>
    rw [hr] at l1
    obtain ⟨k1, k2, k3⟩ := l2 r hr
    have hw : r.2.weight = c.weight := by
      unfold Compiler.weight Compiler.size
      rw [k1, k2, k3]
    have a1 := Accept_sets IDENTIFIER r.2
    have a2 := (Accept_weight IDENTIFIER r.2 (by decide)).2.1 (by rw [k1]; exact hc)
    simp only [ok_bind]
    exact Halts.weaken (ParseRestOfStatement_stops n r.1 _ (a1.trans l1.1) (by omega))
      (by omega)

theorem readListLoop_stops (k : Nat) : ∀ c : Compiler, c.sets = builtSets →
    c.weight + 1 ≤ k → Stops c.weight (readListLoop k c) := by
  induction k with
  | zero =>
    intro c _ hk
    omega
  | succ k ih =>
    intro c hs hk
    rw [readListLoop]
    split
    · rename_i hc
      have a1 := Accept_sets COMMA c
      have a2 := (Accept_weight COMMA c (by decide)).2.1 hc
      have a3 := Accept_sets IDENTIFIER (Accept COMMA c)
      have a4 := (Accept_weight IDENTIFIER (Accept COMMA c) (by decide)).1
      exact Halts.weaken (ih _ (a3.trans (a1.trans hs)) (by omega)) (by omega)
    · exact ⟨hs, le_refl _⟩

theorem ParseReadStatement_stops (n : Nat) (c : Compiler) (hs : c.sets = builtSets)
    (hn : 4 * c.weight + 4 ≤ n) (hc : c.CurrentToken.code = READ) :
    Stops (c.weight - 1) (ParseReadStatement n c) := by
  unfold ParseReadStatement
  have a1 := Accept_sets READ c
  have a2 := (Accept_weight READ c (by decide)).2.1 hc
  have b1 := Accept_sets LEFTPARENTHESIS (Accept READ c)
  have b2 := (Accept_weight LEFTPARENTHESIS (Accept READ c) (by decide)).1
  have d1 := Accept_sets IDENTIFIER (Accept LEFTPARENTHESIS (Accept READ c))
  have d2 := (Accept_weight IDENTIFIER (Accept LEFTPARENTHESIS (Accept READ c)) (by decide)).1
  dsimp only
  refine Halts.bindStep (ParseProcCallList_stops n _ (d1.trans (b1.trans (a1.trans hs))) (by
    show 4 * (Accept IDENTIFIER (Accept LEFTPARENTHESIS (Accept READ c))).weight + 4 ≤ n
    omega)) ?_
  intro c2 hs2 hw2
  have hw2b : c2.weight ≤ (Accept IDENTIFIER (Accept LEFTPARENTHESIS (Accept READ c))).weight :=
    hw2
  refine Halts.bindStep (readListLoop_stops n { c2 with Read := 0 } hs2 (by
    show c2.weight + 1 ≤ n
    omega)) ?_
  intro c3 hs3 hw3
  have hw3b : c3.weight ≤ c2.weight := hw3
  have e2 := (Accept_weight RIGHTPARENTHESIS c3 (by decide)).1
  exact ⟨(Accept_sets _ _).trans hs3, by
    show (Accept RIGHTPARENTHESIS c3).weight ≤ c.weight - 1
    omega⟩

theorem writeListLoop_stops (n : Nat) (k : Nat) : ∀ c : Compiler, c.sets = builtSets →
    4 * c.weight + 4 ≤ n → c.weight + 1 ≤ k → Stops c.weight (writeListLoop n k c) := by
  induction k with
  | zero =>
    intro c _ _ hk
    omega
  | succ k ih =>
    intro c hs hn hk
    rw [writeListLoop]
    split
    · rename_i hc
      have a1 := Accept_sets COMMA c
      have a2 := (Accept_weight COMMA c (by decide)).2.1 hc
      refine Halts.bindStep (ParseExpression_stops n _ (a1.trans hs) (by omega)) ?_
      intro c1 hs1 hw1
      have hw1b : c1.weight ≤ (Accept COMMA c).weight := hw1
      exact Halts.weaken (ih c1 hs1 (by omega) (by omega)) (by omega)
    · exact ⟨hs, le_refl _⟩

theorem ParseWriteStatement_stops (n : Nat) (c : Compiler) (hs : c.sets = builtSets)
    (hn : 4 * c.weight + 4 ≤ n) (hc : c.CurrentToken.code = WRITE) :
    Stops (c.weight - 1) (ParseWriteStatement n c) := by
  unfold ParseWriteStatement
  have a1 := Accept_sets WRITE c
  have a2 := (Accept_weight WRITE c (by decide)).2.1 hc
  have b1 := Accept_sets LEFTPARENTHESIS (Accept WRITE c)
  have b2 := (Accept_weight LEFTPARENTHESIS (Accept WRITE c) (by decide)).1
  refine Halts.bindStep (ParseExpression_stops n _ (b1.trans (a1.trans hs)) (by omega)) ?_
  intro c1 hs1 hw1
  have hw1b : c1.weight ≤ (Accept LEFTPARENTHESIS (Accept WRITE c)).weight := hw1
  refine Halts.bindStep (ParseProcCallList_stops n { c1 with Write := 1 } hs1 (by
    show 4 * c1.weight + 4 ≤ n
    omega)) ?_
  intro c2 hs2 hw2
  have hw2b : c2.weight ≤ c1.weight := hw2
  refine Halts.bindStep (writeListLoop_stops n n c2 hs2 (by omega) (by omega)) ?_
  intro c3 hs3 hw3
  have hw3b : c3.weight ≤ c2.weight := hw3
  have e2 := (Accept_weight RIGHTPARENTHESIS c3 (by decide)).1
  exact ⟨(Accept_sets _ _).trans hs3, by
    show (Accept RIGHTPARENTHESIS c3).weight ≤ c.weight - 1
    omega⟩

theorem blockSync_stops (c : Compiler) (hs : c.sets = builtSets) :
    Stops c.weight (blockSync c) := by
  unfold blockSync
  have h1 : (Union [c.sets.StatementFS_aug, c.sets.StatementFBS]).contains ENDOFINPUT := by
    rw [hs]
    exact ⟨4, rfl, by decide⟩
  refine Halts.bindStep (Synchronise_stops _ _ c hs h1).1 ?_
  intro c1 hs1 hw1
  have hs1b : c1.sets = builtSets := hs1
  have h2 : (Union [c1.sets.BlockSet1, c1.sets.FB_Block]).contains ENDOFINPUT := by
    rw [hs1b]
    exact ⟨4, rfl, by decide⟩
  exact Halts.weaken (Synchronise_stops _ _ c1 hs1 h2).1 hw1

theorem block_stops (n : Nat) :
    (∀ c : Compiler, c.sets = builtSets → 4 * c.weight + 8 ≤ n →
      Stops c.weight (ParseBlock n c)) ∧
    (∀ c : Compiler, c.sets = builtSets → 4 * c.weight + 7 ≤ n →
      Stops c.weight (ParseBlockLoop n c)) ∧
    (∀ c : Compiler, c.sets = builtSets → 4 * c.weight + 6 ≤ n →
      (c.CurrentToken.code = IDENTIFIER ∨ c.CurrentToken.code = WHILE ∨
        c.CurrentToken.code = IF ∨ c.CurrentToken.code = READ ∨
        c.CurrentToken.code = WRITE) →
      Stops (c.weight - 1) (ParseStatement n c)) ∧
    (∀ c : Compiler, c.sets = builtSets → 4 * c.weight + 5 ≤ n →
      c.CurrentToken.code = WHILE → Stops (c.weight - 1) (ParseWhileStatement n c)) ∧
    (∀ c : Compiler, c.sets = builtSets → 4 * c.weight + 5 ≤ n →
      c.CurrentToken.code = IF → Stops (c.weight - 1) (ParseIfStatement n c)) := by
  induction n with
  | zero =>
    refine ⟨?_, ?_, ?_, ?_, ?_⟩ <;> intro c _ hn <;> omega
  | succ n ih =>
    obtain ⟨ihB, ihL, ihS, ihW, ihI⟩ := ih
    refine ⟨?_, ?_, ?_, ?_, ?_⟩
    · intro c hs hn
      rw [ParseBlock]
      have a1 := Accept_sets BEGIN c
      have a2 := (Accept_weight BEGIN c (by decide)).1
      refine Halts.bindStep (blockSync_stops _ (a1.trans hs)) ?_
      intro c1 hs1 hw1
      have hw1b : c1.weight ≤ (Accept BEGIN c).weight := hw1
      refine Halts.bindStep (ihL c1 hs1 (by omega)) ?_
      intro c2 hs2 hw2
      have hw2b : c2.weight ≤ c1.weight := hw2
      have a3 := (Accept_weight END c2 (by decide)).1
      exact ⟨(Accept_sets _ _).trans hs2, by
        show (Accept END c2).weight ≤ c.weight
        omega⟩
    · intro c hs hn
      rw [ParseBlockLoop]
      split
      · rename_i hstart
        have hpos : 1 ≤ c.weight := by
          have hne : c.CurrentToken.code ≠ ENDOFINPUT := by
            rcases hstart with h | h | h | h | h <;> rw [h] <;> decide
          unfold Compiler.weight Compiler.size
          rw [if_neg hne]
          omega
        refine Halts.bindStep (ihS c hs (by omega) hstart) ?_
        intro c1 hs1 hw1
        have hw1b : c1.weight ≤ c.weight - 1 := hw1
        have a1 := Accept_sets SEMICOLON c1
        have a2 := (Accept_weight SEMICOLON c1 (by decide)).1
        refine Halts.bindStep (blockSync_stops _ (a1.trans hs1)) ?_
        intro c2 hs2 hw2
        have hw2b : c2.weight ≤ (Accept SEMICOLON c1).weight := hw2
        exact Halts.weaken (ihL c2 hs2 (by omega)) (by omega)
      · exact ⟨hs, le_refl _⟩
    · intro c hs hn hstart
      rw [ParseStatement]
      split
      · rename_i h
        exact ParseSimpleStatement_stops n c hs (by omega) h
      · split
        · rename_i h
          exact ihW c hs (by omega) h
        · split
          · rename_i h
            exact ihI c hs (by omega) h
          · split
            · rename_i h
              exact ParseReadStatement_stops n c hs (by omega) h
            · split
              · rename_i h
                exact ParseWriteStatement_stops n c hs (by omega) h
              · tauto
    · intro c hs hn hc
      rw [ParseWhileStatement]
      have a1 := Accept_sets WHILE c
      have a2 := (Accept_weight WHILE c (by decide)).2.1 hc
      refine Halts.bindStep (ParseBooleanExpression_halts n _ (a1.trans hs) (by omega)) ?_
      intro b hb1 hb2
      have hb2b : b.2.weight ≤ (Accept WHILE c).weight := hb2
      have d1 := Accept_sets DO b.2
      have d2 := (Accept_weight DO b.2 (by decide)).1
      refine Halts.bindStep (ihB _ (d1.trans hb1) (by omega)) ?_
      intro c2 hs2 hw2
      have hw2b : c2.weight ≤ (Accept DO b.2).weight := hw2
      refine Halts.bindStep (Emit_stops _ _ c2 hs2) ?_
      intro c3 hs3 hw3
      have hw3b : c3.weight ≤ c2.weight := hw3
      exact Halts.weaken (BackPatch_stops _ _ c3 hs3) (by omega)
    · intro c hs hn hc
      rw [ParseIfStatement]
      have a1 := Accept_sets IF c
      have a2 := (Accept_weight IF c (by decide)).2.1 hc
      refine Halts.bindStep (ParseBooleanExpression_halts n _ (a1.trans hs) (by omega)) ?_
      intro b hb1 hb2
      have hb2b : b.2.weight ≤ (Accept IF c).weight := hb2
      have d1 := Accept_sets THEN b.2
      have d2 := (Accept_weight THEN b.2 (by decide)).1
      refine Halts.bindStep (ihB _ (d1.trans hb1) (by omega)) ?_
      intro c2 hs2 hw2
      have hw2b : c2.weight ≤ (Accept THEN b.2).weight := hw2
      split
      · refine Halts.bindStep (Emit_stops _ _ c2 hs2) ?_
        intro c3 hs3 hw3
        have hw3b : c3.weight ≤ c2.weight := hw3
        refine Halts.bindStep (BackPatch_stops _ _ c3 hs3) ?_
        intro c4 hs4 hw4
        have hw4b : c4.weight ≤ c3.weight := hw4
        have e1 := Accept_sets ELSE c4
        have e2 := (Accept_weight ELSE c4 (by decide)).1
        refine Halts.bindStep (ihB _ (e1.trans hs4) (by omega)) ?_
        intro c5 hs5 hw5
        have hw5b : c5.weight ≤ (Accept ELSE c4).weight := hw5
        exact Halts.weaken (BackPatch_stops _ _ c5 hs5) (by omega)
      · exact Halts.weaken (BackPatch_stops _ _ c2 hs2) (by omega)

/-! #### Declarations, procedures and the program come to an end -/

theorem ParseDeclarationsLoop_halts (k : Nat) : ∀ (v : Int) (c : Compiler),
    c.sets = builtSets → c.weight + 1 ≤ k →
    Halts Prod.snd c.weight (ParseDeclarationsLoop k v c) := by
  induction k with
  | zero =>
    intro v c _ hk
    omega
  | succ k ih =>
    intro v c hs hk
    rw [ParseDeclarationsLoop]
    split
    · rename_i hc
      have a1 := Accept_sets COMMA c
      have a2 := (Accept_weight COMMA c (by decide)).2.1 hc
      refine Halts.bindStep (MakeSymbolTableEntry_stops _ _ (a1.trans hs)).1 ?_
      intro c1 hs1 hw1
      have hw1b : c1.weight ≤ (Accept COMMA c).weight := hw1
      have b1 := Accept_sets IDENTIFIER c1
      have b2 := (Accept_weight IDENTIFIER c1 (by decide)).1
      have d1 := Accept_sets IDENTIFIER (Accept IDENTIFIER c1)
      have d2 := (Accept_weight IDENTIFIER (Accept IDENTIFIER c1) (by decide)).1
      unfold ParseVariable ParseIdentifier
      exact Halts.weaken (ih _ _ (d1.trans (b1.trans hs1)) (by omega)) (by omega)
    · exact ⟨hs, le_refl _⟩

theorem ParseDeclarations_halts (n : Nat) (c : Compiler) (hs : c.sets = builtSets)
    (hn : c.weight + 1 ≤ n) : Halts Prod.snd c.weight (ParseDeclarations n c) := by
  unfold ParseDeclarations
  have a1 := Accept_sets VAR c
  have a2 := (Accept_weight VAR c (by decide)).1
  refine Halts.bindStep (MakeSymbolTableEntry_stops _ _ (a1.trans hs)).1 ?_
  intro c1 hs1 hw1
  have hw1b : c1.weight ≤ (Accept VAR c).weight := hw1
  have b1 := Accept_sets IDENTIFIER c1
  have b2 := (Accept_weight IDENTIFIER c1 (by decide)).1
  have d1 := Accept_sets IDENTIFIER (Accept IDENTIFIER c1)
  have d2 := (Accept_weight IDENTIFIER (Accept IDENTIFIER c1) (by decide)).1
  unfold ParseVariable ParseIdentifier
  refine Halts.bindStep (ParseDeclarationsLoop_halts n 1 _ (d1.trans (b1.trans hs1))
    (by omega)) ?_
  intro r hr1 hr2
  have hr2b : r.2.weight ≤ (Accept IDENTIFIER (Accept IDENTIFIER c1)).weight := hr2
  have e2 := (Accept_weight SEMICOLON r.2 (by decide)).1
  exact ⟨(Accept_sets _ _).trans hr1, by
    show (Accept SEMICOLON r.2).weight ≤ c.weight
    omega⟩

theorem ParseFormalParameter_stops (c : Compiler) (hs : c.sets = builtSets) :
    Stops c.weight (ParseFormalParameter c) := by
  unfold ParseFormalParameter
  have hR : Stops c.weight (acceptRef c) := by
    unfold acceptRef
    split
    · refine Halts.bindStep (MakeSymbolTableEntry_stops _ c hs).1 ?_
      intro c1 hs1 hw1
      have hw1b : c1.weight ≤ c.weight := hw1
      have a2 := (Accept_weight REF c1 (by decide)).1
      exact ⟨(Accept_sets _ _).trans hs1, by
        show (Accept REF c1).weight ≤ c.weight
        omega⟩
    · exact ⟨hs, le_refl _⟩
  refine Halts.bindStep hR ?_
  intro c1 hs1 hw1
  have hw1b : c1.weight ≤ c.weight := hw1
  refine Halts.bindStep (MakeSymbolTableEntry_stops _ c1 hs1).1 ?_
  intro c2 hs2 hw2
  have hw2b : c2.weight ≤ c1.weight := hw2
  unfold ParseVariable ParseIdentifier
  have b1 := Accept_sets IDENTIFIER c2
  have b2 := (Accept_weight IDENTIFIER c2 (by decide)).1
  have d2 := (Accept_weight IDENTIFIER (Accept IDENTIFIER c2) (by decide)).1
  exact ⟨(Accept_sets _ _).trans (b1.trans hs2), by
    show (Accept IDENTIFIER (Accept IDENTIFIER c2)).weight ≤ c.weight
    omega⟩

theorem ParseParameterListLoop_stops (k : Nat) : ∀ c : Compiler, c.sets = builtSets →
    c.weight + 1 ≤ k → Stops c.weight (ParseParameterListLoop k c) := by
  induction k with
  | zero =>
    intro c _ hk
    omega
  | succ k ih =>
    intro c hs hk
    rw [ParseParameterListLoop]
    split
    · rename_i hc
      have a1 := Accept_sets COMMA c
      have a2 := (Accept_weight COMMA c (by decide)).2.1 hc
      refine Halts.bindStep (ParseFormalParameter_stops _ (a1.trans hs)) ?_
      intro c1 hs1 hw1
      have hw1b : c1.weight ≤ (Accept COMMA c).weight := hw1
      exact Halts.weaken (ih c1 hs1 (by omega)) (by omega)
    · exact ⟨hs, le_refl _⟩

theorem optionalParameterList_stops (n : Nat) (c : Compiler) (hs : c.sets = builtSets)
    (hn : c.weight + 1 ≤ n) : Stops c.weight (optionalParameterList n c) := by
  unfold optionalParameterList
  split
  · unfold ParseParameterList
    have a1 := Accept_sets LEFTPARENTHESIS c
    have a2 := (Accept_weight LEFTPARENTHESIS c (by decide)).1
    refine Halts.bindStep (ParseFormalParameter_stops _ (a1.trans hs)) ?_
    intro c1 hs1 hw1
    have hw1b : c1.weight ≤ (Accept LEFTPARENTHESIS c).weight := hw1
    refine Halts.bindStep (ParseParameterListLoop_stops n c1 hs1 (by omega)) ?_
    intro c2 hs2 hw2
    have hw2b : c2.weight ≤ c1.weight := hw2
    have e2 := (Accept_weight RIGHTPARENTHESIS c2 (by decide)).1
    exact ⟨(Accept_sets _ _).trans hs2, by
      show (Accept RIGHTPARENTHESIS c2).weight ≤ c.weight
      omega⟩
  · exact ⟨hs, le_refl _⟩

theorem optionalDeclarations_stops (n : Nat) (c : Compiler) (hs : c.sets = builtSets)
    (hn : c.weight + 1 ≤ n) : Stops c.weight (optionalDeclarations n c) := by
  unfold optionalDeclarations
  split
  · refine Halts.bindStep (ParseDeclarations_halts n c hs hn) ?_
    intro r hr1 hr2
    exact ⟨hr1, hr2⟩
  · exact ⟨hs, le_refl _⟩

/-- The follow sets used with the declaration sets hold `ENDOFINPUT`, and the
declaration sets hold `PROCEDURE`. -/
theorem declaration_sets :
    (Union [builtSets.ProgProcDecSet1, builtSets.FB_ProcDec]).contains ENDOFINPUT ∧
    (Union [builtSets.ProgProcDecSet2, builtSets.FB_ProcDec]).contains ENDOFINPUT ∧
    (Union [builtSets.ProgProcDecSet1, builtSets.FB_Prog]).contains ENDOFINPUT ∧
    (Union [builtSets.ProgProcDecSet2, builtSets.FB_Prog]).contains ENDOFINPUT ∧
    builtSets.ProgProcDecSet1.contains PROCEDURE ∧
    builtSets.ProgProcDecSet2.contains PROCEDURE :=
  ⟨⟨4, rfl, by decide⟩, ⟨4, rfl, by decide⟩, ⟨4, rfl, by decide⟩, ⟨4, rfl, by decide⟩,
    ⟨8388608, rfl, by decide⟩, ⟨8388608, rfl, by decide⟩⟩

/-- The tail of `ParseProcDeclaration` from the loop over nested procedures
on: it comes to an end when the loop does. -/
theorem procedureTail_stops (n m : Nat) (c4 : Compiler)
    (hN : Stops m (nestedProcedures n c4)) (hfuel : 4 * m + 8 ≤ n)
    (ihB : ∀ c : Compiler, c.sets = builtSets → 4 * c.weight + 8 ≤ n →
      Stops c.weight (ParseBlock n c)) :
    Stops m (nestedProcedures n c4 >>= fun c5 =>
      Synchronise c5.sets.ProgProcDecSet2 c5.sets.FB_ProcDec c5 >>= fun c6 =>
        ParseBlock n c6 >>= fun c7 =>
          .ok { Accept SEMICOLON c7 with
            HashTable := RemoveSymbols c7.scope (Accept SEMICOLON c7).HashTable
            scope := c7.scope - 1 }) := by
  refine Halts.bindStep hN ?_
  intro c5 hs5 hw5
  have hs5b : c5.sets = builtSets := hs5
  have hw5b : c5.weight ≤ m := hw5
  refine Halts.bindStep (Synchronise_stops _ _ c5 hs5b (by
    rw [hs5b]
    exact declaration_sets.2.1)).1 ?_
  intro c6 hs6 hw6
  have hw6b : c6.weight ≤ c5.weight := hw6
  refine Halts.bindStep (ihB c6 hs6 (by omega)) ?_
  intro c7 hs7 hw7
  have hw7b : c7.weight ≤ c6.weight := hw7
  have e2 := (Accept_weight SEMICOLON c7 (by decide)).1
  exact ⟨(Accept_sets _ _).trans hs7, by
    show (Accept SEMICOLON c7).weight ≤ m
    omega⟩

theorem size_pos {c : Compiler} (h : c.CurrentToken.code ≠ ENDOFINPUT) : 1 ≤ c.size := by
  unfold Compiler.size
  rw [if_neg h]
  omega

theorem weight_bounds (c : Compiler) :
    2 * c.size ≤ c.weight ∧ c.weight ≤ 2 * c.size + 1 ∧
    (c.recovering = 0 → c.weight = 2 * c.size + 1) ∧
    (c.recovering ≠ 0 → c.weight = 2 * c.size) := by
  unfold Compiler.weight
  by_cases h : c.recovering = 0
  · rw [if_pos h]
    exact ⟨by omega, by omega, fun _ => rfl, fun h2 => absurd h h2⟩
  · rw [if_neg h]
    exact ⟨by omega, by omega, fun h2 => absurd h2 h, fun _ => rfl⟩

theorem procedure_stops (n : Nat) :
    (∀ c : Compiler, c.sets = builtSets → 4 * c.weight + 9 ≤ n →
      c.CurrentToken.code = PROCEDURE → Stops (2 * c.size - 1) (ParseProcDeclaration n c)) ∧
    (∀ c : Compiler, c.sets = builtSets → 4 * c.weight + 10 ≤ n →
      Stops c.weight (nestedProcedures n c) ∧
      (c.CurrentToken.code = PROCEDURE → Stops (2 * c.size - 1) (nestedProcedures n c))) := by
  induction n with
  | zero =>
    refine ⟨?_, ?_⟩ <;> intro c _ hn <;> omega
  | succ n ih =>
    obtain ⟨ihP, ihN⟩ := ih
    have ihB := (block_stops n).1
    constructor
    · intro c hs hn hc
      have hne : c.CurrentToken.code ≠ ENDOFINPUT := by
        rw [hc]
        decide
      have hpos := size_pos hne
      obtain ⟨w1, w2, w3, w4⟩ := weight_bounds c
      rw [ParseProcDeclaration]
      have hopt : optionalParameterList n { c with scope := c.scope + 1 }
          = .ok { c with scope := c.scope + 1 } := by
        unfold optionalParameterList
        rw [if_neg]
        show ¬ c.CurrentToken.code = LEFTPARENTHESIS
        rw [hc]
        decide
      rw [hopt]
      simp only [ok_bind]
      have a1 := Accept_sets SEMICOLON { c with scope := c.scope + 1 }
      have a0 := Accept_weight SEMICOLON { c with scope := c.scope + 1 } (by decide)
      have hcs : (Accept SEMICOLON { c with scope := c.scope + 1 }).sets = builtSets :=
        a1.trans hs
      by_cases hr : c.recovering = 0
      · obtain ⟨k1, k2, k3⟩ := a0.2.2.2 (by
          show c.CurrentToken.code ≠ SEMICOLON
          rw [hc]
          decide) hr
        have k1b : (Accept SEMICOLON { c with scope := c.scope + 1 }).CurrentToken
            = c.CurrentToken := k1
        have k2b : (Accept SEMICOLON { c with scope := c.scope + 1 }).input = c.input := k2
        have hsz : (Accept SEMICOLON { c with scope := c.scope + 1 }).size = c.size := by
          unfold Compiler.size
          rw [k1b, k2b]
        have hwt : (Accept SEMICOLON { c with scope := c.scope + 1 }).weight = 2 * c.size := by
          unfold Compiler.weight
          rw [hsz, k3]
          simp
        have hcode : (Accept SEMICOLON { c with scope := c.scope + 1 }).CurrentToken.code
            = PROCEDURE := by
          rw [k1b]
          exact hc
        generalize Accept SEMICOLON { c with scope := c.scope + 1 } = c1 at hcs hsz hwt hcode
        have s1 : Synchronise c.sets.ProgProcDecSet1 c.sets.FB_ProcDec c1 = .ok c1 := by
          refine (Synchronise_stops _ _ c1 hcs ?_).2.2 ?_
          · rw [hs]
            exact declaration_sets.1
          · rw [hs, hcode]
            exact declaration_sets.2.2.2.2.1
        have s2 : optionalDeclarations n c1 = .ok c1 := by
          unfold optionalDeclarations
          rw [if_neg]
          rw [hcode]
          decide
        have s3 : Synchronise c1.sets.ProgProcDecSet2 c1.sets.FB_ProcDec c1 = .ok c1 := by
          refine (Synchronise_stops _ _ c1 hcs ?_).2.2 ?_
          · rw [hcs]
            exact declaration_sets.2.1
          · rw [hcs, hcode]
            exact declaration_sets.2.2.2.2.2
        show Stops (2 * c.size - 1)
          (Synchronise c.sets.ProgProcDecSet1 c.sets.FB_ProcDec c1 >>= fun c2 =>
            optionalDeclarations n c2 >>= fun c3 =>
              Synchronise c3.sets.ProgProcDecSet2 c3.sets.FB_ProcDec c3 >>= fun c4 =>
                nestedProcedures n c4 >>= fun c5 =>
                  Synchronise c5.sets.ProgProcDecSet2 c5.sets.FB_ProcDec c5 >>= fun c6 =>
                    ParseBlock n c6 >>= fun c7 =>
                      .ok { Accept SEMICOLON c7 with
                        HashTable := RemoveSymbols c7.scope (Accept SEMICOLON c7).HashTable
                        scope := c7.scope - 1 })
        rw [s1]
        simp only [ok_bind]
        rw [s2]
        simp only [ok_bind]
        rw [s3]
        simp only [ok_bind]
        have hN := (ihN c1 hcs (by omega)).2 hcode
        rw [hsz] at hN
        exact procedureTail_stops n _ c1 hN (by omega) ihB
      · have a3 := a0.2.2.1 (by
          show c.CurrentToken.code ≠ SEMICOLON
          rw [hc]
          decide) hne hr
        have a3b : (Accept SEMICOLON { c with scope := c.scope + 1 }).weight + 2
            ≤ 2 * c.size := a3
        generalize Accept SEMICOLON { c with scope := c.scope + 1 } = c1 at hcs a3b
        show Stops (2 * c.size - 1)
          (Synchronise c.sets.ProgProcDecSet1 c.sets.FB_ProcDec c1 >>= fun c2 =>
            optionalDeclarations n c2 >>= fun c3 =>
              Synchronise c3.sets.ProgProcDecSet2 c3.sets.FB_ProcDec c3 >>= fun c4 =>
                nestedProcedures n c4 >>= fun c5 =>
                  Synchronise c5.sets.ProgProcDecSet2 c5.sets.FB_ProcDec c5 >>= fun c6 =>
                    ParseBlock n c6 >>= fun c7 =>
                      .ok { Accept SEMICOLON c7 with
                        HashTable := RemoveSymbols c7.scope (Accept SEMICOLON c7).HashTable
                        scope := c7.scope - 1 })
        refine Halts.bindStep (Synchronise_stops _ _ c1 hcs (by
          rw [hs]
          exact declaration_sets.1)).1 ?_
        intro c2 hs2 hw2
        have hs2b : c2.sets = builtSets := hs2
        have hw2b : c2.weight ≤ c1.weight := hw2
        refine Halts.bindStep (optionalDeclarations_stops n c2 hs2 (by omega)) ?_
        intro c3 hs3 hw3
        have hs3b : c3.sets = builtSets := hs3
        have hw3b : c3.weight ≤ c2.weight := hw3
        refine Halts.bindStep (Synchronise_stops _ _ c3 hs3b (by
          rw [hs3b]
          exact declaration_sets.2.1)).1 ?_
        intro c4 hs4 hw4
        have hs4b : c4.sets = builtSets := hs4
        have hw4b : c4.weight ≤ c3.weight := hw4
        have hN := (ihN c4 hs4b (by omega)).1
        exact procedureTail_stops n _ c4 (Halts.weaken hN (by omega)) (by omega) ihB
    · intro c hs hn
      rw [nestedProcedures]
      obtain ⟨w1, w2, w3, w4⟩ := weight_bounds c
      have hmain : c.CurrentToken.code = PROCEDURE →
          Stops (2 * c.size - 1) (ParseProcDeclaration n c >>= nestedProcedures n) := by
        intro hc
        have hne : c.CurrentToken.code ≠ ENDOFINPUT := by
          rw [hc]
          decide
        have hpos := size_pos hne
        refine Halts.bindStep (ihP c hs (by omega) hc) ?_
        intro c1 hs1 hw1
        have hw1b : c1.weight ≤ 2 * c.size - 1 := hw1
        exact Halts.weaken (ihN c1 hs1 (by omega)).1 hw1
      constructor
      · split
        · rename_i hc
          exact Halts.weaken (hmain hc) (by omega)
        · exact ⟨hs, le_refl _⟩
      · intro hc
        rw [if_pos hc]
        exact hmain hc

theorem programProcedures_stops (n : Nat) (k : Nat) : ∀ c : Compiler, c.sets = builtSets →
    4 * c.weight + 9 ≤ n → c.weight + 1 ≤ k → Stops c.weight (programProcedures n k c) := by
  induction k with
  | zero =>
    intro c _ _ hk
    omega
  | succ k ih =>
    intro c hs hn hk
    rw [programProcedures]
    split
    · rename_i hc
      have hne : c.CurrentToken.code ≠ ENDOFINPUT := by
        rw [hc]
        decide
      have hpos := size_pos hne
      obtain ⟨w1, w2, w3, w4⟩ := weight_bounds c
      refine Halts.bindStep ((procedure_stops n).1 c hs hn hc) ?_
      intro c1 hs1 hw1
      have hs1b : c1.sets = builtSets := hs1
      have hw1b : c1.weight ≤ 2 * c.size - 1 := hw1
      refine Halts.bindStep (Synchronise_stops _ _ c1 hs1b (by
        rw [hs1b]
        exact declaration_sets.2.2.2.1)).1 ?_
      intro c2 hs2 hw2
      have hw2b : c2.weight ≤ c1.weight := hw2
      exact Halts.weaken (ih c2 hs2 (by omega) (by omega)) (by omega)
    · exact ⟨hs, le_refl _⟩

theorem ParseProgram_stops (n : Nat) (c : Compiler) (hs : c.sets = builtSets)
    (hn : 4 * c.weight + 9 ≤ n) : Stops c.weight (ParseProgram n c) := by
  unfold ParseProgram
  have a1 := Accept_sets PROGRAM c
  have a2 := (Accept_weight PROGRAM c (by decide)).1
  have b1 := Accept_sets IDENTIFIER (Accept PROGRAM c)
  have b2 := (Accept_weight IDENTIFIER (Accept PROGRAM c) (by decide)).1
  have d1 := Accept_sets SEMICOLON (Accept IDENTIFIER (Accept PROGRAM c))
  have d2 := (Accept_weight SEMICOLON (Accept IDENTIFIER (Accept PROGRAM c)) (by decide)).1
  refine Halts.bindStep (MakeSymbolTableEntry_stops _ _ (d1.trans (b1.trans (a1.trans hs)))).1 ?_
  intro c1 hs1 hw1
  have hs1b : c1.sets = builtSets := hs1
  have hw1b : c1.weight ≤ (Accept SEMICOLON (Accept IDENTIFIER (Accept PROGRAM c))).weight := hw1
  refine Halts.bindStep (Synchronise_stops _ _ c1 hs1b (by
    rw [hs1b]
    exact declaration_sets.2.2.1)).1 ?_
  intro c2 hs2 hw2
  have hw2b : c2.weight ≤ c1.weight := hw2
  refine Halts.bindStep (optionalDeclarations_stops n c2 hs2 (by omega)) ?_
  intro c3 hs3 hw3
  have hs3b : c3.sets = builtSets := hs3
  have hw3b : c3.weight ≤ c2.weight := hw3
  refine Halts.bindStep (Synchronise_stops _ _ c3 hs3b (by
    rw [hs3b]
    exact declaration_sets.2.2.2.1)).1 ?_
  intro c4 hs4 hw4
  have hw4b : c4.weight ≤ c3.weight := hw4
  refine Halts.bindStep (programProcedures_stops n n c4 hs4 (by omega) (by omega)) ?_
  intro c5 hs5 hw5
  have hw5b : c5.weight ≤ c4.weight := hw5
  refine Halts.bindStep ((block_stops n).1 c5 hs5 (by omega)) ?_
  intro c6 hs6 hw6
  have hw6b : c6.weight ≤ c5.weight := hw6
  have e2 := (Accept_weight ENDOFPROGRAM c6 (by decide)).1
  exact ⟨(Accept_sets _ _).trans hs6, by
    show (Accept ENDOFPROGRAM c6).weight ≤ c.weight
    omega⟩

theorem initial_weight (source : List TOKEN) (indeterminate : Int) :
    (Compiler.initial builtSets source indeterminate).weight ≤ 2 * source.length + 1 := by
  unfold Compiler.weight Compiler.size Compiler.initial
  cases source with
  | nil =>
    have he : endOfInputToken.code = ENDOFINPUT := rfl
    simp [he]
  | cons t ts =>
    simp only [List.headD_cons, List.tail_cons, List.length_cons, if_true]
    split <;> omega

theorem outputLoop_fatal (g : CodeGen) : ∀ (l : List Nat) (e : Fatal),
    (outputLoop g l).2 = some e → e = .unknownOpcode := by
  intro l
  induction l with
  | nil =>
    intro e h
    simp [outputLoop] at h
  | cons i rest ih =>
    intro e h
    rw [outputLoop] at h
    split at h
    · cases h
      rfl
    · exact ih e h

theorem main_stops (n : Nat) (source : List TOKEN) (indeterminate : Int)
    (hn : 8 * source.length + 13 ≤ n) :
    main n source indeterminate ≠ .error .outOfFuel ∧
    main n source indeterminate ≠ .error .endlessLoop := by
  have hw := initial_weight source indeterminate
  have hP := ParseProgram_stops n (Compiler.initial builtSets source indeterminate) rfl
    (by omega)
  have hstart : Compiler.start source indeterminate
      = .ok (Compiler.initial builtSets source indeterminate) := rfl
  unfold main
  rw [hstart]
  simp only [ok_bind]
  cases hr : ParseProgram n (Compiler.initial builtSets source indeterminate) with
  | error e =>
    rw [hr] at hP
    constructor
    · intro h
      cases h
      exact hP.1 rfl
    · intro h
      cases h
      exact hP.2 rfl
  | ok c1 =>
    simp only [ok_bind]
    cases hwc : (WriteCodeFile c1.code).2 with
    | none =>
      constructor <;> intro h <;> cases h
    | some e =>
      have he : e = .unknownOpcode := by
        unfold WriteCodeFile at hwc
        split at hwc
        · exact outputLoop_fatal _ _ _ hwc
        · cases hwc
      subst he
      constructor <;> intro h <;> cases h

/-- C40: `ParseProgram` comes to an end on every finite token stream.  With
fuel `8 * length + 13` or more, the run of `ParseProgram` (and of `main`) on a
stream of `length` tokens is neither out of fuel nor in the loop of
`Synchronise` that never ends: it returns or stops in a fatal condition.  The
quantity `weight` (twice the tokens left to consume, plus one while
`recovering` is clear) never goes up and goes down in every round of a loop
and before every recursive call: `ParseProcDeclaration` entered with
`PROCEDURE` as the lookahead, `recovering` clear or set, ends and returns
with fewer tokens left; `ParseStatement` entered on a token that starts a
statement, as in the loop of `ParseBlock`, ends and returns with a smaller
weight; the operator at the head of a round of the loops of `ParseExpression`
and `ParseCompoundTerm` is consumed; `Accept` never raises the weight. -/
theorem ParseProgram_terminates :
    (∀ (source : List TOKEN) (indeterminate : Int) (n : Nat), 8 * source.length + 13 ≤ n →
      ∃ c0, Compiler.start source indeterminate = .ok c0 ∧
        ParseProgram n c0 ≠ .error .outOfFuel ∧ ParseProgram n c0 ≠ .error .endlessLoop ∧
        main n source indeterminate ≠ .error .outOfFuel ∧
        main n source indeterminate ≠ .error .endlessLoop) ∧
    (∀ (c : Compiler) (n : Nat), c.sets = builtSets → 4 * c.weight + 9 ≤ n →
      ParseProgram n c ≠ .error .outOfFuel ∧ ParseProgram n c ≠ .error .endlessLoop ∧
      ∀ c1, ParseProgram n c = .ok c1 → c1.weight ≤ c.weight) ∧
    (∀ (c : Compiler) (n : Nat), c.sets = builtSets → c.CurrentToken.code = PROCEDURE →
      4 * c.weight + 9 ≤ n →
      ParseProcDeclaration n c ≠ .error .outOfFuel ∧
      ParseProcDeclaration n c ≠ .error .endlessLoop ∧
      ∀ c1, ParseProcDeclaration n c = .ok c1 → c1.size < c.size) ∧
    (∀ (c : Compiler) (n : Nat), c.sets = builtSets →
      (c.CurrentToken.code = IDENTIFIER ∨ c.CurrentToken.code = WHILE ∨
        c.CurrentToken.code = IF ∨ c.CurrentToken.code = READ ∨
        c.CurrentToken.code = WRITE) →
      4 * c.weight + 6 ≤ n →
      ParseStatement n c ≠ .error .outOfFuel ∧ ParseStatement n c ≠ .error .endlessLoop ∧
      ∀ c1, ParseStatement n c = .ok c1 → c1.weight < c.weight) ∧
    (∀ (c : Compiler) (n : Nat), c.sets = builtSets → 4 * c.weight + 8 ≤ n →
      ParseBlock n c ≠ .error .outOfFuel ∧ ParseBlock n c ≠ .error .endlessLoop ∧
      ∀ c1, ParseBlock n c = .ok c1 → c1.weight ≤ c.weight) ∧
    (∀ (c : Compiler) (n : Nat), c.sets = builtSets → 4 * c.weight + 4 ≤ n →
      ParseExpression n c ≠ .error .outOfFuel ∧ ParseExpression n c ≠ .error .endlessLoop ∧
      ∀ c1, ParseExpression n c = .ok c1 → c1.weight ≤ c.weight) ∧
    (∀ c : Compiler, (c.CurrentToken.code = ADD ∨ c.CurrentToken.code = SUBTRACT) →
      (ParseAddOp c).weight < c.weight) ∧
    (∀ c : Compiler, (c.CurrentToken.code = MULTIPLY ∨ c.CurrentToken.code = DIVIDE) →
      (ParseMultOp c).weight < c.weight) ∧
    (∀ (e : Int) (c : Compiler), e ≠ ENDOFINPUT →
      (Accept e c).weight ≤ c.weight ∧
      (c.CurrentToken.code = e → (Accept e c).weight < c.weight)) ∧
    (∀ (F FB : SET) (c : Compiler), c.sets = builtSets →
      (Union [F, FB]).contains ENDOFINPUT →
      Synchronise F FB c ≠ .error .endlessLoop ∧
      ∀ c1, Synchronise F FB c = .ok c1 → c1.weight ≤ c.weight) := by
  have key : ∀ {m : Nat} {r : Except Fatal Compiler}, Stops m r →
      r ≠ .error .outOfFuel ∧ r ≠ .error .endlessLoop ∧ ∀ c1, r = .ok c1 → c1.weight ≤ m := by
    intro m r h
    refine ⟨(Halts.not_hanging h).1, (Halts.not_hanging h).2, ?_⟩
    intro c1 h1
    subst h1
    exact h.2
  refine ⟨?_, ?_, ?_, ?_, ?_, ?_, ?_, ?_, ?_, ?_⟩
  · intro source indeterminate n hn
    have hw := initial_weight source indeterminate
    have hP := key (ParseProgram_stops n (Compiler.initial builtSets source indeterminate) rfl
      (by omega))
    have hM := main_stops n source indeterminate hn
    exact ⟨_, rfl, hP.1, hP.2.1, hM.1, hM.2⟩
  · intro c n hs hn
    exact key (ParseProgram_stops n c hs hn)
  · intro c n hs hc hn
    have hP := key ((procedure_stops n).1 c hs hn hc)
    refine ⟨hP.1, hP.2.1, ?_⟩
    intro c1 h1
    have := hP.2.2 c1 h1
    have hne : c.CurrentToken.code ≠ ENDOFINPUT := by
      rw [hc]
      decide
    have hpos := size_pos hne
    have := (weight_bounds c1).1
    omega
  · intro c n hs hstart hn
    have hne : c.CurrentToken.code ≠ ENDOFINPUT := by
      rcases hstart with h | h | h | h | h <;> rw [h] <;> decide
    have hpos := size_pos hne
    have := (weight_bounds c).1
    have hP := key ((block_stops n).2.2.1 c hs hn hstart)
    refine ⟨hP.1, hP.2.1, ?_⟩
    intro c1 h1
    have := hP.2.2 c1 h1
    omega
  · intro c n hs hn
    exact key ((block_stops n).1 c hs hn)
  · intro c n hs hn
    exact key (ParseExpression_stops n c hs hn)
  · intro c hc
    exact (ParseAddOp_weight c hc).2
  · intro c hc
    exact (ParseMultOp_weight c hc).2
  · intro e c he
    exact ⟨(Accept_weight e c he).1, (Accept_weight e c he).2.1⟩
  · intro F FB c hs hEnd
    have hP := key (Synchronise_stops F FB c hs hEnd).1
    exact ⟨hP.2.1, hP.2.2⟩

/-- An instance for C40: on `PROGRAM p ; PROCEDURE PROCEDURE`, where
`ParseProcDeclaration` is entered with `PROCEDURE` as the lookahead and
`recovering` clear, the compile returns with the fuel of the bound. -/
theorem procedure_keywords_compile_ends :
    8 * sampleProcedureKeywords.length + 13 = 53 ∧
    isOk (main 53 sampleProcedureKeywords 0) = true ∧
    ((Compiler.start sampleProcedureKeywords 0).toOption.map fun c =>
      ((Accept SEMICOLON (Accept IDENTIFIER (Accept PROGRAM c))).CurrentToken.code,
        (Accept SEMICOLON (Accept IDENTIFIER (Accept PROGRAM c))).recovering))
      = some (PROCEDURE, 0) := by
  decide!

end CPL
